import Mathlib

/-!
jsonpath_go: a shallow embedding of `jsonpath.go`.

The Go source compiles a path text (`$.store.book[0:2].title`) into a sequence of
steps and walks that sequence over a decoded JSON tree.  This file embeds the
data model and the functions of `jsonpath.go` as Lean definitions, keeping the
names of the source, and proves properties of them.

Conventions of the embedding.

* A Go `string` is the list of its bytes, one `Char` per byte (`Str`).
* A Go `int` is an `Int`; the one addition of the evaluator that can overflow
  (`tv + 1` in `get_range`) is wrapped to 64 bits by `wrapInt`.
* A Go call that returns `(x, error)` returns an `Outcome`: `ok x`, `error e`,
  or `panic` when the Go runtime would abort (index out of range, nil
  dereference, failed type assertion, bad slice bounds).
* The document is a tree of `Value`s as `encoding/json` decodes it.  A nil
  interface is `Value.null`.  A value of static type `[]interface{}` stored in an
  `interface{}` is `Value.arr`, also when the slice is nil (such an interface is
  not `nil` in Go and its type assertion to `[]interface{}` succeeds).  The
  members of an object are listed in the order in which `range` visits them.
* `Lookup` is embedded twice.  In the first embedding (`Compiled.Lookup`) the
  steps are the ones `Compile` produces: their `replaceVal` is nil, so the
  branches `if s.replaceVal != nil { ... }` are not taken and the walk does not
  write to the document.  The field `next`, which `Lookup` sets on its local
  copy of a `search` step, is passed as an argument.
* The second embedding (`Compiled.Lookup.write`, `Compiled.Replace`, `Replace`)
  is the walk with the field `replaceVal` of the last step as a parameter, the
  one field of a compiled path that is assigned after `Compile`.  The document
  is passed along as the walk overwrites it (`Effect`): a value of the walk is
  a place in the document (`Ref.at`) or a value outside it (`Ref.val`), and an
  assignment to a slot is an update of the tree.  The document is a tree and
  the replacement is written by value; a recursive descent that is met while a
  replacement is attached is not embedded, there the walk stops with
  `exhausted`.
* `regexp` and `github.com/larstos/convert` are parameters (`Ext`).
* Loops are recursions over the list they range over; a function that calls
  itself through another one takes that call as an argument, so that every
  recursion is structural.  Two definitions recurse on a fuel, `Compile.go` and
  `TrimSpace.strip`; `Compile_not_exhausted` and `TrimSpace.strip_done` show that
  the fuel they start with suffices.

Layout: the embedding of the evaluator, of the compiler and of the walk with
a replacement; the reference functions the properties are stated with; lemmas
on the evaluator, on the compiler, on the fuel and on the walk with a
replacement; the properties C1 to C21 with their instances.
-/

namespace JsonPath

/-- A Go string, as the list of its bytes. -/
abbrev Str := List Char

/-- The decoded document: `interface{}` holding nil, a scalar,
`[]interface{}` or `map[string]interface{}`.  The members of an object are
listed in the order in which `range` visits them. -/
inductive Value where
  | null
  | bool (b : Bool)
  | num (n : Int)
  | str (s : Str)
  | arr (xs : List Value)
  | obj (kvs : List (Str × Value))

/-- The errors the package returns, one constructor per `errors.New` or
`fmt.Errorf` site (the formatted operands are dropped). -/
inductive Err where
  | nullObject          -- "get attribute from null object"
  | emptySearch         -- "empty search content"
  | rangeNotNumber      -- "range config not number index"
  | emptyIndex          -- "cannot index on empty slice"
  | rangeArgs           -- "range args length should be 2"
  | unsupportedOp       -- "expression don't support in filter %s"
  | indexOutOfRange     -- "index out of range: len: %v, idx: %v"
  | notSlice            -- "object is not Slice"
  | fromOutOfRange      -- "index [from] out of range: len: %v, from: %v"
  | toOutOfRange        -- "index [to] out of range: len: %v, to: %v"
  | regexpNotInit       -- "regexp not been init"
  | onlyString          -- "only string can match with regular expression"
  | shouldNotBeHere     -- "should not be here"
  | cmpOp               -- "op should only be <, <=, ==, >= and >"
  | badStart            -- "should start with '$' or '@'"
  | trailingDot         -- "should end with '.'"
  | regexNoEnd          -- "regex has no end"
  | unclosedBracket     -- "invalid query find [ without ]"
  | rootMissing         -- "$ or @ should in front of path"
  | tailTooShort        -- "len(tail) should >=3, %v"
  | oneRange            -- "only support one range(from, to): %v"
  | rangeNotInt         -- "range index not int: %v"
  | atoi                -- the error of strconv.Atoi
  | filterChar          -- "invalid char at %d: `%c`"
  | emptyRule           -- "empty rule"
  | regexSyntax         -- "invalid syntax. should be in `/pattern/` form"
  | regexCompile        -- the error of regexp.Compile
  deriving DecidableEq, Repr

/-- What a call does: return a result, return an error, abort with a Go
runtime panic, or leave the embedding (`exhausted`): `Compile.go`, which
recurses on a fuel, out of fuel, and the walk with a replacement at a recursive
descent. -/
inductive Outcome (α : Type) where
  | ok (a : α)
  | error (e : Err)
  | panic
  | exhausted
  deriving DecidableEq

namespace Outcome

/-- Sequencing: the first call that does not return a result decides. -/
def bind {α β : Type} (x : Outcome α) (f : α → Outcome β) : Outcome β :=
  match x with
  | ok a => f a
  | error e => error e
  | panic => panic
  | exhausted => exhausted

/-- A call returned a result. -/
def isOk {α : Type} : Outcome α → Bool
  | ok _ => true
  | _ => false

/-- A call returned an error (it did not panic). -/
def isError {α : Type} : Outcome α → Bool
  | error _ => true
  | _ => false

end Outcome

/-- The external collaborators: `regexp.Compile` / `MatchString` and the
package `github.com/larstos/convert`, taken as given functions.  `Num` stands
for `float64` with its five comparisons. -/
structure Ext where
  Num : Type
  TryFloat64 : Value → Option Num
  MustString : Value → Str
  flt : Num → Num → Bool
  fle : Num → Num → Bool
  feq : Num → Num → Bool
  fge : Num → Num → Bool
  fgt : Num → Num → Bool
  regexpCompile : Str → Bool
  MatchString : Str → Str → Bool

/-- The tag `step.op`: one of the seven strings `parse_token` writes, or the
empty string of the zero value `step{}`. -/
inductive Op where
  | root | scan | search | key | filter | range | idx | empty
  deriving DecidableEq, Repr

/-- The field `step.args` (an `interface{}`): nil, a `[]int`, a
`[2]interface{}` of optional ints, or the filter text. -/
inductive Args where
  | none
  | ints (xs : List Int)
  | bounds (frm to' : Option Int)
  | text (s : Str)
  deriving DecidableEq

mutual
/-- A compiled step (`type step struct`). -/
inductive step where
  | mk (op : Op) (key : Str) (args : Args) (filter : filterParam)
/-- A compiled predicate (`type filterParam struct`); `reg` holds the pattern
text of the compiled regular expression. -/
inductive filterParam where
  | mk (lp op rp : Str) (reg : Option Str) (lpSubSearch rpSubSearch : Option Compiled)
/-- A compiled path (`type Compiled struct`). -/
inductive Compiled where
  | mk (path : Str) (steps : List step)
end

/-- The zero value `filterParam{}`. -/
def filterParam.zero : filterParam := .mk [] [] [] none none none

/-- The field `op` of a step. -/
def step.op : step → Op
  | .mk op _ _ _ => op

/-- The field `key` of a step. -/
def step.key : step → Str
  | .mk _ key _ _ => key

/-- The field `args` of a step. -/
def step.args : step → Args
  | .mk _ _ args _ => args

/-- The field `filter` of a step. -/
def step.filter : step → filterParam
  | .mk _ _ _ f => f

/-- The field `steps` of a compiled path. -/
def Compiled.steps : Compiled → List step
  | .mk _ steps => steps

/-- Test `v == nil` on an `interface{}`. -/
def Value.isNull : Value → Bool
  | .null => true
  | _ => false

/-- Map access `val, exists := jsonMap[key]`. -/
def mapGet (key : Str) : List (Str × Value) → Option Value
  | [] => none
  | (k, v) :: rest => if k = key then some v else mapGet key rest

/-- Indexing `jsonarr[i]` with Go's bounds check. -/
def index (jsonarr : List Value) (i : Int) : Outcome Value :=
  if i < 0 then .panic
  else match jsonarr[i.toNat]? with
    | some v => .ok v
    | none => .panic

/-- Slice expression `jsonarr[lo:hi]` with Go's bounds check (`hi` is compared
with the length; `get_range` never asks for more). -/
def slice (jsonarr : List Value) (lo hi : Int) : Outcome (List Value) :=
  if 0 ≤ lo ∧ lo ≤ hi ∧ hi ≤ jsonarr.length then
    .ok ((jsonarr.drop lo.toNat).take (hi.toNat - lo.toNat))
  else .panic

/-- Two's-complement wrap of a 64-bit `int`. -/
def wrapInt (x : Int) : Int := (x + 2 ^ 63) % 2 ^ 64 - 2 ^ 63

/-- `func (s step) get_key(obj, key)` with `s.replaceVal == nil`. -/
def get_key (obj : Value) (key : Str) : Outcome Value :=
  match obj with
  | .obj jsonMap =>
    match mapGet key jsonMap with
    | none => .ok .null
    | some val => .ok val
  | _ => .ok .null

/-- `func (s step) get_idx(obj, idx)` with `s.replaceVal == nil`. -/
def get_idx (obj : Value) (idx : Int) : Outcome Value :=
  match obj with
  | .arr jsonarr =>
    let length : Int := jsonarr.length
    if idx ≥ 0 then
      if idx ≥ length then .error .indexOutOfRange
      else index jsonarr idx
    else
      let _idx := length + idx
      if _idx < 0 then .error .indexOutOfRange
      else index jsonarr _idx
  | _ => .ok .null

/-- `func (s step) get_range(obj, frm, to)` with `s.replaceVal == nil`. -/
def get_range (obj : Value) (frm to' : Option Int) : Outcome (List Value) :=
  match obj with
  | .arr jsonarr =>
    let length : Int := jsonarr.length
    let fv : Int := frm.getD 0
    let tv : Int := to'.getD (length - 1)
    let _frm : Int := if fv < 0 then length + fv else fv
    let _to : Int := if tv < 0 then length + tv + 1 else wrapInt (tv + 1)
    if _frm < 0 ∨ _frm ≥ length then .error .fromOutOfRange
    else if _to < 0 ∨ _to > length then .error .toOutOfRange
    else slice jsonarr _frm _to
  | _ => .error .notSlice

/-- `func (s step) get_scan(obj)` with `s.replaceVal == nil`. -/
def get_scan (obj : Value) : Outcome (List Value) :=
  match obj with
  | .obj jsonMap => .ok ((jsonMap.map Prod.snd).filter fun v => !v.isNull)
  | .arr jsonarr => .ok (jsonarr.filter fun v => !v.isNull)
  | _ => .ok []

/-- The loop of `get_filtered` over the elements (or member values): the
first evaluation that fails ends the loop, the matches are appended in order. -/
def get_filtered.loop (eval_filter : Value → Outcome Bool) : List Value → Outcome (List Value)
  | [] => .ok []
  | tmp :: rest =>
    (eval_filter tmp).bind fun ok =>
    (get_filtered.loop eval_filter rest).bind fun res =>
    .ok (if ok then tmp :: res else res)

/-- `func (s step) get_filtered(obj, root, filter)` with `s.replaceVal == nil`;
`eval_filter` is `s.filter.eval_filter( · , root)`. -/
def get_filtered (eval_filter : Value → Outcome Bool) (obj : Value) : Outcome (List Value) :=
  match obj with
  | .arr jobject => get_filtered.loop eval_filter jobject
  | .obj jobject => get_filtered.loop eval_filter (jobject.map Prod.snd)
  | _ => .ok []

/-- What `get_search` appends for the direct result `robj` of the bound step:
the elements of a non-empty list, nothing for nil, the value itself otherwise. -/
def get_search.direct (robj : Value) : List Value :=
  match robj with
  | .arr (x :: xs) => x :: xs
  | .null => []
  | v => [v]

/-- One node of `get_search`: apply the bound step, then append what the
children gave. -/
def get_search.node (parseNext : Value → Outcome Value) (obj : Value)
    (children : Outcome (List Value)) : Outcome (List Value) :=
  (parseNext obj).bind fun robj =>
  children.bind fun cs =>
  .ok (get_search.direct robj ++ cs)

mutual
/-- `func (s step) get_search(obj, root)`; `parseNext` is
`s.next.parse( · , root)`.  The loop over `emptyStep.get_scan(obj)` is the
recursion over the elements (`get_search.arr`) or the members
(`get_search.map`), nil ones skipped. -/
def get_search (parseNext : Value → Outcome Value) : Value → Outcome (List Value)
  | .arr xs => get_search.node parseNext (.arr xs) (get_search.arr parseNext xs)
  | .obj kvs => get_search.node parseNext (.obj kvs) (get_search.map parseNext kvs)
  | .null => get_search.node parseNext .null (.ok [])
  | .bool b => get_search.node parseNext (.bool b) (.ok [])
  | .num n => get_search.node parseNext (.num n) (.ok [])
  | .str s => get_search.node parseNext (.str s) (.ok [])
/-- The loop `for _, i := range slist` of `get_search` over the elements of
an array. -/
def get_search.arr (parseNext : Value → Outcome Value) : List Value → Outcome (List Value)
  | [] => .ok []
  | i :: rest =>
    if i.isNull then get_search.arr parseNext rest
    else
      (get_search parseNext i).bind fun cret =>
      (get_search.arr parseNext rest).bind fun more =>
      .ok (cret ++ more)
/-- The loop `for _, i := range slist` of `get_search` over the members of
an object. -/
def get_search.map (parseNext : Value → Outcome Value) : List (Str × Value) → Outcome (List Value)
  | [] => .ok []
  | (_, i) :: rest =>
    if i.isNull then get_search.map parseNext rest
    else
      (get_search parseNext i).bind fun cret =>
      (get_search.map parseNext rest).bind fun more =>
      .ok (cret ++ more)
end

/-- The loop `for _, i := range slist { cret, err := s.get_search(i, root); ... }`
of `get_search` as the source writes it, over the list `emptyStep.get_scan(obj)`
returned; `search` is the recursive call. -/
def get_search.each (search : Value → Outcome (List Value)) : List Value → Outcome (List Value)
  | [] => .ok []
  | i :: rest =>
    (search i).bind fun cret =>
    (get_search.each search rest).bind fun more =>
    .ok (cret ++ more)

/-- The fan-out loop of `Lookup` over the elements of a list result;
`lookup` is `temc.Lookup`.  Only lists and objects are looked into, a nil
result is skipped, a list result is appended element by element. -/
def Lookup.fanout (lookup : Value → Outcome Value) : List Value → Outcome (List Value)
  | [] => .ok []
  | i :: rest =>
    match i with
    | .arr _ | .obj _ =>
      (lookup i).bind fun r =>
      (Lookup.fanout lookup rest).bind fun newret =>
      match r with
      | .null => .ok newret
      | .arr rlist => .ok (rlist ++ newret)
      | _ => .ok (r :: newret)
    | _ => Lookup.fanout lookup rest

/-- The guard `if obj == nil { return nil, errors.New(...) }` that opens
`Lookup`, in front of the rest of the call. -/
def Lookup.guard (obj : Value) (rest : Outcome Value) : Outcome Value :=
  match obj with
  | .null => .error .nullObject
  | _ => rest

/-- `strings.HasPrefix(s, prefix)`. -/
def HasPrefix : Str → Str → Bool
  | _, [] => true
  | [], _ :: _ => false
  | c :: s, d :: p => c == d && HasPrefix s p

/-- Go's `a < b` on strings: bytewise lexicographic order. -/
def strLt : Str → Str → Bool
  | [], [] => false
  | [], _ :: _ => true
  | _ :: _, [] => false
  | a :: as, b :: bs =>
    if a.toNat < b.toNat then true
    else if b.toNat < a.toNat then false
    else strLt as bs

/-- `func (p filterParam) cmp_any(obj1, obj2)`. -/
def cmp_any (E : Ext) (op : Str) (obj1 obj2 : Value) : Outcome Bool :=
  let s1 := E.MustString obj1
  let s2 := E.MustString obj2
  match E.TryFloat64 obj1, E.TryFloat64 obj2 with
  | some fval1, some fval2 =>
    if op = ['<'] then .ok (E.flt fval1 fval2)
    else if op = ['<', '='] then .ok (E.fle fval1 fval2)
    else if op = ['=', '='] then .ok (E.feq fval1 fval2)
    else if op = ['>', '='] then .ok (E.fge fval1 fval2)
    else if op = ['>'] then .ok (E.fgt fval1 fval2)
    else .error .cmpOp
  | _, _ =>
    if op = ['<'] then .ok (strLt s1 s2)
    else if op = ['<', '='] then .ok (!strLt s2 s1)
    else if op = ['=', '='] then .ok (decide (s1 = s2))
    else if op = ['>', '='] then .ok (!strLt s1 s2)
    else if op = ['>'] then .ok (strLt s2 s1)
    else .error .cmpOp

/-- `func (p filterParam) get_lp_v(obj, root)`; `subLookup` is
`p.lpSubSearch.Lookup`. -/
def get_lp_v (lp : Str) (subLookup : Value → Outcome Value) (obj root : Value) : Outcome Value :=
  if HasPrefix lp ['@', '.'] then subLookup obj
  else if HasPrefix lp ['$', '.'] then subLookup root
  else .ok (.str lp)

/-- `func (p filterParam) get_rp_v(obj, root)`; `subLookup` is
`p.rpSubSearch.Lookup`. -/
def get_rp_v (rp : Str) (subLookup : Value → Outcome Value) (obj root : Value) : Outcome Value :=
  if HasPrefix rp ['@', '.'] then subLookup obj
  else if HasPrefix rp ['$', '.'] then subLookup root
  else .ok (.str rp)

/-- `func (p filterParam) eval_reg_filter(obj, root)`; `lp_v` is the outcome of
`p.get_lp_v(obj, root)` and `reg` the compiled pattern. -/
def eval_reg_filter (E : Ext) (reg : Str) (lp_v : Outcome Value) : Outcome Bool :=
  lp_v.bind fun v =>
  match v with
  | .str s => .ok (E.MatchString reg s)
  | _ => .error .onlyString

/-- `func (p filterParam) eval_filter_normal(obj, root)`; `lp_v` and `rp_v` are
the outcomes of `p.get_lp_v(obj, root)` and `p.get_rp_v(obj, root)`.  The error
of `get_lp_v` is overwritten before it is read, its value is then nil. -/
def eval_filter_normal (E : Ext) (op : Str) (lp_v rp_v : Outcome Value) : Outcome Bool :=
  if op = ['=', '~'] then .error .shouldNotBeHere
  else
    let continue' (v : Value) : Outcome Bool :=
      if op = ['e', 'x', 'i', 's', 't', 's'] then .ok (!v.isNull)
      else rp_v.bind fun r => cmp_any E op v r
    match lp_v with
    | .ok v => continue' v
    | .error _ => continue' .null
    | .panic => .panic
    | .exhausted => .exhausted

/-- The loop of `step.parse` over several requested indices: an error of
`get_idx` ends it, a nil element is not appended. -/
def step.parse.multi (obj : Value) : List Int → Outcome (List Value)
  | [] => .ok []
  | x :: rest =>
    (get_idx obj x).bind fun tmp =>
    (step.parse.multi obj rest).bind fun res =>
    .ok (if tmp.isNull then res else tmp :: res)

/-- `func (s step) singleReturn()`; the type assertion `s.args.([]int)` panics
on an `idx` step whose args are no `[]int`. -/
def step.singleReturn (s : step) : Outcome Bool :=
  match s.op with
  | .idx =>
    match s.args with
    | .ints a => .ok (a.length == 1)
    | _ => .panic
  | .key => .ok true
  | _ => .ok false

mutual
/-- `func (s step) parse(obj, rootnode)` for a step whose `next` is nil (every
step but the `search` step `Lookup` is at, which `Lookup.loop` handles). -/
def step.parse (E : Ext) : step → Value → Value → Outcome Value
  | .mk op key args filter, obj, rootnode =>
    match op with
    | .key => get_key obj key
    | .idx =>
      (if key.length > 0 then get_key obj key else .ok obj).bind fun obj =>
      match args with
      | .ints intarg =>
        match intarg with
        | [] => .error .emptyIndex
        | [x] => get_idx obj x
        | x :: y :: more => (step.parse.multi obj (x :: y :: more)).bind fun res => .ok (.arr res)
      | _ => .error .rangeNotNumber
    | .range =>
      (if key.length > 0 then get_key obj key else .ok obj).bind fun obj =>
      match args with
      | .bounds frm to' => (get_range obj frm to').bind fun res => .ok (.arr res)
      | _ => .error .rangeArgs
    | .filter =>
      (if key ≠ [] then get_key obj key else .ok obj).bind fun obj =>
      match args with
      | .text _ =>
        (get_filtered (fun tmp => filterParam.eval_filter E filter tmp rootnode) obj).bind
          fun res => .ok (.arr res)
      | _ => .panic
    | .scan => (get_scan obj).bind fun res => .ok (.arr res)
    | .root => .ok obj
    | .search => .panic
    | .empty => .error .unsupportedOp
/-- `func (p filterParam) eval_filter(obj, root)`. -/
def filterParam.eval_filter (E : Ext) : filterParam → Value → Value → Outcome Bool
  | .mk lp op rp reg lpSubSearch rpSubSearch, obj, root =>
    let lp_v := get_lp_v lp (fun o => Compiled.Lookup.opt E lpSubSearch o) obj root
    let rp_v := get_rp_v rp (fun o => Compiled.Lookup.opt E rpSubSearch o) obj root
    if op = ['=', '~'] then
      match reg with
      | none => .error .regexpNotInit
      | some r => eval_reg_filter E r lp_v
    else eval_filter_normal E op lp_v rp_v
/-- `Lookup` called through a `*Compiled` field that may be nil: the guard on
`obj` runs first, then `c.steps` dereferences the pointer. -/
def Compiled.Lookup.opt (E : Ext) : Option Compiled → Value → Outcome Value
  | none, obj => Lookup.guard obj .panic
  | some c, obj => Compiled.Lookup E c obj
/-- `func (c *Compiled) Lookup(obj)`. -/
def Compiled.Lookup (E : Ext) : Compiled → Value → Outcome Value
  | .mk _ steps, obj => Lookup.guard obj (Lookup.loop E steps obj false obj)
/-- The loop `for idx := 0; idx < len(c.steps); idx++` of `Lookup`, at the steps
`c.steps[idx:]` with the state `rootnode`, `findnomap`, `obj`. -/
def Lookup.loop (E : Ext) : List step → Value → Bool → Value → Outcome Value
  | [], _, _, obj => .ok obj
  | s :: rest, rootnode, findnomap, obj =>
    -- `if !findnomap && !s.singleReturn() { findnomap = true }`
    (if findnomap then .ok true
     else s.singleReturn.bind fun single => .ok (!single)).bind fun findnomap =>
    match s.op with
    | .search =>
      match rest with
      | [] => .panic
      | next :: rest =>
        (get_search (fun o => step.parse E next o rootnode) obj).bind fun res =>
        if findnomap && !rest.isEmpty then
          (Lookup.fanout (fun i => Lookup.guard i (Lookup.loop E rest i false i)) res).bind
            fun newret => .ok (.arr newret)
        else Lookup.loop E rest rootnode findnomap (.arr res)
    | _ =>
      (step.parse E s obj rootnode).bind fun obj =>
      match obj with
      | .arr oarr =>
        if findnomap && !rest.isEmpty then
          (Lookup.fanout (fun i => Lookup.guard i (Lookup.loop E rest i false i)) oarr).bind
            fun newret => .ok (.arr newret)
        else Lookup.loop E rest rootnode findnomap (.arr oarr)
      | _ => Lookup.loop E rest rootnode findnomap obj
end

/-! ## The compiler: `tokenize`, `parse_token`, `parse_filter`, `Compile` -/

/-- `strings.HasSuffix(s, suffix)`. -/
def HasSuffix (s suffix : Str) : Bool := HasPrefix s.reverse suffix.reverse

/-- The scan of `strings.Index`: `n` bytes have been passed. -/
def Index.go (substr : Str) : Str → Nat → Int
  | [], n => if substr = [] then (n : Int) else -1
  | c :: s, n => if HasPrefix (c :: s) substr then (n : Int) else Index.go substr s (n + 1)

/-- `strings.Index(s, substr)`: the first position of `substr`, or -1. -/
def Index (s substr : Str) : Int := Index.go substr s 0

/-- `strings.Count(s, sep)` for a one-byte `sep`. -/
def Count (s : Str) (sep : Char) : Int := (s.filter fun c => c == sep).length

/-- `strings.Contains(s, sep)` for a one-byte `sep`. -/
def Contains (s : Str) (sep : Char) : Bool := s.any fun c => c == sep

/-- `strings.Split(s, sep)` for a one-byte `sep`. -/
def Split : Str → Char → List Str
  | [], _ => [[]]
  | c :: s, sep =>
    if c = sep then [] :: Split s sep
    else match Split s sep with
      | [] => [[c]]
      | t :: ts => (c :: t) :: ts

/-- `strings.Join(elems, sep)`. -/
def Join : List Str → Str → Str
  | [], _ => []
  | [a], _ => a
  | a :: b :: rest, sep => a ++ sep ++ Join (b :: rest) sep

/-- The UTF-8 encodings of the runes of `unicode.IsSpace`: the six ASCII
spaces, U+0085, U+00A0, U+1680, U+2000..U+200A, U+2028, U+2029, U+202F, U+205F
and U+3000. -/
def spaceRunes : List Str :=
  [['\t'], ['\n'], ['\x0b'], ['\x0c'], ['\r'], [' '],
    ['\xc2', '\x85'], ['\xc2', '\xa0'], ['\xe1', '\x9a', '\x80'],
    ['\xe2', '\x80', '\x80'], ['\xe2', '\x80', '\x81'], ['\xe2', '\x80', '\x82'],
    ['\xe2', '\x80', '\x83'], ['\xe2', '\x80', '\x84'], ['\xe2', '\x80', '\x85'],
    ['\xe2', '\x80', '\x86'], ['\xe2', '\x80', '\x87'], ['\xe2', '\x80', '\x88'],
    ['\xe2', '\x80', '\x89'], ['\xe2', '\x80', '\x8a'], ['\xe2', '\x80', '\xa8'],
    ['\xe2', '\x80', '\xa9'], ['\xe2', '\x80', '\xaf'], ['\xe2', '\x81', '\x9f'],
    ['\xe3', '\x80', '\x80']]

/-- The text behind one leading rune out of `runes`, if the text starts with
one. -/
def TrimSpace.rune (s : Str) : List Str → Option Str
  | [] => none
  | enc :: more => if HasPrefix s enc then some (s.drop enc.length) else TrimSpace.rune s more

/-- The leading runes out of `runes` removed, one per unit of fuel. -/
def TrimSpace.strip (runes : List Str) : Nat → Str → Str
  | 0, s => s
  | fuel + 1, s =>
    match TrimSpace.rune s runes with
    | some r => TrimSpace.strip runes fuel r
    | none => s

/-- `strings.TrimSpace(s)`: the leading white space removed, then the
trailing one (on the reversed text, the encodings read last byte first); a text
holds no more runes than bytes, so its length is fuel enough. -/
def TrimSpace (s : Str) : Str :=
  let l := TrimSpace.strip spaceRunes s.length s
  (TrimSpace.strip (spaceRunes.map List.reverse) l.length l.reverse).reverse

/-- The sign `strconv.Atoi` reads: a leading `-`. -/
def Atoi.neg : Str → Bool
  | '-' :: _ => true
  | _ => false

/-- The text `strconv.Atoi` reads the digits from: what follows the sign. -/
def Atoi.digits : Str → Str
  | '-' :: r => r
  | '+' :: r => r
  | s => s

/-- `strconv.Atoi(s)` on a 64-bit platform: an optional sign, then one or more
decimal digits, the value within the range of `int`. -/
def Atoi (s : Str) : Option Int :=
  let ds := Atoi.digits s
  if ds.isEmpty || !(ds.all fun c => decide (48 ≤ c.toNat ∧ c.toNat ≤ 57)) then none
  else
    let n : Int := ds.foldl (fun a c => a * 10 + ((c.toNat : Int) - 48)) 0
    let v : Int := if Atoi.neg s then -n else n
    if v < -(2 ^ 63) ∨ v > 2 ^ 63 - 1 then none else some v

/-- The loop `for idx := 0; idx < len(tokens); idx++` of `tokenize`, at the
tokens `tokens[idx:]`.  The inner loop that looks for the `/i` of a regular
expression advances `idx` itself: `inRegex` says that the token at hand was
fetched by that inner loop. -/
def tokenize.loop : List Str → Nat → Bool → List Str → List Str → Int → Outcome (List Str)
  | [], _, _, rets, _, subleft =>
    if subleft > 0 then .error .unclosedBracket else .ok rets
  | token :: rest, idx, inRegex, rets, sublist, subleft =>
    -- `if subleft == 0 { rets = append(rets, Join(sublist, ".")); sublist = ... }`
    let emit (sublist : List Str) (subleft : Int) : Outcome (List Str) :=
      if subleft = 0 then tokenize.loop rest (idx + 1) false (rets ++ [Join sublist ['.']]) [] subleft
      else tokenize.loop rest (idx + 1) false rets sublist subleft
    -- the inner loop at `token`, and what follows it
    let regex (subleft : Int) : Outcome (List Str) :=
      let endidx := Index token ['/', 'i']
      if endidx < 0 ∧ !rest.isEmpty then
        tokenize.loop rest (idx + 1) true rets (sublist ++ [token]) subleft
      else if rest.isEmpty ∧ endidx < 0 then .error .regexNoEnd
      else emit (sublist ++ [token]) (subleft - Count (token.drop endidx.toNat) ']')
    if inRegex then regex subleft
    else if token = [] then
      if rets.getLast? = some [' '] then tokenize.loop rest (idx + 1) false rets sublist subleft
      else emit (sublist ++ [[' ']]) subleft
    else if Index token ['=', '~'] > 0 then
      -- `token[:idx]` panics when `idx > len(token)`
      if idx > token.length then .panic
      else regex (subleft + Count (token.take idx) '[')
    else emit (sublist ++ [token]) (subleft + Count token '[' - Count token ']')

/-- `func tokenize(query string) ([]string, error)`. -/
def tokenize (query : Str) : Outcome (List Str) :=
  match query with
  | [] => .panic
  | q0 :: _ =>
    if q0 ≠ '$' ∧ q0 ≠ '@' then .error .badStart
    else if HasSuffix query ['.'] then .error .trailingDot
    else match query.get? 1 with
      | none => .panic
      | some q1 =>
        let startidx := if q1 = '.' then 2 else 1
        tokenize.loop ([q0] :: Split (query.drop startidx) '.') 0 false [] [] 0

/-- `func regFilterCompile(rule string)`: the pattern text handed to
`regexp.Compile`, when that accepts it. -/
def regFilterCompile (E : Ext) (rule : Str) : Outcome Str :=
  if rule.length ≤ 3 then .error .emptyRule
  else if !HasPrefix rule ['/'] || !HasSuffix rule ['/', 'i'] then .error .regexSyntax
  else
    let pattern := ((rule.drop 1).reverse.drop 2).reverse
    if E.regexpCompile pattern then .ok pattern else .error .regexCompile

/-- The assignment `switch stage { case 0: lp = tmp; case 1: op = tmp; case 2: rp = tmp }`
of `parse_filter` on the three fields `(lp, op, rp)`. -/
def parse_filter.store (stage : Nat) (tmp : Str) (f : Str × Str × Str) : Str × Str × Str :=
  match stage with
  | 0 => (tmp, f.2.1, f.2.2)
  | 1 => (f.1, tmp, f.2.2)
  | 2 => (f.1, f.2.1, tmp)
  | _ => f

/-- The loop `for idx, c := range filter` of `parse_filter` (the text is taken
to be valid UTF-8, so that appending `string(c)` appends the bytes read); it
returns the fields, `tmp` and `stage`. -/
def parse_filter.scan : Str → Str × Str × Str → Str → Nat → Bool →
    Outcome ((Str × Str × Str) × Str × Nat)
  | [], f, tmp, stage, _ => .ok (f, tmp, stage)
  | c :: rest, f, tmp, stage, str_embrace =>
    if c = '\'' then
      if str_embrace = false then parse_filter.scan rest f tmp stage true
      else parse_filter.scan rest (parse_filter.store stage tmp f) [] stage str_embrace
    else if c = ' ' then
      if str_embrace = true then parse_filter.scan rest f (tmp ++ [c]) stage str_embrace
      else if stage + 1 > 2 then .error .filterChar
      else parse_filter.scan rest (parse_filter.store stage tmp f) [] (stage + 1) str_embrace
    else parse_filter.scan rest f (tmp ++ [c]) stage str_embrace

/-- `func (p *filterParam) preCompile()`, on the fields read so far; `compile`
is `Compile`. -/
def preCompile (E : Ext) (compile : Str → Outcome Compiled) (lp op rp : Str) :
    Outcome filterParam :=
  (if op = ['=', '~'] then (regFilterCompile E rp).bind fun r => .ok (some r)
   else .ok none).bind fun reg =>
  (if HasPrefix lp ['@', '.'] || HasPrefix lp ['$', '.'] then
     (compile lp).bind fun c => .ok (some c)
   else .ok none).bind fun lpSubSearch =>
  (if HasPrefix rp ['@', '.'] || HasPrefix rp ['$', '.'] then
     (compile rp).bind fun c => .ok (some c)
   else .ok none).bind fun rpSubSearch =>
  .ok (.mk lp op rp reg lpSubSearch rpSubSearch)

/-- `func parse_filter(filter string) (filterParam, error)`; `compile` is
`Compile`. -/
def parse_filter (E : Ext) (compile : Str → Outcome Compiled) (filter : Str) :
    Outcome filterParam :=
  (parse_filter.scan filter ([], [], []) [] 0 false).bind fun r =>
  let f := r.1
  let tmp := r.2.1
  let stage := r.2.2
  let f : Str × Str × Str :=
    if tmp ≠ [] then
      match stage with
      | 0 => (tmp, ['e', 'x', 'i', 's', 't', 's'], f.2.2)
      | _ => parse_filter.store stage tmp f
    else f
  preCompile E compile f.1 f.2.1 f.2.2

/-- The range bound of `parse_token`: unset when the trimmed text is empty,
else the `int` that `strconv.Atoi` reads. -/
def parse_token.bound (text : Str) : Outcome (Option Int) :=
  let t := TrimSpace text
  if t ≠ [] then
    match Atoi (TrimSpace t) with
    | some i => .ok (some i)
    | none => .error .rangeNotInt
  else .ok none

/-- The loop of `parse_token` over the comma-separated indices. -/
def parse_token.indices : List Str → Outcome (List Int)
  | [] => .ok []
  | x :: rest =>
    match Atoi (TrimSpace x) with
    | some i => (parse_token.indices rest).bind fun res => .ok (i :: res)
    | none => .error .atoi

/-- The dispatch of `parse_token` on the bracket body `tail` (what stands
between the first `[` and the last byte of the token), after the key. -/
def parse_token.bracket (E : Ext) (compile : Str → Outcome Compiled) (key tail : Str) :
    Outcome step :=
  if Contains tail '?' then
    if HasPrefix tail ['?', '('] && HasSuffix tail [')'] then
      let filterpart := TrimSpace ((tail.drop 2).take (tail.length - 3))
      (parse_filter E compile filterpart).bind fun tfilter =>
      .ok (.mk .filter key (.text filterpart) tfilter)
    else .ok (.mk .filter key .none filterParam.zero)
  else if Contains tail ':' then
    match Split tail ':' with
    | [t0, t1] =>
      (parse_token.bound t0).bind fun frm =>
      (parse_token.bound t1).bind fun to' =>
      .ok (.mk .range key (.bounds frm to') filterParam.zero)
    | _ => .error .oneRange
  else if tail = ['*'] then .ok (.mk .range key (.bounds none none) filterParam.zero)
  else
    (parse_token.indices (Split tail ',')).bind fun res =>
    .ok (.mk .idx key (.ints res) filterParam.zero)

/-- `func parse_token(token string) (step, error)`; `compile` is `Compile`. -/
def parse_token (E : Ext) (compile : Str → Outcome Compiled) (token : Str) : Outcome step :=
  if token = ['$'] ∨ token = ['@'] then .ok (.mk .root ['$'] .none filterParam.zero)
  else if token = ['*'] then .ok (.mk .scan ['*'] .none filterParam.zero)
  else if token = [' '] then .ok (.mk .search [] .none filterParam.zero)
  else
    let bracket_idx := Index token ['[']
    if bracket_idx < 0 then .ok (.mk .key token .none filterParam.zero)
    else
      let key := token.take bracket_idx.toNat
      let tail := token.drop bracket_idx.toNat
      if tail.length < 3 then .error .tailTooShort
      else parse_token.bracket E compile key ((tail.drop 1).take (tail.length - 2))

/-- The loop `for i, token := range tokens` of `Compile`. -/
def Compile.steps (parse : Str → Outcome step) : List Str → Outcome (List step)
  | [] => .ok []
  | token :: rest =>
    (parse token).bind fun temstep =>
    (Compile.steps parse rest).bind fun more =>
    .ok (temstep :: more)

/-- `func Compile(jpath string) (*Compiled, error)`, the recursion through
`parse_filter` (a predicate may hold a path) being counted by a fuel. -/
def Compile.go (E : Ext) : Nat → Str → Outcome Compiled
  | 0, _ => .exhausted
  | fuel + 1, jpath =>
    (tokenize jpath).bind fun tokens =>
    match tokens with
    | [] => .panic
    | t0 :: tokens =>
      if t0 ≠ ['@'] ∧ t0 ≠ ['$'] then .error .rootMissing
      else
        (Compile.steps (parse_token E (Compile.go E fuel)) tokens).bind fun steps =>
        .ok (.mk jpath steps)

/-- `func Compile(jpath string) (*Compiled, error)`: a path nested in a
predicate holds at least one `[` less than the path around it, so the length of
the path bounds the depth of the recursion. -/
def Compile (E : Ext) (jpath : Str) : Outcome Compiled :=
  Compile.go E (jpath.length + 1) jpath

/-- `func Lookup(obj interface{}, jpath string) (interface{}, error)`. -/
def Lookup (E : Ext) (obj : Value) (jpath : Str) : Outcome Value :=
  (Compile E jpath).bind fun c => c.Lookup E obj


/-! ## The walk with a replacement attached: `Replace` -/

/-- The place of a value in the document: from the root, the number of the
slot to take at every level (the `i`-th element of an array, the `i`-th member
of an object). -/
abbrev Loc := List Nat

/-- The value in slot `i` of a container; nil when there is no such slot. -/
def Value.child : Value → Nat → Value
  | .arr xs, i =>
    match xs[i]? with
    | some x => x
    | none => .null
  | .obj kvs, i =>
    match kvs[i]? with
    | some kv => kv.2
    | none => .null
  | _, _ => .null

/-- The container with slot `i` overwritten by `c`. -/
def Value.setChild : Value → Nat → Value → Value
  | .arr xs, i, c => .arr (xs.set i c)
  | .obj kvs, i, c =>
    match kvs[i]? with
    | some kv => .obj (kvs.set i (kv.1, c))
    | none => .obj kvs
  | v, _, _ => v

/-- The value at a place of the document. -/
def Value.get : Value → Loc → Value
  | v, [] => v
  | v, i :: rest => Value.get (v.child i) rest

/-- The document with the slot at a place overwritten by `c`. -/
def Value.put : Value → Loc → Value → Value
  | _, [], c => c
  | v, i :: rest, c => v.setChild i (Value.put (v.child i) rest c)

/-- What an `interface{}` of the walk holds: a part of the document, given by
its place, or a value that is not in the document (nil, the value taken out of
a slot that was overwritten). -/
inductive Ref where
  | at (loc : Loc)
  | val (v : Value)

/-- The value a reference holds, in the document as it stands. -/
def Ref.read (doc : Value) : Ref → Value
  | .at loc => doc.get loc
  | .val v => v

/-- The slot `i` of the container a reference holds. -/
def Ref.child (i : Nat) : Ref → Ref
  | .at loc => .at (loc ++ [i])
  | .val v => .val (v.child i)

/-- The assignment `container[i] = c` through a reference: the document after
it. -/
def Ref.assign (doc : Value) (i : Nat) (c : Value) : Ref → Value
  | .at loc => doc.put (loc ++ [i]) c
  | .val _ => doc

/-- The statement `if s.replaceVal != nil { container[i] = s.replaceVal }`: the
document after it. -/
def Ref.replace (replaceVal : Value) (doc : Value) (i : Nat) (obj : Ref) : Value :=
  if replaceVal.isNull then doc else obj.assign doc i replaceVal

/-- What `container[i]` holds after that statement. -/
def Ref.slot (replaceVal : Value) (i : Nat) (obj : Ref) : Ref :=
  if replaceVal.isNull then obj.child i else .val replaceVal

/-- What a call leaves behind and returns: the document as the call leaves it,
and what the call returns. -/
structure Effect (α : Type) where
  doc : Value
  ret : Outcome α

/-- Sequencing: the first call that does not return a result decides; what it
wrote stays written. -/
def Effect.bind {α β : Type} (x : Effect α) (f : Value → α → Effect β) : Effect β :=
  match x.ret with
  | .ok a => f x.doc a
  | .error e => ⟨x.doc, .error e⟩
  | .panic => ⟨x.doc, .panic⟩
  | .exhausted => ⟨x.doc, .exhausted⟩

/-- The position of the member `key` in the member list of an object. -/
def mapIdx (key : Str) : List (Str × Value) → Option Nat
  | [] => none
  | (k, _) :: rest =>
    if k = key then some 0
    else match mapIdx key rest with
      | some i => some (i + 1)
      | none => none

/-- `func (s step) get_key(obj, key)` with `s.replaceVal = replaceVal`: the
member is overwritten, the value it held is returned. -/
def get_key.write (replaceVal : Value) (doc : Value) (obj : Ref) (key : Str) : Effect Ref :=
  match obj.read doc with
  | .obj jsonMap =>
    match mapIdx key jsonMap with
    | none => ⟨doc, .ok (.val .null)⟩
    | some i =>
      if replaceVal.isNull then ⟨doc, .ok (obj.child i)⟩
      else ⟨obj.assign doc i replaceVal, .ok (.val ((Value.obj jsonMap).child i))⟩
  | _ => ⟨doc, .ok (.val .null)⟩

/-- `func (s step) get_idx(obj, idx)` with `s.replaceVal = replaceVal`: the
element is overwritten, then returned. -/
def get_idx.write (replaceVal : Value) (doc : Value) (obj : Ref) (idx : Int) : Effect Ref :=
  match obj.read doc with
  | .arr jsonarr =>
    let length : Int := jsonarr.length
    if idx ≥ 0 then
      if idx ≥ length then ⟨doc, .error .indexOutOfRange⟩
      else ⟨obj.replace replaceVal doc idx.toNat, .ok (obj.slot replaceVal idx.toNat)⟩
    else
      let _idx := length + idx
      if _idx < 0 then ⟨doc, .error .indexOutOfRange⟩
      else ⟨obj.replace replaceVal doc _idx.toNat, .ok (obj.slot replaceVal _idx.toNat)⟩
  | _ => ⟨doc, .ok (.val .null)⟩

/-- `func (s step) get_range(obj, frm, to)` with `s.replaceVal = replaceVal`:
the elements from `_frm` up to `_to` are overwritten, then the slice expression
`jsonarr[_frm:_to]` is evaluated. -/
def get_range.write (replaceVal : Value) (doc : Value) (obj : Ref) (frm to' : Option Int) :
    Effect (List Ref) :=
  match obj.read doc with
  | .arr jsonarr =>
    let length : Int := jsonarr.length
    let fv : Int := frm.getD 0
    let tv : Int := to'.getD (length - 1)
    let _frm : Int := if fv < 0 then length + fv else fv
    let _to : Int := if tv < 0 then length + tv + 1 else wrapInt (tv + 1)
    if _frm < 0 ∨ _frm ≥ length then ⟨doc, .error .fromOutOfRange⟩
    else if _to < 0 ∨ _to > length then ⟨doc, .error .toOutOfRange⟩
    else
      let slots := List.range' _frm.toNat (_to.toNat - _frm.toNat)
      let doc := slots.foldl (fun d i => obj.replace replaceVal d i) doc
      if _frm ≤ _to then ⟨doc, .ok (slots.map fun i => obj.slot replaceVal i)⟩
      else ⟨doc, .panic⟩
  | _ => ⟨doc, .error .notSlice⟩

/-- The slots of a container whose value is not nil, in order. -/
def liveSlots (values : List Value) : List Nat :=
  (List.range values.length).filter fun i =>
    match values[i]? with
    | some v => !v.isNull
    | none => false

/-- `func (s step) get_scan(obj)` with `s.replaceVal = replaceVal`: every slot
that does not hold nil is overwritten, then appended. -/
def get_scan.write (replaceVal : Value) (doc : Value) (obj : Ref) : Effect (List Ref) :=
  let visit (values : List Value) : Effect (List Ref) :=
    ⟨(liveSlots values).foldl (fun d i => obj.replace replaceVal d i) doc,
      .ok ((liveSlots values).map fun i => obj.slot replaceVal i)⟩
  match obj.read doc with
  | .obj jsonMap => visit (jsonMap.map Prod.snd)
  | .arr jsonarr => visit jsonarr
  | _ => ⟨doc, .ok []⟩

/-- The loop of `get_filtered` over the slots of the container, with
`s.replaceVal = replaceVal`: a slot whose value matches is overwritten, the value
it held is appended.  The predicate reads the document as the loop has left it
so far. -/
def get_filtered.loop.write (eval_filter : Value → Value → Outcome Bool) (replaceVal : Value)
    (obj : Ref) : List Nat → Value → Effect (List Ref)
  | [], doc => ⟨doc, .ok []⟩
  | i :: rest, doc =>
    let tmp := (obj.read doc).child i
    (Effect.mk doc (eval_filter doc tmp)).bind fun doc ok =>
    (get_filtered.loop.write eval_filter replaceVal obj rest
      (if ok then obj.replace replaceVal doc i else doc)).bind fun doc res =>
    ⟨doc, .ok (if ok then (if replaceVal.isNull then obj.child i else .val tmp) :: res else res)⟩

/-- `func (s step) get_filtered(obj, root, filter)` with
`s.replaceVal = replaceVal`; `eval_filter doc` is `s.filter.eval_filter( · , root)`
in the document `doc`. -/
def get_filtered.write (eval_filter : Value → Value → Outcome Bool) (replaceVal : Value)
    (doc : Value) (obj : Ref) : Effect (List Ref) :=
  match obj.read doc with
  | .arr jobject =>
    get_filtered.loop.write eval_filter replaceVal obj (List.range jobject.length) doc
  | .obj jobject =>
    get_filtered.loop.write eval_filter replaceVal obj (List.range jobject.length) doc
  | _ => ⟨doc, .ok []⟩

/-- The loop of `step.parse` over several requested indices, with
`s.replaceVal = replaceVal`: every element is overwritten as it is visited, an
error of `get_idx` ends the loop. -/
def step.parse.multi.write (replaceVal : Value) (obj : Ref) : List Int → Value → Effect (List Ref)
  | [], doc => ⟨doc, .ok []⟩
  | x :: rest, doc =>
    (get_idx.write replaceVal doc obj x).bind fun doc tmp =>
    let isNil := (tmp.read doc).isNull
    (step.parse.multi.write replaceVal obj rest doc).bind fun doc res =>
    ⟨doc, .ok (if isNil then res else tmp :: res)⟩

/-- What a step returns: one reference, or a new list of references. -/
inductive Found where
  | one (r : Ref)
  | many (rs : List Ref)

/-- The value a step returned, in the document as it stands. -/
def Found.read (doc : Value) : Found → Value
  | .one r => r.read doc
  | .many rs => .arr (rs.map (Ref.read doc))

/-- The reference the loop of `Lookup` goes on with: a new list is a value
outside the document. -/
def Found.ref (doc : Value) : Found → Ref
  | .one r => r
  | .many rs => .val (.arr (rs.map (Ref.read doc)))

/-- The elements of what a step returned, when that is an array
(`obj.([]interface{})`). -/
def Found.elements (doc : Value) : Found → Option (List Ref)
  | .many rs => some rs
  | .one r =>
    match r.read doc with
    | .arr xs => some ((List.range xs.length).map fun i => r.child i)
    | _ => none

/-- `func (s step) parse(obj, rootnode)` with `s.replaceVal = replaceVal`, for
a step that is no `search` step `Lookup` is at; `emptyStep` has no
replacement. -/
def step.parse.write (E : Ext) (replaceVal : Value) (doc : Value) (rootnode : Ref) :
    step → Ref → Effect Found
  | .mk op key args filter, obj =>
    match op with
    | .key => (get_key.write replaceVal doc obj key).bind fun doc r => ⟨doc, .ok (.one r)⟩
    | .idx =>
      (if key.length > 0 then get_key.write .null doc obj key else ⟨doc, .ok obj⟩).bind
        fun doc obj =>
      match args with
      | .ints intarg =>
        match intarg with
        | [] => ⟨doc, .error .emptyIndex⟩
        | [x] => (get_idx.write replaceVal doc obj x).bind fun doc r => ⟨doc, .ok (.one r)⟩
        | x :: y :: more =>
          (step.parse.multi.write replaceVal obj (x :: y :: more) doc).bind fun doc res =>
          ⟨doc, .ok (.many res)⟩
      | _ => ⟨doc, .error .rangeNotNumber⟩
    | .range =>
      (if key.length > 0 then get_key.write .null doc obj key else ⟨doc, .ok obj⟩).bind
        fun doc obj =>
      match args with
      | .bounds frm to' =>
        (get_range.write replaceVal doc obj frm to').bind fun doc res => ⟨doc, .ok (.many res)⟩
      | _ => ⟨doc, .error .rangeArgs⟩
    | .filter =>
      (if key ≠ [] then get_key.write .null doc obj key else ⟨doc, .ok obj⟩).bind
        fun doc obj =>
      match args with
      | .text _ =>
        (get_filtered.write
          (fun doc tmp => filterParam.eval_filter E filter tmp (rootnode.read doc))
          replaceVal doc obj).bind fun doc res => ⟨doc, .ok (.many res)⟩
      | _ => ⟨doc, .panic⟩
    | .scan => (get_scan.write replaceVal doc obj).bind fun doc res => ⟨doc, .ok (.many res)⟩
    | .root => ⟨doc, .ok (.one obj)⟩
    | .search => ⟨doc, .panic⟩
    | .empty => ⟨doc, .error .unsupportedOp⟩

/-- The fan-out loop of `Lookup` over the elements of a list result, the
residual path carrying the replacement; `lookup` is `temc.Lookup`. -/
def Lookup.fanout.write (lookup : Value → Ref → Effect Value) : List Ref → Value →
    Effect (List Value)
  | [], doc => ⟨doc, .ok []⟩
  | i :: rest, doc =>
    match i.read doc with
    | .arr _ | .obj _ =>
      (lookup doc i).bind fun doc r =>
      (Lookup.fanout.write lookup rest doc).bind fun doc newret =>
      match r with
      | .null => ⟨doc, .ok newret⟩
      | .arr rlist => ⟨doc, .ok (rlist ++ newret)⟩
      | _ => ⟨doc, .ok (r :: newret)⟩
    | _ => Lookup.fanout.write lookup rest doc

/-- The guard `if obj == nil { return nil, errors.New(...) }` that opens
`Lookup`, in front of the rest of the call. -/
def Lookup.guard.write (doc : Value) (obj : Value) (rest : Effect Value) : Effect Value :=
  match obj with
  | .null => ⟨doc, .error .nullObject⟩
  | _ => rest

/-- The loop of `Lookup` at the steps `c.steps[idx:]`, the last of which holds
`replaceVal`.  A recursive descent met while a replacement is attached is not
followed: there the embedding stops (`exhausted`); without a replacement
nothing is written and the walk is `Lookup.loop`. -/
def Lookup.loop.write (E : Ext) (replaceVal : Value) :
    List step → Ref → Bool → Value → Ref → Effect Value
  | [], _, _, doc, obj => ⟨doc, .ok (obj.read doc)⟩
  | s :: rest, rootnode, findnomap, doc, obj =>
    match s.op with
    | .search =>
      if replaceVal.isNull then
        ⟨doc, Lookup.loop E (s :: rest) (rootnode.read doc) findnomap (obj.read doc)⟩
      else
        (Effect.mk doc (if findnomap then .ok true
          else s.singleReturn.bind fun single => .ok (!single))).bind fun doc _ =>
        match rest with
        | [] => ⟨doc, .panic⟩
        | _ :: _ => ⟨doc, .exhausted⟩
    | _ =>
      (Effect.mk doc (if findnomap then .ok true
        else s.singleReturn.bind fun single => .ok (!single))).bind fun doc findnomap =>
      (step.parse.write E (if rest.isEmpty then replaceVal else .null) doc rootnode s obj).bind
        fun doc found =>
      match found.elements doc with
      | some oarr =>
        if findnomap && !rest.isEmpty then
          (Lookup.fanout.write
            (fun doc i => Lookup.guard.write doc (i.read doc)
              (Lookup.loop.write E replaceVal rest i false doc i)) oarr doc).bind
            fun doc newret => ⟨doc, .ok (.arr newret)⟩
        else Lookup.loop.write E replaceVal rest rootnode findnomap doc (found.ref doc)
      | none => Lookup.loop.write E replaceVal rest rootnode findnomap doc (found.ref doc)

/-- `func (c *Compiled) Lookup(obj)` on a compiled path whose last step holds
`replaceVal` (nil after `Compile`): the document after the call and what the
call returns. -/
def Compiled.Lookup.write (E : Ext) (c : Compiled) (replaceVal : Value) (obj : Value) :
    Effect Value :=
  Lookup.guard.write obj obj (Lookup.loop.write E replaceVal c.steps (.at []) false obj (.at []))

/-- `func (c *Compiled) Replace(obj, replacement)`.  The one field of a
compiled path that is assigned after `Compile` is the `replaceVal` of its last
step: the call returns the value of that field after the call, with the
document after the call and the error. -/
def Compiled.Replace (E : Ext) (c : Compiled) (replaceVal : Value) (obj replacement : Value) :
    Value × Effect Unit :=
  if obj.isNull || replacement.isNull then (replaceVal, ⟨obj, .error .nullObject⟩)
  else if c.steps.isEmpty then (replaceVal, ⟨obj, .error .emptySearch⟩)
  else (replacement,
    (Compiled.Lookup.write E c replacement obj).bind fun doc _ => ⟨doc, .ok ()⟩)

/-- `func Replace(obj interface{}, jpath string, replaceObj interface{}) error`,
with the document after the call. -/
def Replace (E : Ext) (obj : Value) (jpath : Str) (replaceObj : Value) : Effect Unit :=
  (Effect.mk obj (Compile E jpath)).bind fun obj c => (c.Replace E .null obj replaceObj).2

/-! ## Reference functions of the properties -/

/-- The step `parse_token` makes of a plain name: `Key(name)`. -/
def keyStep (name : Str) : step := .mk .key name .none filterParam.zero

/-- The step `parse_token` makes of `key[i1,i2,...]`: `Index`. -/
def idxStep (key : Str) (indices : List Int) : step := .mk .idx key (.ints indices) filterParam.zero

/-- The step `parse_token` makes of `key[from:to]` and of `key[*]`: `Range`. -/
def rangeStep (key : Str) (frm to' : Option Int) : step :=
  .mk .range key (.bounds frm to') filterParam.zero

/-- The step `parse_token` makes of the token `*`: `Wildcard`. -/
def scanStep : step := .mk .scan ['*'] .none filterParam.zero

/-- The step `parse_token` makes of the token of an empty segment:
`RecursiveDescentMarker`. -/
def searchStep : step := .mk .search [] .none filterParam.zero

/-- The value reached by following the keys from `v`: the member at each key,
null as soon as a key is absent or the value at hand is not an object. -/
def followKeys : List Str → Value → Value
  | [], v => v
  | k :: ks, .obj kvs =>
    match mapGet k kvs with
    | some v => followKeys ks v
    | none => .null
  | _ :: _, _ => .null

/-- Collaborators that convert nothing and match nothing, for the evaluation
of examples that do not call them. -/
def Ext.none : Ext where
  Num := Int
  TryFloat64 := fun _ => Option.none
  MustString := fun _ => []
  flt := fun _ _ => false
  fle := fun _ _ => false
  feq := fun _ _ => false
  fge := fun _ _ => false
  fgt := fun _ _ => false
  regexpCompile := fun _ => false
  MatchString := fun _ _ => false

/-- The lower bound the Range step resolves `from` to: 0 if unset, `n + from`
if negative. -/
def resolveFrom (n : Int) (frm : Option Int) : Int :=
  match frm with
  | none => 0
  | some f => if f < 0 then n + f else f

/-- The exclusive upper bound the Range step resolves `to` to: `n` if unset,
`n + to + 1` if negative, else `to + 1`. -/
def resolveTo (n : Int) (to' : Option Int) : Int :=
  match to' with
  | none => n
  | some t => if t < 0 then n + t + 1 else t + 1

/-- A bound that is unset or an `int` of 64 bits. -/
def isInt64 (b : Option Int) : Prop :=
  match b with
  | none => True
  | some x => -(2 ^ 63) ≤ x ∧ x < 2 ^ 63

/-- The element a requested index resolves to in a list: position `i`, or
`n + i` for a negative `i`; nothing outside `-n <= i < n`. -/
def resolveIndex (xs : List Value) (i : Int) : Option Value :=
  if 0 ≤ i then xs[i.toNat]?
  else if 0 ≤ (xs.length : Int) + i then xs[((xs.length : Int) + i).toNat]?
  else none

/-- What one element of the array contributes to `$.k[*].f`: the member `f`
of an object, unless absent or null, its elements when it is an array; nothing
for an element that is not an object. -/
def contribution (f : Str) : Value → List Value
  | .obj kvs =>
    match mapGet f kvs with
    | some (.arr ys) => ys
    | some .null => []
    | some v => [v]
    | none => []
  | _ => []

mutual
/-- A document built only from objects and scalars (null included): no array
at any depth. -/
def noArrays : Value → Bool
  | .arr _ => false
  | .obj kvs => noArraysMembers kvs
  | _ => true
/-- No array at any depth of the members of an object. -/
def noArraysMembers : List (Str × Value) → Bool
  | [] => true
  | (_, v) :: rest => noArrays v && noArraysMembers rest
end

mutual
/-- The non-null values stored under the key `k` at every depth of `v`: the
value found directly in an object first, then what its members hold, member by
member. -/
def occurrences (k : Str) : Value → List Value
  | .obj kvs =>
    (match mapGet k kvs with
      | some v => if v.isNull then [] else [v]
      | none => []) ++ occurrencesMembers k kvs
  | _ => []
/-- The occurrences inside the member values of an object, member by member. -/
def occurrencesMembers (k : Str) : List (Str × Value) → List Value
  | [] => []
  | (_, v) :: rest => occurrences k v ++ occurrencesMembers k rest
end

/-- The element is an object with a member `tag` whose value is not null. -/
def hasMember (tag : Str) : Value → Bool
  | .obj m =>
    match mapGet tag m with
    | some t => !t.isNull
    | none => false
  | _ => false

/-- The predicate `parse_filter` compiles from the text `@.tag`: operator
`exists` on the nested path `@.tag`. -/
def existsFilter (tag : Str) : filterParam :=
  .mk ('@' :: '.' :: tag) ['e', 'x', 'i', 's', 't', 's'] [] none
    (some (.mk ('@' :: '.' :: tag) [keyStep tag])) none

/-- An array for `$.k[*].f`: `[{"f":1}, 2, {"f":[3,4]}, {"g":5}, {"f":null}]`. -/
def sampleFanout : List Value :=
  [.obj [(['f'], .num 1)], .num 2, .obj [(['f'], .arr [.num 3, .num 4])],
    .obj [(['g'], .num 5)], .obj [(['f'], .null)]]

/-- The document `{"a":{"b":{"a":1}},"a2":2}`. -/
def sampleDescent : Value :=
  .obj [(['a'], .obj [(['b'], .obj [(['a'], .num 1)])]), (['a', '2'], .num 2)]

/-- An array for `$.items[?(@.tag)]`:
`[{"tag":1}, {"tag":null}, 3, null, [4], {"x":1}, {"tag":"t"}]`. -/
def sampleItems : List Value :=
  [.obj [("tag".toList, .num 1)], .obj [("tag".toList, .null)], .num 3, .null,
    .arr [.num 4], .obj [(['x'], .num 1)], .obj [("tag".toList, .str ['t'])]]

/-- A character of a plain name: an ASCII letter, a digit or `_`. -/
def plainChar (c : Char) : Bool := c.isAlphanum || c == '_'

/-- A plain key name: one or more plain characters. -/
def plainName (k : Str) : Bool := !k.isEmpty && k.all plainChar

/-- A byte of the decimal text of an `int`: a digit or the sign `-`. -/
def numChar (c : Char) : Bool := c.isDigit || c == '-'

/-- The decimal text of an `int`, as `strconv.Itoa` writes it. -/
def Itoa (i : Int) : Str :=
  if i < 0 then '-' :: Nat.toDigits 10 i.natAbs else Nat.toDigits 10 i.natAbs

/-- The text of a range bound: empty when unset. -/
def boundText : Option Int → Str
  | none => []
  | some i => Itoa i

/-- The path text `$[i1,i2,...]`. -/
def indexPath (indices : List Int) : Str :=
  '$' :: '[' :: (Join (indices.map Itoa) [','] ++ [']'])

/-- The path text `$[from:to]`, either bound possibly unset. -/
def rangePath (frm to' : Option Int) : Str :=
  '$' :: '[' :: ((boundText frm ++ ':' :: boundText to') ++ [']'])

/-- The value `strconv.Atoi` reads off a run of decimal digits. -/
def digitsValue (ds : Str) : Int :=
  ds.foldl (fun a c => a * 10 + ((c.toNat : Int) - 48)) 0

/-- The number of `[` in a text. -/
def brk (s : Str) : Nat := (s.filter fun c => c == '[').length

/-- The number of `[` in the texts of a list. -/
def brkSum (l : List Str) : Nat := (l.map brk).sum

/-- Sample collaborators for the evaluation of examples: the numbers are the
integers, a number converts to itself and a text to the `int` that `Atoi` reads
off it; the text form of a text is the text, that of a number its decimal
text; every pattern compiles and matches the texts equal to it. -/
def Ext.sample : Ext where
  Num := Int
  TryFloat64 := fun v =>
    match v with
    | .num n => some n
    | .str s => Atoi s
    | _ => Option.none
  MustString := fun v =>
    match v with
    | .str s => s
    | .num n => Itoa n
    | _ => []
  flt := fun a b => decide (a < b)
  fle := fun a b => decide (a ≤ b)
  feq := fun a b => decide (a = b)
  fge := fun a b => decide (a ≥ b)
  fgt := fun a b => decide (a > b)
  regexpCompile := fun _ => true
  MatchString := fun reg s => decide (reg = s)

/-- The array `[{"p":5},{"p":"5"},{"p":10}]`. -/
def sampleCompare : List Value :=
  [.obj [(['p'], .num 5)], .obj [(['p'], .str ['5'])], .obj [(['p'], .num 10)]]

/-- A value is a text. -/
def Value.isStr : Value → Bool
  | .str _ => true
  | _ => false

/-- The text an element holds under the member `f`, when it is an object with
such a member and the value of that member is a text. -/
def stringMember (f : Str) : Value → Option Str
  | .obj m =>
    match mapGet f m with
    | some (.str s) => some s
    | _ => Option.none
  | _ => Option.none

/-- The element holds a text under the member `f` and the pattern `P` matches
that text. -/
def regexMatches (E : Ext) (f P : Str) (x : Value) : Bool :=
  match stringMember f x with
  | some s => E.MatchString P s
  | Option.none => false

/-- The predicate `parse_filter` compiles from `@.f =~ /P/i`: the operator
`=~` on the nested path `@.f`, with the pattern `P`. -/
def regexFilter (f P : Str) : filterParam :=
  .mk ('@' :: '.' :: f) ['=', '~'] ('/' :: (P ++ ['/', 'i'])) (some P)
    (some (.mk ('@' :: '.' :: f) [keyStep f])) Option.none

/-- The token `f =~ /P/i)]`: what follows `@.` in the segment
`k[?(@.f =~ /P/i)]`. -/
def regexToken (f P : Str) : Str := f ++ (" =~ /".toList ++ (P ++ "/i)]".toList))

/-- The path text `$.k1.....kn[?(@.f =~ /P/i)]`, the names in front of the last
one being `pre`. -/
def regexPath (pre : List Str) (k f P : Str) : Str :=
  '$' :: '.' :: (Join (pre ++ [k]) ['.'] ++ ("[?(@.".toList ++ regexToken f P))

/-- The field `lp` of a compiled predicate. -/
def filterParam.lp : filterParam → Str
  | .mk lp _ _ _ _ _ => lp

/-- The field `op` of a compiled predicate. -/
def filterParam.op : filterParam → Str
  | .mk _ op _ _ _ _ => op

/-- The field `rp` of a compiled predicate. -/
def filterParam.rp : filterParam → Str
  | .mk _ _ rp _ _ _ => rp

/-- The number of occurrences of a byte in the texts of a list. -/
def countAll (toks : List Str) (c : Char) : Int := (toks.map fun t => Count t c).sum

/-- The `[` of the texts of a list that are not closed by a `]`. -/
def balance (toks : List Str) : Int := countAll toks '[' - countAll toks ']'

/-- The member list with the value of the member `key` overwritten; unchanged
when there is no such member. -/
def mapSet (key : Str) (v : Value) : List (Str × Value) → List (Str × Value)
  | [] => []
  | (k, w) :: rest => if k = key then (k, v) :: rest else (k, w) :: mapSet key v rest

/-- The document with the member reached by following the keys overwritten by
`V`; unchanged when a key is absent on the way or a value on the way is not an
object. -/
def overwriteKeys (V : Value) : List Str → Value → Value
  | [], v => v
  | [k], .obj kvs => .obj (mapSet k V kvs)
  | k :: k2 :: ks, .obj kvs =>
    match mapGet k kvs with
    | some v => .obj (mapSet k (overwriteKeys V (k2 :: ks) v) kvs)
    | Option.none => .obj kvs
  | _ :: _, v => v

/-- The document `{"items":[{"tag":1}]}`. -/
def sampleTagged : Value := .obj [("items".toList, .arr [.obj [("tag".toList, .num 1)]])]

/-- A step that selects one value: a Key step, or an Index step with one
index. -/
def selectsOne (s : step) : Bool :=
  match s.op, s.args with
  | .key, _ => true
  | .idx, .ints [_] => true
  | _, _ => false

/-- A step none of whose visits returns an error: a Key step, a wildcard, the
root. -/
def neverFails (s : step) : Bool :=
  match s.op with
  | .key | .scan | .root => true
  | _ => false

/-- A last step that writes only after its checks: every step that is neither
an Index step with several indices, nor a Filter step, nor a recursive
descent. -/
def checksFirst (s : step) : Bool :=
  match s.op, s.args with
  | .idx, .ints (_ :: _ :: _) => false
  | .filter, _ => false
  | .search, _ => false
  | _, _ => true

/-- The compiled paths on which every check of the walk comes before the first
write: steps that select one value, then either a last step that checks before
it writes, or one more step (no recursive descent) followed by steps that
never fail. -/
def checksBeforeWrites : List step → Bool
  | [] => true
  | [s] => checksFirst s
  | s :: t :: rest =>
    (selectsOne s && checksBeforeWrites (t :: rest)) ||
    (s.op != .search && (t :: rest).all neverFails)

/-- The slot a requested index resolves to in an array of length `n`: `i`, or
`n + i` for a negative `i`; nothing outside `-n <= i < n`. -/
def resolveSlot (n : Nat) (i : Int) : Option Nat :=
  if 0 ≤ i then (if i < n then some i.toNat else none)
  else if 0 ≤ (n : Int) + i then some ((n : Int) + i).toNat
  else none

/-- The array after the requested indices were visited in request order, each
visited slot overwritten by `V`, up to the first index that is out of range. -/
def overwriteIndices (V : Value) : List Int → List Value → List Value
  | [], xs => xs
  | i :: rest, xs =>
    match resolveSlot xs.length i with
    | some k => overwriteIndices V rest (xs.set k V)
    | none => xs

/-- The array `["x","y"]`. -/
def sampleXY : Value := .arr [.str ['x'], .str ['y']]

/-- The array `[{"a":[1,2]},{"a":[3]}]`. -/
def sampleRows : Value :=
  .arr [.obj [(['a'], .arr [.num 1, .num 2])], .obj [(['a'], .arr [.num 3])]]

/-- The array `[{"p":"x"},{"p":1}]`. -/
def sampleMixed : Value := .arr [.obj [(['p'], .str ['x'])], .obj [(['p'], .num 1)]]

/-- A value is an array or an object, the two kinds the fan-out loop of
`Lookup` looks into (`case []interface{}, map[string]interface{}`). -/
def Value.isContainer : Value → Bool
  | .arr _ => true
  | .obj _ => true
  | _ => false

/-- `get_search.reaches parseNext obj n`: the recursive descent that starts at
`obj` comes to apply the bound step at the node `n`.  The node is `obj` itself,
or it is reached from a child of `obj` that is not nil, the bound step having
returned a result at `obj` and the descent having returned a result at every
earlier child that is not nil. -/
inductive get_search.reaches (parseNext : Value → Outcome Value) : Value → Value → Prop
  | here (obj : Value) : get_search.reaches parseNext obj obj
  | element (before after : List Value) (c n robj : Value) :
      parseNext (.arr (before ++ c :: after)) = .ok robj →
      (∀ b ∈ before, b.isNull = false → (get_search parseNext b).isOk = true) →
      c.isNull = false →
      get_search.reaches parseNext c n →
      get_search.reaches parseNext (.arr (before ++ c :: after)) n
  | member (before after : List (Str × Value)) (k : Str) (c n robj : Value) :
      parseNext (.obj (before ++ (k, c) :: after)) = .ok robj →
      (∀ b ∈ before, b.2.isNull = false → (get_search parseNext b.2).isOk = true) →
      c.isNull = false →
      get_search.reaches parseNext c n →
      get_search.reaches parseNext (.obj (before ++ (k, c) :: after)) n

/-- `Lookup.applies E steps rootnode findnomap obj s obj1 root1`: the loop of
`Lookup` at `steps` with the state `rootnode`, `findnomap`, `obj` comes to
apply the step `s` to `obj1` with the root `root1` (the call
`s.parse(obj1, root1)`), every step applied and every residual lookup made
before that call having returned a result.  The step is the one the loop is at
(`here`); or a later one, after the step at hand returned a result the loop
goes on with (`next`) or fans out over (`fan`, at the element `i`, the residual
lookups on the elements before it having returned); or the step bound to a
recursive descent, at a node the descent reaches (`descent`); or a step behind
a recursive descent, in the fan-out over what it returned (`behind`). -/
inductive Lookup.applies (E : Ext) :
    List step → Value → Bool → Value → step → Value → Value → Prop
  | here (s : step) (rest : List step) (rootnode : Value) (findnomap : Bool) (obj : Value)
      (b : Bool) :
      s.op ≠ .search →
      (if findnomap then Outcome.ok true
        else s.singleReturn.bind fun single => .ok (!single)) = .ok b →
      Lookup.applies E (s :: rest) rootnode findnomap obj s obj rootnode
  | next (s : step) (rest : List step) (rootnode : Value) (findnomap : Bool) (obj : Value)
      (b : Bool) (o : Value) (t : step) (obj1 root1 : Value) :
      s.op ≠ .search →
      (if findnomap then Outcome.ok true
        else s.singleReturn.bind fun single => .ok (!single)) = .ok b →
      step.parse E s obj rootnode = .ok o →
      (∀ oarr, o = .arr oarr → (b && !rest.isEmpty) = false) →
      Lookup.applies E rest rootnode b o t obj1 root1 →
      Lookup.applies E (s :: rest) rootnode findnomap obj t obj1 root1
  | fan (s : step) (rest : List step) (rootnode : Value) (findnomap : Bool) (obj : Value)
      (b : Bool) (before after : List Value) (i : Value) (t : step) (obj1 root1 : Value) :
      s.op ≠ .search →
      (if findnomap then Outcome.ok true
        else s.singleReturn.bind fun single => .ok (!single)) = .ok b →
      step.parse E s obj rootnode = .ok (.arr (before ++ i :: after)) →
      (b && !rest.isEmpty) = true →
      (∀ x ∈ before, x.isContainer = true → (Lookup.loop E rest x false x).isOk = true) →
      i.isContainer = true →
      Lookup.applies E rest i false i t obj1 root1 →
      Lookup.applies E (s :: rest) rootnode findnomap obj t obj1 root1
  | descent (s next : step) (rest : List step) (rootnode : Value) (findnomap : Bool)
      (obj : Value) (b : Bool) (n : Value) :
      s.op = .search →
      (if findnomap then Outcome.ok true
        else s.singleReturn.bind fun single => .ok (!single)) = .ok b →
      get_search.reaches (fun o => step.parse E next o rootnode) obj n →
      Lookup.applies E (s :: next :: rest) rootnode findnomap obj next n rootnode
  | behind (s next : step) (rest : List step) (rootnode : Value) (findnomap : Bool)
      (obj : Value) (b : Bool) (before after : List Value) (i : Value) (t : step)
      (obj1 root1 : Value) :
      s.op = .search →
      (if findnomap then Outcome.ok true
        else s.singleReturn.bind fun single => .ok (!single)) = .ok b →
      get_search (fun o => step.parse E next o rootnode) obj = .ok (before ++ i :: after) →
      (b && !rest.isEmpty) = true →
      (∀ x ∈ before, x.isContainer = true → (Lookup.loop E rest x false x).isOk = true) →
      i.isContainer = true →
      Lookup.applies E rest i false i t obj1 root1 →
      Lookup.applies E (s :: next :: rest) rootnode findnomap obj t obj1 root1

/-- The document `{"a":[{"k":[{"f":"x"}]},{"k":[{"f":5}]}]}`. -/
def sampleShelves : Value :=
  .obj [(['a'], .arr [.obj [(['k'], .arr [.obj [(['f'], .str ['x'])]])],
    .obj [(['k'], .arr [.obj [(['f'], .num 5)]])]])]

/-- The element `{"k":[{"f":5}]}` of `sampleShelves`. -/
def sampleShelf : Value := .obj [(['k'], .arr [.obj [(['f'], .num 5)]])]

/-- The compiled step `k[?(@.f =~ /x/i)]`. -/
def sampleRegexStep : step :=
  .mk .filter ['k'] (.text "@.f =~ /x/i".toList)
    (.mk ['@', '.', 'f'] ['=', '~'] ['/', 'x', '/', 'i'] (some ['x'])
      (some (.mk ['@', '.', 'f'] [keyStep ['f']])) none)

/-- The array `[{"k":[1,2,3]},{"k":[1]}]`. -/
def sampleSlices : Value :=
  .arr [.obj [(['k'], .arr [.num 1, .num 2, .num 3])], .obj [(['k'], .arr [.num 1])]]

/-- The compiled nested path `@.k[?(@.f =~ /x/i)]`. -/
def sampleNested : Compiled :=
  .mk "@.k[?(@.f =~ /x/i)]".toList
    [.mk .filter ['k'] (.text "@.f =~ /x/i".toList) (regexFilter ['f'] ['x'])]

/-- A value is an array (`[]interface{}`). -/
def Value.isArr : Value → Bool
  | .arr _ => true
  | _ => false

/-- A step that selects slots of the container it is applied to: a Key step,
an Index step, a Range step or a wildcard (no Filter step, no recursive
descent, no root step). -/
def selectsSlots (s : step) : Bool :=
  match s.op with
  | .key | .idx | .range | .scan => true
  | _ => false

/-- A path one of whose steps may select several slots: its result is a
list. -/
def manyResults (steps : List step) : Bool := steps.any fun s => !selectsOne s

/-- A result of `Lookup` consists solely of `V`: it is `V` or nil for a path
that selects one slot, a list whose elements all are `V` for a path that may
select several. -/
def solelyV (V : Value) (many : Bool) (r : Value) : Prop :=
  if many then ∃ vs, r = .arr vs ∧ ∀ v ∈ vs, v = V
  else r = V ∨ r = .null

/-- The matches of a result `r0` are kept in the result `r`: when `r0` is not
nil, `r` is not nil (a path that selects one slot); both are lists, and `r` is
not empty when `r0` is not (a path that may select several). -/
def keepsMatches (many : Bool) (r0 r : Value) : Prop :=
  if many then ∃ l0 l, r0 = .arr l0 ∧ r = .arr l ∧ (l0 ≠ [] → l ≠ [])
  else r0.isNull = false → r.isNull = false

/-- Every step that may select several slots is the last one, or one of the
steps behind it may select several too: the residual lookups of every fan-out
return lists. -/
def fansIntoLists : List step → Bool
  | [] => true
  | s :: rest => (selectsOne s || rest.isEmpty || manyResults rest) && fansIntoLists rest

/-- The kind of a value: nil, boolean, number, text, array, object. -/
def Value.kind : Value → Nat
  | .null => 0
  | .bool _ => 1
  | .num _ => 2
  | .str _ => 3
  | .arr _ => 4
  | .obj _ => 5

/-- The shell of a value: its kind with, for a container, the name and the
kind of every slot. -/
def Value.shell : Value → Nat × List (Str × Nat)
  | .arr xs => (4, xs.map fun x => ([], x.kind))
  | .obj kvs => (5, kvs.map fun kv => (kv.1, kv.2.kind))
  | .null => (0, [])
  | .bool _ => (1, [])
  | .num _ => (2, [])
  | .str _ => (3, [])

/-- The number of the first slot with the name `key`. -/
def slotOf (key : Str) : List (Str × Nat) → Option Nat
  | [] => none
  | (k, _) :: rest =>
    if k = key then some 0
    else match slotOf key rest with
      | some i => some (i + 1)
      | none => none

/-- The slot `k` exists and does not hold nil. -/
def isLive (slots : List (Str × Nat)) (k : Nat) : Bool :=
  match slots[k]? with
  | some c => c.2 != 0
  | none => false

/-- The slots that do not hold nil, in order. -/
def liveOf (slots : List (Str × Nat)) : List Nat :=
  (List.range slots.length).filter (isLive slots)

/-- The slots the requested indices resolve to in an array of length `n`, in
request order; the error of `get_idx` at the first index out of range. -/
def resolveSlots (n : Nat) : List Int → Outcome (List Nat)
  | [] => .ok []
  | i :: rest =>
    match resolveSlot n i with
    | some k => (resolveSlots n rest).bind fun ks => .ok (k :: ks)
    | none => .error .indexOutOfRange

/-- The slots a Range step selects in an array of length `n`: the checks of
`get_range`, then the slots from `_frm` up to `_to`; the slice expression
panics when `_to` lies before `_frm`. -/
def rangeSlots (n : Nat) (frm to' : Option Int) : Outcome (List Nat) :=
  let length : Int := n
  let fv : Int := frm.getD 0
  let tv : Int := to'.getD (length - 1)
  let _frm : Int := if fv < 0 then length + fv else fv
  let _to : Int := if tv < 0 then length + tv + 1 else wrapInt (tv + 1)
  if _frm < 0 ∨ _frm ≥ length then .error .fromOutOfRange
  else if _to < 0 ∨ _to > length then .error .toOutOfRange
  else if _frm ≤ _to then .ok (List.range' _frm.toNat (_to.toNat - _frm.toNat))
  else .panic

/-- What a step selects in a container: nothing (`miss`), one slot (`hit`) or
a list of slots (`many`). -/
inductive Sel where
  | miss
  | hit (n : Nat)
  | many (ns : List Nat)

/-- What a Key step selects in a value with the given shell. -/
def selKey (key : Str) (sh : Nat × List (Str × Nat)) : Outcome Sel :=
  if sh.1 = 5 then
    match slotOf key sh.2 with
    | some n => .ok (.hit n)
    | none => .ok .miss
  else .ok .miss

/-- What an Index step without key selects in a value with the given shell;
with `all` the slots that hold nil are listed too (the slots `get_idx`
overwrites), without it they are left out (the elements `step.parse`
appends). -/
def selIdx (all : Bool) (args : Args) (sh : Nat × List (Str × Nat)) : Outcome Sel :=
  match args with
  | .ints [] => .error .emptyIndex
  | .ints [x] =>
    if sh.1 = 4 then
      match resolveSlot sh.2.length x with
      | some k => .ok (.hit k)
      | none => .error .indexOutOfRange
    else .ok .miss
  | .ints (x :: y :: more) =>
    if sh.1 = 4 then
      (resolveSlots sh.2.length (x :: y :: more)).bind fun ks =>
        .ok (.many (if all then ks else ks.filter (isLive sh.2)))
    else .ok (.many [])
  | _ => .error .rangeNotNumber

/-- What a Range step without key selects in a value with the given shell. -/
def selRange (args : Args) (sh : Nat × List (Str × Nat)) : Outcome Sel :=
  match args with
  | .bounds frm to' =>
    if sh.1 = 4 then (rangeSlots sh.2.length frm to').bind fun ks => .ok (.many ks)
    else .error .notSlice
  | _ => .error .rangeArgs

/-- What a wildcard selects in a value with the given shell. -/
def selScan (sh : Nat × List (Str × Nat)) : Outcome Sel :=
  .ok (.many (if sh.1 = 4 ∨ sh.1 = 5 then liveOf sh.2 else []))

/-- What a step that selects slots, an Index or Range step without key,
selects in a value with the given shell. -/
def selAt (all : Bool) (s : step) (sh : Nat × List (Str × Nat)) : Outcome Sel :=
  match s.op with
  | .key => selKey s.key sh
  | .idx => selIdx all s.args sh
  | .range => selRange s.args sh
  | .scan => selScan sh
  | _ => .error .unsupportedOp

/-- The value a selection stands for in the container `v`. -/
def Sel.read (v : Value) : Sel → Value
  | .miss => .null
  | .hit n => v.child n
  | .many ns => .arr (ns.map v.child)

/-- The references a selection stands for in the container at the place
`loc`. -/
def Sel.found (loc : Loc) : Sel → Found
  | .miss => .one (.val .null)
  | .hit n => .one (.at (loc ++ [n]))
  | .many ns => .many (ns.map fun n => .at (loc ++ [n]))

/-- The slots of a selection. -/
def Sel.slots : Sel → List Nat
  | .miss => []
  | .hit n => [n]
  | .many ns => ns

/-- The container `v` with the given slots overwritten by `V`. -/
def Value.setSlots (v V : Value) (ns : List Nat) : Value :=
  ns.foldl (fun w n => w.setChild n V) v

/-- The step without its key (`[0]` for `a[0]`). -/
def step.unkeyed (s : step) : step := .mk s.op [] s.args s.filter

/-- A step that is no Index or Range step under a key. -/
def keyless (s : step) : Bool :=
  match s.op with
  | .idx | .range => s.key.isEmpty
  | _ => true

/-- What the fan-out loop returns after the result `r` of a residual lookup,
`newret` being what the elements behind gave: a nil result is skipped, a list
result is appended element by element. -/
def Lookup.fanout.spread (r : Value) (newret : List Value) : List Value :=
  match r with
  | .null => newret
  | .arr rlist => rlist ++ newret
  | _ => r :: newret

/-- The lookup along `steps` in the value `x` returns a result that consists
solely of `V`, whatever the root. -/
def readsSolely (E : Ext) (V : Value) (steps : List step) (x : Value) : Prop :=
  ∀ root, ∃ r, Lookup.loop E steps root false x = .ok r ∧ solelyV V (manyResults steps) r

/-- The lookup along `steps` in the value `y` keeps the matches of the lookup
in the value `x`, whatever the roots. -/
def keepsReads (E : Ext) (steps : List step) (x y : Value) : Prop :=
  ∀ root r root1 r1, Lookup.loop E steps root false x = .ok r →
    Lookup.loop E steps root1 false y = .ok r1 → keepsMatches (manyResults steps) r r1

/-- The replace-then-read fixed point of the walk along `steps` from the place
`loc` of the document: a walk with the replacement `V` that returns a result
has put a value of the same kind at the place, in which the lookup returns a
result that consists solely of `V` and keeps the matches of the lookup
before. -/
def fixedAt (E : Ext) (V : Value) (steps : List step) (doc : Value) (loc : Loc) : Prop :=
  ∀ root doc1 r, Lookup.loop.write E V steps root false doc (.at loc) = ⟨doc1, .ok r⟩ →
    ∃ w, doc1 = doc.put loc w ∧ w.kind = (doc.get loc).kind ∧
      readsSolely E V steps w ∧ keepsReads E steps (doc.get loc) w

/-! ## Properties -/

@[simp] theorem Outcome.bind_ok {α β : Type} (a : α) (f : α → Outcome β) :
    (Outcome.ok a).bind f = f a := rfl

@[simp] theorem Outcome.bind_error {α β : Type} (e : Err) (f : α → Outcome β) :
    (Outcome.error e : Outcome α).bind f = .error e := rfl

@[simp] theorem Outcome.bind_panic {α β : Type} (f : α → Outcome β) :
    (Outcome.panic : Outcome α).bind f = .panic := rfl

@[simp] theorem Outcome.bind_exhausted {α β : Type} (f : α → Outcome β) :
    (Outcome.exhausted : Outcome α).bind f = .exhausted := rfl

theorem followKeys_null (ks : List Str) : followKeys ks .null = .null := by
  cases ks <;> rfl

/-- What `get_key` returns is the first step of `followKeys`. -/
theorem followKeys_cons (k : Str) (ks : List Str) (obj : Value) :
    ∃ v, get_key obj k = .ok v ∧ followKeys (k :: ks) obj = followKeys ks v := by
  cases obj with
  | obj kvs =>
    cases h : mapGet k kvs with
    | none => exact ⟨.null, by simp [get_key, h], by simp [followKeys, h, followKeys_null]⟩
    | some v => exact ⟨v, by simp [get_key, h], by simp [followKeys, h]⟩
  | _ => exact ⟨.null, rfl, by simp [followKeys, followKeys_null]⟩

/-- The loop of `Lookup` over key steps follows the keys. -/
theorem Lookup.loop_keys (E : Ext) (steps : List step) (h : ∀ s ∈ steps, s.op = .key)
    (rootnode obj : Value) :
    Lookup.loop E steps rootnode false obj = .ok (followKeys (steps.map step.key) obj) := by
  induction steps generalizing obj with
  | nil => simp [Lookup.loop, followKeys]
  | cons s rest ih =>
    obtain ⟨op, key, args, filter⟩ := s
    have hop : op = .key := h _ (List.mem_cons_self _ _)
    subst hop
    have hrest : ∀ s ∈ rest, s.op = .key := fun s hs => h s (List.mem_cons_of_mem _ hs)
    obtain ⟨v, hv, hf⟩ := followKeys_cons key (rest.map step.key) obj
    have hparse : step.parse E (.mk .key key args filter) obj rootnode = .ok v := by
      simp [step.parse, hv]
    rw [Lookup.loop]
    simp only [step.singleReturn, step.op, Outcome.bind_ok, hparse, Bool.not_true, Bool.or_false,
      Bool.false_and, List.map_cons, step.key, hf]
    cases v <;> simp [ih hrest]

theorem wrapInt_id (x : Int) (h1 : -(2 ^ 63) ≤ x) (h2 : x < 2 ^ 63) : wrapInt x = x := by
  unfold wrapInt
  omega

theorem index_get (xs : List Value) (k : Nat) (v : Value) (h : xs[k]? = some v) :
    index xs (k : Int) = .ok v := by
  simp [index, h]

/-- `get_idx` at a position that exists. -/
theorem get_idx_nonneg (xs : List Value) (k : Nat) (v : Value) (h : xs[k]? = some v) :
    get_idx (.arr xs) (k : Int) = .ok v := by
  have hk : k < xs.length := by
    rcases Nat.lt_or_ge k xs.length with h' | h'
    · exact h'
    · rw [List.getElem?_eq_none h'] at h; cases h
  simp only [get_idx]
  rw [if_pos (by omega), if_neg (by omega)]
  exact index_get xs k v h

/-- `get_idx` at a negative index that wraps to a position that exists. -/
theorem get_idx_neg (xs : List Value) (k : Nat) (v : Value) (h : xs[k]? = some v) :
    get_idx (.arr xs) ((k : Int) - xs.length) = .ok v := by
  have hk : k < xs.length := by
    rcases Nat.lt_or_ge k xs.length with h' | h'
    · exact h'
    · rw [List.getElem?_eq_none h'] at h; cases h
  simp only [get_idx]
  rw [if_neg (by omega), if_neg (by omega)]
  have : (xs.length : Int) + ((k : Int) - xs.length) = (k : Int) := by omega
  rw [this]
  exact index_get xs k v h

/-- `get_idx` outside `-n <= i < n`. -/
theorem get_idx_out (xs : List Value) (i : Int)
    (h : ¬ (-(xs.length : Int) ≤ i ∧ i < xs.length)) :
    get_idx (.arr xs) i = .error .indexOutOfRange := by
  simp only [get_idx]
  by_cases h0 : i ≥ 0
  · rw [if_pos h0, if_pos (by omega)]
  · rw [if_neg h0, if_pos (by omega)]

/-- `Lookup` on a path of one `Index` step with one index and no key is `get_idx`. -/
theorem Lookup_single_idx (E : Ext) (path : Str) (i : Int) (xs : List Value) :
    Compiled.Lookup E (.mk path [idxStep [] [i]]) (.arr xs) = get_idx (.arr xs) i := by
  simp only [Compiled.Lookup, Lookup.guard, Lookup.loop, idxStep, step.singleReturn, step.op,
    step.args, step.parse, List.length_nil, List.length_singleton, Outcome.bind_ok]
  cases h : get_idx (.arr xs) i with
  | ok v => cases v <;> simp [h]
  | _ => simp [h]

/-- `Lookup` on a path of one `Range` step without key is `get_range`. -/
theorem Lookup_single_range (E : Ext) (path : Str) (frm to' : Option Int) (xs : List Value) :
    Compiled.Lookup E (.mk path [rangeStep [] frm to']) (.arr xs) =
      (get_range (.arr xs) frm to').bind fun res => .ok (.arr res) := by
  simp only [Compiled.Lookup, Lookup.guard, Lookup.loop, rangeStep, step.singleReturn, step.op,
    step.parse, List.length_nil, Outcome.bind_ok]
  cases h : get_range (.arr xs) frm to' <;> simp [h]

/-- The bounds `get_range` computes are the resolved bounds, when the length
and the bounds fit in an `int`. -/
theorem get_range_resolved (xs : List Value) (frm to' : Option Int)
    (hn : (xs.length : Int) < 2 ^ 63) (hf : isInt64 frm) (ht : isInt64 to') :
    get_range (.arr xs) frm to' =
      if resolveFrom xs.length frm < 0 ∨ resolveFrom xs.length frm ≥ xs.length then
        .error .fromOutOfRange
      else if resolveTo xs.length to' < 0 ∨ resolveTo xs.length to' > xs.length then
        .error .toOutOfRange
      else slice xs (resolveFrom xs.length frm) (resolveTo xs.length to') := by
  have hF : (if frm.getD 0 < 0 then (xs.length : Int) + frm.getD 0 else frm.getD 0) =
      resolveFrom xs.length frm := by
    cases frm <;> simp [resolveFrom]
  by_cases hFb : resolveFrom xs.length frm < 0 ∨ resolveFrom xs.length frm ≥ xs.length
  · simp only [get_range, hF, if_pos hFb]
  · have hpos : 0 < (xs.length : Int) := by
      have := hFb; omega
    simp only [get_range, hF, if_neg hFb]
    cases to' with
    | none =>
      have h1 : ¬ ((xs.length : Int) - 1 < 0) := by omega
      have h2 : wrapInt ((xs.length : Int) - 1 + 1) = xs.length := by
        rw [wrapInt_id] <;> omega
      simp only [Option.getD_none, if_neg h1, h2, resolveTo]
    | some t =>
      simp only [isInt64] at ht
      by_cases ht0 : t < 0
      · simp only [Option.getD_some, if_pos ht0, resolveTo]
      · by_cases hmax : t + 1 < 2 ^ 63
        · have h2 : wrapInt (t + 1) = t + 1 := by rw [wrapInt_id] <;> omega
          simp only [Option.getD_some, if_neg ht0, resolveTo, h2]
        · have ht' : t = 2 ^ 63 - 1 := by omega
          have h2 : wrapInt (t + 1) < 0 := by
            subst ht'; unfold wrapInt; omega
          have h3 : t + 1 > (xs.length : Int) := by omega
          simp only [Option.getD_some, if_neg ht0, resolveTo]
          rw [if_pos (Or.inl h2), if_pos (Or.inr h3)]

/-- The slice `jsonarr[lo:hi]` of well-ordered bounds. -/
theorem slice_ok (xs : List Value) (lo hi : Nat) (h1 : lo ≤ hi) (h2 : hi ≤ xs.length) :
    slice xs (lo : Int) (hi : Int) = .ok ((xs.drop lo).take (hi - lo)) := by
  simp only [slice]
  rw [if_pos (by omega)]
  simp

/-- `Lookup` compiles the path and looks the document up in the result. -/
theorem Lookup_of_Compile (E : Ext) (D : Value) (jpath : Str) (c : Compiled)
    (h : Compile E jpath = .ok c) : Lookup E D jpath = Compiled.Lookup E c D := by
  simp [Lookup, h]

/-- `$[f:]` with `0 <= f < n`: the elements from position `f` on. -/
theorem Lookup_range_from (E : Ext) (path : Str) (xs : List Value)
    (hn : (xs.length : Int) < 2 ^ 63) (f : Nat) (hf : f < xs.length) :
    Compiled.Lookup E (.mk path [rangeStep [] (some (f : Int)) none]) (.arr xs) =
      .ok (.arr (xs.drop f)) := by
  have hf0 : ¬ ((f : Int) < 0) := by omega
  rw [Lookup_single_range, get_range_resolved xs (some (f : Int)) none hn
    (by simp only [isInt64]; omega) (by simp only [isInt64])]
  simp only [resolveFrom, resolveTo, if_neg hf0]
  rw [if_neg (by omega), if_neg (by omega), slice_ok xs f xs.length (by omega) (le_refl _)]
  simp

/-- `$[:t]` with `0 <= t < n`: the elements at the positions `0..t`. -/
theorem Lookup_range_to (E : Ext) (path : Str) (xs : List Value)
    (hn : (xs.length : Int) < 2 ^ 63) (t : Nat) (ht : t < xs.length) :
    Compiled.Lookup E (.mk path [rangeStep [] none (some (t : Int))]) (.arr xs) =
      .ok (.arr (xs.take (t + 1))) := by
  have ht0 : ¬ ((t : Int) < 0) := by omega
  rw [Lookup_single_range, get_range_resolved xs none (some (t : Int)) hn
    (by simp only [isInt64]) (by simp only [isInt64]; omega)]
  simp only [resolveFrom, resolveTo, if_neg ht0]
  rw [if_neg (by omega), if_neg (by omega)]
  have := slice_ok xs 0 (t + 1) (by omega) (by omega)
  simp only [Nat.cast_zero, Nat.cast_add, Nat.cast_one] at this
  rw [this]
  simp

/-- `$[-k:]` with `1 <= k <= n`: the last `k` elements. -/
theorem Lookup_range_last (E : Ext) (path : Str) (xs : List Value)
    (hn : (xs.length : Int) < 2 ^ 63) (k : Nat) (hk1 : 1 ≤ k) (hk2 : k ≤ xs.length) :
    Compiled.Lookup E (.mk path [rangeStep [] (some (-(k : Int))) none]) (.arr xs) =
      .ok (.arr (xs.drop (xs.length - k))) := by
  have hk0 : -(k : Int) < 0 := by omega
  rw [Lookup_single_range, get_range_resolved xs (some (-(k : Int))) none hn
    (by simp only [isInt64]; omega) (by simp only [isInt64])]
  simp only [resolveFrom, resolveTo, if_pos hk0]
  rw [if_neg (by omega), if_neg (by omega)]
  have h := slice_ok xs (xs.length - k) xs.length (by omega) (le_refl _)
  have hc : ((xs.length - k : Nat) : Int) = (xs.length : Int) + -(k : Int) := by omega
  rw [hc] at h
  rw [h]
  simp

theorem Compile_range_from_1 (E : Ext) : Compile E "$[1:]".toList =
    .ok (.mk "$[1:]".toList [rangeStep [] (some ((1 : Nat) : Int)) none]) := rfl

theorem Compile_range_to_2 (E : Ext) : Compile E "$[:2]".toList =
    .ok (.mk "$[:2]".toList [rangeStep [] none (some ((2 : Nat) : Int))]) := rfl

theorem Compile_range_last_2 (E : Ext) : Compile E "$[-2:]".toList =
    .ok (.mk "$[-2:]".toList [rangeStep [] (some (-((2 : Nat) : Int))) none]) := rfl

theorem Compile_range_star (E : Ext) : Compile E "$[*]".toList =
    .ok (.mk "$[*]".toList [rangeStep [] none none]) := rfl

theorem Compile_range_colon (E : Ext) : Compile E "$[:]".toList =
    .ok (.mk "$[:]".toList [rangeStep [] none none]) := rfl

/-- The Range step with both bounds unset: the whole of a non-empty array, an
error on the empty one. -/
theorem Lookup_range_all (E : Ext) (path : Str) (xs : List Value)
    (hn : (xs.length : Int) < 2 ^ 63) :
    Compiled.Lookup E (.mk path [rangeStep [] none none]) (.arr xs) =
      if xs.isEmpty then .error .fromOutOfRange else .ok (.arr xs) := by
  rw [Lookup_single_range, get_range_resolved xs none none hn
    (by simp only [isInt64]) (by simp only [isInt64])]
  simp only [resolveFrom, resolveTo]
  cases xs with
  | nil => simp
  | cons x rest =>
    have hpos : (0 : Int) < ((x :: rest).length : Int) := by
      simp only [List.length_cons]; omega
    rw [if_neg (by omega), if_neg (by omega)]
    have h := slice_ok (x :: rest) 0 (x :: rest).length (by omega) (le_refl _)
    simp only [Nat.cast_zero] at h
    rw [h]
    simp

/-- `get_idx` on an array is the resolved element, or the error. -/
theorem get_idx_resolve (xs : List Value) (i : Int) :
    get_idx (.arr xs) i =
      match resolveIndex xs i with
      | some v => .ok v
      | none => .error .indexOutOfRange := by
  by_cases hin : -(xs.length : Int) ≤ i ∧ i < xs.length
  · by_cases h0 : 0 ≤ i
    · have hk : i.toNat < xs.length := by omega
      have hget : xs[i.toNat]? = some (xs.get ⟨i.toNat, hk⟩) := by
        simp [List.getElem?_eq_getElem hk]
      have hi : i = (i.toNat : Int) := by omega
      have := get_idx_nonneg xs i.toNat _ hget
      rw [← hi] at this
      simp only [resolveIndex, if_pos h0, hget, this]
    · have hk : ((xs.length : Int) + i).toNat < xs.length := by omega
      have hget : xs[((xs.length : Int) + i).toNat]? = some (xs.get ⟨_, hk⟩) := by
        simp [List.getElem?_eq_getElem hk]
      have hi : i = ((((xs.length : Int) + i).toNat : Nat) : Int) - xs.length := by omega
      have := get_idx_neg xs ((xs.length : Int) + i).toNat _ hget
      rw [← hi] at this
      have h1 : 0 ≤ (xs.length : Int) + i := by omega
      simp only [resolveIndex, if_neg h0, if_pos h1, hget, this]
  · rw [get_idx_out xs i hin]
    by_cases h0 : 0 ≤ i
    · have : xs[i.toNat]? = none := List.getElem?_eq_none (by omega)
      simp only [resolveIndex, if_pos h0, this]
    · have h1 : ¬ (0 ≤ (xs.length : Int) + i) := by omega
      simp only [resolveIndex, if_neg h0, if_neg h1]

/-- The index resolves exactly inside `-n <= i < n`. -/
theorem resolveIndex_isSome (xs : List Value) (i : Int) :
    (resolveIndex xs i).isSome = true ↔ (-(xs.length : Int) ≤ i ∧ i < xs.length) := by
  unfold resolveIndex
  by_cases h0 : 0 ≤ i
  · rw [if_pos h0]
    by_cases hk : i.toNat < xs.length
    · simp only [List.getElem?_eq_getElem hk, Option.isSome_some, true_iff]; omega
    · rw [List.getElem?_eq_none (by omega)]
      simp only [Option.isSome_none, Bool.false_eq_true, false_iff]; omega
  · rw [if_neg h0]
    by_cases h1 : 0 ≤ (xs.length : Int) + i
    · have hk : ((xs.length : Int) + i).toNat < xs.length := by omega
      rw [if_pos h1]
      simp only [List.getElem?_eq_getElem hk, Option.isSome_some, true_iff]; omega
    · rw [if_neg h1]
      simp only [Option.isSome_none, Bool.false_eq_true, false_iff]; omega

/-- The loop over several indices, all of which resolve. -/
theorem parse_multi_ok (xs : List Value) (idxs : List Int)
    (h : ∀ i ∈ idxs, -(xs.length : Int) ≤ i ∧ i < xs.length) :
    step.parse.multi (.arr xs) idxs =
      .ok ((idxs.filterMap (resolveIndex xs)).filter fun v => !v.isNull) := by
  induction idxs with
  | nil => rfl
  | cons i rest ih =>
    have hi := (resolveIndex_isSome xs i).mpr (h i (List.mem_cons_self _ _))
    obtain ⟨v, hv⟩ := Option.isSome_iff_exists.mp hi
    have hg := get_idx_resolve xs i
    rw [hv] at hg
    simp only [step.parse.multi, hg, Outcome.bind_ok,
      ih (fun j hj => h j (List.mem_cons_of_mem _ hj)), List.filterMap_cons, hv]
    cases hnull : v.isNull <;> simp [List.filter_cons, hnull]

/-- The loop over several indices, one of which does not resolve. -/
theorem parse_multi_error (xs : List Value) (idxs : List Int)
    (h : ∃ i ∈ idxs, ¬ (-(xs.length : Int) ≤ i ∧ i < xs.length)) :
    step.parse.multi (.arr xs) idxs = .error .indexOutOfRange := by
  induction idxs with
  | nil => obtain ⟨i, hi, _⟩ := h; cases hi
  | cons j rest ih =>
    by_cases hj : -(xs.length : Int) ≤ j ∧ j < xs.length
    · have hrest : ∃ i ∈ rest, ¬ (-(xs.length : Int) ≤ i ∧ i < xs.length) := by
        obtain ⟨i, hi, hni⟩ := h
        rcases List.mem_cons.mp hi with rfl | hi'
        · exact absurd hj hni
        · exact ⟨i, hi', hni⟩
      obtain ⟨v, hv⟩ := Option.isSome_iff_exists.mp ((resolveIndex_isSome xs j).mpr hj)
      have hg := get_idx_resolve xs j
      rw [hv] at hg
      simp only [step.parse.multi, hg, Outcome.bind_ok, ih hrest, Outcome.bind_error]
    · simp only [step.parse.multi, get_idx_out xs j hj, Outcome.bind_error]

/-- `Lookup` on a path of one `Index` step with two or more indices and no key
is the loop over the indices. -/
theorem Lookup_multi_idx (E : Ext) (path : Str) (idxs : List Int) (h2 : 2 ≤ idxs.length)
    (xs : List Value) :
    Compiled.Lookup E (.mk path [idxStep [] idxs]) (.arr xs) =
      (step.parse.multi (.arr xs) idxs).bind fun res => .ok (.arr res) := by
  match idxs, h2 with
  | x :: y :: more, _ =>
    simp only [Compiled.Lookup, Lookup.guard, Lookup.loop, idxStep, step.singleReturn, step.op,
      step.args, step.parse, List.length_nil, Outcome.bind_ok]
    cases h : step.parse.multi (.arr xs) (x :: y :: more) <;> simp [h]

theorem Compile_idx_2_0 (E : Ext) : Compile E "$[2,0]".toList =
    .ok (.mk "$[2,0]".toList [idxStep [] [2, 0]]) := rfl

theorem Compile_idx_0_5 (E : Ext) : Compile E "$[0,5]".toList =
    .ok (.mk "$[0,5]".toList [idxStep [] [0, 5]]) := rfl

theorem Compile_wildcard (E : Ext) : Compile E "$.*".toList =
    .ok (.mk "$.*".toList [scanStep]) := rfl

/-- `Lookup` on a path of one Wildcard step is that step, for a document that
is not nil. -/
theorem Lookup_single_scan (E : Ext) (path : Str) (D : Value) (hD : D.isNull = false) :
    Compiled.Lookup E (.mk path [scanStep]) D = step.parse E scanStep D D := by
  have hg : ∀ r, Lookup.guard D r = r := by
    intro r; cases D <;> simp_all [Lookup.guard, Value.isNull]
  simp only [Compiled.Lookup, hg, Lookup.loop, scanStep, step.singleReturn, step.op,
    step.parse, Outcome.bind_ok]
  cases h : get_scan D <;> simp [h]

theorem Lookup.guard_container (i : Value) (r : Outcome Value) (h : i.isNull = false) :
    Lookup.guard i r = r := by
  cases i <;> simp_all [Lookup.guard, Value.isNull]

/-- The fan-out over the elements of a list, for a residual lookup that
follows one key. -/
theorem Lookup.fanout_follow (f : Str) (lookup : Value → Outcome Value)
    (hobj : ∀ kvs, lookup (.obj kvs) = .ok (followKeys [f] (.obj kvs)))
    (harr : ∀ ys, lookup (.arr ys) = .ok .null) (xs : List Value) :
    Lookup.fanout lookup xs = .ok (xs.flatMap (contribution f)) := by
  induction xs with
  | nil => rfl
  | cons i rest ih =>
    cases i with
    | obj kvs =>
      simp only [Lookup.fanout, hobj, Outcome.bind_ok, ih, List.flatMap_cons, contribution,
        followKeys]
      cases hm : mapGet f kvs with
      | none => rfl
      | some v => cases v <;> rfl
    | arr ys =>
      simp only [Lookup.fanout, harr, Outcome.bind_ok, ih, List.flatMap_cons, contribution,
        List.nil_append]
    | null => simp only [Lookup.fanout, ih, List.flatMap_cons, contribution, List.nil_append]
    | bool b => simp only [Lookup.fanout, ih, List.flatMap_cons, contribution, List.nil_append]
    | num n => simp only [Lookup.fanout, ih, List.flatMap_cons, contribution, List.nil_append]
    | str s => simp only [Lookup.fanout, ih, List.flatMap_cons, contribution, List.nil_append]

/-- The fan-out of the residual path `[Key f]` over the elements of a list. -/
theorem Lookup.fanout_key (E : Ext) (f : Str) (xs : List Value) :
    Lookup.fanout (fun i => Lookup.guard i (Lookup.loop E [keyStep f] i false i)) xs =
      .ok (xs.flatMap (contribution f)) := by
  have hloop : ∀ i, Lookup.loop E [keyStep f] i false i = .ok (followKeys [f] i) := by
    intro i
    have := Lookup.loop_keys E [keyStep f] (by simp [keyStep, step.op]) i i
    simpa [keyStep, step.key] using this
  apply Lookup.fanout_follow
  · intro kvs
    show Lookup.guard (.obj kvs) _ = _
    rw [Lookup.guard_container (.obj kvs) _ rfl, hloop]
  · intro ys
    show Lookup.guard (.arr ys) _ = _
    rw [Lookup.guard_container (.arr ys) _ rfl, hloop]
    rfl

/-- The loop of `get_filtered` for a predicate that always returns. -/
theorem get_filtered.loop_total (p : Value → Bool) (eval_filter : Value → Outcome Bool)
    (h : ∀ v, eval_filter v = .ok (p v)) (xs : List Value) :
    get_filtered.loop eval_filter xs = .ok (xs.filter p) := by
  induction xs with
  | nil => rfl
  | cons x rest ih =>
    simp only [get_filtered.loop, h, Outcome.bind_ok, ih, List.filter_cons]

/-- The predicate `@.tag` holds of the elements that have a non-null member
`tag`; it returns for every element, the nil one included. -/
theorem eval_filter_exists (E : Ext) (tag : Str) (tmp root : Value) :
    filterParam.eval_filter E (existsFilter tag) tmp root = .ok (hasMember tag tmp) := by
  have hloop : ∀ i, Lookup.loop E [keyStep tag] i false i = .ok (followKeys [tag] i) := by
    intro i
    have := Lookup.loop_keys E [keyStep tag] (by simp [keyStep, step.op]) i i
    simpa [keyStep, step.key] using this
  have hne : ¬ (['e', 'x', 'i', 's', 't', 's'] = ['=', '~']) := by decide
  simp only [existsFilter, filterParam.eval_filter, if_neg hne, eval_filter_normal, get_lp_v,
    HasPrefix, beq_self_eq_true, Bool.and_self, if_true, Compiled.Lookup.opt, Compiled.Lookup,
    hloop]
  cases tmp with
  | obj m =>
    simp only [Lookup.guard, followKeys, hasMember]
    cases hm : mapGet tag m with
    | none => rfl
    | some t => rfl
  | _ => rfl

theorem Compile_items_tag (E : Ext) : Compile E "$.items[?(@.tag)]".toList =
    .ok (.mk "$.items[?(@.tag)]".toList
      [.mk .filter "items".toList (.text "@.tag".toList) (existsFilter "tag".toList)]) := rfl

/-- `Lookup` on a path of one Filter step with key `key` and predicate
`@.tag`, on an object whose member `key` is an array. -/
theorem Lookup_filter_exists (E : Ext) (path key text tag : Str) (kvs : List (Str × Value))
    (xs : List Value) (hk : key ≠ []) (hm : mapGet key kvs = some (.arr xs)) :
    Compiled.Lookup E (.mk path [.mk .filter key (.text text) (existsFilter tag)]) (.obj kvs) =
      .ok (.arr (xs.filter (hasMember tag))) := by
  have hparse : ∀ root, step.parse E (.mk .filter key (.text text) (existsFilter tag))
      (.obj kvs) root = .ok (.arr (xs.filter (hasMember tag))) := by
    intro root
    simp only [step.parse, ne_eq, hk, not_false_eq_true, if_true, get_key, hm, Outcome.bind_ok,
      get_filtered,
      get_filtered.loop_total (hasMember tag) _ (fun v => eval_filter_exists E tag v root)]
  have hs : step.singleReturn (.mk .filter key (.text text) (existsFilter tag)) = .ok false := rfl
  have hop : (step.mk .filter key (.text text) (existsFilter tag)).op = .filter := rfl
  rw [Compiled.Lookup, Lookup.guard_container (.obj kvs) _ rfl, Lookup.loop]
  simp only [hs, hop, Outcome.bind_ok, hparse, Bool.false_or, Bool.not_false, Bool.true_and,
    List.isEmpty_nil, Bool.not_true, if_false, Bool.false_eq_true, Lookup.loop]

theorem get_search.arr_each (p : Value → Outcome Value) (xs : List Value) :
    get_search.arr p xs = get_search.each (get_search p) (xs.filter fun v => !v.isNull) := by
  induction xs with
  | nil => rfl
  | cons i rest ih =>
    cases hnull : i.isNull with
    | true => simp only [get_search.arr, hnull, if_true, List.filter_cons, Bool.not_true,
        Bool.false_eq_true, if_false, ih]
    | false => simp only [get_search.arr, hnull, Bool.false_eq_true, if_false, List.filter_cons,
        Bool.not_false, if_true, get_search.each, ih]

theorem get_search.map_each (p : Value → Outcome Value) (kvs : List (Str × Value)) :
    get_search.map p kvs =
      get_search.each (get_search p) ((kvs.map Prod.snd).filter fun v => !v.isNull) := by
  induction kvs with
  | nil => rfl
  | cons kv rest ih =>
    obtain ⟨key, i⟩ := kv
    cases hnull : i.isNull with
    | true => simp only [get_search.map, hnull, if_true, List.map_cons, List.filter_cons,
        Bool.not_true, Bool.false_eq_true, if_false, ih]
    | false => simp only [get_search.map, hnull, Bool.false_eq_true, if_false, List.map_cons,
        List.filter_cons, Bool.not_false, if_true, get_search.each, ih]

/-- The body of `get_search` as the source writes it: the bound step applied
to `obj`, then the recursive call on every element of `emptyStep.get_scan(obj)`,
the results appended. -/
theorem get_search_scan (p : Value → Outcome Value) (obj : Value) :
    get_search p obj =
      (p obj).bind fun robj =>
      (get_scan obj).bind fun slist =>
      (get_search.each (get_search p) slist).bind fun cs =>
      .ok (get_search.direct robj ++ cs) := by
  cases obj with
  | arr xs => simp only [get_search, get_search.node, get_search.arr_each, get_scan,
      Outcome.bind_ok]
  | obj kvs => simp only [get_search, get_search.node, get_search.map_each, get_scan,
      Outcome.bind_ok]
  | null => simp only [get_search, get_search.node, get_scan, get_search.each, Outcome.bind_ok]
  | bool b => simp only [get_search, get_search.node, get_scan, get_search.each,
      Outcome.bind_ok]
  | num n => simp only [get_search, get_search.node, get_scan, get_search.each, Outcome.bind_ok]
  | str s => simp only [get_search, get_search.node, get_scan, get_search.each, Outcome.bind_ok]

/-- In a document without arrays no member value is an array. -/
theorem noArraysMembers_get (k : Str) (kvs : List (Str × Value)) (v : Value)
    (h : noArraysMembers kvs = true) (hm : mapGet k kvs = some v) : noArrays v = true := by
  induction kvs with
  | nil => cases hm
  | cons kv rest ih =>
    obtain ⟨key, w⟩ := kv
    simp only [noArraysMembers, Bool.and_eq_true] at h
    simp only [mapGet] at hm
    by_cases hkey : key = k
    · rw [if_pos hkey] at hm
      cases hm
      exact h.1
    · rw [if_neg hkey] at hm
      exact ih h.2 hm

/-- What `get_search` appends for the direct result of a key step, in a
document without arrays. -/
theorem get_search.direct_get (k : Str) (kvs : List (Str × Value))
    (h : noArraysMembers kvs = true) :
    ∃ robj, get_key (.obj kvs) k = .ok robj ∧
      get_search.direct robj =
        (match mapGet k kvs with
          | some v => if v.isNull then [] else [v]
          | none => []) := by
  cases hm : mapGet k kvs with
  | none => exact ⟨.null, by simp [get_key, hm], rfl⟩
  | some v =>
    refine ⟨v, by simp [get_key, hm], ?_⟩
    have hv := noArraysMembers_get k kvs v h hm
    cases v with
    | arr ys => simp [noArrays] at hv
    | _ => rfl

mutual
/-- Recursive descent bound to a key step, on a document without arrays: the
occurrences of the key. -/
theorem get_search_occurrences (k : Str) :
    ∀ v : Value, noArrays v = true →
      get_search (fun o => get_key o k) v = .ok (occurrences k v)
  | .obj kvs, h => by
    have hm : noArraysMembers kvs = true := by simpa [noArrays] using h
    obtain ⟨robj, hget, hdirect⟩ := get_search.direct_get k kvs hm
    simp only [get_search, get_search.node, hget, Outcome.bind_ok,
      get_search_map_occurrences k kvs hm, hdirect, occurrences]
  | .arr xs, h => by simp [noArrays] at h
  | .null, _ => rfl
  | .bool _, _ => rfl
  | .num _, _ => rfl
  | .str _, _ => rfl
/-- Recursive descent over the members of an object without arrays. -/
theorem get_search_map_occurrences (k : Str) :
    ∀ kvs : List (Str × Value), noArraysMembers kvs = true →
      get_search.map (fun o => get_key o k) kvs = .ok (occurrencesMembers k kvs)
  | [], _ => rfl
  | (key, v) :: rest, h => by
    have h' : noArrays v = true ∧ noArraysMembers rest = true := by
      simpa [noArraysMembers] using h
    have hrest := get_search_map_occurrences k rest h'.2
    have hv := get_search_occurrences k v h'.1
    cases hnull : v.isNull with
    | true =>
      have : v = .null := by cases v <;> simp_all [Value.isNull]
      subst this
      simp only [get_search.map, Value.isNull, if_true, hrest, occurrencesMembers, occurrences,
        List.nil_append]
    | false =>
      simp only [get_search.map, hnull, Bool.false_eq_true, if_false, hv, hrest,
        Outcome.bind_ok, occurrencesMembers]
end

/-- `Lookup` on the compiled `$..k`: the marker bound to the key step. -/
theorem Lookup_descent_key (E : Ext) (path k : Str) (D : Value) (hD : D.isNull = false) :
    Compiled.Lookup E (.mk path [searchStep, keyStep k]) D =
      (get_search (fun o => get_key o k) D).bind fun res => .ok (.arr res) := by
  have hs : step.singleReturn searchStep = .ok false := rfl
  have hop : searchStep.op = .search := rfl
  have hp : (fun o => step.parse E (keyStep k) o D) = fun o => get_key o k := by
    funext o; simp [keyStep, step.parse]
  rw [Compiled.Lookup, Lookup.guard_container D _ hD, Lookup.loop]
  simp only [hs, hop, Outcome.bind_ok, hp, List.isEmpty_nil, Bool.not_true, Bool.and_false,
    Bool.false_eq_true, if_false, Lookup.loop]

/-! ## The compiler on plain paths -/

theorem Split_of_not_mem (s : Str) (sep : Char) (h : sep ∉ s) : Split s sep = [s] := by
  induction s with
  | nil => rfl
  | cons c r ih =>
    have hc : c ≠ sep := fun e => h (e ▸ List.mem_cons_self _ _)
    have hr : sep ∉ r := fun m => h (List.mem_cons_of_mem _ m)
    simp [Split, hc, ih hr]

theorem Split_append_sep (a b : Str) (sep : Char) (h : sep ∉ a) :
    Split (a ++ sep :: b) sep = a :: Split b sep := by
  induction a with
  | nil => simp [Split]
  | cons c r ih =>
    have hc : c ≠ sep := fun e => h (e ▸ List.mem_cons_self _ _)
    have hr : sep ∉ r := fun m => h (List.mem_cons_of_mem _ m)
    simp [Split, hc, ih hr]

theorem Index.go_not_mem (c : Char) (p s : Str) (n : Nat) (h : c ∉ s) :
    Index.go (c :: p) s n = -1 := by
  induction s generalizing n with
  | nil => simp [Index.go]
  | cons x r ih =>
    have hx : x ≠ c := fun e => h (e ▸ List.mem_cons_self _ _)
    have hr : c ∉ r := fun m => h (List.mem_cons_of_mem _ m)
    simp [Index.go, HasPrefix, hx, ih (n + 1) hr]

/-- `strings.Index` finds nothing when the first byte of `substr` is absent. -/
theorem Index_not_mem (c : Char) (p s : Str) (h : c ∉ s) : Index s (c :: p) = -1 :=
  Index.go_not_mem c p s 0 h

theorem Index.go_append (c : Char) (a b : Str) (n : Nat) (h : c ∉ a) :
    Index.go [c] (a ++ c :: b) n = ((n + a.length : Nat) : Int) := by
  induction a generalizing n with
  | nil => simp [Index.go, HasPrefix]
  | cons x r ih =>
    have hx : x ≠ c := fun e => h (e ▸ List.mem_cons_self _ _)
    have hr : c ∉ r := fun m => h (List.mem_cons_of_mem _ m)
    have hp : HasPrefix (x :: (r ++ c :: b)) [c] = false := by simp [HasPrefix, hx]
    rw [List.cons_append, Index.go, hp, if_neg (by simp), ih (n + 1) hr, List.length_cons]
    congr 1
    omega

/-- `strings.Index` of a byte: the length of the part in front of its first
occurrence. -/
theorem Index_append (c : Char) (a b : Str) (h : c ∉ a) :
    Index (a ++ c :: b) [c] = (a.length : Int) := by
  simp [Index, Index.go_append c a b 0 h]

theorem Count_of_not_mem (s : Str) (c : Char) (h : c ∉ s) : Count s c = 0 := by
  simp only [Count, Nat.cast_eq_zero, List.length_eq_zero, List.filter_eq_nil_iff, beq_iff_eq]
  intro x hx e
  exact h (e ▸ hx)

theorem Contains_of_not_mem (s : Str) (c : Char) (h : c ∉ s) : Contains s c = false := by
  simp only [Contains, List.any_eq_false, beq_iff_eq]
  intro x hx e
  exact h (e ▸ hx)

/-- The end of the loop of `tokenize` with all brackets closed. -/
theorem tokenize.loop_nil (idx : Nat) (inRegex : Bool) (rets sublist : List Str) :
    tokenize.loop [] idx inRegex rets sublist 0 = .ok rets := by
  simp [tokenize.loop]

/-- One pass of the loop of `tokenize` over a token without `=` whose brackets
are balanced: the token is emitted as it is. -/
theorem tokenize.loop_simple (token : Str) (rest : List Str) (idx : Nat) (rets : List Str)
    (hne : token ≠ []) (heq : '=' ∉ token) (hbal : Count token '[' = Count token ']') :
    tokenize.loop (token :: rest) idx false rets [] 0 =
      tokenize.loop rest (idx + 1) false (rets ++ [token]) [] 0 := by
  have hidx : ¬ (Index token ['=', '~'] > 0) := by
    rw [Index_not_mem '=' ['~'] token heq]; decide
  have hsub : (0 : Int) + Count token '[' - Count token ']' = 0 := by omega
  rw [tokenize.loop]
  simp only [Bool.false_eq_true, if_false, hne, hidx, List.nil_append, hsub, if_true, Join]

/-- One pass of the loop of `tokenize` over an empty segment that does not
follow the marker: the marker `" "` is emitted. -/
theorem tokenize.loop_empty (rest : List Str) (idx : Nat) (rets : List Str)
    (h : rets.getLast? ≠ some [' ']) :
    tokenize.loop ([] :: rest) idx false rets [] 0 =
      tokenize.loop rest (idx + 1) false (rets ++ [[' ']]) [] 0 := by
  rw [tokenize.loop]
  simp only [Bool.false_eq_true, if_false, h, if_true, List.nil_append, Join]

/-- The loop of `tokenize` over tokens without `=` whose brackets are balanced
emits every token. -/
theorem tokenize.loop_all_simple (toks : List Str) (idx : Nat) (rets : List Str)
    (h : ∀ t ∈ toks, t ≠ [] ∧ '=' ∉ t ∧ Count t '[' = Count t ']') :
    tokenize.loop toks idx false rets [] 0 = .ok (rets ++ toks) := by
  induction toks generalizing idx rets with
  | nil => simp [tokenize.loop_nil]
  | cons t rest ih =>
    obtain ⟨h1, h2, h3⟩ := h t (List.mem_cons_self _ _)
    rw [tokenize.loop_simple t rest idx rets h1 h2 h3,
      ih (idx + 1) (rets ++ [t]) (fun u hu => h u (List.mem_cons_of_mem _ hu))]
    simp

theorem plainChar_ne (c d : Char) (h : plainChar c = true) (hd : plainChar d = false) : c ≠ d := by
  intro e; subst e; rw [h] at hd; cases hd

theorem plainName_not_mem (k : Str) (d : Char) (h : plainName k = true)
    (hd : plainChar d = false) : d ∉ k := by
  intro hm
  simp only [plainName, Bool.and_eq_true, List.all_eq_true] at h
  exact plainChar_ne d d (h.2 d hm) hd rfl

theorem plainName_ne_nil (k : Str) (h : plainName k = true) : k ≠ [] := by
  intro e; subst e; simp [plainName] at h

/-- `tokenize` on `$.` followed by a text that does not end in a dot: the
root, then what the loop makes of the segments. -/
theorem tokenize_dollar_dot (body : Str) (c : Char) (hc : c ≠ '.') :
    tokenize ('$' :: '.' :: (body ++ [c])) =
      tokenize.loop (['$'] :: Split (body ++ [c]) '.') 0 false [] [] 0 := by
  have hsuf : HasSuffix ('$' :: '.' :: (body ++ [c])) ['.'] = false := by
    simp [HasSuffix, HasPrefix, hc]
  simp [tokenize, hsuf]

theorem plainChar_special :
    plainChar '.' = false ∧ plainChar '[' = false ∧ plainChar ']' = false ∧
    plainChar '=' = false ∧ plainChar '$' = false ∧ plainChar '@' = false ∧
    plainChar '*' = false ∧ plainChar ' ' = false := by decide

/-- `parse_token` makes a Key step of a plain name. -/
theorem parse_token_plain (E : Ext) (compile : Str → Outcome Compiled) (t : Str)
    (h : plainName t = true) : parse_token E compile t = .ok (keyStep t) := by
  have hs : ∀ d, plainChar d = false → t ≠ [d] := by
    intro d hd e
    exact plainName_not_mem t d h hd (e ▸ List.mem_singleton_self d)
  have h1 : ¬ (t = ['$'] ∨ t = ['@']) := by
    rintro (e | e)
    · exact hs _ plainChar_special.2.2.2.2.1 e
    · exact hs _ plainChar_special.2.2.2.2.2.1 e
  have h2 : ¬ t = ['*'] := hs _ plainChar_special.2.2.2.2.2.2.1
  have h3 : ¬ t = [' '] := hs _ plainChar_special.2.2.2.2.2.2.2
  have h4 : Index t ['['] = -1 := Index_not_mem '[' [] t
    (plainName_not_mem t '[' h plainChar_special.2.1)
  simp only [parse_token, h1, h2, h3, h4, if_false, keyStep]
  rfl

/-- The loop of `Compile` over plain names. -/
theorem Compile.steps_plain (E : Ext) (compile : Str → Outcome Compiled) (ks : List Str)
    (h : ∀ k ∈ ks, plainName k = true) :
    Compile.steps (parse_token E compile) ks = .ok (ks.map keyStep) := by
  induction ks with
  | nil => rfl
  | cons k rest ih =>
    simp only [Compile.steps, parse_token_plain E compile k (h k (List.mem_cons_self _ _)),
      ih (fun j hj => h j (List.mem_cons_of_mem _ hj)), Outcome.bind_ok, List.map_cons]

/-- A plain name is emitted by `tokenize` as it is. -/
theorem plainName_simple (t : Str) (h : plainName t = true) :
    t ≠ [] ∧ '=' ∉ t ∧ Count t '[' = Count t ']' := by
  refine ⟨plainName_ne_nil t h, plainName_not_mem t '=' h plainChar_special.2.2.2.1, ?_⟩
  rw [Count_of_not_mem t '[' (plainName_not_mem t '[' h plainChar_special.2.1),
    Count_of_not_mem t ']' (plainName_not_mem t ']' h plainChar_special.2.2.1)]

theorem Split_Join (sep : Char) (ks : List Str) (hne : ks ≠ []) (h : ∀ k ∈ ks, sep ∉ k) :
    Split (Join ks [sep]) sep = ks := by
  induction ks with
  | nil => exact absurd rfl hne
  | cons a rest ih =>
    cases rest with
    | nil => simpa [Join] using Split_of_not_mem a sep (h a (List.mem_cons_self _ _))
    | cons b more =>
      have hrest := ih (by simp) (fun j hj => h j (List.mem_cons_of_mem _ hj))
      simp only [Join, List.append_assoc, List.singleton_append]
      rw [Split_append_sep a _ sep (h a (List.mem_cons_self _ _)), hrest]

/-- A text that ends in the last byte of a plain name does not end in a dot. -/
theorem plainName_snoc (pre k : Str) (h : plainName k = true) :
    ∃ body c, pre ++ k = body ++ [c] ∧ c ≠ '.' := by
  have hne := plainName_ne_nil k h
  refine ⟨pre ++ k.dropLast, k.getLast hne, ?_, ?_⟩
  · rw [List.append_assoc, List.dropLast_append_getLast]
  · intro e
    exact plainName_not_mem k '.' h plainChar_special.1 (e ▸ List.getLast_mem hne)

theorem Join_snoc (ks : List Str) (hne : ks ≠ []) (h : ∀ k ∈ ks, plainName k = true) :
    ∃ body c, Join ks ['.'] = body ++ [c] ∧ c ≠ '.' := by
  induction ks with
  | nil => exact absurd rfl hne
  | cons a rest ih =>
    cases rest with
    | nil => simpa [Join] using plainName_snoc [] a (h a (List.mem_cons_self _ _))
    | cons b more =>
      obtain ⟨body, c, hb, hc⟩ := ih (by simp) (fun j hj => h j (List.mem_cons_of_mem _ hj))
      refine ⟨a ++ ['.'] ++ body, c, ?_, hc⟩
      simp only [Join, hb, List.append_assoc]

/-- `Compile`, once `tokenize` has returned the root and the tokens `toks`. -/
theorem Compile_of_tokenize (E : Ext) (jpath : Str) (toks : List Str)
    (h : tokenize jpath = .ok (['$'] :: toks)) :
    Compile E jpath =
      (Compile.steps (parse_token E (Compile.go E jpath.length)) toks).bind fun steps =>
        .ok (.mk jpath steps) := by
  simp [Compile, Compile.go, h]

/-- `Compile` on `$.k1.k2...kn` for plain names: the Key steps of the names. -/
theorem Compile_keys (E : Ext) (ks : List Str) (hne : ks ≠ [])
    (h : ∀ k ∈ ks, plainName k = true) :
    Compile E ('$' :: '.' :: Join ks ['.']) =
      .ok (.mk ('$' :: '.' :: Join ks ['.']) (ks.map keyStep)) := by
  obtain ⟨body, c, hb, hc⟩ := Join_snoc ks hne h
  have htok : tokenize ('$' :: '.' :: Join ks ['.']) = .ok (['$'] :: ks) := by
    rw [hb, tokenize_dollar_dot body c hc, ← hb,
      Split_Join '.' ks hne (fun k hk => plainName_not_mem k '.' (h k hk) plainChar_special.1),
      tokenize.loop_simple ['$'] ks 0 [] (by simp) (by decide) (by decide),
      tokenize.loop_all_simple ks 1 _ (fun k hk => plainName_simple k (h k hk))]
    rfl
  rw [Compile_of_tokenize E _ ks htok, Compile.steps_plain E _ ks h]
  rfl

/-- `parse_token` on `key[body]`, for a key that is empty or a plain name and a
non-empty body: the dispatch on the body. -/
theorem parse_token_bracket (E : Ext) (compile : Str → Outcome Compiled) (key body : Str)
    (hkey : key = [] ∨ plainName key = true) (hbody : body ≠ []) :
    parse_token E compile (key ++ '[' :: (body ++ [']'])) =
      parse_token.bracket E compile key body := by
  have hnot : '[' ∉ key := by
    rcases hkey with rfl | h
    · simp
    · exact plainName_not_mem key '[' h plainChar_special.2.1
  have hlen : 3 ≤ (key ++ '[' :: (body ++ [']'])).length := by
    cases body with
    | nil => exact absurd rfl hbody
    | cons b r => simp; omega
  have hs : ∀ d, (key ++ '[' :: (body ++ [']'])) ≠ [d] := by
    intro d e
    have := congrArg List.length e
    simp only [List.length_singleton] at this
    omega
  have h1 : ¬ ((key ++ '[' :: (body ++ [']'])) = ['$'] ∨ (key ++ '[' :: (body ++ [']'])) = ['@']) := by
    rintro (e | e) <;> exact hs _ e
  have hidx : Index (key ++ '[' :: (body ++ [']'])) ['['] = (key.length : Int) :=
    Index_append '[' key _ hnot
  have hneg : ¬ ((key.length : Int) < 0) := by omega
  have hdrop : (key ++ '[' :: (body ++ [']'])).drop key.length = '[' :: (body ++ [']']) := by
    simp
  have htake : (key ++ '[' :: (body ++ [']'])).take key.length = key := by
    simp
  have htail : ¬ (('[' :: (body ++ [']'])).length < 3) := by
    cases body with
    | nil => exact absurd rfl hbody
    | cons b r => simp
  have hinner : (('[' :: (body ++ [']'])).drop 1).take (('[' :: (body ++ [']'])).length - 2) =
      body := by
    simp
  simp only [parse_token, hs, or_self, if_false, hidx, hneg, Int.toNat_ofNat, hdrop, htake,
    htail, hinner]

/-- `Compile` on `$.k[*].f` for plain names `k` and `f`. -/
theorem Compile_key_star_key (E : Ext) (k f : Str) (hk : plainName k = true)
    (hf : plainName f = true) :
    Compile E ('$' :: '.' :: (k ++ ['[', '*', ']', '.'] ++ f)) =
      .ok (.mk ('$' :: '.' :: (k ++ ['[', '*', ']', '.'] ++ f))
        [rangeStep k none none, keyStep f]) := by
  obtain ⟨body, c, hb, hc⟩ := plainName_snoc (k ++ ['[', '*', ']', '.']) f hf
  have hdotk : '.' ∉ k ++ ['[', '*', ']'] := by
    intro hm
    rcases List.mem_append.mp hm with h | h
    · exact plainName_not_mem k '.' hk plainChar_special.1 h
    · simp at h
  have hsplit : Split (k ++ ['[', '*', ']', '.'] ++ f) '.' = [k ++ ['[', '*', ']'], f] := by
    have : k ++ ['[', '*', ']', '.'] ++ f = (k ++ ['[', '*', ']']) ++ '.' :: f := by simp
    rw [this, Split_append_sep _ f '.' hdotk,
      Split_of_not_mem f '.' (plainName_not_mem f '.' hf plainChar_special.1)]
  have hsimple : (k ++ ['[', '*', ']']) ≠ [] ∧ '=' ∉ (k ++ ['[', '*', ']']) ∧
      Count (k ++ ['[', '*', ']']) '[' = Count (k ++ ['[', '*', ']']) ']' := by
    refine ⟨by simp, ?_, ?_⟩
    · intro hm
      rcases List.mem_append.mp hm with h | h
      · exact plainName_not_mem k '=' hk plainChar_special.2.2.2.1 h
      · simp at h
    · have h1 := Count_of_not_mem k '[' (plainName_not_mem k '[' hk plainChar_special.2.1)
      have h2 := Count_of_not_mem k ']' (plainName_not_mem k ']' hk plainChar_special.2.2.1)
      simp only [Count, List.filter_append, List.length_append, Nat.cast_add] at h1 h2 ⊢
      rw [h1, h2]
      rfl
  have htok : tokenize ('$' :: '.' :: (k ++ ['[', '*', ']', '.'] ++ f)) =
      .ok [['$'], k ++ ['[', '*', ']'], f] := by
    rw [hb, tokenize_dollar_dot body c hc, ← hb, hsplit,
      tokenize.loop_simple ['$'] _ 0 [] (by simp) (by decide) (by decide),
      tokenize.loop_simple _ _ 1 _ hsimple.1 hsimple.2.1 hsimple.2.2,
      tokenize.loop_simple f _ 2 _ (plainName_simple f hf).1 (plainName_simple f hf).2.1
        (plainName_simple f hf).2.2,
      tokenize.loop_nil]
    rfl
  have hp1 : ∀ compile, parse_token E compile (k ++ ['[', '*', ']']) =
      .ok (rangeStep k none none) := by
    intro compile
    have := parse_token_bracket E compile k ['*'] (Or.inr hk) (by simp)
    simp only [List.singleton_append] at this
    rw [this]
    rfl
  rw [Compile_of_tokenize E _ _ htok]
  simp only [Compile.steps, hp1, parse_token_plain E _ f hf, Outcome.bind_ok]

/-- `Compile` on `$..k` for a plain name `k`: the marker, then the Key step. -/
theorem Compile_descent_key (E : Ext) (k : Str) (hk : plainName k = true) :
    Compile E ('$' :: '.' :: '.' :: k) =
      .ok (.mk ('$' :: '.' :: '.' :: k) [searchStep, keyStep k]) := by
  obtain ⟨body, c, hb, hc⟩ := plainName_snoc ['.'] k hk
  have hsplit : Split ('.' :: k) '.' = [[], k] := by
    simp [Split, Split_of_not_mem k '.' (plainName_not_mem k '.' hk plainChar_special.1)]
  have htok : tokenize ('$' :: '.' :: '.' :: k) = .ok [['$'], [' '], k] := by
    have hq : ('$' :: '.' :: '.' :: k) = '$' :: '.' :: (['.'] ++ k) := rfl
    rw [hq, hb, tokenize_dollar_dot body c hc, ← hb]
    simp only [List.singleton_append]
    rw [hsplit, tokenize.loop_simple ['$'] _ 0 [] (by simp) (by decide) (by decide),
      tokenize.loop_empty _ 1 _ (by decide),
      tokenize.loop_simple k _ 2 _ (plainName_simple k hk).1 (plainName_simple k hk).2.1
        (plainName_simple k hk).2.2,
      tokenize.loop_nil]
    rfl
  have hp1 : ∀ compile, parse_token E compile [' '] = .ok searchStep := fun _ => rfl
  rw [Compile_of_tokenize E _ _ htok]
  simp only [Compile.steps, hp1, parse_token_plain E _ k hk, Outcome.bind_ok]

/-! ## The compiler on numeric brackets -/

theorem digitChar_toNat : ∀ m, m < 10 → (Nat.digitChar m).toNat = 48 + m := by decide

theorem digitChar_isDigit : ∀ m, m < 10 → (Nat.digitChar m).isDigit = true := by decide

theorem toDigitsCore_append (fuel n : Nat) (acc : List Char) :
    Nat.toDigitsCore 10 fuel n acc = Nat.toDigitsCore 10 fuel n [] ++ acc := by
  induction fuel generalizing n acc with
  | zero => simp [Nat.toDigitsCore]
  | succ f ih =>
    simp only [Nat.toDigitsCore]
    split
    · simp
    · rw [ih (n / 10) (Nat.digitChar (n % 10) :: acc), ih (n / 10) [Nat.digitChar (n % 10)]]
      simp

/-- The digits `Nat.toDigits` writes: one or more decimal digits, whose value
is the number. -/
theorem toDigitsCore_spec (fuel n : Nat) (h : n < fuel) :
    Nat.toDigitsCore 10 fuel n [] ≠ [] ∧
    (∀ c ∈ Nat.toDigitsCore 10 fuel n [], c.isDigit = true) ∧
    digitsValue (Nat.toDigitsCore 10 fuel n []) = n := by
  induction fuel generalizing n with
  | zero => omega
  | succ f ih =>
    have hd : n % 10 < 10 := Nat.mod_lt _ (by norm_num)
    simp only [Nat.toDigitsCore]
    split
    · rename_i h0
      refine ⟨by simp, ?_, ?_⟩
      · intro c hc
        rw [List.mem_singleton.mp hc]
        exact digitChar_isDigit _ hd
      · simp only [digitsValue, List.foldl_cons, List.foldl_nil, digitChar_toNat _ hd]
        omega
    · rename_i h0
      have hlt : n / 10 < f := by omega
      obtain ⟨_, h2, h3⟩ := ih (n / 10) hlt
      rw [toDigitsCore_append]
      refine ⟨by simp, ?_, ?_⟩
      · intro c hc
        rcases List.mem_append.mp hc with hc | hc
        · exact h2 c hc
        · rw [List.mem_singleton.mp hc]
          exact digitChar_isDigit _ hd
      · simp only [digitsValue] at h3
        simp only [digitsValue, List.foldl_append, List.foldl_cons, List.foldl_nil, h3,
          digitChar_toNat _ hd]
        omega

theorem toDigits_spec (n : Nat) :
    Nat.toDigits 10 n ≠ [] ∧ (∀ c ∈ Nat.toDigits 10 n, c.isDigit = true) ∧
    digitsValue (Nat.toDigits 10 n) = n :=
  toDigitsCore_spec (n + 1) n (Nat.lt_succ_self n)

theorem isDigit_bounds (c : Char) (h : c.isDigit = true) : 48 ≤ c.toNat ∧ c.toNat ≤ 57 := by
  simp only [Char.isDigit, Bool.and_eq_true, decide_eq_true_eq] at h
  exact ⟨h.1, h.2⟩

/-- The bytes of the decimal text of an `int` are digits and the sign. -/
theorem Itoa_numChar (i : Int) : ∀ c ∈ Itoa i, numChar c = true := by
  intro c hc
  unfold Itoa at hc
  have hdig := (toDigits_spec i.natAbs).2.1
  split at hc
  · rcases List.mem_cons.mp hc with rfl | hc
    · decide
    · simp [numChar, hdig c hc]
  · simp [numChar, hdig c hc]

theorem Itoa_ne_nil (i : Int) : Itoa i ≠ [] := by
  unfold Itoa
  split
  · simp
  · exact (toDigits_spec i.natAbs).1

/-- `strconv.Atoi` reads the decimal text of an `int` back. -/
theorem Atoi_Itoa (i : Int) (h1 : -(2 ^ 63) ≤ i) (h2 : i < 2 ^ 63) : Atoi (Itoa i) = some i := by
  obtain ⟨hne, hdig, hval⟩ := toDigits_spec i.natAbs
  have hall : (Nat.toDigits 10 i.natAbs).all (fun c => decide (48 ≤ c.toNat ∧ c.toNat ≤ 57))
      = true := by
    rw [List.all_eq_true]
    intro c hc
    simpa using isDigit_bounds c (hdig c hc)
  have hemp : (Nat.toDigits 10 i.natAbs).isEmpty = false := by
    cases hd : Nat.toDigits 10 i.natAbs with
    | nil => exact absurd hd hne
    | cons _ _ => rfl
  obtain ⟨d, ds, hds⟩ : ∃ d ds, Nat.toDigits 10 i.natAbs = d :: ds := by
    cases hd : Nat.toDigits 10 i.natAbs with
    | nil => exact absurd hd hne
    | cons d ds => exact ⟨d, ds, rfl⟩
  have hd0 : d.isDigit = true := hdig d (by rw [hds]; exact List.mem_cons_self _ _)
  have hdm : d ≠ '-' := by intro e; subst e; cases hd0
  have hdp : d ≠ '+' := by intro e; subst e; cases hd0
  have hval' : digitsValue (d :: ds) = (i.natAbs : Int) := by rw [← hds]; exact hval
  rw [hds] at hall hemp
  simp only [digitsValue] at hval'
  by_cases hneg : i < 0
  · have hI : Itoa i = '-' :: d :: ds := by simp [Itoa, hneg, hds]
    rw [hI]
    simp only [Atoi, Atoi.digits, Atoi.neg, hemp, hall, hval', Bool.not_true, Bool.or_self,
      Bool.false_eq_true, if_false, if_true]
    rw [if_neg (by omega)]
    congr 1
    omega
  · have hI : Itoa i = d :: ds := by simp [Itoa, hneg, hds]
    rw [hI]
    have hm1 : Atoi.neg (d :: ds) = false := by
      unfold Atoi.neg
      split
      · rename_i heq; injection heq with e _; exact absurd e hdm
      · rfl
    have hm2 : Atoi.digits (d :: ds) = d :: ds := by
      unfold Atoi.digits
      split
      · rename_i heq; injection heq with e _; exact absurd e hdm
      · rename_i heq; injection heq with e _; exact absurd e hdp
      · rfl
    simp only [Atoi, hm1, hm2, hemp, hall, hval', Bool.not_true, Bool.or_self,
      Bool.false_eq_true, if_false]
    rw [if_neg (by omega)]
    congr 1
    omega

theorem TrimSpace.rune_none (s : Str) (runes : List Str)
    (h : ∀ enc ∈ runes, HasPrefix s enc = false) : TrimSpace.rune s runes = none := by
  induction runes with
  | nil => rfl
  | cons enc more ih =>
    simp only [TrimSpace.rune, h enc (List.mem_cons_self _ _), Bool.false_eq_true, if_false]
    exact ih (fun e he => h e (List.mem_cons_of_mem _ he))

theorem TrimSpace.strip_none (runes : List Str) (fuel : Nat) (s : Str)
    (h : TrimSpace.rune s runes = none) : TrimSpace.strip runes fuel s = s := by
  cases fuel with
  | zero => rfl
  | succ f => simp [TrimSpace.strip, h]

/-- No encoding of a white-space rune starts or ends with a digit or a sign. -/
theorem spaceRunes_numChar :
    (∀ enc ∈ spaceRunes, ∀ c r, HasPrefix (c :: r) enc = true → numChar c = false) ∧
    (∀ enc ∈ spaceRunes.map List.reverse, ∀ c r,
      HasPrefix (c :: r) enc = true → numChar c = false) := by
  have key : ∀ runes : List Str,
      (runes.all fun enc => match enc with
        | [] => false
        | e :: _ => !numChar e) = true →
      ∀ enc ∈ runes, ∀ c r, HasPrefix (c :: r) enc = true → numChar c = false := by
    intro runes hall enc henc c r hp
    have := List.all_eq_true.mp hall enc henc
    cases enc with
    | nil => cases this
    | cons e es =>
      simp only [HasPrefix, Bool.and_eq_true, beq_iff_eq] at hp
      rw [hp.1]
      simpa using this
  exact ⟨key _ (by decide), key _ (by decide)⟩

/-- `strings.TrimSpace` leaves the decimal text of an `int` as it is. -/
theorem TrimSpace_num (s : Str) (h : ∀ c ∈ s, numChar c = true) : TrimSpace s = s := by
  have hstrip : ∀ (runes : List Str) (fuel : Nat) (u : Str),
      (∀ enc ∈ runes, ∀ c r, HasPrefix (c :: r) enc = true → numChar c = false) →
      (∀ c ∈ u, numChar c = true) → (∀ enc ∈ runes, enc ≠ []) →
      TrimSpace.strip runes fuel u = u := by
    intro runes fuel u hr hu hnil
    apply TrimSpace.strip_none
    apply TrimSpace.rune_none
    intro enc henc
    cases u with
    | nil =>
      cases enc with
      | nil => exact absurd rfl (hnil _ henc)
      | cons e es => rfl
    | cons c r =>
      cases hp : HasPrefix (c :: r) enc with
      | false => rfl
      | true =>
        have := hr enc henc c r hp
        rw [hu c (List.mem_cons_self _ _)] at this
        cases this
  have hn1 : ∀ enc ∈ spaceRunes, enc ≠ [] := by decide
  have hn2 : ∀ enc ∈ spaceRunes.map List.reverse, enc ≠ [] := by decide
  simp only [TrimSpace]
  rw [hstrip spaceRunes _ s spaceRunes_numChar.1 h hn1,
    hstrip _ _ s.reverse spaceRunes_numChar.2 (fun c hc => h c (List.mem_reverse.mp hc)) hn2,
    List.reverse_reverse]

/-- `tokenize` on `$[body]` for a body without dot, `=` and bracket: the root
and the one token `[body]`. -/
theorem tokenize_dollar_bracket (body : Str) (h1 : '.' ∉ body) (h2 : '=' ∉ body)
    (h3 : '[' ∉ body) (h4 : ']' ∉ body) :
    tokenize ('$' :: '[' :: (body ++ [']'])) = .ok [['$'], '[' :: (body ++ [']'])] := by
  have hsuf : HasSuffix ('$' :: '[' :: (body ++ [']'])) ['.'] = false := by
    simp [HasSuffix, HasPrefix]
  have hdot : '.' ∉ '[' :: (body ++ [']']) := by
    simp only [List.mem_cons, List.mem_append, List.mem_singleton, not_or]
    exact ⟨by decide, h1, by decide, by simp⟩
  have heq : '=' ∉ '[' :: (body ++ [']']) := by
    simp only [List.mem_cons, List.mem_append, List.mem_singleton, not_or]
    exact ⟨by decide, h2, by decide, by simp⟩
  have hbal : Count ('[' :: (body ++ [']'])) '[' = Count ('[' :: (body ++ [']'])) ']' := by
    have c1 := Count_of_not_mem body '[' h3
    have c2 := Count_of_not_mem body ']' h4
    simp only [Count, List.filter_cons, List.filter_append, List.length_append,
      Nat.cast_add] at c1 c2 ⊢
    simp [c1, c2]
  simp only [tokenize, hsuf]
  simp only [ne_eq, not_true_eq_false, false_and, if_false, Bool.false_eq_true,
    List.get?_eq_getElem?, List.getElem?_cons_succ, List.getElem?_cons_zero]
  have hne : ¬ ('[' = '.') := by decide
  simp only [hne, if_false, List.drop_succ_cons, List.drop_zero]
  rw [Split_of_not_mem _ '.' hdot,
    tokenize.loop_simple ['$'] _ 0 [] (by simp) (by decide) (by decide),
    tokenize.loop_simple _ _ 1 _ (by simp) heq hbal, tokenize.loop_nil]
  rfl

theorem numChar_special :
    numChar '.' = false ∧ numChar '[' = false ∧ numChar ']' = false ∧ numChar '=' = false ∧
    numChar '?' = false ∧ numChar ':' = false ∧ numChar ',' = false ∧ numChar '*' = false := by
  decide

theorem Itoa_not_mem (i : Int) (d : Char) (hd : numChar d = false) : d ∉ Itoa i := by
  intro hm
  rw [Itoa_numChar i d hm] at hd
  cases hd

theorem Join_mem (ks : List Str) (sep : Str) (c : Char) (h : c ∈ Join ks sep) :
    c ∈ sep ∨ ∃ k ∈ ks, c ∈ k := by
  induction ks with
  | nil => cases h
  | cons a rest ih =>
    cases rest with
    | nil => exact Or.inr ⟨a, List.mem_cons_self _ _, by simpa [Join] using h⟩
    | cons b more =>
      simp only [Join, List.mem_append] at h
      rcases h with (h | h) | h
      · exact Or.inr ⟨a, List.mem_cons_self _ _, h⟩
      · exact Or.inl h
      · rcases ih h with h' | ⟨k, hk, hc⟩
        · exact Or.inl h'
        · exact Or.inr ⟨k, List.mem_cons_of_mem _ hk, hc⟩

theorem Join_ne_nil (ks : List Str) (sep : Str) (hne : ks ≠ []) (h : ∀ k ∈ ks, k ≠ []) :
    Join ks sep ≠ [] := by
  cases ks with
  | nil => exact absurd rfl hne
  | cons a rest =>
    have ha := h a (List.mem_cons_self _ _)
    cases rest with
    | nil => simpa [Join] using ha
    | cons b more => simp [Join, ha]

/-- The loop of `parse_token` over the decimal texts of `int`s. -/
theorem parse_token.indices_Itoa (idxs : List Int)
    (h : ∀ i ∈ idxs, -(2 ^ 63) ≤ i ∧ i < 2 ^ 63) :
    parse_token.indices (idxs.map Itoa) = .ok idxs := by
  induction idxs with
  | nil => rfl
  | cons i rest ih =>
    obtain ⟨h1, h2⟩ := h i (List.mem_cons_self _ _)
    simp only [List.map_cons, parse_token.indices, TrimSpace_num _ (Itoa_numChar i),
      Atoi_Itoa i h1 h2, ih (fun j hj => h j (List.mem_cons_of_mem _ hj)), Outcome.bind_ok]

/-- The bound `parse_token` reads off the text of an optional `int`. -/
theorem parse_token.bound_text (b : Option Int) (h : isInt64 b) :
    parse_token.bound (boundText b) = .ok b := by
  cases b with
  | none => rfl
  | some i =>
    simp only [isInt64] at h
    simp only [boundText, parse_token.bound, TrimSpace_num _ (Itoa_numChar i), ne_eq,
      Itoa_ne_nil i, not_false_eq_true, if_true, Atoi_Itoa i h.1 h.2]

/-- `Compile` on `$[i1,i2,...]`, one or more `int`s in decimal: the Index step
of these indices, without key. -/
theorem Compile_index (E : Ext) (idxs : List Int) (hne : idxs ≠ [])
    (h : ∀ i ∈ idxs, -(2 ^ 63) ≤ i ∧ i < 2 ^ 63) :
    Compile E (indexPath idxs) = .ok (.mk (indexPath idxs) [idxStep [] idxs]) := by
  have hmem : ∀ d, numChar d = false → d ≠ ',' → d ∉ Join (idxs.map Itoa) [','] := by
    intro d hd hc hm
    rcases Join_mem _ _ d hm with h' | ⟨k, hk, hdk⟩
    · exact hc (List.mem_singleton.mp h')
    · obtain ⟨i, _, rfl⟩ := List.mem_map.mp hk
      exact Itoa_not_mem i d hd hdk
  have hbody : Join (idxs.map Itoa) [','] ≠ [] :=
    Join_ne_nil _ _ (by simpa using hne) (by
      intro k hk
      obtain ⟨i, _, rfl⟩ := List.mem_map.mp hk
      exact Itoa_ne_nil i)
  have htok := tokenize_dollar_bracket (Join (idxs.map Itoa) [','])
    (hmem _ numChar_special.1 (by decide)) (hmem _ numChar_special.2.2.2.1 (by decide))
    (hmem _ numChar_special.2.1 (by decide)) (hmem _ numChar_special.2.2.1 (by decide))
  have hstar : Join (idxs.map Itoa) [','] ≠ ['*'] := by
    intro e
    exact hmem '*' numChar_special.2.2.2.2.2.2.2 (by decide) (e ▸ List.mem_singleton_self _)
  have hp : ∀ compile, parse_token E compile ('[' :: (Join (idxs.map Itoa) [','] ++ [']'])) =
      .ok (idxStep [] idxs) := by
    intro compile
    have := parse_token_bracket E compile [] _ (Or.inl rfl) hbody
    simp only [List.nil_append] at this
    rw [this]
    simp only [parse_token.bracket,
      Contains_of_not_mem _ '?' (hmem _ numChar_special.2.2.2.2.1 (by decide)),
      Contains_of_not_mem _ ':' (hmem _ numChar_special.2.2.2.2.2.1 (by decide)), hstar,
      Bool.false_eq_true, if_false,
      Split_Join ',' (idxs.map Itoa) (by simpa using hne) (by
        intro k hk
        obtain ⟨i, _, rfl⟩ := List.mem_map.mp hk
        exact Itoa_not_mem i ',' numChar_special.2.2.2.2.2.2.1),
      parse_token.indices_Itoa idxs h, Outcome.bind_ok, idxStep]
  rw [indexPath, Compile_of_tokenize E _ _ htok]
  simp only [Compile.steps, hp, Outcome.bind_ok]

/-- `Compile` on `$[from:to]`, either bound an `int` in decimal or left out: the
Range step of these bounds, without key. -/
theorem Compile_range (E : Ext) (frm to' : Option Int) (hf : isInt64 frm) (ht : isInt64 to') :
    Compile E (rangePath frm to') = .ok (.mk (rangePath frm to') [rangeStep [] frm to']) := by
  have hb : ∀ (b : Option Int) d, numChar d = false → d ∉ boundText b := by
    intro b d hd
    cases b with
    | none => simp [boundText]
    | some i => exact Itoa_not_mem i d hd
  have hmem : ∀ d, numChar d = false → d ≠ ':' → d ∉ boundText frm ++ ':' :: boundText to' := by
    intro d hd hc hm
    rcases List.mem_append.mp hm with h' | h'
    · exact hb frm d hd h'
    · rcases List.mem_cons.mp h' with h'' | h''
      · exact hc h''
      · exact hb to' d hd h''
  have htok := tokenize_dollar_bracket (boundText frm ++ ':' :: boundText to')
    (hmem _ numChar_special.1 (by decide)) (hmem _ numChar_special.2.2.2.1 (by decide))
    (hmem _ numChar_special.2.1 (by decide)) (hmem _ numChar_special.2.2.1 (by decide))
  have hcolon : Contains (boundText frm ++ ':' :: boundText to') ':' = true := by
    simp [Contains]
  have hp : ∀ compile,
      parse_token E compile ('[' :: ((boundText frm ++ ':' :: boundText to') ++ [']'])) =
        .ok (rangeStep [] frm to') := by
    intro compile
    have := parse_token_bracket E compile [] (boundText frm ++ ':' :: boundText to')
      (Or.inl rfl) (by simp)
    simp only [List.nil_append] at this
    rw [this]
    simp only [parse_token.bracket,
      Contains_of_not_mem _ '?' (hmem _ numChar_special.2.2.2.2.1 (by decide)), hcolon,
      Bool.false_eq_true, if_false, if_true,
      Split_append_sep (boundText frm) (boundText to') ':'
        (hb frm ':' numChar_special.2.2.2.2.2.1),
      Split_of_not_mem (boundText to') ':' (hb to' ':' numChar_special.2.2.2.2.2.1),
      parse_token.bound_text frm hf, parse_token.bound_text to' ht, Outcome.bind_ok, rangeStep]
  rw [rangePath, Compile_of_tokenize E _ _ htok]
  simp only [Compile.steps, hp, Outcome.bind_ok]

/-- `get_idx` on an array of length `n`: it returns exactly when `-n <= i < n`,
then the element at `i` or at `n + i`, and the error otherwise. -/
theorem get_idx_spec (xs : List Value) (i : Int) :
    ((get_idx (.arr xs) i).isOk = true ↔ (-(xs.length : Int) ≤ i ∧ i < xs.length)) ∧
    (∀ v, get_idx (.arr xs) i = .ok v →
      (0 ≤ i → xs[i.toNat]? = some v) ∧
      (i < 0 → xs[((xs.length : Int) + i).toNat]? = some v)) ∧
    (¬ (-(xs.length : Int) ≤ i ∧ i < xs.length) →
      get_idx (.arr xs) i = .error .indexOutOfRange) := by
  by_cases hin : -(xs.length : Int) ≤ i ∧ i < xs.length
  · -- in range: name the position and its element
    have key : ∃ k : Nat, k < xs.length ∧ ((0 ≤ i ∧ i = k) ∨ (i < 0 ∧ i = (k : Int) - xs.length)) := by
      by_cases h0 : 0 ≤ i
      · exact ⟨i.toNat, by omega, Or.inl ⟨h0, by omega⟩⟩
      · exact ⟨((xs.length : Int) + i).toNat, by omega, Or.inr ⟨by omega, by omega⟩⟩
    obtain ⟨k, hk, hcase⟩ := key
    have hget : xs[k]? = some (xs.get ⟨k, hk⟩) := by simp [List.getElem?_eq_getElem hk]
    have hres : get_idx (.arr xs) i = .ok (xs.get ⟨k, hk⟩) := by
      rcases hcase with ⟨_, rfl⟩ | ⟨_, rfl⟩
      · exact get_idx_nonneg xs k _ hget
      · exact get_idx_neg xs k _ hget
    rw [hres]
    refine ⟨by simp [Outcome.isOk, hin], ?_, fun h => absurd hin h⟩
    intro v hv
    cases hv
    rcases hcase with ⟨h0, rfl⟩ | ⟨h0, rfl⟩
    · exact ⟨fun _ => by simp [hget], fun h => by omega⟩
    · refine ⟨fun h => by omega, fun _ => ?_⟩
      have : ((xs.length : Int) + ((k : Int) - xs.length)).toNat = k := by omega
      rw [this]; exact hget
  · rw [get_idx_out xs i hin]
    refine ⟨by simp [Outcome.isOk, hin], ?_, fun _ => rfl⟩
    intro v hv; cases hv

/-- The Range step on resolved bounds that are in bounds, `from` beyond `to`:
the slice expression panics. -/
theorem Lookup_range_panics (E : Ext) (path : Str) (xs : List Value)
    (frm to' : Option Int)
    (hn : (xs.length : Int) < 2 ^ 63) (hf : isInt64 frm) (ht : isInt64 to')
    (hF : 0 ≤ resolveFrom xs.length frm ∧ resolveFrom xs.length frm < xs.length)
    (hE : 0 ≤ resolveTo xs.length to' ∧ resolveTo xs.length to' ≤ xs.length)
    (hlt : resolveTo xs.length to' < resolveFrom xs.length frm) :
    Compiled.Lookup E (.mk path [rangeStep [] frm to']) (.arr xs) = .panic := by
  rw [Lookup_single_range, get_range_resolved xs frm to' hn hf ht]
  rw [if_neg (by omega), if_neg (by omega)]
  simp only [slice]
  rw [if_neg (by omega)]
  rfl

/-- The Range step on resolved bounds that are in bounds and in order: the
elements at the positions `F..E-1`. -/
theorem Lookup_range_slice (E : Ext) (path : Str) (xs : List Value)
    (frm to' : Option Int)
    (hn : (xs.length : Int) < 2 ^ 63) (hf : isInt64 frm) (ht : isInt64 to')
    (hF : 0 ≤ resolveFrom xs.length frm ∧ resolveFrom xs.length frm < xs.length)
    (hE : 0 ≤ resolveTo xs.length to' ∧ resolveTo xs.length to' ≤ xs.length)
    (hle : resolveFrom xs.length frm ≤ resolveTo xs.length to') :
    Compiled.Lookup E (.mk path [rangeStep [] frm to']) (.arr xs) =
      .ok (.arr ((xs.drop (resolveFrom xs.length frm).toNat).take
        ((resolveTo xs.length to').toNat - (resolveFrom xs.length frm).toNat))) := by
  rw [Lookup_single_range, get_range_resolved xs frm to' hn hf ht]
  rw [if_neg (by omega), if_neg (by omega)]
  simp only [slice]
  rw [if_pos ⟨hF.1, hle, hE.2⟩]
  rfl

/-- The Range step on a resolved bound that is out of bounds: an evaluation
error. -/
theorem Lookup_range_error (E : Ext) (path : Str) (xs : List Value)
    (frm to' : Option Int)
    (hn : (xs.length : Int) < 2 ^ 63) (hf : isInt64 frm) (ht : isInt64 to')
    (hout : ¬ (0 ≤ resolveFrom xs.length frm ∧ resolveFrom xs.length frm < xs.length) ∨
      ¬ (0 ≤ resolveTo xs.length to' ∧ resolveTo xs.length to' ≤ xs.length)) :
    (Compiled.Lookup E (.mk path [rangeStep [] frm to']) (.arr xs)).isError = true := by
  rw [Lookup_single_range, get_range_resolved xs frm to' hn hf ht]
  by_cases h1 : resolveFrom xs.length frm < 0 ∨ resolveFrom xs.length frm ≥ xs.length
  · rw [if_pos h1]; rfl
  · rw [if_neg h1, if_pos (by omega)]; rfl

/-- `Lookup` on the compiled `$.k[*].f`, on an object whose member `k` is a
non-empty array: the contributions of the elements, concatenated. -/
theorem Lookup_range_star_key (E : Ext) (path k f : Str) (kvs : List (Str × Value))
    (xs : List Value) (hk : k ≠ []) (hm : mapGet k kvs = some (.arr xs)) (hne : xs ≠ [])
    (hn : (xs.length : Int) < 2 ^ 63) :
    Compiled.Lookup E (.mk path [rangeStep k none none, keyStep f]) (.obj kvs) =
      .ok (.arr (xs.flatMap (contribution f))) := by
  have hlen : k.length > 0 := by
    cases k with
    | nil => exact absurd rfl hk
    | cons c r => simp
  have hrange : get_range (.arr xs) none none = .ok xs := by
    have h := Lookup_range_all E [] xs hn
    rw [Lookup_single_range] at h
    cases xs with
    | nil => exact absurd rfl hne
    | cons x rest =>
      cases hr : get_range (.arr (x :: rest)) none none with
      | ok res => rw [hr] at h; simp at h; rw [h]
      | error e => rw [hr] at h; simp at h
      | panic => rw [hr] at h; simp at h
      | exhausted => rw [hr] at h; simp at h
  have hparse : ∀ root, step.parse E (rangeStep k none none) (.obj kvs) root = .ok (.arr xs) := by
    intro root
    simp only [rangeStep, step.parse, if_pos hlen, get_key, hm, Outcome.bind_ok, hrange]
  have hs : step.singleReturn (rangeStep k none none) = .ok false := rfl
  have hop : (rangeStep k none none).op = .range := rfl
  rw [Compiled.Lookup, Lookup.guard_container (.obj kvs) _ rfl, Lookup.loop]
  simp only [hs, hop, Outcome.bind_ok, hparse, Bool.false_eq_true, if_false, Bool.not_false,
    Bool.true_and, List.isEmpty_cons, Lookup.fanout_key, if_true]

theorem map_key_keyStep (ks : List Str) : (ks.map keyStep).map step.key = ks := by
  induction ks with
  | nil => rfl
  | cons k rest ih => simp [keyStep, step.key, ih]

theorem indexPath_5 : indexPath [5] = "$[5]".toList := by decide

theorem indexPath_2_0 : indexPath [2, 0] = "$[2,0]".toList := by decide

theorem rangePath_3_1 : rangePath (some 3) (some 1) = "$[3:1]".toList := by decide

theorem rangePath_to_2 : rangePath none (some 2) = "$[:2]".toList := by decide

/-! ## The fuel of `Compile` suffices -/

theorem brk_append (a b : Str) : brk (a ++ b) = brk a + brk b := by
  simp [brk, List.filter_append]

theorem brk_cons_le (c : Char) (s : Str) : brk s ≤ brk (c :: s) := by
  simp only [brk, List.filter_cons]
  split <;> simp

theorem brk_drop_le (s : Str) (n : Nat) : brk (s.drop n) ≤ brk s := by
  have h := brk_append (s.take n) (s.drop n)
  rw [List.take_append_drop] at h
  omega

theorem brk_take_le (s : Str) (n : Nat) : brk (s.take n) ≤ brk s := by
  have h := brk_append (s.take n) (s.drop n)
  rw [List.take_append_drop] at h
  omega

theorem brk_reverse (s : Str) : brk s.reverse = brk s := by
  simp [brk, List.filter_reverse]

theorem brkSum_append (a b : List Str) : brkSum (a ++ b) = brkSum a + brkSum b := by
  simp [brkSum]

theorem brkSum_cons (a : Str) (l : List Str) : brkSum (a :: l) = brk a + brkSum l := by
  simp [brkSum]

theorem brkSum_mem (l : List Str) (t : Str) (h : t ∈ l) : brk t ≤ brkSum l := by
  induction l with
  | nil => cases h
  | cons a rest ih =>
    rw [brkSum_cons]
    rcases List.mem_cons.mp h with rfl | h'
    · omega
    · have := ih h'; omega

theorem brk_Join (l : List Str) : brk (Join l ['.']) = brkSum l := by
  induction l with
  | nil => rfl
  | cons a rest ih =>
    cases rest with
    | nil => simp [Join, brkSum]
    | cons b more =>
      simp only [Join, brk_append, ih, brkSum_cons]
      have : brk ['.'] = 0 := by decide
      omega

theorem brkSum_Split (s : Str) : brkSum (Split s '.') = brk s := by
  induction s with
  | nil => rfl
  | cons c r ih =>
    simp only [Split]
    split
    · rename_i hc
      subst hc
      rw [brkSum_cons, ih]
      have h1 : brk ([] : Str) = 0 := rfl
      have h2 : brk ('.' :: r) = brk r := by simp [brk]
      omega
    · split
      · rename_i hs
        rw [hs] at ih
        have : brkSum ([] : List Str) = 0 := rfl
        simp only [brkSum_cons, brk, List.filter_cons, List.filter_nil] at ih ⊢
        split <;> simp_all
        omega
      · rename_i t ts hs
        rw [hs] at ih
        simp only [brkSum_cons, brk, List.filter_cons] at ih ⊢
        split
        · simp_all
          omega
        · simp_all

/-- The tokens `tokenize.loop` returns hold no more `[` than the tokens it
was given, together with what it had gathered. -/
theorem tokenize.loop_brk (toks : List Str) :
    ∀ (idx : Nat) (inRegex : Bool) (rets sublist : List Str) (subleft : Int) (out : List Str),
      tokenize.loop toks idx inRegex rets sublist subleft = .ok out →
      brkSum out ≤ brkSum rets + brkSum sublist + brkSum toks := by
  induction toks with
  | nil =>
    intro idx inRegex rets sublist subleft out h
    simp only [tokenize.loop] at h
    split at h
    · cases h
    · cases h; omega
  | cons token rest ih =>
    intro idx inRegex rets sublist subleft out h
    rw [tokenize.loop] at h
    simp only [] at h
    have hsp : brk [' '] = 0 := by decide
    have hnil : brkSum ([] : List Str) = 0 := rfl
    have h0 : brk ([] : Str) = 0 := rfl
    have hstep : ∀ (idx' : Nat) (b : Bool) (rets' sublist' : List Str) (subleft' : Int),
        brkSum rets' + brkSum sublist' ≤ brkSum rets + brkSum sublist + brk token →
        tokenize.loop rest idx' b rets' sublist' subleft' = .ok out →
        brkSum out ≤ brkSum rets + brkSum sublist + brkSum (token :: rest) := by
      intro idx' b rets' sublist' subleft' hle hrun
      have hih := ih _ _ _ _ _ _ hrun
      rw [brkSum_cons]
      omega
    split_ifs at h <;>
      first
        | cases h
        | exact hstep _ _ _ _ _ (by omega) h
        | exact hstep _ _ _ _ _
            (by simp only [brkSum_append, brkSum_cons, brk_Join, hsp, hnil]; omega) h

/-- The tokens `tokenize` returns hold no more `[` than the path. -/
theorem tokenize_brk (p : Str) (toks : List Str) (h : tokenize p = .ok toks) :
    brkSum toks ≤ brk p := by
  cases p with
  | nil => simp [tokenize] at h
  | cons q0 rest =>
    simp only [tokenize] at h
    split_ifs at h with h1 h2
    · cases hq : (q0 :: rest).get? 1 with
      | none => rw [hq] at h; cases h
      | some q1 =>
        rw [hq] at h
        simp only [] at h
        have hb := tokenize.loop_brk _ _ _ _ _ _ _ h
        have hq0 : brk [q0] = 0 := by
          have : q0 ≠ '[' := by
            intro e; subst e
            exact h1 ⟨by decide, by decide⟩
          simp [brk, this]
        have hd := brk_drop_le (q0 :: rest) (if q1 = '.' then 2 else 1)
        have hnil : brkSum ([] : List Str) = 0 := rfl
        rw [brkSum_cons, brkSum_Split, hq0, hnil] at hb
        omega

theorem TrimSpace.rune_drop (s : Str) (runes : List Str) (r : Str)
    (h : TrimSpace.rune s runes = some r) : ∃ n, r = s.drop n := by
  induction runes with
  | nil => cases h
  | cons enc more ih =>
    simp only [TrimSpace.rune] at h
    split at h
    · exact ⟨enc.length, (Option.some.inj h).symm⟩
    · exact ih h

theorem TrimSpace.strip_brk (runes : List Str) (fuel : Nat) (s : Str) :
    brk (TrimSpace.strip runes fuel s) ≤ brk s := by
  induction fuel generalizing s with
  | zero => exact le_refl _
  | succ f ih =>
    simp only [TrimSpace.strip]
    cases h : TrimSpace.rune s runes with
    | none => exact le_refl _
    | some r =>
      obtain ⟨n, rfl⟩ := TrimSpace.rune_drop s runes r h
      exact le_trans (ih _) (brk_drop_le s n)

/-- `strings.TrimSpace` adds no `[`. -/
theorem TrimSpace_brk (s : Str) : brk (TrimSpace s) ≤ brk s := by
  simp only [TrimSpace, brk_reverse]
  refine le_trans (TrimSpace.strip_brk _ _ _) ?_
  rw [brk_reverse]
  exact TrimSpace.strip_brk _ _ _

/-- The fields `parse_filter.scan` returns hold no more `[` than the fields and
the text it was given. -/
theorem parse_filter.scan_brk (M : Nat) (filter : Str) :
    ∀ (f : Str × Str × Str) (tmp : Str) (stage : Nat) (emb : Bool)
      (r : (Str × Str × Str) × Str × Nat),
      parse_filter.scan filter f tmp stage emb = .ok r →
      brk f.1 ≤ M → brk f.2.1 ≤ M → brk f.2.2 ≤ M → brk tmp + brk filter ≤ M →
      brk r.1.1 ≤ M ∧ brk r.1.2.1 ≤ M ∧ brk r.1.2.2 ≤ M ∧ brk r.2.1 ≤ M := by
  have hstore : ∀ (stage : Nat) (tmp : Str) (f : Str × Str × Str),
      brk f.1 ≤ M → brk f.2.1 ≤ M → brk f.2.2 ≤ M → brk tmp ≤ M →
      brk (parse_filter.store stage tmp f).1 ≤ M ∧
      brk (parse_filter.store stage tmp f).2.1 ≤ M ∧
      brk (parse_filter.store stage tmp f).2.2 ≤ M := by
    intro stage tmp f h1 h2 h3 h4
    unfold parse_filter.store
    split <;> exact ⟨by assumption, by assumption, by assumption⟩
  induction filter with
  | nil =>
    intro f tmp stage emb r h h1 h2 h3 h4
    simp only [parse_filter.scan] at h
    cases h
    have h0 : brk ([] : Str) = 0 := rfl
    exact ⟨h1, h2, h3, by show brk tmp ≤ M; omega⟩
  | cons c rest ih =>
    intro f tmp stage emb r h h1 h2 h3 h4
    have hc := brk_cons_le c rest
    have h0 : brk ([] : Str) = 0 := rfl
    have hS := hstore stage tmp f h1 h2 h3 (by omega)
    have hA : brk (tmp ++ [c]) + brk rest ≤ M := by
      rw [brk_append]
      have e : brk (c :: rest) = brk [c] + brk rest := brk_append [c] rest
      omega
    have hB : brk ([] : Str) + brk rest ≤ M := by omega
    have hC : brk tmp + brk rest ≤ M := by omega
    rw [parse_filter.scan] at h
    split_ifs at h <;>
      first
        | cases h
        | exact ih _ _ _ _ _ h h1 h2 h3 hA
        | exact ih _ _ _ _ _ h h1 h2 h3 hC
        | exact ih _ _ _ _ _ h hS.1 hS.2.1 hS.2.2 hB

theorem Outcome.bind_ne_exhausted {α β : Type} (x : Outcome α) (f : α → Outcome β)
    (hx : x ≠ .exhausted) (hf : ∀ a, x = .ok a → f a ≠ .exhausted) :
    x.bind f ≠ .exhausted := by
  cases x with
  | ok a => exact hf a rfl
  | error e => simp [Outcome.bind]
  | panic => simp [Outcome.bind]
  | exhausted => exact absurd rfl hx

theorem tokenize.loop_not_exhausted (toks : List Str) :
    ∀ (idx : Nat) (inRegex : Bool) (rets sublist : List Str) (subleft : Int),
      tokenize.loop toks idx inRegex rets sublist subleft ≠ .exhausted := by
  induction toks with
  | nil =>
    intro idx inRegex rets sublist subleft
    simp only [tokenize.loop]
    split <;> simp
  | cons token rest ih =>
    intro idx inRegex rets sublist subleft
    rw [tokenize.loop]
    simp only []
    split_ifs <;> first | exact ih _ _ _ _ _ | simp

theorem tokenize_not_exhausted (p : Str) : tokenize p ≠ .exhausted := by
  cases p with
  | nil => simp [tokenize]
  | cons q0 rest =>
    simp only [tokenize]
    split_ifs
    · simp
    · simp
    · cases (q0 :: rest).get? 1 with
      | none => simp
      | some q1 => exact tokenize.loop_not_exhausted _ _ _ _ _ _

theorem Index.go_found (c : Char) (s : Str) :
    ∀ n : Nat, 0 ≤ Index.go [c] s n →
      ∃ a b, s = a ++ c :: b ∧ Index.go [c] s n = ((n + a.length : Nat) : Int) := by
  induction s with
  | nil =>
    intro n h
    simp [Index.go] at h
  | cons x r ih =>
    intro n h
    rw [Index.go] at h ⊢
    split_ifs at h ⊢ with hp
    · have hx : x = c := by simpa [HasPrefix] using hp
      exact ⟨[], r, by simp [hx], by simp⟩
    · obtain ⟨a, b, hab, hidx⟩ := ih (n + 1) h
      refine ⟨x :: a, b, by simp [hab], ?_⟩
      rw [hidx, List.length_cons]
      congr 1
      omega

theorem parse_token.bound_not_exhausted (t : Str) : parse_token.bound t ≠ .exhausted := by
  simp only [parse_token.bound]
  split_ifs
  · split <;> simp
  · simp

theorem parse_token.indices_not_exhausted (l : List Str) :
    parse_token.indices l ≠ .exhausted := by
  induction l with
  | nil => simp [parse_token.indices]
  | cons x rest ih =>
    simp only [parse_token.indices]
    split
    · exact Outcome.bind_ne_exhausted _ _ ih (fun _ _ => by simp)
    · simp

theorem regFilterCompile_not_exhausted (E : Ext) (rule : Str) :
    regFilterCompile E rule ≠ .exhausted := by
  simp only [regFilterCompile]
  split_ifs <;> simp

/-- `preCompile` runs out of fuel only where a nested `Compile` does. -/
theorem preCompile_not_exhausted (E : Ext) (compile : Str → Outcome Compiled) (lp op rp : Str)
    (hl : compile lp ≠ .exhausted) (hr : compile rp ≠ .exhausted) :
    preCompile E compile lp op rp ≠ .exhausted := by
  simp only [preCompile]
  refine Outcome.bind_ne_exhausted _ _ ?_ (fun _ _ => ?_)
  · split_ifs
    · exact Outcome.bind_ne_exhausted _ _ (regFilterCompile_not_exhausted E rp)
        (fun _ _ => by simp)
    · simp
  · refine Outcome.bind_ne_exhausted _ _ ?_ (fun _ _ => ?_)
    · split_ifs
      · exact Outcome.bind_ne_exhausted _ _ hl (fun _ _ => by simp)
      · simp
    · refine Outcome.bind_ne_exhausted _ _ ?_ (fun _ _ => by simp)
      split_ifs
      · exact Outcome.bind_ne_exhausted _ _ hr (fun _ _ => by simp)
      · simp

theorem parse_filter.scan_not_exhausted (filter : Str) :
    ∀ (f : Str × Str × Str) (tmp : Str) (stage : Nat) (emb : Bool),
      parse_filter.scan filter f tmp stage emb ≠ .exhausted := by
  induction filter with
  | nil => intro f tmp stage emb; simp [parse_filter.scan]
  | cons c rest ih =>
    intro f tmp stage emb
    rw [parse_filter.scan]
    split_ifs <;> first | exact ih _ _ _ _ | simp

/-- `parse_filter` runs out of fuel only where a nested `Compile` does, and it
calls `Compile` on texts that hold no more `[` than the predicate. -/
theorem parse_filter_not_exhausted (E : Ext) (compile : Str → Outcome Compiled) (filter : Str)
    (h : ∀ q, brk q ≤ brk filter → compile q ≠ .exhausted) :
    parse_filter E compile filter ≠ .exhausted := by
  simp only [parse_filter]
  refine Outcome.bind_ne_exhausted _ _ (parse_filter.scan_not_exhausted _ _ _ _ _)
    (fun r hr => ?_)
  have h0 : brk ([] : Str) = 0 := rfl
  obtain ⟨b1, b2, b3, b4⟩ := parse_filter.scan_brk (brk filter) filter ([], [], []) [] 0 false
    r hr (by simp [h0]) (by simp [h0]) (by simp [h0]) (by simp [h0])
  have hstore := fun (stage : Nat) => (show
      brk (parse_filter.store stage r.2.1 r.1).1 ≤ brk filter ∧
      brk (parse_filter.store stage r.2.1 r.1).2.2 ≤ brk filter by
    unfold parse_filter.store
    split <;> exact ⟨by assumption, by assumption⟩)
  apply preCompile_not_exhausted
  · apply h
    split_ifs
    · split
      · exact b4
      · exact (hstore _).1
    · exact b1
  · apply h
    split_ifs
    · split
      · exact b3
      · exact (hstore _).2
    · exact b3

/-- The dispatch on the bracket body calls `Compile` only on texts that hold
no more `[` than the body. -/
theorem parse_token.bracket_not_exhausted (E : Ext) (compile : Str → Outcome Compiled)
    (key tail : Str) (h : ∀ q, brk q ≤ brk tail → compile q ≠ .exhausted) :
    parse_token.bracket E compile key tail ≠ .exhausted := by
  simp only [parse_token.bracket]
  split_ifs
  · refine Outcome.bind_ne_exhausted _ _ ?_ (fun _ _ => by simp)
    apply parse_filter_not_exhausted
    intro q hq
    apply h
    have := TrimSpace_brk (List.take (tail.length - 3) (List.drop 2 tail))
    have := brk_take_le (List.drop 2 tail) (tail.length - 3)
    have := brk_drop_le tail 2
    omega
  · simp
  · split
    · refine Outcome.bind_ne_exhausted _ _ (parse_token.bound_not_exhausted _) (fun _ _ => ?_)
      exact Outcome.bind_ne_exhausted _ _ (parse_token.bound_not_exhausted _)
        (fun _ _ => by simp)
    · simp
  · simp
  · exact Outcome.bind_ne_exhausted _ _ (parse_token.indices_not_exhausted _)
      (fun _ _ => by simp)

/-- `parse_token` calls `Compile` only on texts that hold fewer `[` than the
token. -/
theorem parse_token_not_exhausted (E : Ext) (compile : Str → Outcome Compiled) (token : Str)
    (h : ∀ q, brk q < brk token → compile q ≠ .exhausted) :
    parse_token E compile token ≠ .exhausted := by
  simp only [parse_token]
  split_ifs with h1 h2 h3 h4 h5
  · simp
  · simp
  · simp
  · simp
  · simp
  · obtain ⟨a, b, hab, hidx⟩ := Index.go_found '[' token 0 (by
      have : Index token ['['] = Index.go ['['] token 0 := rfl
      omega)
    have hI : Index token ['['] = (a.length : Int) := by
      have : Index token ['['] = Index.go ['['] token 0 := rfl
      rw [this, hidx]; simp
    apply parse_token.bracket_not_exhausted
    intro q hq
    apply h
    have e1 : (Index token ['[']).toNat = a.length := by rw [hI]; simp
    have e2 : List.drop (Index token ['[']).toNat token = '[' :: b := by
      rw [e1, hab]; simp
    rw [e2] at hq
    have e3 := brk_take_le (List.drop 1 ('[' :: b)) (('[' :: b).length - 2)
    have e4 : brk token = brk a + (1 + brk b) := by
      rw [hab, brk_append]
      have : brk ('[' :: b) = 1 + brk b := by
        have := brk_append ['['] b
        simpa [brk] using this
      omega
    simp only [List.drop_succ_cons, List.drop_zero] at e3 hq
    omega

theorem Compile.steps_not_exhausted (parse : Str → Outcome step) (toks : List Str)
    (h : ∀ t ∈ toks, parse t ≠ .exhausted) : Compile.steps parse toks ≠ .exhausted := by
  induction toks with
  | nil => simp [Compile.steps]
  | cons t rest ih =>
    simp only [Compile.steps]
    refine Outcome.bind_ne_exhausted _ _ (h t (List.mem_cons_self _ _)) (fun _ _ => ?_)
    exact Outcome.bind_ne_exhausted _ _ (ih (fun u hu => h u (List.mem_cons_of_mem _ hu)))
      (fun _ _ => by simp)

/-- `Compile.go` does not run out of a fuel that exceeds the number of `[` in
the path. -/
theorem Compile.go_not_exhausted (E : Ext) :
    ∀ (fuel : Nat) (p : Str), brk p < fuel → Compile.go E fuel p ≠ .exhausted := by
  intro fuel
  induction fuel with
  | zero => intro p h; omega
  | succ f ih =>
    intro p hp
    simp only [Compile.go]
    refine Outcome.bind_ne_exhausted _ _ (tokenize_not_exhausted p) (fun tokens htok => ?_)
    cases tokens with
    | nil => simp
    | cons t0 toks =>
      simp only []
      split_ifs
      · simp
      · refine Outcome.bind_ne_exhausted _ _ ?_ (fun _ _ => by simp)
        apply Compile.steps_not_exhausted
        intro t ht
        apply parse_token_not_exhausted
        intro q hq
        apply ih
        have h1 := tokenize_brk p _ htok
        have h2 := brkSum_mem (t0 :: toks) t (List.mem_cons_of_mem _ ht)
        omega

/-- The fuel `Compile` starts with is never used up: `Compile` returns a
compiled path, returns an error, or panics. -/
theorem Compile_not_exhausted (E : Ext) (p : Str) : Compile E p ≠ .exhausted := by
  apply Compile.go_not_exhausted
  have : brk p ≤ p.length := by
    simp only [brk]
    exact List.length_filter_le _ _
  omega


/-! ## The fuel of `TrimSpace` suffices -/

theorem TrimSpace.rune_some (s : Str) (runes : List Str) (r : Str)
    (h : TrimSpace.rune s runes = some r) :
    ∃ enc ∈ runes, HasPrefix s enc = true ∧ r = s.drop enc.length := by
  induction runes with
  | nil => cases h
  | cons enc more ih =>
    simp only [TrimSpace.rune] at h
    split at h
    · rename_i hp
      exact ⟨enc, List.mem_cons_self _ _, hp, (Option.some.inj h).symm⟩
    · obtain ⟨e, he, hp, hr⟩ := ih h
      exact ⟨e, List.mem_cons_of_mem _ he, hp, hr⟩

/-- After `TrimSpace.strip` with a fuel of at least the length of the text, no
rune of `runes` is left in front: more fuel would change nothing. -/
theorem TrimSpace.strip_done (runes : List Str) (hne : ∀ enc ∈ runes, enc ≠ []) :
    ∀ (fuel : Nat) (s : Str), s.length ≤ fuel →
      TrimSpace.rune (TrimSpace.strip runes fuel s) runes = none := by
  intro fuel
  induction fuel with
  | zero =>
    intro s hs
    have : s = [] := List.length_eq_zero.mp (by omega)
    subst this
    apply TrimSpace.rune_none
    intro enc henc
    cases enc with
    | nil => exact absurd rfl (hne _ henc)
    | cons e es => rfl
  | succ f ih =>
    intro s hs
    simp only [TrimSpace.strip]
    cases h : TrimSpace.rune s runes with
    | none => exact h
    | some r =>
      obtain ⟨enc, henc, hp, hr⟩ := TrimSpace.rune_some s runes r h
      apply ih
      subst hr
      cases enc with
      | nil => exact absurd rfl (hne _ henc)
      | cons e es =>
        cases s with
        | nil => simp [HasPrefix] at hp
        | cons c rest =>
          simp only [List.length_cons, List.drop_succ_cons, List.length_drop] at hs ⊢
          omega


/-! ## The comparison of a predicate -/

theorem strLt_irrefl (a : Str) : strLt a a = false := by
  induction a with
  | nil => rfl
  | cons c r ih => simp [strLt, ih]

/-- Two texts are equal, or one is below the other, and only one of the three
holds. -/
theorem strLt_not (a b : Str) : (!strLt b a) = (strLt a b || decide (a = b)) := by
  induction a generalizing b with
  | nil => cases b <;> simp [strLt]
  | cons c r ih =>
    cases b with
    | nil => simp [strLt]
    | cons d s =>
      simp only [strLt]
      by_cases h1 : c.toNat < d.toNat
      · have h2 : ¬ d.toNat < c.toNat := by omega
        simp [h1, h2]
      · by_cases h2 : d.toNat < c.toNat
        · have hne : c ≠ d := by
            intro e; subst e; omega
          simp [h1, h2, hne]
        · have hcd : c = d := Char.ext (UInt32.ext (by
            show c.toNat = d.toNat
            omega))
          subst hcd
          have := ih s
          simp only [h1, if_false, List.cons.injEq, true_and]
          exact this

/-- `cmp_any` on two values that both convert to numbers. -/
theorem cmp_any_numbers (E : Ext) (op : Str) (obj1 obj2 : Value) (a b : E.Num)
    (h1 : E.TryFloat64 obj1 = some a) (h2 : E.TryFloat64 obj2 = some b) :
    cmp_any E op obj1 obj2 =
      if op = ['<'] then .ok (E.flt a b)
      else if op = ['<', '='] then .ok (E.fle a b)
      else if op = ['=', '='] then .ok (E.feq a b)
      else if op = ['>', '='] then .ok (E.fge a b)
      else if op = ['>'] then .ok (E.fgt a b)
      else .error .cmpOp := by
  simp only [cmp_any, h1, h2]

/-- `cmp_any` on two values one of which does not convert to a number. -/
theorem cmp_any_texts (E : Ext) (op : Str) (obj1 obj2 : Value)
    (h : E.TryFloat64 obj1 = none ∨ E.TryFloat64 obj2 = none) :
    cmp_any E op obj1 obj2 =
      if op = ['<'] then .ok (strLt (E.MustString obj1) (E.MustString obj2))
      else if op = ['<', '='] then .ok (!strLt (E.MustString obj2) (E.MustString obj1))
      else if op = ['=', '='] then .ok (decide (E.MustString obj1 = E.MustString obj2))
      else if op = ['>', '='] then .ok (!strLt (E.MustString obj1) (E.MustString obj2))
      else if op = ['>'] then .ok (strLt (E.MustString obj2) (E.MustString obj1))
      else .error .cmpOp := by
  rcases h with h | h
  · simp only [cmp_any, h]
  · cases h1 : E.TryFloat64 obj1 <;> simp only [cmp_any, h, h1]

theorem Compile_p_lt_10 (E : Ext) : Compile E "$[?(@.p < 10)]".toList =
    .ok (.mk "$[?(@.p < 10)]".toList
      [.mk .filter [] (.text "@.p < 10".toList)
        (.mk "@.p".toList ['<'] "10".toList none (some (.mk "@.p".toList [keyStep ['p']])) none)]) :=
  rfl

/-- The predicate `@.p < 10` on an object: the comparison of its member `p`
with the text `10`. -/
theorem eval_filter_p_lt_10 (E : Ext) (kvs : List (Str × Value)) (v root : Value)
    (h : mapGet ['p'] kvs = some v) :
    filterParam.eval_filter E
      (.mk "@.p".toList ['<'] "10".toList none (some (.mk "@.p".toList [keyStep ['p']])) none)
      (.obj kvs) root = cmp_any E ['<'] v (.str "10".toList) := by
  have hloop : Lookup.loop E [keyStep ['p']] (.obj kvs) false (.obj kvs) =
      .ok (followKeys [['p']] (.obj kvs)) := by
    have := Lookup.loop_keys E [keyStep ['p']] (by simp [keyStep, step.op]) (.obj kvs) (.obj kvs)
    simpa [keyStep, step.key] using this
  have hne : ¬ (['<'] = ['=', '~']) := by decide
  have hne2 : ¬ (['<'] = ['e', 'x', 'i', 's', 't', 's']) := by decide
  have hp1 : HasPrefix "@.p".toList ['@', '.'] = true := by decide
  have hp2 : HasPrefix "10".toList ['@', '.'] = false := by decide
  have hp3 : HasPrefix "10".toList ['$', '.'] = false := by decide
  simp only [filterParam.eval_filter, if_neg hne, eval_filter_normal, get_lp_v, get_rp_v, hp1, hp2,
    hp3, if_true, if_false, Bool.false_eq_true, Compiled.Lookup.opt, Compiled.Lookup, Lookup.guard,
    hloop, followKeys, h, if_neg hne2, Outcome.bind_ok]

/-! ## The tokenizer on a predicate with a regular expression -/

theorem HasPrefix_append (p b : Str) : HasPrefix (p ++ b) p = true := by
  induction p with
  | nil => cases b <;> rfl
  | cons c r ih => simp [HasPrefix, ih]

/-- `strings.Index` of a text whose first byte does not occur in front of its
first occurrence: the length of the part in front. -/
theorem Index.go_prefix (c : Char) (p a b : Str) (n : Nat) (h : c ∉ a) :
    Index.go (c :: p) (a ++ ((c :: p) ++ b)) n = ((n + a.length : Nat) : Int) := by
  induction a generalizing n with
  | nil =>
    have hp := HasPrefix_append (c :: p) b
    simp only [List.nil_append, List.cons_append] at hp ⊢
    rw [Index.go, if_pos hp]
    simp
  | cons x r ih =>
    have hx : x ≠ c := fun e => h (e ▸ List.mem_cons_self _ _)
    have hr : c ∉ r := fun m => h (List.mem_cons_of_mem _ m)
    have hp : HasPrefix (x :: (r ++ ((c :: p) ++ b))) (c :: p) = false := by
      simp [HasPrefix, hx]
    rw [List.cons_append, Index.go, hp, if_neg (by simp), ih (n + 1) hr, List.length_cons]
    congr 1
    omega

theorem Index_prefix (c : Char) (p a b : Str) (h : c ∉ a) :
    Index (a ++ ((c :: p) ++ b)) (c :: p) = (a.length : Int) := by
  have := Index.go_prefix c p a b 0 h
  simpa [Index] using this

/-- `strings.Index` of a text that occurs: a position at or in front of the
occurrence. -/
theorem Index.go_occurs (p a b : Str) (n : Nat) :
    (n : Int) ≤ Index.go p (a ++ (p ++ b)) n ∧
      Index.go p (a ++ (p ++ b)) n ≤ ((n + a.length : Nat) : Int) := by
  induction a generalizing n with
  | nil =>
    have hp := HasPrefix_append p b
    simp only [List.nil_append]
    cases hpb : p ++ b with
    | nil =>
      have : p = [] := (List.append_eq_nil.mp hpb).1
      subst this
      simp [Index.go]
    | cons x r =>
      rw [hpb] at hp
      rw [Index.go, if_pos hp]
      simp
  | cons x r ih =>
    rw [List.cons_append, Index.go]
    split_ifs
    · refine ⟨le_refl _, ?_⟩
      push_cast
      omega
    · have := ih (n + 1)
      simp only [List.length_cons, Nat.cast_add, Nat.cast_one] at this ⊢
      omega

theorem Index_occurs (p a b : Str) :
    0 ≤ Index (a ++ (p ++ b)) p ∧ Index (a ++ (p ++ b)) p ≤ (a.length : Int) := by
  have := Index.go_occurs p a b 0
  simpa [Index] using this

theorem Count_append (a b : Str) (c : Char) : Count (a ++ b) c = Count a c + Count b c := by
  simp [Count]

/-- The loop of `tokenize` over tokens without `=` whose brackets are balanced,
in front of other tokens: every token is emitted. -/
theorem tokenize.loop_simple_prefix (toks more : List Str) (idx : Nat) (rets : List Str)
    (h : ∀ t ∈ toks, t ≠ [] ∧ '=' ∉ t ∧ Count t '[' = Count t ']') :
    tokenize.loop (toks ++ more) idx false rets [] 0 =
      tokenize.loop more (idx + toks.length) false (rets ++ toks) [] 0 := by
  induction toks generalizing idx rets with
  | nil => simp
  | cons t rest ih =>
    obtain ⟨h1, h2, h3⟩ := h t (List.mem_cons_self _ _)
    rw [List.cons_append, tokenize.loop_simple t _ idx rets h1 h2 h3,
      ih (idx + 1) (rets ++ [t]) (fun u hu => h u (List.mem_cons_of_mem _ hu))]
    simp only [List.length_cons, List.append_assoc, List.singleton_append]
    congr 1
    omega

/-- One pass of the loop of `tokenize` over a token without `=` that opens one
bracket more than it closes: the token is kept back. -/
theorem tokenize.loop_open (token : Str) (rest : List Str) (idx : Nat) (rets : List Str)
    (hne : token ≠ []) (heq : '=' ∉ token) (hopen : Count token '[' = Count token ']' + 1) :
    tokenize.loop (token :: rest) idx false rets [] 0 =
      tokenize.loop rest (idx + 1) false rets [token] 1 := by
  have hidx : ¬ (Index token ['=', '~'] > 0) := by
    rw [Index_not_mem '=' ['~'] token heq]; decide
  have hsub : (0 : Int) + Count token '[' - Count token ']' = 1 := by omega
  rw [tokenize.loop]
  simp only [Bool.false_eq_true, if_false, hne, hidx, List.nil_append, hsub]
  rw [if_neg (by decide)]

/-- The last pass of the loop of `tokenize`, at the token `f =~ /P/i)]` with
one bracket open: `token[:idx]` panics when `idx` exceeds the length of the
token; otherwise the bracket is closed and the tokens kept back are emitted as
one. -/
theorem tokenize.loop_regex (f P t0 : Str) (idx : Nat) (rets : List Str)
    (hf1 : '=' ∉ f) (hf2 : '[' ∉ f) (hf3 : ']' ∉ f)
    (hP1 : '[' ∉ P) (hP2 : ']' ∉ P) :
    tokenize.loop [regexToken f P] idx false rets [t0] 1 =
      if idx > (regexToken f P).length then .panic
      else .ok (rets ++ [t0 ++ '.' :: regexToken f P]) := by
  have hne : regexToken f P ≠ [] := by simp [regexToken]
  have hidx : Index (regexToken f P) ['=', '~'] > 0 := by
    have e : regexToken f P = (f ++ [' ']) ++ (['=', '~'] ++ (" /".toList ++ (P ++ "/i)]".toList))) := by
      simp [regexToken]
    have hn : '=' ∉ f ++ [' '] := by
      simp only [List.mem_append, List.mem_singleton, not_or]
      exact ⟨hf1, by decide⟩
    rw [e, Index_prefix '=' ['~'] _ _ hn]
    simp
  have hopen : '[' ∉ regexToken f P := by
    simp only [regexToken, List.mem_append, not_or]
    exact ⟨hf2, by decide, hP1, by decide⟩
  have hend := Index_occurs ['/', 'i'] (f ++ (" =~ /".toList ++ P)) [')', ']']
  have e2 : (f ++ (" =~ /".toList ++ P)) ++ (['/', 'i'] ++ [')', ']']) = regexToken f P := by
    simp [regexToken]
  rw [e2] at hend
  have hclose : Count ((regexToken f P).drop (Index (regexToken f P) ['/', 'i']).toNat) ']' = 1 := by
    have hle : (Index (regexToken f P) ['/', 'i']).toNat ≤ (f ++ (" =~ /".toList ++ P)).length := by
      omega
    generalize (Index (regexToken f P) ['/', 'i']).toNat = j at hle ⊢
    rw [← e2, List.drop_append_of_le_length hle, Count_append,
      Count_of_not_mem _ ']' (fun hm => ?_)]
    · rfl
    · have := List.mem_of_mem_drop hm
      simp only [List.mem_append, not_or] at this
      rcases this with h | h | h
      · exact hf3 h
      · revert h; decide
      · exact hP2 h
  rw [tokenize.loop]
  simp only [Bool.false_eq_true, if_false, hne, hidx, if_true, List.isEmpty_nil, Bool.not_true,
    and_false, true_and, not_lt.mpr hend.1]
  by_cases hlen : idx > (regexToken f P).length
  · simp only [hlen, if_true]
  · simp only [hlen, if_false]
    rw [Count_of_not_mem _ '[' (fun hm => hopen (List.mem_of_mem_take hm)), hclose]
    simp only [add_zero, sub_self, if_true, tokenize.loop_nil, List.singleton_append, Join,
      List.append_assoc]

theorem Join_append_last (pre : List Str) (a x : Str) (sep : Str) :
    Join (pre ++ [a ++ x]) sep = Join (pre ++ [a]) sep ++ x := by
  induction pre with
  | nil => simp [Join]
  | cons p rest ih =>
    cases rest with
    | nil => simp [Join]
    | cons q more =>
      rw [List.cons_append] at ih
      show p ++ sep ++ Join (q :: (more ++ [a ++ x])) sep =
        (p ++ sep ++ Join (q :: (more ++ [a])) sep) ++ x
      rw [ih]
      simp only [List.append_assoc, List.cons_append]

theorem Join_append_two (pre : List Str) (a b : Str) (sep : Str) :
    Join (pre ++ [a, b]) sep = Join (pre ++ [a]) sep ++ sep ++ b := by
  induction pre with
  | nil => simp [Join]
  | cons p rest ih =>
    cases rest with
    | nil => simp [Join]
    | cons q more =>
      rw [List.cons_append] at ih
      show p ++ sep ++ Join (q :: (more ++ [a, b])) sep =
        (p ++ sep ++ Join (q :: (more ++ [a])) sep) ++ sep ++ b
      rw [ih]
      simp only [List.append_assoc, List.cons_append]

/-- The text of `regexPath` is the root and the dot-separated pieces `k1`, ...,
`kn[?(@` and `f =~ /P/i)]`. -/
theorem regexPath_pieces (pre : List Str) (k f P : Str) :
    regexPath pre k f P =
      '$' :: '.' :: Join (pre ++ [k ++ "[?(@".toList, regexToken f P]) ['.'] := by
  rw [Join_append_two, Join_append_last]
  simp [regexPath]

/-- `tokenize` on `$.k1.....kn[?(@.f =~ /P/i)]` for plain names and a pattern
without dot and bracket: the tokens `$`, `k1`, ..., `k(n-1)` and the whole last
segment, unless the number of the tokens in front exceeds the length of
`f =~ /P/i)]`, where `token[:idx]` panics. -/
theorem tokenize_regexPath (pre : List Str) (k f P : Str)
    (hpre : ∀ t ∈ pre, plainName t = true) (hk : plainName k = true) (hf : plainName f = true)
    (hP0 : '.' ∉ P) (hP1 : '[' ∉ P) (hP2 : ']' ∉ P) :
    tokenize (regexPath pre k f P) =
      if pre.length + 2 > (regexToken f P).length then .panic
      else .ok (['$'] :: (pre ++ [k ++ ("[?(@.".toList ++ regexToken f P)])) := by
  have hsnoc : ∃ body, Join (pre ++ [k ++ "[?(@".toList, regexToken f P]) ['.'] = body ++ [']'] := by
    rw [Join_append_two]
    refine ⟨Join (pre ++ [k ++ "[?(@".toList]) ['.'] ++ ['.'] ++ (f ++ (" =~ /".toList ++ (P ++ "/i)".toList))), ?_⟩
    simp [regexToken]
  obtain ⟨body, hbody⟩ := hsnoc
  have hdotk : '.' ∉ k ++ "[?(@".toList := by
    simp only [List.mem_append, not_or]
    exact ⟨plainName_not_mem k '.' hk plainChar_special.1, by decide⟩
  have hdotT : '.' ∉ regexToken f P := by
    simp only [regexToken, List.mem_append, not_or]
    exact ⟨plainName_not_mem f '.' hf plainChar_special.1, by decide, hP0, by decide⟩
  have hsplit : Split (Join (pre ++ [k ++ "[?(@".toList, regexToken f P]) ['.']) '.' =
      pre ++ [k ++ "[?(@".toList, regexToken f P] := by
    apply Split_Join '.' _ (by simp)
    intro t ht
    rcases List.mem_append.mp ht with h | h
    · exact plainName_not_mem t '.' (hpre t h) plainChar_special.1
    · simp only [List.mem_cons, List.mem_singleton, List.not_mem_nil, or_false] at h
      rcases h with rfl | rfl
      · exact hdotk
      · exact hdotT
  have hsimple : ∀ t ∈ ['$'] :: pre, t ≠ [] ∧ '=' ∉ t ∧ Count t '[' = Count t ']' := by
    intro t ht
    rcases List.mem_cons.mp ht with rfl | h
    · exact ⟨by simp, by decide, by decide⟩
    · exact plainName_simple t (hpre t h)
  have hopenk : Count (k ++ "[?(@".toList) '[' = Count (k ++ "[?(@".toList) ']' + 1 := by
    rw [Count_append, Count_append,
      Count_of_not_mem k '[' (plainName_not_mem k '[' hk plainChar_special.2.1),
      Count_of_not_mem k ']' (plainName_not_mem k ']' hk plainChar_special.2.2.1)]
    rfl
  have heqk : '=' ∉ k ++ "[?(@".toList := by
    simp only [List.mem_append, not_or]
    exact ⟨plainName_not_mem k '=' hk plainChar_special.2.2.2.1, by decide⟩
  rw [regexPath_pieces, hbody, tokenize_dollar_dot body ']' (by decide), ← hbody, hsplit]
  have happ : ['$'] :: (pre ++ [k ++ "[?(@".toList, regexToken f P]) =
      (['$'] :: pre) ++ [k ++ "[?(@".toList, regexToken f P] := rfl
  rw [happ, tokenize.loop_simple_prefix _ _ 0 [] hsimple,
    tokenize.loop_open _ _ _ _ (by simp) heqk hopenk,
    tokenize.loop_regex f P _ _ _ (plainName_not_mem f '=' hf plainChar_special.2.2.2.1)
      (plainName_not_mem f '[' hf plainChar_special.2.1)
      (plainName_not_mem f ']' hf plainChar_special.2.2.1) hP1 hP2]
  simp only [List.length_cons, zero_add, List.nil_append, List.cons_append, List.append_assoc]
  have e : pre.length + 1 + 1 = pre.length + 2 := rfl
  rw [e]
  split_ifs
  · rfl
  · simp

/-! ## The fields of a predicate -/

/-- The loop of `parse_filter` over a run without space and quote: the run is
appended to `tmp`. -/
theorem parse_filter.scan_run (w rest : Str) (f : Str × Str × Str) (tmp : Str) (stage : Nat)
    (emb : Bool) (h1 : ' ' ∉ w) (h2 : '\'' ∉ w) :
    parse_filter.scan (w ++ rest) f tmp stage emb = parse_filter.scan rest f (tmp ++ w) stage emb := by
  induction w generalizing tmp with
  | nil => simp
  | cons c r ih =>
    have hc1 : c ≠ ' ' := fun e => h1 (e ▸ List.mem_cons_self _ _)
    have hc2 : c ≠ '\'' := fun e => h2 (e ▸ List.mem_cons_self _ _)
    rw [List.cons_append, parse_filter.scan, if_neg hc2, if_neg hc1,
      ih (tmp ++ [c]) (fun m => h1 (List.mem_cons_of_mem _ m))
        (fun m => h2 (List.mem_cons_of_mem _ m))]
    simp

/-- The loop of `parse_filter` inside a quoted run, over a run without quote:
the run is appended to `tmp`, its spaces included. -/
theorem parse_filter.scan_quoted (w rest : Str) (f : Str × Str × Str) (tmp : Str) (stage : Nat)
    (h : '\'' ∉ w) :
    parse_filter.scan (w ++ rest) f tmp stage true = parse_filter.scan rest f (tmp ++ w) stage true := by
  induction w generalizing tmp with
  | nil => simp
  | cons c r ih =>
    have hc : c ≠ '\'' := fun e => h (e ▸ List.mem_cons_self _ _)
    rw [List.cons_append, parse_filter.scan, if_neg hc]
    by_cases hs : c = ' '
    · rw [if_pos hs, if_pos rfl, ih (tmp ++ [c]) (fun m => h (List.mem_cons_of_mem _ m))]
      simp
    · rw [if_neg hs, ih (tmp ++ [c]) (fun m => h (List.mem_cons_of_mem _ m))]
      simp

/-- The loop of `parse_filter` at an unquoted space in front of the second or
the third field: the field read is stored, the next one begins. -/
theorem parse_filter.scan_space (rest : Str) (f : Str × Str × Str) (tmp : Str) (stage : Nat)
    (h : stage < 2) :
    parse_filter.scan (' ' :: rest) f tmp stage false =
      parse_filter.scan rest (parse_filter.store stage tmp f) [] (stage + 1) false := by
  have h2 : ¬ (stage + 1 > 2) := by omega
  rw [parse_filter.scan, if_neg (by decide), if_pos rfl, if_neg (by decide), if_neg h2]

/-- The loop of `parse_filter` at a quote that opens a run. -/
theorem parse_filter.scan_open (rest : Str) (f : Str × Str × Str) (tmp : Str) (stage : Nat) :
    parse_filter.scan ('\'' :: rest) f tmp stage false = parse_filter.scan rest f tmp stage true := by
  rw [parse_filter.scan, if_pos rfl, if_pos rfl]

/-- The loop of `parse_filter` at a quote inside a run: the run read is
stored; the run is not closed (`str_embrace` stays set). -/
theorem parse_filter.scan_close (rest : Str) (f : Str × Str × Str) (tmp : Str) (stage : Nat) :
    parse_filter.scan ('\'' :: rest) f tmp stage true =
      parse_filter.scan rest (parse_filter.store stage tmp f) [] stage true := by
  rw [parse_filter.scan, if_pos rfl, if_neg (by decide)]

/-- `parse_filter` on `L OP R`, no operand quoted. -/
theorem parse_filter_plain (E : Ext) (compile : Str → Outcome Compiled) (L OP R : Str)
    (hL1 : ' ' ∉ L) (hL2 : '\'' ∉ L) (hO1 : ' ' ∉ OP) (hO2 : '\'' ∉ OP)
    (hR1 : ' ' ∉ R) (hR2 : '\'' ∉ R) :
    parse_filter E compile (L ++ ' ' :: (OP ++ ' ' :: R)) = preCompile E compile L OP R := by
  have hscan : parse_filter.scan (L ++ ' ' :: (OP ++ ' ' :: R)) ([], [], []) [] 0 false =
      .ok ((L, OP, []), R, 2) := by
    rw [parse_filter.scan_run L _ _ _ _ _ hL1 hL2, parse_filter.scan_space _ _ _ 0 (by decide),
      parse_filter.scan_run OP _ _ _ _ _ hO1 hO2, parse_filter.scan_space _ _ _ 1 (by decide),
      ← List.append_nil R, parse_filter.scan_run R _ _ _ _ _ hR1 hR2]
    simp [parse_filter.scan, parse_filter.store]
  rw [parse_filter, hscan]
  simp only [Outcome.bind_ok]
  by_cases hR : R = []
  · subst hR
    simp
  · simp [hR, parse_filter.store]

/-- `parse_filter` on `L OP 'R'`, the right operand quoted. -/
theorem parse_filter_quoted_right (E : Ext) (compile : Str → Outcome Compiled) (L OP R : Str)
    (hL1 : ' ' ∉ L) (hL2 : '\'' ∉ L) (hO1 : ' ' ∉ OP) (hO2 : '\'' ∉ OP) (hR : '\'' ∉ R) :
    parse_filter E compile (L ++ ' ' :: (OP ++ ' ' :: '\'' :: (R ++ ['\'']))) =
      preCompile E compile L OP R := by
  have hscan : parse_filter.scan (L ++ ' ' :: (OP ++ ' ' :: '\'' :: (R ++ ['\''])))
      ([], [], []) [] 0 false = .ok ((L, OP, R), [], 2) := by
    rw [parse_filter.scan_run L _ _ _ _ _ hL1 hL2, parse_filter.scan_space _ _ _ 0 (by decide),
      parse_filter.scan_run OP _ _ _ _ _ hO1 hO2, parse_filter.scan_space _ _ _ 1 (by decide),
      parse_filter.scan_open, parse_filter.scan_quoted R _ _ _ _ hR, parse_filter.scan_close]
    simp [parse_filter.scan, parse_filter.store]
  rw [parse_filter, hscan]
  simp

/-- `parse_filter` on `'L'rest`, the left operand quoted: everything behind
the closing quote is read into the same run, which overwrites the left operand;
the operator is lost. -/
theorem parse_filter_quoted_left (E : Ext) (compile : Str → Outcome Compiled) (L rest : Str)
    (hL : '\'' ∉ L) (hr : '\'' ∉ rest) (hne : rest ≠ []) :
    parse_filter E compile ('\'' :: (L ++ '\'' :: rest)) =
      preCompile E compile rest ['e', 'x', 'i', 's', 't', 's'] [] := by
  have hscan : parse_filter.scan ('\'' :: (L ++ '\'' :: rest)) ([], [], []) [] 0 false =
      .ok ((L, [], []), rest, 0) := by
    rw [parse_filter.scan_open, parse_filter.scan_quoted L _ _ _ _ hL, parse_filter.scan_close,
      ← List.append_nil rest, parse_filter.scan_quoted rest _ _ _ _ hr]
    simp [parse_filter.scan, parse_filter.store]
  rw [parse_filter, hscan]
  simp [hne]

/-- `preCompile` leaves the three fields as it finds them. -/
theorem preCompile_fields (E : Ext) (compile : Str → Outcome Compiled) (lp op rp : Str)
    (fp : filterParam) (h : preCompile E compile lp op rp = .ok fp) :
    fp.lp = lp ∧ fp.op = op ∧ fp.rp = rp := by
  simp only [preCompile] at h
  cases h1 : (if op = ['=', '~'] then (regFilterCompile E rp).bind fun r => Outcome.ok (some r)
      else Outcome.ok none) with
  | ok reg =>
    rw [h1] at h
    simp only [Outcome.bind_ok] at h
    cases h2 : (if (HasPrefix lp ['@', '.'] || HasPrefix lp ['$', '.']) = true then
        (compile lp).bind fun c => Outcome.ok (some c) else Outcome.ok none) with
    | ok l =>
      rw [h2] at h
      simp only [Outcome.bind_ok] at h
      cases h3 : (if (HasPrefix rp ['@', '.'] || HasPrefix rp ['$', '.']) = true then
          (compile rp).bind fun c => Outcome.ok (some c) else Outcome.ok none) with
      | ok r =>
        rw [h3] at h
        simp only [Outcome.bind_ok] at h
        cases h
        exact ⟨rfl, rfl, rfl⟩
      | error e => rw [h3] at h; cases h
      | panic => rw [h3] at h; cases h
      | exhausted => rw [h3] at h; cases h
    | error e => rw [h2] at h; cases h
    | panic => rw [h2] at h; cases h
    | exhausted => rw [h2] at h; cases h
  | error e => rw [h1] at h; cases h
  | panic => rw [h1] at h; cases h
  | exhausted => rw [h1] at h; cases h

/-! ## The compiler on a predicate with a regular expression -/

/-- `strings.TrimSpace` leaves a text as it is when its first byte starts no
white-space rune and its last byte ends none. -/
theorem TrimSpace_ends (c d : Char) (mid : Str)
    (hc : ∀ enc ∈ spaceRunes, enc.head? ≠ some c ∧ enc ≠ [])
    (hd : ∀ enc ∈ spaceRunes.map List.reverse, enc.head? ≠ some d ∧ enc ≠ []) :
    TrimSpace (c :: (mid ++ [d])) = c :: (mid ++ [d]) := by
  have hstrip : ∀ (runes : List Str) (fuel : Nat) (x : Char) (u : Str),
      (∀ enc ∈ runes, enc.head? ≠ some x ∧ enc ≠ []) →
      TrimSpace.strip runes fuel (x :: u) = x :: u := by
    intro runes fuel x u hr
    apply TrimSpace.strip_none
    apply TrimSpace.rune_none
    intro enc henc
    obtain ⟨h1, h2⟩ := hr enc henc
    cases enc with
    | nil => exact absurd rfl h2
    | cons e es =>
      have hne : x ≠ e := by
        intro e'
        subst e'
        exact h1 rfl
      simp [HasPrefix, hne]
  simp only [TrimSpace]
  rw [hstrip spaceRunes _ c _ hc]
  have hrev : (c :: (mid ++ [d])).reverse = d :: (mid.reverse ++ [c]) := by simp
  rw [hrev, hstrip _ _ d _ hd, ← hrev, List.reverse_reverse]

/-- `regFilterCompile` on `/P/i` with a non-empty pattern: the pattern, when
`regexp.Compile` accepts it. -/
theorem regFilterCompile_pattern (E : Ext) (P : Str) (hne : P ≠ []) :
    regFilterCompile E ('/' :: (P ++ ['/', 'i'])) =
      if E.regexpCompile P then .ok P else .error .regexCompile := by
  have hlen : ¬ (('/' :: (P ++ ['/', 'i'])).length ≤ 3) := by
    cases P with
    | nil => exact absurd rfl hne
    | cons p r => simp
  have hsuf : HasSuffix ('/' :: (P ++ ['/', 'i'])) ['/', 'i'] = true := by
    simp [HasSuffix, HasPrefix]
  have hpat : ((('/' :: (P ++ ['/', 'i'])).drop 1).reverse.drop 2).reverse = P := by
    simp
  simp only [regFilterCompile, hlen, if_false, HasPrefix, beq_self_eq_true, Bool.true_and, hsuf,
    Bool.not_true, Bool.or_self, Bool.false_eq_true, hpat]

/-- `tokenize` on a root marker and a dot, followed by a text that does not
end in a dot. -/
theorem tokenize_at_dot (body : Str) (c : Char) (hc : c ≠ '.') :
    tokenize ('@' :: '.' :: (body ++ [c])) =
      tokenize.loop (['@'] :: Split (body ++ [c]) '.') 0 false [] [] 0 := by
  have hsuf : HasSuffix ('@' :: '.' :: (body ++ [c])) ['.'] = false := by
    simp [HasSuffix, HasPrefix, hc]
  simp [tokenize, hsuf]

/-- `Compile` on `@.f` for a plain name, whatever fuel is left: the Key step
of the name. -/
theorem Compile.go_at_key (E : Ext) (fuel : Nat) (f : Str) (hf : plainName f = true) :
    Compile.go E (fuel + 1) ('@' :: '.' :: f) = .ok (.mk ('@' :: '.' :: f) [keyStep f]) := by
  obtain ⟨body, c, hb, hc⟩ := plainName_snoc [] f hf
  simp only [List.nil_append] at hb
  have htok : tokenize ('@' :: '.' :: f) = .ok [['@'], f] := by
    rw [hb, tokenize_at_dot body c hc, ← hb,
      Split_of_not_mem f '.' (plainName_not_mem f '.' hf plainChar_special.1),
      tokenize.loop_simple ['@'] _ 0 [] (by simp) (by decide) (by decide),
      tokenize.loop_simple f _ 1 _ (plainName_simple f hf).1 (plainName_simple f hf).2.1
        (plainName_simple f hf).2.2,
      tokenize.loop_nil]
    rfl
  simp only [Compile.go, htok, Outcome.bind_ok, ne_eq, not_true_eq_false, false_and, if_false,
    Compile.steps, parse_token_plain E _ f hf]

/-- The text of the predicate `@.f =~ /P/i`. -/
theorem regexToken_filterpart (f P : Str) :
    "?(@.".toList ++ (f ++ (" =~ /".toList ++ (P ++ "/i)".toList))) ++ [']'] =
      "?(@.".toList ++ regexToken f P := by
  simp [regexToken]

/-- `parse_token` on `k[?(@.f =~ /P/i)]`: the Filter step with the key `k`
and the predicate `regexFilter f P`, when `regexp.Compile` accepts `P`. -/
theorem parse_token_regex (E : Ext) (fuel : Nat) (k f P : Str)
    (hk : k = [] ∨ plainName k = true) (hf : plainName f = true)
    (hP1 : ' ' ∉ P) (hP2 : '\'' ∉ P) (hne : P ≠ []) (hre : E.regexpCompile P = true) :
    parse_token E (Compile.go E (fuel + 1)) (k ++ ("[?(@.".toList ++ regexToken f P)) =
      .ok (.mk .filter k (.text ('@' :: '.' :: (f ++ (" =~ ".toList ++ '/' :: (P ++ ['/', 'i'])))))
        (regexFilter f P)) := by
  have hfs : ' ' ∉ f := plainName_not_mem f ' ' hf plainChar_special.2.2.2.2.2.2.2
  have hfq : '\'' ∉ f := plainName_not_mem f '\'' hf (by decide)
  have hshape : k ++ ("[?(@.".toList ++ regexToken f P) =
      k ++ '[' :: (("?(@.".toList ++ (f ++ (" =~ /".toList ++ (P ++ "/i)".toList)))) ++ [']']) := by
    simp [regexToken]
  have hcontains : Contains ("?(@.".toList ++ (f ++ (" =~ /".toList ++ (P ++ "/i)".toList)))) '?' =
      true := by
    simp [Contains]
  have hpre : HasPrefix ("?(@.".toList ++ (f ++ (" =~ /".toList ++ (P ++ "/i)".toList))))
      ['?', '('] = true := by
    simp [HasPrefix]
  have hsuf : HasSuffix ("?(@.".toList ++ (f ++ (" =~ /".toList ++ (P ++ "/i)".toList)))) [')'] =
      true := by
    simp [HasSuffix, HasPrefix]
  have hpart : ((("?(@.".toList ++ (f ++ (" =~ /".toList ++ (P ++ "/i)".toList)))).drop 2).take
      (("?(@.".toList ++ (f ++ (" =~ /".toList ++ (P ++ "/i)".toList)))).length - 3)) =
      '@' :: (('.' :: (f ++ (" =~ /".toList ++ (P ++ ['/'])))) ++ ['i']) := by
    have e : "?(@.".toList ++ (f ++ (" =~ /".toList ++ (P ++ "/i)".toList))) =
        ['?', '('] ++ (('@' :: (('.' :: (f ++ (" =~ /".toList ++ (P ++ ['/'])))) ++ ['i'])) ++ [')']) := by
      simp
    rw [e]
    have hd : (['?', '('] ++ (('@' :: (('.' :: (f ++ (" =~ /".toList ++ (P ++ ['/'])))) ++ ['i'])) ++
        [')'])).drop 2 =
        ('@' :: (('.' :: (f ++ (" =~ /".toList ++ (P ++ ['/'])))) ++ ['i'])) ++ [')'] := rfl
    rw [hd]
    apply List.take_left'
    simp only [List.length_append, List.length_cons, List.length_nil]
    omega
  have htrim := TrimSpace_ends '@' 'i' ('.' :: (f ++ (" =~ /".toList ++ (P ++ ['/']))))
    (by decide) (by decide)
  have hfield : '@' :: (('.' :: (f ++ (" =~ /".toList ++ (P ++ ['/'])))) ++ ['i']) =
      ('@' :: '.' :: f) ++ ' ' :: (['=', '~'] ++ ' ' :: ('/' :: (P ++ ['/', 'i']))) := by
    simp
  have hfilter : parse_filter E (Compile.go E (fuel + 1))
      ('@' :: (('.' :: (f ++ (" =~ /".toList ++ (P ++ ['/'])))) ++ ['i'])) =
      .ok (regexFilter f P) := by
    rw [hfield, parse_filter_plain E _ ('@' :: '.' :: f) ['=', '~'] ('/' :: (P ++ ['/', 'i']))
      (by simp [hfs]) (by simp [hfq]) (by decide) (by decide) (by simp [hP1]) (by simp [hP2])]
    simp only [preCompile, if_true, regFilterCompile_pattern E P hne, hre, Outcome.bind_ok,
      HasPrefix, beq_self_eq_true, Bool.and_self, Bool.true_or, Compile.go_at_key E fuel f hf]
    rfl
  rw [hshape, parse_token_bracket E _ k _ hk (by simp), parse_token.bracket]
  simp only [hcontains, if_true, hpre, hsuf, Bool.and_self, hpart, htrim, hfilter, Outcome.bind_ok]
  simp

/-- `Compile` on `$.k[?(@.f =~ /P/i)]`. -/
theorem Compile_regex (E : Ext) (k f P : Str) (hk : plainName k = true) (hf : plainName f = true)
    (hP0 : '.' ∉ P) (hP1 : '[' ∉ P) (hP2 : ']' ∉ P) (hP3 : ' ' ∉ P) (hP4 : '\'' ∉ P)
    (hne : P ≠ []) (hre : E.regexpCompile P = true) :
    Compile E (regexPath [] k f P) =
      .ok (.mk (regexPath [] k f P)
        [.mk .filter k (.text ('@' :: '.' :: (f ++ (" =~ ".toList ++ '/' :: (P ++ ['/', 'i'])))))
          (regexFilter f P)]) := by
  have htok := tokenize_regexPath [] k f P (by simp) hk hf hP0 hP1 hP2
  have hlen : ¬ (([] : List Str).length + 2 > (regexToken f P).length) := by
    simp [regexToken]
    omega
  rw [if_neg hlen] at htok
  have hfuel : (regexPath [] k f P).length = ((regexPath [] k f P).length - 1) + 1 := by
    simp [regexPath]
  rw [Compile_of_tokenize E _ _ htok, hfuel]
  simp only [List.nil_append, Compile.steps, parse_token_regex E _ k f P (Or.inr hk) hf hP3 hP4 hne hre,
    Outcome.bind_ok]

/-! ## The tokenizer on texts without `=` -/

theorem countAll_cons (t : Str) (rest : List Str) (c : Char) :
    countAll (t :: rest) c = Count t c + countAll rest c := by
  simp [countAll]

theorem balance_cons (t : Str) (rest : List Str) :
    balance (t :: rest) = Count t '[' - Count t ']' + balance rest := by
  simp only [balance, countAll_cons]
  omega

theorem Count_nil (c : Char) : Count [] c = 0 := rfl

theorem Count_cons (x : Char) (s : Str) (c : Char) :
    Count (x :: s) c = (if x = c then 1 else 0) + Count s c := by
  simp only [Count, List.filter_cons, beq_iff_eq]
  split_ifs <;> simp
  omega

/-- The pieces of `strings.Split` hold the bytes of the text but the
separators. -/
theorem countAll_Split (s : Str) (sep c : Char) (hc : c ≠ sep) :
    countAll (Split s sep) c = Count s c := by
  induction s with
  | nil => rfl
  | cons x r ih =>
    simp only [Split]
    split_ifs with hx
    · subst hx
      rw [countAll_cons, ih, Count_nil, Count_cons, if_neg (fun e => hc e.symm)]
    · cases hs : Split r sep with
      | nil =>
        rw [hs] at ih
        simp only [countAll_cons, Count_cons, Count_nil] at ih ⊢
        have : countAll ([] : List Str) c = 0 := rfl
        rw [this] at ih ⊢
        omega
      | cons t ts =>
        rw [hs] at ih
        simp only [countAll_cons, Count_cons] at ih ⊢
        omega

theorem Split_mem (s : Str) (sep : Char) (t : Str) (ht : t ∈ Split s sep) :
    ∀ c ∈ t, c ∈ s := by
  induction s generalizing t with
  | nil =>
    simp only [Split, List.mem_singleton] at ht
    subst ht
    intro c hc
    cases hc
  | cons x r ih =>
    simp only [Split] at ht
    split_ifs at ht with hx
    · rcases List.mem_cons.mp ht with e | h
      · subst e
        intro c hc
        cases hc
      · intro c hc
        exact List.mem_cons_of_mem _ (ih t h c hc)
    · cases hs : Split r sep with
      | nil =>
        rw [hs] at ht
        simp only [List.mem_singleton] at ht
        subst ht
        intro c hc
        simp only [List.mem_singleton] at hc
        subst hc
        exact List.mem_cons_self _ _
      | cons u us =>
        rw [hs] at ht ih
        rcases List.mem_cons.mp ht with e | h
        · subst e
          intro c hc
          rcases List.mem_cons.mp hc with e | h'
          · subst e; exact List.mem_cons_self _ _
          · exact List.mem_cons_of_mem _ (ih u (List.mem_cons_self _ _) c h')
        · intro c hc
          exact List.mem_cons_of_mem _ (ih t (List.mem_cons_of_mem _ h) c hc)

/-- The loop of `tokenize` over tokens without `=`: the error "find [ without ]"
when more `[` than `]` were read, the tokens emitted otherwise; it does not
abort. -/
theorem tokenize.loop_balance (toks : List Str) (h : ∀ t ∈ toks, '=' ∉ t) :
    ∀ (idx : Nat) (rets sublist : List Str) (subleft : Int),
      (0 < subleft + balance toks →
        tokenize.loop toks idx false rets sublist subleft = .error .unclosedBracket) ∧
      (subleft + balance toks ≤ 0 →
        ∃ out, tokenize.loop toks idx false rets sublist subleft = .ok out) := by
  induction toks with
  | nil =>
    intro idx rets sublist subleft
    have hb : balance [] = 0 := rfl
    simp only [tokenize.loop, hb, add_zero]
    constructor
    · intro hpos
      rw [if_pos hpos]
    · intro hle
      rw [if_neg (by omega)]
      exact ⟨rets, rfl⟩
  | cons t rest ih =>
    intro idx rets sublist subleft
    have ih' := ih (fun u hu => h u (List.mem_cons_of_mem _ hu))
    have hidx : ¬ (Index t ['=', '~'] > 0) := by
      rw [Index_not_mem '=' ['~'] t (h t (List.mem_cons_self _ _))]; decide
    rw [tokenize.loop, balance_cons]
    simp only [Bool.false_eq_true, if_false, hidx]
    by_cases ht : t = []
    · subst ht
      simp only [if_true, Count_nil, sub_self, zero_add]
      split_ifs
      · exact ih' _ _ _ _
      · exact ih' _ _ _ _
      · exact ih' _ _ _ _
    · simp only [ht, if_false]
      have e : subleft + (Count t '[' - Count t ']' + balance rest) =
          (subleft + Count t '[' - Count t ']') + balance rest := by omega
      rw [e]
      split_ifs
      · exact ih' _ _ _ _
      · exact ih' _ _ _ _

theorem Count_drop_one (q0 : Char) (r : Str) (c : Char) (h : q0 ≠ c) :
    Count r c = Count (q0 :: r) c := by
  rw [Count_cons, if_neg h, zero_add]

/-- `tokenize` on a text of two bytes or more that starts with a root marker
and does not end in a dot: the loop over the root and the segments. -/
theorem tokenize_segments (q0 q1 : Char) (r : Str) (h0 : q0 = '$' ∨ q0 = '@')
    (hsuf : HasSuffix (q0 :: q1 :: r) ['.'] = false) :
    tokenize (q0 :: q1 :: r) =
      tokenize.loop ([q0] :: Split (if q1 = '.' then r else q1 :: r) '.') 0 false [] [] 0 := by
  have hq : ¬ (q0 ≠ '$' ∧ q0 ≠ '@') := by
    rcases h0 with e | e <;> simp [e]
  simp only [tokenize, hq, if_false, hsuf, Bool.false_eq_true, List.get?_eq_getElem?,
    List.getElem?_cons_succ, List.getElem?_cons_zero]
  split_ifs <;> rfl

/-- `tokenize` on a text without `=` that starts with a root marker: the error
"find [ without ]" when the text holds more `[` than `]`, the error of the
trailing dot, or tokens; it does not abort on a text of two bytes or more. -/
theorem tokenize_balance (q0 q1 : Char) (r : Str) (h0 : q0 = '$' ∨ q0 = '@')
    (heq : '=' ∉ q0 :: q1 :: r) :
    (HasSuffix (q0 :: q1 :: r) ['.'] = true → tokenize (q0 :: q1 :: r) = .error .trailingDot) ∧
    (HasSuffix (q0 :: q1 :: r) ['.'] = false →
      Count (q0 :: q1 :: r) ']' < Count (q0 :: q1 :: r) '[' →
      tokenize (q0 :: q1 :: r) = .error .unclosedBracket) ∧
    (HasSuffix (q0 :: q1 :: r) ['.'] = false →
      Count (q0 :: q1 :: r) '[' ≤ Count (q0 :: q1 :: r) ']' →
      ∃ out, tokenize (q0 :: q1 :: r) = .ok out) := by
  have hq : ¬ (q0 ≠ '$' ∧ q0 ≠ '@') := by
    rcases h0 with e | e <;> simp [e]
  have hq0 : ∀ c, c = '[' ∨ c = ']' → q0 ≠ c := by
    intro c hc e
    subst e
    rcases h0 with e | e <;> rcases hc with e' | e' <;> rw [e] at e' <;> revert e' <;> decide
  have hcount : ∀ c, c = '[' ∨ c = ']' →
      countAll ([q0] :: Split (if q1 = '.' then r else q1 :: r) '.') c = Count (q0 :: q1 :: r) c := by
    intro c hc
    have hdot : c ≠ '.' := by
      rcases hc with e | e <;> rw [e] <;> decide
    rw [countAll_cons, countAll_Split _ '.' c hdot, Count_cons q0 [], if_neg (hq0 c hc), Count_nil,
      Count_cons q0, if_neg (hq0 c hc)]
    split_ifs with h1
    · subst h1
      rw [Count_cons '.', if_neg (fun e => hdot e.symm)]
      omega
    · omega
  have hbal : balance ([q0] :: Split (if q1 = '.' then r else q1 :: r) '.') =
      Count (q0 :: q1 :: r) '[' - Count (q0 :: q1 :: r) ']' := by
    rw [balance, hcount '[' (Or.inl rfl), hcount ']' (Or.inr rfl)]
  have hpieces : ∀ t ∈ [q0] :: Split (if q1 = '.' then r else q1 :: r) '.', '=' ∉ t := by
    intro t ht hm
    rcases List.mem_cons.mp ht with e | h
    · subst e
      simp only [List.mem_singleton] at hm
      exact heq (hm ▸ List.mem_cons_self _ _)
    · have := Split_mem _ '.' t h '=' hm
      apply heq
      split_ifs at this
      · exact List.mem_cons_of_mem _ (List.mem_cons_of_mem _ this)
      · exact List.mem_cons_of_mem _ this
  have hloop := tokenize.loop_balance _ hpieces 0 [] [] 0
  rw [hbal] at hloop
  refine ⟨fun hs => ?_, fun hs hlt => ?_, fun hs hle => ?_⟩
  · simp only [tokenize, hq, if_false, hs, if_true]
  · rw [tokenize_segments q0 q1 r h0 hs]
    exact hloop.1 (by omega)
  · rw [tokenize_segments q0 q1 r h0 hs]
    exact hloop.2 (by omega)

/-! ## The last token of a text without bracket -/

/-- The last piece of `strings.Split` is not empty when the text does not end
in the separator. -/
theorem Split_snoc (body : Str) (c sep : Char) (hc : c ≠ sep) :
    ∃ init t, Split (body ++ [c]) sep = init ++ [t] ∧ t ≠ [] := by
  induction body with
  | nil => exact ⟨[], [c], by simp [Split, hc], by simp⟩
  | cons x r ih =>
    obtain ⟨init, t, hs, ht⟩ := ih
    rw [List.cons_append, Split]
    split_ifs with hx
    · exact ⟨[] :: init, t, by simp [hs], ht⟩
    · rw [hs]
      cases init with
      | nil => exact ⟨[], x :: t, by simp, by simp⟩
      | cons u us => exact ⟨(x :: u) :: us, t, by simp, ht⟩

/-- One pass of the loop of `tokenize` over an empty segment that follows the
marker: nothing is emitted. -/
theorem tokenize.loop_empty_skip (rest : List Str) (idx : Nat) (rets : List Str)
    (h : rets.getLast? = some [' ']) :
    tokenize.loop ([] :: rest) idx false rets [] 0 =
      tokenize.loop rest (idx + 1) false rets [] 0 := by
  rw [tokenize.loop]
  simp only [Bool.false_eq_true, if_false, h, if_true]

/-- The loop of `tokenize` over segments without `=` and bracket, the last of
which is not empty: that segment is the last token. -/
theorem tokenize.loop_last (toks : List Str) (t : Str) (ht : t ≠ [])
    (h : ∀ u ∈ toks ++ [t], '=' ∉ u ∧ '[' ∉ u ∧ ']' ∉ u) :
    ∀ (idx : Nat) (rets : List Str),
      ∃ pre, tokenize.loop (toks ++ [t]) idx false rets [] 0 = .ok (pre ++ [t]) := by
  have hsimple : ∀ u ∈ toks ++ [t], u ≠ [] → u ≠ [] ∧ '=' ∉ u ∧ Count u '[' = Count u ']' := by
    intro u hu hne
    obtain ⟨h1, h2, h3⟩ := h u hu
    exact ⟨hne, h1, by rw [Count_of_not_mem u '[' h2, Count_of_not_mem u ']' h3]⟩
  induction toks with
  | nil =>
    intro idx rets
    obtain ⟨h1, h2, h3⟩ := hsimple t (by simp) ht
    refine ⟨rets, ?_⟩
    rw [List.nil_append, tokenize.loop_simple t [] idx rets h1 h2 h3, tokenize.loop_nil]
  | cons u rest ih =>
    intro idx rets
    have ih' := ih (fun v hv => h v (List.mem_cons_of_mem _ hv))
      (fun v hv => hsimple v (List.mem_cons_of_mem _ hv))
    rw [List.cons_append]
    by_cases hu : u = []
    · subst hu
      by_cases hl : rets.getLast? = some [' ']
      · rw [tokenize.loop_empty_skip _ idx rets hl]
        exact ih' _ _
      · rw [tokenize.loop_empty _ idx rets hl]
        exact ih' _ _
    · obtain ⟨h1, h2, h3⟩ := hsimple u (List.mem_cons_self _ _) hu
      rw [tokenize.loop_simple u _ idx rets h1 h2 h3]
      exact ih' _ _

/-- The step the loop of `Compile` makes of the last token is the last
step. -/
theorem Compile.steps_last (parse : Str → Outcome step) (pre : List Str) (t : Str)
    (steps : List step) (h : Compile.steps parse (pre ++ [t]) = .ok steps) :
    ∃ s, parse t = .ok s ∧ steps.getLast? = some s := by
  induction pre generalizing steps with
  | nil =>
    simp only [List.nil_append, Compile.steps] at h
    cases hp : parse t with
    | ok s =>
      rw [hp] at h
      simp only [Outcome.bind_ok] at h
      cases h
      exact ⟨s, rfl, rfl⟩
    | error e => rw [hp] at h; cases h
    | panic => rw [hp] at h; cases h
    | exhausted => rw [hp] at h; cases h
  | cons u rest ih =>
    rw [List.cons_append, Compile.steps] at h
    cases hp : parse u with
    | ok s0 =>
      rw [hp] at h
      simp only [Outcome.bind_ok] at h
      cases hr : Compile.steps parse (rest ++ [t]) with
      | ok more =>
        rw [hr] at h
        simp only [Outcome.bind_ok] at h
        cases h
        obtain ⟨s, hs, hlast⟩ := ih more hr
        refine ⟨s, hs, ?_⟩
        cases more with
        | nil => cases hlast
        | cons m ms => simpa using hlast
      | error e => rw [hr] at h; cases h
      | panic => rw [hr] at h; cases h
      | exhausted => rw [hr] at h; cases h
    | error e => rw [hp] at h; cases h
    | panic => rw [hp] at h; cases h
    | exhausted => rw [hp] at h; cases h

/-- `parse_token` makes a marker of the token `" "` only. -/
theorem parse_token_not_search (E : Ext) (compile : Str → Outcome Compiled) (t : Str) (s : step)
    (h1 : t ≠ [' ']) (h2 : '[' ∉ t) (h : parse_token E compile t = .ok s) : s.op ≠ .search := by
  have hidx : Index t ['['] = -1 := Index_not_mem '[' [] t h2
  simp only [parse_token, h1, if_false, hidx] at h
  split_ifs at h with ha hb hc
  · cases h; simp [step.op]
  · cases h; simp [step.op]
  · cases h; simp [step.op]
  · exact absurd (by decide : (-1 : Int) < 0) hc

/-- `HasSuffix` of one byte on a text that ends in another byte. -/
theorem HasSuffix_snoc (body : Str) (c d : Char) :
    HasSuffix (body ++ [c]) [d] = (c == d) := by
  simp [HasSuffix, HasPrefix]

/-- On a text without space, bracket and `=` that `Compile` accepts, the last
step is no marker. -/
theorem Compile_last_not_marker (E : Ext) (q : Str) (c : Compiled)
    (h1 : ' ' ∉ q) (h2 : '[' ∉ q) (h3 : ']' ∉ q) (h4 : '=' ∉ q)
    (h : Compile E q = .ok c) : ∀ s, c.steps.getLast? = some s → s.op ≠ .search := by
  intro s hs
  rw [Compile, Compile.go] at h
  cases htok : tokenize q with
  | error e => rw [htok] at h; cases h
  | panic => rw [htok] at h; cases h
  | exhausted => rw [htok] at h; cases h
  | ok tokens =>
    rw [htok] at h
    simp only [Outcome.bind_ok] at h
    -- the shape of the text
    cases q with
    | nil => simp [tokenize] at htok
    | cons q0 rest =>
      cases rest with
      | nil =>
        simp only [tokenize] at htok
        split_ifs at htok
        simp at htok
      | cons q1 r =>
        have h0 : q0 = '$' ∨ q0 = '@' := by
          by_contra hn
          simp only [not_or] at hn
          simp [tokenize, hn.1, hn.2] at htok
        have hsuf : HasSuffix (q0 :: q1 :: r) ['.'] = false := by
          cases hh : HasSuffix (q0 :: q1 :: r) ['.'] with
          | false => rfl
          | true =>
            have := (tokenize_balance q0 q1 r h0 h4).1 hh
            rw [this] at htok
            cases htok
        -- the segments end in a byte that is no dot
        have hseg : ∃ body d, (if q1 = '.' then r else q1 :: r) = body ++ [d] ∧ d ≠ '.' := by
          have hne : (if q1 = '.' then r else q1 :: r) ≠ [] := by
            split_ifs with hq1
            · intro hr
              subst hr
              subst hq1
              have : HasSuffix [q0, '.'] ['.'] = true := by simp [HasSuffix, HasPrefix]
              rw [this] at hsuf
              cases hsuf
            · simp
          refine ⟨(if q1 = '.' then r else q1 :: r).dropLast,
            (if q1 = '.' then r else q1 :: r).getLast hne,
            (List.dropLast_append_getLast hne).symm, ?_⟩
          intro hd
          have hq : ∃ front, q0 :: q1 :: r = front ++ (if q1 = '.' then r else q1 :: r) := by
            split_ifs
            · exact ⟨[q0, q1], rfl⟩
            · exact ⟨[q0], rfl⟩
          obtain ⟨front, hfront⟩ := hq
          rw [hfront, ← List.dropLast_append_getLast hne, ← List.append_assoc, HasSuffix_snoc,
            hd] at hsuf
          simp at hsuf
        obtain ⟨body, d, hbd, hd⟩ := hseg
        obtain ⟨init, t, hsplit, ht⟩ := Split_snoc body d '.' hd
        have hmem : ∀ u ∈ ([q0] :: init) ++ [t], ∀ x ∈ u, x ∈ q0 :: q1 :: r := by
          intro u hu x hx
          rcases List.mem_append.mp hu with hu | hu
          · rcases List.mem_cons.mp hu with e | hu
            · subst e
              simp only [List.mem_singleton] at hx
              subst hx
              exact List.mem_cons_self _ _
            · have hin : u ∈ Split (body ++ [d]) '.' := by
                rw [hsplit]; exact List.mem_append_left _ hu
              have := Split_mem _ '.' u hin x hx
              rw [← hbd] at this
              split_ifs at this
              · exact List.mem_cons_of_mem _ (List.mem_cons_of_mem _ this)
              · exact List.mem_cons_of_mem _ this
          · simp only [List.mem_singleton] at hu
            subst hu
            have hin : u ∈ Split (body ++ [d]) '.' := by
              rw [hsplit]; simp
            have := Split_mem _ '.' u hin x hx
            rw [← hbd] at this
            split_ifs at this
            · exact List.mem_cons_of_mem _ (List.mem_cons_of_mem _ this)
            · exact List.mem_cons_of_mem _ this
        obtain ⟨pre, hloop⟩ := tokenize.loop_last ([q0] :: init) t ht
          (fun u hu => ⟨fun hx => h4 (hmem u hu _ hx), fun hx => h2 (hmem u hu _ hx),
            fun hx => h3 (hmem u hu _ hx)⟩) 0 []
        rw [tokenize_segments q0 q1 r h0 hsuf, hbd, hsplit] at htok
        have hcons : [q0] :: (init ++ [t]) = ([q0] :: init) ++ [t] := rfl
        rw [hcons, hloop] at htok
        cases htok
        -- the last token is the last segment
        have htsp : t ≠ [' '] := by
          intro e
          exact h1 (hmem t (by simp) ' ' (by rw [e]; simp))
        have ht2 : '[' ∉ t := fun hx => h2 (hmem t (by simp) _ hx)
        cases pre with
        | nil =>
          simp only [List.nil_append] at h
          split_ifs at h
          simp only [Compile.steps, Outcome.bind_ok] at h
          cases h
          cases hs
        | cons p ps =>
          simp only [List.cons_append] at h
          split_ifs at h
          cases hst : Compile.steps (parse_token E (Compile.go E (q0 :: q1 :: r).length))
              (ps ++ [t]) with
          | ok steps =>
            rw [hst] at h
            simp only [Outcome.bind_ok] at h
            cases h
            obtain ⟨s', hp, hlast⟩ := Compile.steps_last _ ps t steps hst
            simp only [Compiled.steps] at hs
            rw [hlast] at hs
            cases hs
            exact parse_token_not_search E _ t _ htsp ht2 hp
          | error e => rw [hst] at h; cases h
          | panic => rw [hst] at h; cases h
          | exhausted => rw [hst] at h; cases h

/-! ## The regular expression of a predicate -/

/-- The loop of `get_filtered` fails as soon as one evaluation fails, when no
evaluation aborts. -/
theorem get_filtered.loop_error (ev : Value → Outcome Bool) (xs : List Value)
    (hret : ∀ x ∈ xs, (ev x).isOk = true ∨ (ev x).isError = true)
    (hbad : ∃ x ∈ xs, (ev x).isError = true) :
    (get_filtered.loop ev xs).isError = true := by
  induction xs with
  | nil => obtain ⟨x, hx, _⟩ := hbad; cases hx
  | cons y rest ih =>
    rw [get_filtered.loop]
    cases hy : ev y with
    | ok b =>
      have hrest : (get_filtered.loop ev rest).isError = true := by
        apply ih (fun x hx => hret x (List.mem_cons_of_mem _ hx))
        obtain ⟨x, hx, hb⟩ := hbad
        rcases List.mem_cons.mp hx with e | hm
        · subst e; rw [hy] at hb; cases hb
        · exact ⟨x, hm, hb⟩
      cases hr : get_filtered.loop ev rest with
      | ok r => rw [hr] at hrest; cases hrest
      | error e => rfl
      | panic => rw [hr] at hrest; cases hrest
      | exhausted => rw [hr] at hrest; cases hrest
    | error e => rfl
    | panic =>
      have := hret y (List.mem_cons_self _ _)
      rw [hy] at this
      rcases this with h | h <;> cases h
    | exhausted =>
      have := hret y (List.mem_cons_self _ _)
      rw [hy] at this
      rcases this with h | h <;> cases h

/-- The predicate with the operator `=~`: an error when the left operand is
no text, or fails; a result when it is a text and the pattern is set. -/
theorem eval_filter_regex (E : Ext) (lp rp : Str) (reg : Option Str)
    (lpSub rpSub : Option Compiled) (x root : Value) :
    (∀ e, get_lp_v lp (fun o => Compiled.Lookup.opt E lpSub o) x root = .error e →
      (filterParam.eval_filter E (.mk lp ['=', '~'] rp reg lpSub rpSub) x root).isError = true) ∧
    (∀ v, get_lp_v lp (fun o => Compiled.Lookup.opt E lpSub o) x root = .ok v →
      v.isStr = false →
      (filterParam.eval_filter E (.mk lp ['=', '~'] rp reg lpSub rpSub) x root).isError = true) ∧
    (∀ s, get_lp_v lp (fun o => Compiled.Lookup.opt E lpSub o) x root = .ok (.str s) →
      filterParam.eval_filter E (.mk lp ['=', '~'] rp reg lpSub rpSub) x root =
        match reg with
        | some r => .ok (E.MatchString r s)
        | none => .error .regexpNotInit) := by
  refine ⟨fun e h => ?_, fun v h hv => ?_, fun s h => ?_⟩
  · cases reg <;> simp [filterParam.eval_filter, eval_reg_filter, h, Outcome.isError]
  · cases reg with
    | none => simp [filterParam.eval_filter, Outcome.isError]
    | some r =>
      cases v <;> simp_all [filterParam.eval_filter, eval_reg_filter, Outcome.isError, Value.isStr]
  · cases reg <;> simp [filterParam.eval_filter, eval_reg_filter, h]

/-- The Filter step with the operator `=~` on an array fails when the left
operand of one element is no text and that of no element aborts. -/
theorem parse_regex_error (E : Ext) (key text lp rp : Str) (reg : Option Str)
    (lpSub rpSub : Option Compiled) (obj root : Value) (xs : List Value)
    (hobj : (if key ≠ [] then get_key obj key else .ok obj) = .ok (.arr xs))
    (hret : ∀ x ∈ xs, (get_lp_v lp (fun o => Compiled.Lookup.opt E lpSub o) x root).isOk = true ∨
      (get_lp_v lp (fun o => Compiled.Lookup.opt E lpSub o) x root).isError = true)
    (hbad : ∃ x ∈ xs, ∃ v, get_lp_v lp (fun o => Compiled.Lookup.opt E lpSub o) x root = .ok v ∧
      v.isStr = false) :
    (step.parse E (.mk .filter key (.text text) (.mk lp ['=', '~'] rp reg lpSub rpSub))
      obj root).isError = true := by
  have hloop : (get_filtered.loop
      (fun tmp => filterParam.eval_filter E (.mk lp ['=', '~'] rp reg lpSub rpSub) tmp root)
      xs).isError = true := by
    apply get_filtered.loop_error
    · intro x hx
      have h3 := eval_filter_regex E lp rp reg lpSub rpSub x root
      cases hl : get_lp_v lp (fun o => Compiled.Lookup.opt E lpSub o) x root with
      | ok v =>
        cases hv : v.isStr with
        | false => exact Or.inr (h3.2.1 v hl hv)
        | true =>
          cases v with
          | str s =>
            rw [h3.2.2 s hl]
            cases reg
            · exact Or.inr rfl
            · exact Or.inl rfl
          | _ => cases hv
      | error e => exact Or.inr (h3.1 e hl)
      | panic => have := hret x hx; rw [hl] at this; rcases this with h | h <;> cases h
      | exhausted => have := hret x hx; rw [hl] at this; rcases this with h | h <;> cases h
    · obtain ⟨x, hx, v, hl, hv⟩ := hbad
      exact ⟨x, hx, (eval_filter_regex E lp rp reg lpSub rpSub x root).2.1 v hl hv⟩
  rw [step.parse]
  simp only [hobj, Outcome.bind_ok, get_filtered]
  cases hr : get_filtered.loop
      (fun tmp => filterParam.eval_filter E (.mk lp ['=', '~'] rp reg lpSub rpSub) tmp root) xs with
  | ok r => rw [hr] at hloop; cases hloop
  | error e => rfl
  | panic => rw [hr] at hloop; cases hloop
  | exhausted => rw [hr] at hloop; cases hloop

/-- `Lookup` fails when its first step fails. -/
theorem Lookup_first_step_error (E : Ext) (path : Str) (s : step) (rest : List step)
    (obj : Value) (hobj : obj.isNull = false) (hs : s.op = .filter)
    (h : (step.parse E s obj obj).isError = true) :
    (Compiled.Lookup E (.mk path (s :: rest)) obj).isError = true := by
  have hsr : step.singleReturn s = .ok false := by
    simp [step.singleReturn, hs]
  rw [Compiled.Lookup, Lookup.guard_container obj _ hobj, Lookup.loop]
  simp only [hsr, hs, Outcome.bind_ok, Bool.false_eq_true, if_false]
  cases hp : step.parse E s obj obj with
  | ok r => rw [hp] at h; cases h
  | error e => rfl
  | panic => rw [hp] at h; cases h
  | exhausted => rw [hp] at h; cases h

/-- The loop of `get_filtered` for a predicate that returns on every element
of the list. -/
theorem get_filtered.loop_ok (p : Value → Bool) (ev : Value → Outcome Bool) (xs : List Value)
    (h : ∀ x ∈ xs, ev x = .ok (p x)) : get_filtered.loop ev xs = .ok (xs.filter p) := by
  induction xs with
  | nil => rfl
  | cons x rest ih =>
    simp only [get_filtered.loop, h x (List.mem_cons_self _ _), Outcome.bind_ok,
      ih (fun y hy => h y (List.mem_cons_of_mem _ hy)), List.filter_cons]

/-- The left operand `@.f` of `regexFilter f P` on an element: the value under
the key `f`, an error for the nil element. -/
theorem regexFilter_lp_v (E : Ext) (f : Str) (x root : Value) :
    get_lp_v ('@' :: '.' :: f)
      (fun o => Compiled.Lookup.opt E (some (.mk ('@' :: '.' :: f) [keyStep f])) o) x root =
      Lookup.guard x (.ok (followKeys [f] x)) := by
  have hloop : Lookup.loop E [keyStep f] x false x = .ok (followKeys [f] x) := by
    have := Lookup.loop_keys E [keyStep f] (by simp [keyStep, step.op]) x x
    simpa [keyStep, step.key] using this
  simp only [get_lp_v, HasPrefix, beq_self_eq_true, Bool.and_self, if_true, Compiled.Lookup.opt,
    Compiled.Lookup, hloop]

/-- The predicate `@.f =~ /P/i` on an element whose member `f` is a text: the
match of the pattern. -/
theorem eval_regexFilter_text (E : Ext) (f P : Str) (x root : Value) (s : Str)
    (h : stringMember f x = some s) :
    filterParam.eval_filter E (regexFilter f P) x root = .ok (E.MatchString P s) := by
  have hl : get_lp_v ('@' :: '.' :: f)
      (fun o => Compiled.Lookup.opt E (some (.mk ('@' :: '.' :: f) [keyStep f])) o) x root =
      .ok (.str s) := by
    rw [regexFilter_lp_v]
    cases x with
    | obj m =>
      simp only [stringMember] at h
      cases hm : mapGet f m with
      | none => rw [hm] at h; cases h
      | some v =>
        rw [hm] at h
        cases v with
        | str t =>
          simp only [Option.some.injEq] at h
          subst h
          simp [Lookup.guard, followKeys, hm]
        | _ => cases h
    | _ => cases h
  exact (eval_filter_regex E _ _ (some P) _ none x root).2.2 s hl

/-- The predicate `@.f =~ /P/i` on an element whose member `f` is no text, or
that has no member `f`, or that is no object: an evaluation error. -/
theorem eval_regexFilter_other (E : Ext) (f P : Str) (x root : Value)
    (h : stringMember f x = none) :
    (filterParam.eval_filter E (regexFilter f P) x root).isError = true := by
  have h3 := eval_filter_regex E ('@' :: '.' :: f) ('/' :: (P ++ ['/', 'i'])) (some P)
    (some (.mk ('@' :: '.' :: f) [keyStep f])) none x root
  rw [regexFilter_lp_v] at h3
  cases x with
  | null => exact h3.1 _ rfl
  | obj m =>
    simp only [stringMember] at h
    cases hm : mapGet f m with
    | none => exact h3.2.1 .null (by simp [Lookup.guard, followKeys, hm]) rfl
    | some v =>
      rw [hm] at h
      cases v with
      | str t => cases h
      | null => exact h3.2.1 .null (by simp [Lookup.guard, followKeys, hm]) rfl
      | bool b => exact h3.2.1 (.bool b) (by simp [Lookup.guard, followKeys, hm]) rfl
      | num n => exact h3.2.1 (.num n) (by simp [Lookup.guard, followKeys, hm]) rfl
      | arr ys => exact h3.2.1 (.arr ys) (by simp [Lookup.guard, followKeys, hm]) rfl
      | obj kvs => exact h3.2.1 (.obj kvs) (by simp [Lookup.guard, followKeys, hm]) rfl
  | bool b => exact h3.2.1 .null rfl rfl
  | num n => exact h3.2.1 .null rfl rfl
  | str t => exact h3.2.1 .null rfl rfl
  | arr ys => exact h3.2.1 .null rfl rfl

/-- `Lookup` on the compiled `$.k[?(@.f =~ /P/i)]`, on an object whose member
`k` is an array: the elements whose text under `f` matches when every element
holds a text under `f`, an error as soon as one does not. -/
theorem Lookup_regex (E : Ext) (path k text f P : Str) (kvs : List (Str × Value))
    (xs : List Value) (hk : k ≠ []) (hm : mapGet k kvs = some (.arr xs)) :
    ((∀ x ∈ xs, (stringMember f x).isSome = true) →
      Compiled.Lookup E (.mk path [.mk .filter k (.text text) (regexFilter f P)]) (.obj kvs) =
        .ok (.arr (xs.filter (regexMatches E f P)))) ∧
    ((∃ x ∈ xs, stringMember f x = none) →
      (Compiled.Lookup E (.mk path [.mk .filter k (.text text) (regexFilter f P)])
        (.obj kvs)).isError = true) := by
  have hs : step.singleReturn (.mk .filter k (.text text) (regexFilter f P)) = .ok false := rfl
  have hop : (step.mk .filter k (.text text) (regexFilter f P)).op = .filter := rfl
  have hev : ∀ x, (filterParam.eval_filter E (regexFilter f P) x (.obj kvs)).isOk = true ∨
      (filterParam.eval_filter E (regexFilter f P) x (.obj kvs)).isError = true := by
    intro x
    cases h : stringMember f x with
    | none => exact Or.inr (eval_regexFilter_other E f P x _ h)
    | some s => rw [eval_regexFilter_text E f P x _ s h]; exact Or.inl rfl
  constructor
  · intro hall
    have hloop := get_filtered.loop_ok (regexMatches E f P)
      (fun tmp => filterParam.eval_filter E (regexFilter f P) tmp (.obj kvs)) xs
      (by
        intro x hx
        cases h : stringMember f x with
        | none => have := hall x hx; rw [h] at this; cases this
        | some s => simp only [eval_regexFilter_text E f P x _ s h, regexMatches, h])
    rw [Compiled.Lookup, Lookup.guard_container (.obj kvs) _ rfl, Lookup.loop]
    simp only [hs, hop, Outcome.bind_ok, step.parse, ne_eq, hk, not_false_eq_true, if_true,
      get_key, hm, get_filtered, hloop, Bool.false_or, Bool.not_false, Bool.true_and,
      List.isEmpty_nil, Bool.not_true, if_false, Bool.false_eq_true, Lookup.loop]
  · intro hbad
    apply Lookup_first_step_error E path _ [] (.obj kvs) rfl hop
    have hloop := get_filtered.loop_error
      (fun tmp => filterParam.eval_filter E (regexFilter f P) tmp (.obj kvs)) xs
      (fun x _ => hev x)
      (by
        obtain ⟨x, hx, h⟩ := hbad
        exact ⟨x, hx, eval_regexFilter_other E f P x _ h⟩)
    simp only [step.parse, ne_eq, hk, not_false_eq_true, if_true, get_key, hm, Outcome.bind_ok,
      get_filtered]
    cases hr : get_filtered.loop
        (fun tmp => filterParam.eval_filter E (regexFilter f P) tmp (.obj kvs)) xs with
    | ok r => rw [hr] at hloop; cases hloop
    | error e => rfl
    | panic => rw [hr] at hloop; cases hloop
    | exhausted => rw [hr] at hloop; cases hloop

/-! ## Malformed brackets -/

/-- `parse_token` on `key[body]` for a body that holds `?` and is not of the
form `?(...)`: a Filter step without predicate, no error. -/
theorem parse_token_malformed_filter (E : Ext) (compile : Str → Outcome Compiled)
    (key body : Str) (hkey : key = [] ∨ plainName key = true)
    (hq : Contains body '?' = true)
    (hform : (HasPrefix body ['?', '('] && HasSuffix body [')']) = false) :
    parse_token E compile (key ++ '[' :: (body ++ [']'])) =
      .ok (.mk .filter key .none filterParam.zero) := by
  have hne : body ≠ [] := by
    intro e; subst e; simp [Contains] at hq
  rw [parse_token_bracket E compile key body hkey hne, parse_token.bracket]
  simp only [hq, if_true, hform, Bool.false_eq_true, if_false]

/-- `Lookup` at a Filter step without predicate: the type assertion
`s.args.(string)` panics. -/
theorem Lookup_filter_without_predicate (E : Ext) (path key : Str) (f : filterParam)
    (rest : List step) (D : Value) (hD : D.isNull = false) :
    Compiled.Lookup E (.mk path (.mk .filter key .none f :: rest)) D = .panic := by
  have hs : step.singleReturn (.mk .filter key .none f) = .ok false := rfl
  have hop : (step.mk .filter key .none f).op = .filter := rfl
  have hkey : ∀ obj, ∃ v, get_key obj key = .ok v := by
    intro obj
    cases obj with
    | obj m =>
      cases hm : mapGet key m with
      | none => exact ⟨.null, by simp [get_key, hm]⟩
      | some v => exact ⟨v, by simp [get_key, hm]⟩
    | _ => exact ⟨_, rfl⟩
  have hparse : step.parse E (.mk .filter key .none f) D D = .panic := by
    rw [step.parse]
    by_cases hk : key = []
    · simp [hk]
    · obtain ⟨v, hv⟩ := hkey D
      simp [hk, hv]
  rw [Compiled.Lookup, Lookup.guard_container D _ hD, Lookup.loop]
  simp only [hs, hop, Outcome.bind_ok, hparse, Outcome.bind_panic, Bool.false_eq_true, if_false]

/-- `Lookup` on a path whose only step is the marker: `c.steps[idx+1]` is out
of range. -/
theorem Lookup_marker_last (E : Ext) (path : Str) (D : Value) (hD : D.isNull = false) :
    Compiled.Lookup E (.mk path [searchStep]) D = .panic := by
  have hs : step.singleReturn searchStep = .ok false := rfl
  have hop : searchStep.op = .search := rfl
  rw [Compiled.Lookup, Lookup.guard_container D _ hD, Lookup.loop]
  simp only [hs, hop, Outcome.bind_ok, Bool.false_eq_true, if_false]

theorem Compile_error_of_tokenize (E : Ext) (q : Str) (e : Err) (h : tokenize q = .error e) :
    Compile E q = .error e := by
  simp [Compile, Compile.go, h]

theorem regexToken_length (f P : Str) : (regexToken f P).length = f.length + P.length + 9 := by
  simp [regexToken]
  omega

/-! ## The walk with a replacement along keys -/

theorem set_same {α : Type} (xs : List α) (i : Nat) (x : α) (h : xs[i]? = some x) :
    xs.set i x = xs := by
  induction xs generalizing i with
  | nil => rfl
  | cons y rest ih =>
    cases i with
    | zero =>
      simp only [List.getElem?_cons_zero, Option.some.injEq] at h
      subst h
      rfl
    | succ n =>
      simp only [List.getElem?_cons_succ] at h
      simp only [List.set_cons_succ, ih n h]

theorem Value.setChild_child (v : Value) (i : Nat) : v.setChild i (v.child i) = v := by
  cases v with
  | arr xs =>
    simp only [Value.setChild, Value.child]
    cases h : xs[i]? with
    | none =>
      have := List.getElem?_eq_none_iff.mp h
      rw [List.set_eq_of_length_le this]
    | some x => simp only [set_same xs i x h]
  | obj kvs =>
    simp only [Value.setChild, Value.child]
    cases h : kvs[i]? with
    | none => rfl
    | some kv => simp only [set_same kvs i kv h]
  | _ => rfl

/-- Overwriting a slot by the value it holds changes nothing. -/
theorem Value.put_get (loc : Loc) : ∀ v : Value, v.put loc (v.get loc) = v := by
  induction loc with
  | nil => intro v; rfl
  | cons i rest ih =>
    intro v
    rw [Value.put, Value.get, ih, Value.setChild_child]

theorem Value.get_append (loc : Loc) (i : Nat) :
    ∀ v : Value, v.get (loc ++ [i]) = (v.get loc).child i := by
  induction loc with
  | nil => intro v; rfl
  | cons j rest ih =>
    intro v
    rw [List.cons_append, Value.get, ih, Value.get]

/-- Overwriting a slot of a container at a place is overwriting the container
at that place by the container with the slot overwritten. -/
theorem Value.put_append (loc : Loc) (i : Nat) (c : Value) :
    ∀ v : Value, v.put (loc ++ [i]) c = v.put loc ((v.get loc).setChild i c) := by
  induction loc with
  | nil => intro v; rfl
  | cons j rest ih =>
    intro v
    rw [List.cons_append, Value.put, ih, Value.put, Value.get]

theorem mapIdx_none (key : Str) (kvs : List (Str × Value)) (h : mapIdx key kvs = none) :
    mapGet key kvs = none ∧ ∀ c, mapSet key c kvs = kvs := by
  induction kvs with
  | nil => exact ⟨rfl, fun _ => rfl⟩
  | cons kv rest ih =>
    obtain ⟨k, w⟩ := kv
    simp only [mapIdx] at h
    split_ifs at h with hk
    cases hr : mapIdx key rest with
    | none =>
      obtain ⟨h1, h2⟩ := ih hr
      exact ⟨by simp [mapGet, hk, h1], fun c => by simp [mapSet, hk, h2]⟩
    | some i => rw [hr] at h; cases h

theorem mapIdx_some (key : Str) (kvs : List (Str × Value)) (i : Nat)
    (h : mapIdx key kvs = some i) :
    ∃ v, kvs[i]? = some (key, v) ∧ mapGet key kvs = some v ∧
      ∀ c, kvs.set i (key, c) = mapSet key c kvs := by
  induction kvs generalizing i with
  | nil => cases h
  | cons kv rest ih =>
    obtain ⟨k, w⟩ := kv
    simp only [mapIdx] at h
    split_ifs at h with hk
    · cases h
      subst hk
      exact ⟨w, by simp, by simp [mapGet], fun c => by simp [mapSet]⟩
    · cases hr : mapIdx key rest with
      | none => rw [hr] at h; cases h
      | some j =>
        rw [hr] at h
        cases h
        obtain ⟨v, h1, h2, h3⟩ := ih j hr
        exact ⟨v, by simpa using h1, by simp [mapGet, hk, h2],
          fun c => by simp [mapSet, hk, h3]⟩

theorem mapGet_mapSet (key : Str) (c v : Value) (kvs : List (Str × Value))
    (h : mapGet key kvs = some v) : mapGet key (mapSet key c kvs) = some c := by
  induction kvs with
  | nil => cases h
  | cons kv rest ih =>
    obtain ⟨k, w⟩ := kv
    simp only [mapGet] at h
    by_cases hk : k = key
    · simp [mapSet, mapGet, hk]
    · rw [if_neg hk] at h
      simp [mapSet, mapGet, hk, ih h]

theorem mapSet_mapSet (key : Str) (c d : Value) (kvs : List (Str × Value)) :
    mapSet key d (mapSet key c kvs) = mapSet key d kvs := by
  induction kvs with
  | nil => rfl
  | cons kv rest ih =>
    obtain ⟨k, w⟩ := kv
    by_cases hk : k = key
    · simp [mapSet, hk]
    · simp [mapSet, hk, ih]

/-- `get_key` with a replacement on a document object: the member is
overwritten when it exists, the value it held is returned. -/
theorem get_key.write_at (V : Value) (hV : V.isNull = false) (doc : Value) (loc : Loc) (k : Str) :
    get_key.write V doc (.at loc) k =
      ⟨doc.put loc (overwriteKeys V [k] (doc.get loc)), .ok (.val (followKeys [k] (doc.get loc)))⟩ := by
  simp only [get_key.write, Ref.read]
  cases hd : doc.get loc with
  | obj kvs =>
    simp only
    cases hi : mapIdx k kvs with
    | none =>
      obtain ⟨h1, h2⟩ := mapIdx_none k kvs hi
      simp only [overwriteKeys, h2, followKeys, h1]
      rw [← hd, Value.put_get]
    | some i =>
      obtain ⟨v, h1, h2, h3⟩ := mapIdx_some k kvs i hi
      simp only [hV, Bool.false_eq_true, if_false, Ref.assign, Value.put_append, hd,
        Value.setChild, h1, h3, overwriteKeys, Value.child, followKeys, h2]
  | null => simp only [overwriteKeys, followKeys]; rw [← hd, Value.put_get]
  | bool b => simp only [overwriteKeys, followKeys]; rw [← hd, Value.put_get]
  | num n => simp only [overwriteKeys, followKeys]; rw [← hd, Value.put_get]
  | str s => simp only [overwriteKeys, followKeys]; rw [← hd, Value.put_get]
  | arr xs => simp only [overwriteKeys, followKeys]; rw [← hd, Value.put_get]

/-- `get_key` without replacement on a document object: the place of the
member, nothing written. -/
theorem get_key.write_nil (doc : Value) (loc : Loc) (k : Str) :
    ∃ r, get_key.write .null doc (.at loc) k = ⟨doc, .ok r⟩ ∧
      r.read doc = followKeys [k] (doc.get loc) ∧
      ((r = .val .null ∧ ∀ kvs, doc.get loc = .obj kvs → mapGet k kvs = none) ∨ ∃ i kvs v, r = .at (loc ++ [i]) ∧ doc.get loc = .obj kvs ∧
        mapIdx k kvs = some i ∧ mapGet k kvs = some v ∧ doc.get (loc ++ [i]) = v) := by
  simp only [get_key.write, Ref.read]
  cases hd : doc.get loc with
  | obj kvs =>
    simp only
    cases hi : mapIdx k kvs with
    | none =>
      obtain ⟨h1, h2⟩ := mapIdx_none k kvs hi
      exact ⟨.val .null, rfl, by simp [Ref.read, followKeys, h1],
        Or.inl ⟨rfl, fun kvs' e => by cases e; exact h1⟩⟩
    | some i =>
      obtain ⟨v, h1, h2, h3⟩ := mapIdx_some k kvs i hi
      have hg : doc.get (loc ++ [i]) = v := by
        rw [Value.get_append, hd]
        simp [Value.child, h1]
      refine ⟨.at (loc ++ [i]), by simp [Value.isNull, Ref.child], ?_,
        Or.inr ⟨i, kvs, v, rfl, rfl, hi, h2, hg⟩⟩
      simp [Ref.read, hg, followKeys, h2]
  | null => exact ⟨.val .null, rfl, rfl, Or.inl ⟨rfl, fun kvs' e => by cases e⟩⟩
  | bool b => exact ⟨.val .null, rfl, rfl, Or.inl ⟨rfl, fun kvs' e => by cases e⟩⟩
  | num n => exact ⟨.val .null, rfl, rfl, Or.inl ⟨rfl, fun kvs' e => by cases e⟩⟩
  | str s => exact ⟨.val .null, rfl, rfl, Or.inl ⟨rfl, fun kvs' e => by cases e⟩⟩
  | arr xs => exact ⟨.val .null, rfl, rfl, Or.inl ⟨rfl, fun kvs' e => by cases e⟩⟩

theorem get_key.write_ok (rv doc : Value) (obj : Ref) (k : Str) :
    ∃ doc' r, get_key.write rv doc obj k = ⟨doc', .ok r⟩ := by
  simp only [get_key.write]
  cases obj.read doc with
  | obj kvs =>
    simp only
    cases mapIdx k kvs with
    | none => exact ⟨_, _, rfl⟩
    | some i =>
      simp only
      split_ifs
      · exact ⟨_, _, rfl⟩
      · exact ⟨_, _, rfl⟩
  | _ => exact ⟨_, _, rfl⟩

/-- One pass of the loop of `Lookup` at a Key step that no multi-result step
precedes: `get_key`, with the replacement when the step is the last one. -/
theorem Lookup.loop.write_key (E : Ext) (V : Value) (k : Str) (rest : List step)
    (rootnode : Ref) (doc : Value) (obj : Ref) :
    Lookup.loop.write E V (keyStep k :: rest) rootnode false doc obj =
      (get_key.write (if rest.isEmpty then V else .null) doc obj k).bind fun doc r =>
        Lookup.loop.write E V rest rootnode false doc r := by
  obtain ⟨doc', r, h⟩ := get_key.write_ok (if rest.isEmpty then V else .null) doc obj k
  rw [Lookup.loop.write]
  simp only [keyStep, step.op, step.singleReturn, Bool.false_eq_true, if_false, Outcome.bind_ok,
    Bool.not_true, Effect.bind, step.parse.write]
  rw [h]
  simp only [Bool.false_and, Bool.false_eq_true, if_false, Found.ref]
  cases (Found.one r).elements doc' <;> rfl

/-- The walk along keys from nil: nil, nothing written. -/
theorem Lookup.loop.write_keys_nil (E : Ext) (V : Value) (ks : List Str) (rootnode : Ref)
    (doc : Value) :
    Lookup.loop.write E V (ks.map keyStep) rootnode false doc (.val .null) = ⟨doc, .ok .null⟩ := by
  induction ks with
  | nil => rfl
  | cons k rest ih =>
    rw [List.map_cons, Lookup.loop.write_key]
    have : get_key.write (if (rest.map keyStep).isEmpty then V else .null) doc (.val .null) k =
        ⟨doc, .ok (.val .null)⟩ := rfl
    rw [this]
    exact ih

/-- The walk along keys with a replacement attached to the last step: the
member the keys lead to is overwritten, the value it held is returned. -/
theorem Lookup.loop.write_keys (E : Ext) (V : Value) (hV : V.isNull = false) (rootnode : Ref)
    (ks : List Str) (hne : ks ≠ []) :
    ∀ (doc : Value) (loc : Loc),
      Lookup.loop.write E V (ks.map keyStep) rootnode false doc (.at loc) =
        ⟨doc.put loc (overwriteKeys V ks (doc.get loc)), .ok (followKeys ks (doc.get loc))⟩ := by
  induction ks with
  | nil => exact absurd rfl hne
  | cons k rest ih =>
    intro doc loc
    rw [List.map_cons, Lookup.loop.write_key]
    cases rest with
    | nil =>
      simp only [List.map_nil, List.isEmpty_nil, if_true]
      rw [get_key.write_at V hV]
      rfl
    | cons k2 more =>
      simp only [List.map_cons, List.isEmpty_cons, Bool.false_eq_true, if_false]
      obtain ⟨r, hw, hread, hr⟩ := get_key.write_nil doc loc k
      rw [hw]
      simp only [Effect.bind]
      rcases hr with ⟨hr, habs⟩ | ⟨i, kvs, v, hr, hd, hi, hm, hg⟩
      · subst hr
        have := Lookup.loop.write_keys_nil E V (k2 :: more) rootnode doc
        simp only [List.map_cons] at this
        rw [this]
        have hkeep : overwriteKeys V (k :: k2 :: more) (doc.get loc) = doc.get loc ∧
            followKeys (k :: k2 :: more) (doc.get loc) = .null := by
          cases hd : doc.get loc with
          | obj kvs =>
            have hm := habs kvs hd
            simp [overwriteKeys, followKeys, hm]
          | _ => exact ⟨rfl, rfl⟩
        rw [hkeep.1, hkeep.2, Value.put_get]
      · subst hr
        have := ih (by simp) doc (loc ++ [i])
        simp only [List.map_cons] at this
        rw [this, hg, Value.put_append, hd]
        obtain ⟨v', h1, h2, h3⟩ := mapIdx_some k kvs i hi
        simp only [Value.setChild, h1, h3, overwriteKeys, hm, followKeys]

/-- The walk along keys without replacement: the value the keys lead to,
nothing written. -/
theorem Lookup.loop.write_keys_read (E : Ext) (rootnode : Ref) (ks : List Str) :
    ∀ (doc : Value) (loc : Loc),
      Lookup.loop.write E .null (ks.map keyStep) rootnode false doc (.at loc) =
        ⟨doc, .ok (followKeys ks (doc.get loc))⟩ := by
  induction ks with
  | nil => intro doc loc; rfl
  | cons k rest ih =>
    intro doc loc
    rw [List.map_cons, Lookup.loop.write_key, ite_self]
    obtain ⟨r, hw, _, hr⟩ := get_key.write_nil doc loc k
    rw [hw]
    simp only [Effect.bind]
    rcases hr with ⟨hr, habs⟩ | ⟨i, kvs, v, hr, hd, hi, hm, hg⟩
    · subst hr
      rw [Lookup.loop.write_keys_nil]
      have : followKeys (k :: rest) (doc.get loc) = .null := by
        cases hd : doc.get loc with
        | obj kvs => simp [followKeys, habs kvs hd]
        | _ => rfl
      rw [this]
    · subst hr
      rw [ih doc (loc ++ [i]), hg, hd]
      simp only [followKeys, hm]

/-- After the member the keys lead to was overwritten by `V`, the keys lead to
`V`. -/
theorem followKeys_overwriteKeys (V : Value) (ks : List Str) (hne : ks ≠ []) :
    ∀ D : Value, (followKeys ks D).isNull = false → followKeys ks (overwriteKeys V ks D) = V := by
  induction ks with
  | nil => exact absurd rfl hne
  | cons k rest ih =>
    intro D h
    cases D with
    | obj kvs =>
      cases hm : mapGet k kvs with
      | none => simp [followKeys, hm, Value.isNull] at h
      | some v =>
        cases rest with
        | nil => simp [overwriteKeys, followKeys, mapGet_mapSet k V v kvs hm]
        | cons k2 more =>
          simp only [followKeys, hm] at h
          simp only [overwriteKeys, hm, followKeys, mapGet_mapSet k _ v kvs hm]
          exact ih (by simp) v h
    | _ => simp [followKeys, Value.isNull] at h

/-- Overwriting twice is overwriting once. -/
theorem overwriteKeys_idem (V : Value) (ks : List Str) :
    ∀ D : Value, overwriteKeys V ks (overwriteKeys V ks D) = overwriteKeys V ks D := by
  induction ks with
  | nil => intro D; rfl
  | cons k rest ih =>
    intro D
    cases D with
    | obj kvs =>
      cases rest with
      | nil => simp [overwriteKeys, mapSet_mapSet]
      | cons k2 more =>
        cases hm : mapGet k kvs with
        | none => simp [overwriteKeys, hm]
        | some v =>
          simp only [overwriteKeys, hm, mapGet_mapSet k _ v kvs hm, mapSet_mapSet, ih v]
    | _ => cases rest <;> rfl

/-- `Lookup` on a compiled path of Key steps whose last step holds the
replacement `V`. -/
theorem Compiled.Lookup.write_on_keys (E : Ext) (path : Str) (V D : Value) (hV : V.isNull = false)
    (hD : D.isNull = false) (ks : List Str) (hne : ks ≠ []) :
    Compiled.Lookup.write E (.mk path (ks.map keyStep)) V D =
      ⟨overwriteKeys V ks D, .ok (followKeys ks D)⟩ := by
  have hg : ∀ r, Lookup.guard.write D D r = r := by
    intro r; cases D <;> simp_all [Lookup.guard.write, Value.isNull]
  rw [Compiled.Lookup.write, hg, Compiled.steps, Lookup.loop.write_keys E V hV _ ks hne]
  rfl

/-- `Lookup` on a compiled path of Key steps that holds no replacement:
nothing is written. -/
theorem Compiled.Lookup.write_on_keys_read (E : Ext) (path : Str) (D : Value)
    (hD : D.isNull = false) (ks : List Str) :
    Compiled.Lookup.write E (.mk path (ks.map keyStep)) .null D =
      ⟨D, .ok (followKeys ks D)⟩ := by
  have hg : ∀ r, Lookup.guard.write D D r = r := by
    intro r; cases D <;> simp_all [Lookup.guard.write, Value.isNull]
  rw [Compiled.Lookup.write, hg, Compiled.steps, Lookup.loop.write_keys_read E _ ks]
  rfl

/-- `Replace` on a compiled path of Key steps: the replacement stays attached,
the member the keys lead to is overwritten. -/
theorem Compiled.Replace_on_keys (E : Ext) (path : Str) (old V D : Value) (hV : V.isNull = false)
    (hD : D.isNull = false) (ks : List Str) (hne : ks ≠ []) :
    Compiled.Replace E (.mk path (ks.map keyStep)) old D V =
      (V, ⟨overwriteKeys V ks D, .ok ()⟩) := by
  have hs : (Compiled.mk path (ks.map keyStep)).steps.isEmpty = false := by
    cases ks with
    | nil => exact absurd rfl hne
    | cons k rest => rfl
  simp only [Compiled.Replace, hD, hV, Bool.or_self, Bool.false_eq_true, if_false, hs,
    Compiled.Lookup.write_on_keys E path V D hV hD ks hne, Effect.bind]

/-- `Replace` on `$.k1.k2...kn` for plain names. -/
theorem Replace_keys (E : Ext) (V D : Value) (hV : V.isNull = false) (hD : D.isNull = false)
    (ks : List Str) (hne : ks ≠ []) (h : ∀ k ∈ ks, plainName k = true) :
    Replace E D ('$' :: '.' :: Join ks ['.']) V = ⟨overwriteKeys V ks D, .ok ()⟩ := by
  simp only [Replace, Compile_keys E ks hne h, Effect.bind,
    Compiled.Replace_on_keys E _ .null V D hV hD ks hne]

/-- `Lookup` on `$.k1.k2...kn` for plain names, on a document that is not
nil. -/
theorem Lookup_keys_text (E : Ext) (ks : List Str) (hne : ks ≠ [])
    (hplain : ∀ k ∈ ks, plainName k = true) (X : Value) (hX : X.isNull = false) :
    Lookup E X ('$' :: '.' :: Join ks ['.']) = .ok (followKeys ks X) := by
  rw [Lookup_of_Compile E _ _ _ (Compile_keys E ks hne hplain), Compiled.Lookup,
    Lookup.guard_container X _ hX, Lookup.loop_keys E _ (by simp [keyStep, step.op]),
    map_key_keyStep]

theorem overwriteKeys_isNull (V : Value) (ks : List Str) (D : Value) (hD : D.isNull = false)
    (hne : ks ≠ []) : (overwriteKeys V ks D).isNull = false := by
  cases ks with
  | nil => exact absurd rfl hne
  | cons k rest =>
    cases D with
    | null => cases hD
    | obj kvs =>
      cases rest with
      | nil => rfl
      | cons k2 more =>
        simp only [overwriteKeys]
        cases mapGet k kvs <;> rfl
    | _ => cases rest <;> rfl

/-! ### What a failing `Replace` leaves behind -/

/-- A call that writes nothing, followed by calls that write nothing, writes
nothing. -/
theorem Effect.bind_doc {α β : Type} (x : Effect α) (f : Value → α → Effect β) (d : Value)
    (hx : x.doc = d) (hf : ∀ a, (f d a).doc = d) : (x.bind f).doc = d := by
  obtain ⟨xd, xr⟩ := x
  simp only at hx
  subst hx
  cases xr with
  | ok a => exact hf a
  | error e => rfl
  | panic => rfl
  | exhausted => rfl

/-- A call that writes nothing, followed by a call that fails only with the
document as it was: the sequence fails only with the document as it was. -/
theorem Effect.bind_keeps {α β : Type} (x : Effect α) (f : Value → α → Effect β) (d : Value)
    (hx : x.doc = d) (hf : ∀ a, (∃ b, (f d a).ret = .ok b) ∨ (f d a).doc = d) :
    (∃ b, (x.bind f).ret = .ok b) ∨ (x.bind f).doc = d := by
  obtain ⟨xd, xr⟩ := x
  simp only at hx
  subst hx
  cases xr with
  | ok a => exact hf a
  | error e => exact Or.inr rfl
  | panic => exact Or.inr rfl
  | exhausted => exact Or.inr rfl

/-- A call that fails only with the document as it was, followed by a call that
returns a result: the sequence fails only with the document as it was. -/
theorem Effect.bind_then_ok {α β : Type} (x : Effect α) (f : Value → α → Effect β) (d : Value)
    (hx : (∃ a, x.ret = .ok a) ∨ x.doc = d) (hf : ∀ d' a, ∃ b, (f d' a).ret = .ok b) :
    (∃ b, (x.bind f).ret = .ok b) ∨ (x.bind f).doc = d := by
  obtain ⟨xd, xr⟩ := x
  cases xr with
  | ok a => exact Or.inl (hf xd a)
  | error e =>
    rcases hx with ⟨a, h⟩ | h
    · cases h
    · exact Or.inr h
  | panic =>
    rcases hx with ⟨a, h⟩ | h
    · cases h
    · exact Or.inr h
  | exhausted =>
    rcases hx with ⟨a, h⟩ | h
    · cases h
    · exact Or.inr h

/-- Calls that return a result, in sequence, return a result. -/
theorem Effect.bind_returns {α β : Type} (x : Effect α) (f : Value → α → Effect β)
    (hx : ∃ a, x.ret = .ok a) (hf : ∀ d a, ∃ b, (f d a).ret = .ok b) :
    ∃ b, (x.bind f).ret = .ok b := by
  obtain ⟨xd, xr⟩ := x
  obtain ⟨a, h⟩ := hx
  simp only at h
  subst h
  exact hf xd a

/-- A result that is at hand is passed on. -/
theorem Effect.bind_mk_ok {α β : Type} (d : Value) (a : α) (f : Value → α → Effect β) :
    (Effect.mk d (.ok a)).bind f = f d a := rfl

/-- Without a replacement no slot is overwritten. -/
theorem Ref.replace_null (doc : Value) (i : Nat) (obj : Ref) :
    obj.replace .null doc i = doc := rfl

/-- Without a replacement a loop over slots overwrites nothing. -/
theorem Ref.foldl_replace_null (obj : Ref) (slots : List Nat) (doc : Value) :
    slots.foldl (fun d i => obj.replace .null d i) doc = doc := by
  induction slots with
  | nil => rfl
  | cons i rest ih => exact ih

/-- `get_key` without a replacement writes nothing. -/
theorem get_key.write_null_key (doc : Value) (obj : Ref) (key : Str) :
    (get_key.write .null doc obj key).doc = doc := by
  simp only [get_key.write]
  cases obj.read doc with
  | obj kvs =>
    simp only
    cases mapIdx key kvs <;> rfl
  | _ => rfl

/-- `get_idx` writes nothing when it returns an error. -/
theorem get_idx.write_idx_keeps (rv doc : Value) (obj : Ref) (idx : Int) :
    (∃ r, (get_idx.write rv doc obj idx).ret = .ok r) ∨ (get_idx.write rv doc obj idx).doc = doc := by
  simp only [get_idx.write]
  cases obj.read doc with
  | arr xs =>
    simp only
    split_ifs
    · exact Or.inr rfl
    · exact Or.inl ⟨_, rfl⟩
    · exact Or.inr rfl
    · exact Or.inl ⟨_, rfl⟩
  | _ => exact Or.inl ⟨_, rfl⟩

/-- `get_idx` without a replacement writes nothing. -/
theorem get_idx.write_null_idx (doc : Value) (obj : Ref) (idx : Int) :
    (get_idx.write .null doc obj idx).doc = doc := by
  simp only [get_idx.write]
  cases obj.read doc with
  | arr xs =>
    simp only
    split_ifs <;> rfl
  | _ => rfl

/-- The part of `get_range` after the bounds are resolved: its checks come
before its loop, and the slice expression panics only when the loop had no slot
to visit. -/
theorem get_range.write_resolved (rv doc : Value) (obj : Ref) (length lo hi : Int) :
    (∃ r, (if lo < 0 ∨ lo ≥ length then (⟨doc, .error .fromOutOfRange⟩ : Effect (List Ref))
      else if hi < 0 ∨ hi > length then ⟨doc, .error .toOutOfRange⟩
      else if lo ≤ hi then
        ⟨(List.range' lo.toNat (hi.toNat - lo.toNat)).foldl (fun d i => obj.replace rv d i) doc,
          .ok ((List.range' lo.toNat (hi.toNat - lo.toNat)).map fun i => obj.slot rv i)⟩
      else
        ⟨(List.range' lo.toNat (hi.toNat - lo.toNat)).foldl (fun d i => obj.replace rv d i) doc,
          .panic⟩).ret = .ok r) ∨
    (if lo < 0 ∨ lo ≥ length then (⟨doc, .error .fromOutOfRange⟩ : Effect (List Ref))
      else if hi < 0 ∨ hi > length then ⟨doc, .error .toOutOfRange⟩
      else if lo ≤ hi then
        ⟨(List.range' lo.toNat (hi.toNat - lo.toNat)).foldl (fun d i => obj.replace rv d i) doc,
          .ok ((List.range' lo.toNat (hi.toNat - lo.toNat)).map fun i => obj.slot rv i)⟩
      else
        ⟨(List.range' lo.toNat (hi.toNat - lo.toNat)).foldl (fun d i => obj.replace rv d i) doc,
          .panic⟩).doc = doc := by
  by_cases h1 : lo < 0 ∨ lo ≥ length
  · rw [if_pos h1]
    exact Or.inr rfl
  · rw [if_neg h1]
    by_cases h2 : hi < 0 ∨ hi > length
    · rw [if_pos h2]
      exact Or.inr rfl
    · rw [if_neg h2]
      by_cases h3 : lo ≤ hi
      · rw [if_pos h3]
        exact Or.inl ⟨_, rfl⟩
      · rw [if_neg h3]
        refine Or.inr ?_
        have h0 : hi.toNat - lo.toNat = 0 := by omega
        simp only [h0]
        rfl

/-- `get_range` writes nothing when it does not return a result. -/
theorem get_range.write_range_keeps (rv doc : Value) (obj : Ref) (frm to' : Option Int) :
    (∃ r, (get_range.write rv doc obj frm to').ret = .ok r) ∨
      (get_range.write rv doc obj frm to').doc = doc := by
  simp only [get_range.write]
  cases obj.read doc with
  | arr xs => exact get_range.write_resolved rv doc obj _ _ _
  | _ => exact Or.inr rfl

/-- `get_range` without a replacement writes nothing. -/
theorem get_range.write_null_range (doc : Value) (obj : Ref) (frm to' : Option Int) :
    (get_range.write .null doc obj frm to').doc = doc := by
  simp only [get_range.write]
  cases obj.read doc with
  | arr xs =>
    simp only [Ref.foldl_replace_null]
    split_ifs <;> rfl
  | _ => rfl

/-- `get_scan` returns a result. -/
theorem get_scan.write_scan_ok (rv doc : Value) (obj : Ref) :
    ∃ r, (get_scan.write rv doc obj).ret = .ok r := by
  simp only [get_scan.write]
  cases obj.read doc <;> exact ⟨_, rfl⟩

/-- `get_scan` without a replacement writes nothing. -/
theorem get_scan.write_null_scan (doc : Value) (obj : Ref) :
    (get_scan.write .null doc obj).doc = doc := by
  simp only [get_scan.write]
  cases obj.read doc <;> simp only [Ref.foldl_replace_null]

/-- The loop of `get_filtered` without a replacement writes nothing. -/
theorem get_filtered.loop.write_null_loop (eval_filter : Value → Value → Outcome Bool) (obj : Ref)
    (slots : List Nat) (doc : Value) :
    (get_filtered.loop.write eval_filter .null obj slots doc).doc = doc := by
  induction slots with
  | nil => rfl
  | cons i rest ih =>
    rw [get_filtered.loop.write]
    refine Effect.bind_doc _ _ doc rfl fun ok => ?_
    refine Effect.bind_doc _ _ doc ?_ fun res => rfl
    cases ok
    · exact ih
    · exact ih

/-- `get_filtered` without a replacement writes nothing. -/
theorem get_filtered.write_null_filter (eval_filter : Value → Value → Outcome Bool) (doc : Value)
    (obj : Ref) : (get_filtered.write eval_filter .null doc obj).doc = doc := by
  simp only [get_filtered.write]
  cases obj.read doc with
  | arr xs => exact get_filtered.loop.write_null_loop _ _ _ _
  | obj kvs => exact get_filtered.loop.write_null_loop _ _ _ _
  | _ => rfl

/-- The loop of `step.parse` over several indices, without a replacement,
writes nothing. -/
theorem step.parse.multi.write_null_multi (obj : Ref) (xs : List Int) (doc : Value) :
    (step.parse.multi.write .null obj xs doc).doc = doc := by
  induction xs with
  | nil => rfl
  | cons x rest ih =>
    rw [step.parse.multi.write]
    refine Effect.bind_doc _ _ doc (get_idx.write_null_idx doc obj x) fun tmp => ?_
    exact Effect.bind_doc _ _ doc ih fun res => rfl

/-- A step without a replacement writes nothing. -/
theorem step.parse.write_null_step (E : Ext) (doc : Value) (rootnode : Ref) (s : step) (obj : Ref) :
    (step.parse.write E .null doc rootnode s obj).doc = doc := by
  obtain ⟨op, key, args, filter⟩ := s
  have hkey : ∀ (c : Prop) [Decidable c],
      (if c then get_key.write .null doc obj key else ⟨doc, .ok obj⟩).doc = doc := by
    intro c _
    split_ifs
    · exact get_key.write_null_key doc obj key
    · rfl
  cases op with
  | key =>
    simp only [step.parse.write]
    exact Effect.bind_doc _ _ doc (get_key.write_null_key doc obj key) fun r => rfl
  | idx =>
    simp only [step.parse.write]
    refine Effect.bind_doc _ _ doc (hkey _) fun o => ?_
    cases args with
    | ints intarg =>
      match intarg with
      | [] => rfl
      | [x] => exact Effect.bind_doc _ _ doc (get_idx.write_null_idx doc o x) fun r => rfl
      | x :: y :: more =>
        exact Effect.bind_doc _ _ doc (step.parse.multi.write_null_multi o _ doc) fun r => rfl
    | _ => rfl
  | range =>
    simp only [step.parse.write]
    refine Effect.bind_doc _ _ doc (hkey _) fun o => ?_
    cases args with
    | bounds frm to' =>
      exact Effect.bind_doc _ _ doc (get_range.write_null_range doc o frm to') fun r => rfl
    | _ => rfl
  | filter =>
    simp only [step.parse.write]
    refine Effect.bind_doc _ _ doc (hkey _) fun o => ?_
    cases args with
    | text t =>
      exact Effect.bind_doc _ _ doc (get_filtered.write_null_filter _ doc o) fun r => rfl
    | _ => rfl
  | scan =>
    simp only [step.parse.write]
    exact Effect.bind_doc _ _ doc (get_scan.write_null_scan doc obj) fun r => rfl
  | root => rfl
  | search => rfl
  | empty => rfl

/-- A last step that checks before it writes leaves the document as it was
when it does not return a result. -/
theorem step.parse.write_checksFirst (E : Ext) (rv doc : Value) (rootnode : Ref) (s : step)
    (obj : Ref) (hs : checksFirst s = true) :
    (∃ f, (step.parse.write E rv doc rootnode s obj).ret = .ok f) ∨
      (step.parse.write E rv doc rootnode s obj).doc = doc := by
  obtain ⟨op, key, args, filter⟩ := s
  have hkey : ∀ (c : Prop) [Decidable c],
      (if c then get_key.write .null doc obj key else ⟨doc, .ok obj⟩).doc = doc := by
    intro c _
    split_ifs
    · exact get_key.write_null_key doc obj key
    · rfl
  cases op with
  | key =>
    simp only [step.parse.write]
    obtain ⟨d, r, h⟩ := get_key.write_ok rv doc obj key
    rw [h]
    exact Or.inl ⟨_, rfl⟩
  | idx =>
    simp only [step.parse.write]
    refine Effect.bind_keeps _ _ doc (hkey _) fun o => ?_
    cases args with
    | ints intarg =>
      match intarg, hs with
      | [], _ => exact Or.inr rfl
      | [x], _ =>
        exact Effect.bind_then_ok _ _ doc (get_idx.write_idx_keeps rv doc o x) fun d r => ⟨_, rfl⟩
      | x :: y :: more, hs => exact absurd hs (by simp [checksFirst, step.op, step.args])
    | _ => exact Or.inr rfl
  | range =>
    simp only [step.parse.write]
    refine Effect.bind_keeps _ _ doc (hkey _) fun o => ?_
    cases args with
    | bounds frm to' =>
      exact Effect.bind_then_ok _ _ doc (get_range.write_range_keeps rv doc o frm to') fun d r => ⟨_, rfl⟩
    | _ => exact Or.inr rfl
  | filter => exact absurd hs (by simp [checksFirst, step.op, step.args])
  | scan =>
    simp only [step.parse.write]
    obtain ⟨r, h⟩ := get_scan.write_scan_ok rv doc obj
    exact Or.inl (Effect.bind_returns _ _ ⟨r, h⟩ fun d a => ⟨_, rfl⟩)
  | root => exact Or.inl ⟨_, rfl⟩
  | search => exact absurd hs (by simp [checksFirst, step.op, step.args])
  | empty => exact Or.inr rfl

/-- A step that never fails returns a result, with or without a
replacement. -/
theorem step.parse.write_step_neverFails (E : Ext) (rv doc : Value) (rootnode : Ref) (s : step)
    (obj : Ref) (hs : neverFails s = true) :
    ∃ f, (step.parse.write E rv doc rootnode s obj).ret = .ok f := by
  obtain ⟨op, key, args, filter⟩ := s
  cases op with
  | key =>
    simp only [step.parse.write]
    obtain ⟨d, r, h⟩ := get_key.write_ok rv doc obj key
    rw [h]
    exact ⟨_, rfl⟩
  | scan =>
    simp only [step.parse.write]
    exact Effect.bind_returns _ _ (get_scan.write_scan_ok rv doc obj) fun d a => ⟨_, rfl⟩
  | root => exact ⟨_, rfl⟩
  | idx => exact absurd hs (by simp [neverFails, step.op])
  | range => exact absurd hs (by simp [neverFails, step.op])
  | filter => exact absurd hs (by simp [neverFails, step.op])
  | search => exact absurd hs (by simp [neverFails, step.op])
  | empty => exact absurd hs (by simp [neverFails, step.op])

/-- The fan-out loop returns a result when every residual lookup on a
container does. -/
theorem Lookup.fanout.write_fanout_ok (lookup : Value → Ref → Effect Value)
    (h : ∀ doc i, (i.read doc).isNull = false → ∃ v, (lookup doc i).ret = .ok v) (rs : List Ref) :
    ∀ doc, ∃ vs, (Lookup.fanout.write lookup rs doc).ret = .ok vs := by
  induction rs with
  | nil => exact fun doc => ⟨_, rfl⟩
  | cons i rest ih =>
    intro doc
    have hgo : (i.read doc).isNull = false → ∃ vs, ((lookup doc i).bind fun doc r =>
        (Lookup.fanout.write lookup rest doc).bind fun doc newret =>
        match r with
        | .null => (⟨doc, .ok newret⟩ : Effect (List Value))
        | .arr rlist => ⟨doc, .ok (rlist ++ newret)⟩
        | _ => ⟨doc, .ok (r :: newret)⟩).ret = .ok vs := by
      intro hnull
      refine Effect.bind_returns _ _ (h doc i hnull) fun d r => ?_
      refine Effect.bind_returns _ _ (ih d) fun d2 newret => ?_
      cases r <;> exact ⟨_, rfl⟩
    rw [Lookup.fanout.write]
    cases hread : i.read doc with
    | arr xs => exact hgo (by rw [hread]; rfl)
    | obj kvs => exact hgo (by rw [hread]; rfl)
    | _ => exact ih doc

/-- One pass of the loop of `Lookup` at a step that is no recursive descent:
the step is applied, with the replacement when it is the last one, and the
walk goes on or fans out. -/
theorem Lookup.loop.write_step (E : Ext) (rv : Value) (s : step) (rest : List step)
    (rootnode : Ref) (findnomap : Bool) (doc : Value) (obj : Ref) (hs : s.op ≠ .search) :
    Lookup.loop.write E rv (s :: rest) rootnode findnomap doc obj =
      (Effect.mk doc (if findnomap then .ok true
        else s.singleReturn.bind fun single => .ok (!single))).bind fun doc findnomap =>
      (step.parse.write E (if rest.isEmpty then rv else .null) doc rootnode s obj).bind
        fun doc found =>
      match found.elements doc with
      | some oarr =>
        if findnomap && !rest.isEmpty then
          (Lookup.fanout.write
            (fun doc i => Lookup.guard.write doc (i.read doc)
              (Lookup.loop.write E rv rest i false doc i)) oarr doc).bind
            fun doc newret => ⟨doc, .ok (.arr newret)⟩
        else Lookup.loop.write E rv rest rootnode findnomap doc (found.ref doc)
      | none => Lookup.loop.write E rv rest rootnode findnomap doc (found.ref doc) := by
  rw [Lookup.loop.write]
  cases h : s.op with
  | search => exact absurd h hs
  | _ => rfl

/-- The guard of `Lookup` passes on a value that is not nil. -/
theorem Lookup.guard.write_pass (doc v : Value) (rest : Effect Value) (h : v.isNull = false) :
    Lookup.guard.write doc v rest = rest := by
  cases v with
  | null => cases h
  | _ => rfl

/-- The walk along steps that never fail returns a result, with or without a
replacement. -/
theorem Lookup.loop.write_walk_neverFails (E : Ext) (rv : Value) (steps : List step)
    (h : steps.all neverFails = true) :
    ∀ (rootnode : Ref) (findnomap : Bool) (doc : Value) (obj : Ref),
      ∃ v, (Lookup.loop.write E rv steps rootnode findnomap doc obj).ret = .ok v := by
  induction steps with
  | nil => exact fun _ _ _ _ => ⟨_, rfl⟩
  | cons s rest ih =>
    rw [List.all_cons, Bool.and_eq_true] at h
    have ih := ih h.2
    intro rootnode findnomap doc obj
    have hs : s.op ≠ .search := by
      intro e
      have := h.1
      simp [neverFails, e] at this
    have hsingle : ∃ b, s.singleReturn = .ok b := by
      have := h.1
      obtain ⟨op, key, args, filter⟩ := s
      cases op <;> first | exact ⟨_, rfl⟩ | simp [neverFails, step.op] at this
    rw [Lookup.loop.write_step E rv s rest rootnode findnomap doc obj hs]
    refine Effect.bind_returns _ _ ?_ fun d fnm => ?_
    · obtain ⟨b, hb⟩ := hsingle
      cases findnomap
      · exact ⟨_, by simp only [hb]; rfl⟩
      · exact ⟨_, rfl⟩
    refine Effect.bind_returns _ _ (step.parse.write_step_neverFails E _ d rootnode s obj h.1) fun d2 found => ?_
    cases found.elements d2 with
    | none => exact ih _ _ _ _
    | some oarr =>
      simp only
      split_ifs
      · refine Effect.bind_returns _ _ (Lookup.fanout.write_fanout_ok _ (fun doc i hnull => ?_) oarr d2)
          fun d3 newret => ⟨_, rfl⟩
        rw [Lookup.guard.write_pass _ _ _ hnull]
        exact ih _ _ _ _
      · exact ih _ _ _ _

/-- A step that selects one value is no recursive descent and reports a single
result. -/
theorem selectsOne_single (s : step) (h : selectsOne s = true) :
    s.op ≠ .search ∧ s.singleReturn = .ok true := by
  obtain ⟨op, key, args, filter⟩ := s
  cases op with
  | key => exact ⟨by simp [step.op], rfl⟩
  | idx =>
    cases args with
    | ints xs =>
      rcases xs with _ | ⟨x, _ | ⟨y, more⟩⟩
      · simp [selectsOne, step.op, step.args] at h
      · exact ⟨by simp [step.op], rfl⟩
      · simp [selectsOne, step.op, step.args] at h
    | _ => simp [selectsOne, step.op, step.args] at h
  | _ => simp [selectsOne, step.op, step.args] at h

/-- A last step that checks before it writes is no recursive descent. -/
theorem checksFirst_not_search (s : step) (h : checksFirst s = true) : s.op ≠ .search := by
  obtain ⟨op, key, args, filter⟩ := s
  intro e
  simp only [step.op] at e
  subst e
  simp [checksFirst, step.op] at h

/-- After a step on a path that never fails from there on, the walk returns a
result: it goes on, or fans out over the elements. -/
theorem Lookup.loop.write_rest_ok (E : Ext) (rv : Value) (rest : List step)
    (h : rest.all neverFails = true) (rootnode : Ref) (findnomap : Bool) (doc : Value)
    (found : Found) :
    ∃ v, (match found.elements doc with
      | some oarr =>
        if findnomap && !rest.isEmpty then
          (Lookup.fanout.write
            (fun doc i => Lookup.guard.write doc (i.read doc)
              (Lookup.loop.write E rv rest i false doc i)) oarr doc).bind
            fun doc newret => (⟨doc, .ok (.arr newret)⟩ : Effect Value)
        else Lookup.loop.write E rv rest rootnode findnomap doc (found.ref doc)
      | none => Lookup.loop.write E rv rest rootnode findnomap doc (found.ref doc)).ret = .ok v := by
  cases found.elements doc with
  | none => exact Lookup.loop.write_walk_neverFails E rv rest h _ _ _ _
  | some oarr =>
    simp only
    split_ifs
    · refine Effect.bind_returns _ _ (Lookup.fanout.write_fanout_ok _ (fun doc i hnull => ?_) oarr doc)
        fun d3 newret => ⟨_, rfl⟩
      rw [Lookup.guard.write_pass _ _ _ hnull]
      exact Lookup.loop.write_walk_neverFails E rv rest h _ _ _ _
    · exact Lookup.loop.write_walk_neverFails E rv rest h _ _ _ _

/-- The walk on a path whose checks all come before its first write: when it
does not return a result, the document is as it was. -/
theorem Lookup.loop.write_walk_keeps (E : Ext) (rv : Value) (steps : List step) :
    checksBeforeWrites steps = true → ∀ (rootnode : Ref) (doc : Value) (obj : Ref),
      (∃ v, (Lookup.loop.write E rv steps rootnode false doc obj).ret = .ok v) ∨
        (Lookup.loop.write E rv steps rootnode false doc obj).doc = doc := by
  induction steps with
  | nil => exact fun _ _ _ _ => Or.inl ⟨_, rfl⟩
  | cons s rest ih =>
    intro h rootnode doc obj
    cases rest with
    | nil =>
      simp only [checksBeforeWrites] at h
      rw [Lookup.loop.write_step E rv s [] rootnode false doc obj (checksFirst_not_search s h)]
      refine Effect.bind_keeps _ _ doc rfl fun fnm => ?_
      refine Effect.bind_then_ok _ _ doc
        (step.parse.write_checksFirst E _ doc rootnode s obj h) fun d found => ?_
      exact Lookup.loop.write_rest_ok E rv [] rfl rootnode fnm d found
    | cons t more =>
      simp only [checksBeforeWrites, Bool.or_eq_true, Bool.and_eq_true] at h
      rcases h with ⟨h1, h2⟩ | ⟨h1, h2⟩
      · obtain ⟨hs, hsingle⟩ := selectsOne_single s h1
        rw [Lookup.loop.write_step E rv s (t :: more) rootnode false doc obj hs]
        have hfnm : (if false = true then Outcome.ok true
            else s.singleReturn.bind fun single => .ok (!single)) = .ok false := by
          rw [hsingle]
          rfl
        rw [hfnm, Effect.bind_mk_ok]
        simp only [List.isEmpty_cons, Bool.false_eq_true, if_false, Bool.false_and]
        refine Effect.bind_keeps _ _ doc (step.parse.write_null_step E doc rootnode s obj)
          fun found => ?_
        cases found.elements doc with
        | none => exact ih h2 _ _ _
        | some oarr => exact ih h2 _ _ _
      · have hs : s.op ≠ .search := by
          intro e
          simp [e] at h1
        rw [Lookup.loop.write_step E rv s (t :: more) rootnode false doc obj hs]
        refine Effect.bind_keeps _ _ doc rfl fun fnm => ?_
        simp only [List.isEmpty_cons, Bool.false_eq_true, if_false]
        refine Effect.bind_keeps _ _ doc (step.parse.write_null_step E doc rootnode s obj)
          fun found => Or.inl ?_
        have := Lookup.loop.write_rest_ok E rv (t :: more) h2 rootnode fnm doc found
        simpa only [List.isEmpty_cons, Bool.false_eq_true, if_false] using this

/-- `Lookup` on a compiled path whose checks all come before its first write:
when it does not return a result, the document is as it was. -/
theorem Compiled.Lookup.write_lookup_keeps (E : Ext) (c : Compiled) (rv D : Value)
    (h : checksBeforeWrites c.steps = true) :
    (∃ v, (Compiled.Lookup.write E c rv D).ret = .ok v) ∨ (Compiled.Lookup.write E c rv D).doc = D := by
  simp only [Compiled.Lookup.write]
  cases D with
  | null => exact Or.inr rfl
  | _ => exact Lookup.loop.write_walk_keeps E rv c.steps h _ _ _

/-- `Replace` on a compiled path whose checks all come before its first write:
when it does not succeed, the document is as it was. -/
theorem Compiled.Replace_compiled_keeps (E : Ext) (c : Compiled) (old D V : Value)
    (h : checksBeforeWrites c.steps = true) :
    (c.Replace E old D V).2.ret = .ok () ∨ (c.Replace E old D V).2.doc = D := by
  simp only [Compiled.Replace]
  split_ifs
  · exact Or.inr rfl
  · exact Or.inr rfl
  · rcases Effect.bind_then_ok (Compiled.Lookup.write E c V D) (fun doc _ => ⟨doc, .ok ()⟩) D
      (Compiled.Lookup.write_lookup_keeps E c V D h) (fun d a => ⟨_, rfl⟩) with ⟨u, hu⟩ | hd
    · exact Or.inl hu
    · exact Or.inr hd

/-- `Replace` on a path text: when the text does not compile, or compiles to a
path whose checks all come before its first write, a call that does not succeed
leaves the document as it was. -/
theorem Replace_keeps (E : Ext) (D V : Value) (jpath : Str)
    (h : ∀ c, Compile E jpath = .ok c → checksBeforeWrites c.steps = true) :
    (Replace E D jpath V).ret = .ok () ∨ (Replace E D jpath V).doc = D := by
  simp only [Replace]
  cases hc : Compile E jpath with
  | ok c =>
    rw [Effect.bind_mk_ok]
    exact Compiled.Replace_compiled_keeps E c .null D V (h c hc)
  | error e => exact Or.inr rfl
  | panic => exact Or.inr rfl
  | exhausted => exact Or.inr rfl

/-- A requested index resolves to a slot exactly when it lies in
`-n <= i < n`. -/
theorem resolveSlot_isSome (n : Nat) (i : Int) :
    (resolveSlot n i).isSome = true ↔ (-(n : Int) ≤ i ∧ i < n) := by
  unfold resolveSlot
  split_ifs <;> simp <;> omega

/-- `get_idx` with a replacement on the document array: the slot the index
resolves to is overwritten and the replacement returned; an index out of range
is an error. -/
theorem get_idx.write_idx_root (V : Value) (hV : V.isNull = false) (xs : List Value) (i : Int) :
    get_idx.write V (.arr xs) (.at []) i =
      match resolveSlot xs.length i with
      | some k => ⟨.arr (xs.set k V), .ok (.val V)⟩
      | none => ⟨.arr xs, .error .indexOutOfRange⟩ := by
  simp only [get_idx.write, Ref.read, Value.get, resolveSlot, Ref.replace, Ref.slot, hV,
    Bool.false_eq_true, if_false, Ref.assign, List.nil_append, Value.put, Value.setChild]
  by_cases h0 : 0 ≤ i
  · by_cases h1 : i < xs.length
    · simp [h0, h1, not_le.mpr h1]
    · simp [h0, h1, not_lt.mp h1]
  · by_cases h1 : 0 ≤ (xs.length : Int) + i
    · simp [h0, h1, not_lt.mpr h1]
    · simp [h0, h1, not_le.mp h1]

/-- The loop of `step.parse` over several indices with a replacement, on the
document array: the slots of the indices before the first one out of range are
overwritten; the loop returns a result when all indices are in range, the error
of `get_idx` otherwise. -/
theorem step.parse.multi.write_multi_root (V : Value) (hV : V.isNull = false) (idxs : List Int) :
    ∀ xs : List Value,
      step.parse.multi.write V (.at []) idxs (.arr xs) =
        ⟨.arr (overwriteIndices V idxs xs),
          if idxs.all (fun i => (resolveSlot xs.length i).isSome) then
            .ok (idxs.map fun _ => .val V)
          else .error .indexOutOfRange⟩ := by
  induction idxs with
  | nil => exact fun xs => rfl
  | cons i rest ih =>
    intro xs
    rw [step.parse.multi.write, get_idx.write_idx_root V hV, overwriteIndices, List.all_cons]
    cases hk : resolveSlot xs.length i with
    | none => rfl
    | some k =>
      simp only [Effect.bind_mk_ok, ih, List.length_set, Option.isSome_some, Bool.true_and,
        Ref.read, hV]
      by_cases hall : rest.all (fun i => (resolveSlot xs.length i).isSome) = true
      · simp only [hall, if_true, Effect.bind_mk_ok, Bool.false_eq_true, if_false, List.map_cons]
      · simp only [hall, if_false]
        rfl

/-- `Replace` on a compiled path of one Index step with several indices, on an
array. -/
theorem Compiled.Replace_compiled_multi_idx (E : Ext) (path : Str) (old V : Value) (hV : V.isNull = false)
    (idxs : List Int) (h2 : 2 ≤ idxs.length) (xs : List Value) :
    ((Compiled.mk path [idxStep [] idxs]).Replace E old (.arr xs) V).2 =
      ⟨.arr (overwriteIndices V idxs xs),
        if idxs.all (fun i => (resolveSlot xs.length i).isSome) then .ok ()
        else .error .indexOutOfRange⟩ := by
  match idxs, h2 with
  | x :: y :: more, _ =>
    have hs : (idxStep [] (x :: y :: more)).op ≠ .search := by simp [idxStep, step.op]
    have hD : (Value.arr xs).isNull = false := rfl
    simp only [Compiled.Replace, hD, hV, Bool.or_self, Bool.false_eq_true, if_false,
      Compiled.steps, List.isEmpty_cons, Compiled.Lookup.write, Lookup.guard.write]
    rw [Lookup.loop.write_step E V _ [] _ _ _ _ hs]
    have hfnm : (if false = true then Outcome.ok true
        else (idxStep [] (x :: y :: more)).singleReturn.bind fun single => .ok (!single)) =
        .ok true := rfl
    rw [hfnm, Effect.bind_mk_ok]
    simp only [List.isEmpty_nil, if_true, idxStep, step.parse.write, List.length_nil,
      gt_iff_lt, lt_self_iff_false, if_false, Effect.bind_mk_ok]
    rw [step.parse.multi.write_multi_root V hV]
    by_cases hall : (x :: y :: more).all (fun i => (resolveSlot xs.length i).isSome) = true
    · simp only [hall, if_true, Effect.bind_mk_ok, Found.elements, Bool.not_true, Bool.and_false,
        Bool.false_eq_true, if_false, Lookup.loop.write]
    · simp only [hall, if_false]
      rfl

/-- `Replace` on `$[i1,i2,...]`, two or more indices, on an array: the slots
of the indices before the first one out of range are overwritten; the call
succeeds when all indices are in range and returns the error of `get_idx`
otherwise. -/
theorem Replace_multi_idx (E : Ext) (V : Value) (hV : V.isNull = false) (idxs : List Int)
    (h2 : 2 ≤ idxs.length) (hint : ∀ i ∈ idxs, -(2 ^ 63) ≤ i ∧ i < 2 ^ 63) (xs : List Value) :
    Replace E (.arr xs) (indexPath idxs) V =
      ⟨.arr (overwriteIndices V idxs xs),
        if idxs.all (fun i => (resolveSlot xs.length i).isSome) then .ok ()
        else .error .indexOutOfRange⟩ := by
  have hne : idxs ≠ [] := by
    intro e
    subst e
    simp at h2
  rw [Replace, Compile_index E idxs hne hint, Effect.bind_mk_ok,
    Compiled.Replace_compiled_multi_idx E _ .null V hV idxs h2 xs]

/-! ### The error of a step reaches the caller of `Lookup` -/

/-- One pass of the loop of `Lookup` at a step that is no recursive descent. -/
theorem Lookup.loop_pass (E : Ext) (s : step) (rest : List step) (rootnode : Value)
    (findnomap : Bool) (obj : Value) (hs : s.op ≠ .search) :
    Lookup.loop E (s :: rest) rootnode findnomap obj =
      (if findnomap then Outcome.ok true
        else s.singleReturn.bind fun single => .ok (!single)).bind fun findnomap =>
      (step.parse E s obj rootnode).bind fun obj =>
      match obj with
      | .arr oarr =>
        if findnomap && !rest.isEmpty then
          (Lookup.fanout (fun i => Lookup.guard i (Lookup.loop E rest i false i)) oarr).bind
            fun newret => .ok (.arr newret)
        else Lookup.loop E rest rootnode findnomap (.arr oarr)
      | _ => Lookup.loop E rest rootnode findnomap obj := by
  rw [Lookup.loop]
  cases h : s.op with
  | search => exact absurd h hs
  | _ => rfl

/-- One pass of the loop of `Lookup` at a recursive descent. -/
theorem Lookup.loop_pass_search (E : Ext) (s next : step) (rest : List step) (rootnode : Value)
    (findnomap : Bool) (obj : Value) (hs : s.op = .search) :
    Lookup.loop E (s :: next :: rest) rootnode findnomap obj =
      (if findnomap then Outcome.ok true
        else s.singleReturn.bind fun single => .ok (!single)).bind fun findnomap =>
      (get_search (fun o => step.parse E next o rootnode) obj).bind fun res =>
      if findnomap && !rest.isEmpty then
        (Lookup.fanout (fun i => Lookup.guard i (Lookup.loop E rest i false i)) res).bind
          fun newret => .ok (.arr newret)
      else Lookup.loop E rest rootnode findnomap (.arr res) := by
  rw [Lookup.loop, hs]

/-- The fan-out loop returns the error of the first residual lookup that
fails. -/
theorem Lookup.fanout_fails (lookup : Value → Outcome Value) (before after : List Value)
    (i : Value) (e : Err)
    (hbefore : ∀ x ∈ before, x.isContainer = true → (lookup x).isOk = true)
    (hi : i.isContainer = true) (h : lookup i = .error e) :
    Lookup.fanout lookup (before ++ i :: after) = .error e := by
  induction before with
  | nil =>
    cases i with
    | arr xs => simp only [List.nil_append, Lookup.fanout, h, Outcome.bind_error]
    | obj kvs => simp only [List.nil_append, Lookup.fanout, h, Outcome.bind_error]
    | _ => cases hi
  | cons x rest ih =>
    have ih := ih fun y hy => hbefore y (List.mem_cons_of_mem _ hy)
    have hx := hbefore x (List.mem_cons_self _ _)
    cases x with
    | arr xs =>
      cases hl : lookup (.arr xs) with
      | ok r =>
        rw [List.cons_append, Lookup.fanout, hl, Outcome.bind_ok, ih, Outcome.bind_error]
      | _ => have := hx rfl; rw [hl] at this; cases this
    | obj kvs =>
      cases hl : lookup (.obj kvs) with
      | ok r =>
        rw [List.cons_append, Lookup.fanout, hl, Outcome.bind_ok, ih, Outcome.bind_error]
      | _ => have := hx rfl; rw [hl] at this; cases this
    | _ => simpa only [List.cons_append, Lookup.fanout] using ih

/-- The loop of `get_search` over the elements returns the error of the first
descent that fails. -/
theorem get_search.arr_fails (parseNext : Value → Outcome Value) (before after : List Value)
    (c : Value) (e : Err)
    (hbefore : ∀ b ∈ before, b.isNull = false → (get_search parseNext b).isOk = true)
    (hc : c.isNull = false) (h : get_search parseNext c = .error e) :
    get_search.arr parseNext (before ++ c :: after) = .error e := by
  induction before with
  | nil =>
    rw [List.nil_append, get_search.arr]
    simp only [hc, Bool.false_eq_true, if_false, h, Outcome.bind_error]
  | cons x rest ih =>
    have ih := ih fun y hy => hbefore y (List.mem_cons_of_mem _ hy)
    have hx := hbefore x (List.mem_cons_self _ _)
    rw [List.cons_append, get_search.arr]
    cases hn : x.isNull with
    | true => simp only [if_true, ih]
    | false =>
      simp only [Bool.false_eq_true, if_false]
      cases hl : get_search parseNext x with
      | ok r => simp only [Outcome.bind_ok, ih, Outcome.bind_error]
      | _ => have := hx hn; rw [hl] at this; cases this

/-- The loop of `get_search` over the members returns the error of the first
descent that fails. -/
theorem get_search.map_fails (parseNext : Value → Outcome Value)
    (before after : List (Str × Value)) (k : Str) (c : Value) (e : Err)
    (hbefore : ∀ b ∈ before, b.2.isNull = false → (get_search parseNext b.2).isOk = true)
    (hc : c.isNull = false) (h : get_search parseNext c = .error e) :
    get_search.map parseNext (before ++ (k, c) :: after) = .error e := by
  induction before with
  | nil =>
    rw [List.nil_append, get_search.map]
    simp only [hc, Bool.false_eq_true, if_false, h, Outcome.bind_error]
  | cons x rest ih =>
    have ih := ih fun y hy => hbefore y (List.mem_cons_of_mem _ hy)
    have hx := hbefore x (List.mem_cons_self _ _)
    obtain ⟨xk, xv⟩ := x
    rw [List.cons_append, get_search.map]
    cases hn : xv.isNull with
    | true => simp only [if_true, ih]
    | false =>
      simp only [Bool.false_eq_true, if_false]
      cases hl : get_search parseNext xv with
      | ok r => simp only [Outcome.bind_ok, ih, Outcome.bind_error]
      | _ => have := hx hn; rw [hl] at this; cases this

/-- The recursive descent returns the error of the bound step at the first
node where it fails. -/
theorem get_search.reaches_fails (parseNext : Value → Outcome Value) (obj n : Value) (e : Err)
    (hr : get_search.reaches parseNext obj n) (h : parseNext n = .error e) :
    get_search parseNext obj = .error e := by
  induction hr with
  | here obj => cases obj <;> simp only [get_search, get_search.node, h, Outcome.bind_error]
  | element before after c n robj hp hbefore hc _ ih =>
    simp only [get_search, get_search.node, hp, Outcome.bind_ok,
      get_search.arr_fails parseNext before after c e hbefore hc (ih h), Outcome.bind_error]
  | member before after k c n robj hp hbefore hc _ ih =>
    simp only [get_search, get_search.node, hp, Outcome.bind_ok,
      get_search.map_fails parseNext before after k c e hbefore hc (ih h), Outcome.bind_error]

/-- A container is not nil. -/
theorem Value.isContainer_isNull (v : Value) (h : v.isContainer = true) : v.isNull = false := by
  cases v <;> first | rfl | cases h

/-- The loop of `Lookup` returns the error of the first step application that
fails. -/
theorem Lookup.applies_fails (E : Ext) (steps : List step) (rootnode : Value) (findnomap : Bool)
    (obj : Value) (t : step) (obj1 root1 : Value) (e : Err)
    (ha : Lookup.applies E steps rootnode findnomap obj t obj1 root1)
    (h : step.parse E t obj1 root1 = .error e) :
    Lookup.loop E steps rootnode findnomap obj = .error e := by
  induction ha with
  | here s rest rootnode findnomap obj b hs hb =>
    rw [Lookup.loop_pass E s rest rootnode findnomap obj hs, hb, Outcome.bind_ok, h,
      Outcome.bind_error]
  | next s rest rootnode findnomap obj b o t obj1 root1 hs hb hp hno _ ih =>
    rw [Lookup.loop_pass E s rest rootnode findnomap obj hs, hb, Outcome.bind_ok, hp,
      Outcome.bind_ok]
    cases o with
    | arr oarr =>
      simp only [hno oarr rfl, Bool.false_eq_true, if_false]
      exact ih h
    | _ => exact ih h
  | fan s rest rootnode findnomap obj b before after i t obj1 root1 hs hb hp hfan hbefore hi _ ih =>
    rw [Lookup.loop_pass E s rest rootnode findnomap obj hs, hb, Outcome.bind_ok, hp,
      Outcome.bind_ok]
    simp only [hfan, if_true]
    have hf := Lookup.fanout_fails (fun i => Lookup.guard i (Lookup.loop E rest i false i))
      before after i e
      (fun x hx hc => by
        show (Lookup.guard x (Lookup.loop E rest x false x)).isOk = true
        rw [Lookup.guard_container x _ (Value.isContainer_isNull x hc)]
        exact hbefore x hx hc)
      hi
      (by
        show Lookup.guard i (Lookup.loop E rest i false i) = .error e
        rw [Lookup.guard_container i _ (Value.isContainer_isNull i hi)]
        exact ih h)
    rw [hf, Outcome.bind_error]
  | descent s next rest rootnode findnomap obj b n hs hb hr =>
    rw [Lookup.loop_pass_search E s next rest rootnode findnomap obj hs, hb, Outcome.bind_ok,
      get_search.reaches_fails _ obj n e hr h, Outcome.bind_error]
  | behind s next rest rootnode findnomap obj b before after i t obj1 root1 hs hb hg hfan hbefore
      hi _ ih =>
    rw [Lookup.loop_pass_search E s next rest rootnode findnomap obj hs, hb, Outcome.bind_ok, hg,
      Outcome.bind_ok]
    simp only [hfan, if_true]
    have hf := Lookup.fanout_fails (fun i => Lookup.guard i (Lookup.loop E rest i false i))
      before after i e
      (fun x hx hc => by
        show (Lookup.guard x (Lookup.loop E rest x false x)).isOk = true
        rw [Lookup.guard_container x _ (Value.isContainer_isNull x hc)]
        exact hbefore x hx hc)
      hi
      (by
        show Lookup.guard i (Lookup.loop E rest i false i) = .error e
        rw [Lookup.guard_container i _ (Value.isContainer_isNull i hi)]
        exact ih h)
    rw [hf, Outcome.bind_error]

/-- The loop of `get_filtered` fails at the first element whose evaluation
fails, when no evaluation before it aborts. -/
theorem get_filtered.loop_stops (ev : Value → Outcome Bool) (before after : List Value)
    (x : Value) (hbefore : ∀ b ∈ before, (ev b).isOk = true ∨ (ev b).isError = true)
    (hx : (ev x).isError = true) :
    (get_filtered.loop ev (before ++ x :: after)).isError = true := by
  induction before with
  | nil =>
    rw [List.nil_append, get_filtered.loop]
    cases h : ev x with
    | error e => rfl
    | _ => rw [h] at hx; cases hx
  | cons y rest ih =>
    have ih := ih fun b hb => hbefore b (List.mem_cons_of_mem _ hb)
    rw [List.cons_append, get_filtered.loop]
    cases hy : ev y with
    | ok b =>
      rw [Outcome.bind_ok]
      cases hr : get_filtered.loop ev (rest ++ x :: after) with
      | error e => rfl
      | _ => rw [hr] at ih; cases ih
    | error e => rfl
    | panic =>
      have := hbefore y (List.mem_cons_self _ _)
      rw [hy] at this
      rcases this with h | h <;> cases h
    | exhausted =>
      have := hbefore y (List.mem_cons_self _ _)
      rw [hy] at this
      rcases this with h | h <;> cases h

/-- The Filter step with the operator `=~` on an array fails at the first
element whose left operand is no text, when the left operand of no element
before it aborts. -/
theorem parse_regex_stops (E : Ext) (key text lp rp : Str) (reg : Option Str)
    (lpSub rpSub : Option Compiled) (obj root : Value) (before after : List Value) (x v : Value)
    (hobj : (if key ≠ [] then get_key obj key else .ok obj) = .ok (.arr (before ++ x :: after)))
    (hbefore : ∀ b ∈ before,
      (get_lp_v lp (fun o => Compiled.Lookup.opt E lpSub o) b root).isOk = true ∨
      (get_lp_v lp (fun o => Compiled.Lookup.opt E lpSub o) b root).isError = true)
    (hx : get_lp_v lp (fun o => Compiled.Lookup.opt E lpSub o) x root = .ok v)
    (hv : v.isStr = false) :
    ∃ e, step.parse E (.mk .filter key (.text text) (.mk lp ['=', '~'] rp reg lpSub rpSub))
      obj root = .error e := by
  have hloop : (get_filtered.loop
      (fun tmp => filterParam.eval_filter E (.mk lp ['=', '~'] rp reg lpSub rpSub) tmp root)
      (before ++ x :: after)).isError = true := by
    apply get_filtered.loop_stops
    · intro b hb
      have h3 := eval_filter_regex E lp rp reg lpSub rpSub b root
      cases hl : get_lp_v lp (fun o => Compiled.Lookup.opt E lpSub o) b root with
      | ok w =>
        cases hw : w.isStr with
        | false => exact Or.inr (h3.2.1 w hl hw)
        | true =>
          cases w with
          | str s =>
            rw [h3.2.2 s hl]
            cases reg
            · exact Or.inr rfl
            · exact Or.inl rfl
          | _ => cases hw
      | error e => exact Or.inr (h3.1 e hl)
      | panic => have := hbefore b hb; rw [hl] at this; rcases this with h | h <;> cases h
      | exhausted => have := hbefore b hb; rw [hl] at this; rcases this with h | h <;> cases h
    · exact (eval_filter_regex E lp rp reg lpSub rpSub x root).2.1 v hx hv
  rw [step.parse]
  simp only [hobj, Outcome.bind_ok, get_filtered]
  cases hr : get_filtered.loop
      (fun tmp => filterParam.eval_filter E (.mk lp ['=', '~'] rp reg lpSub rpSub) tmp root)
      (before ++ x :: after) with
  | error e => exact ⟨e, rfl⟩
  | _ => rw [hr] at hloop; cases hloop

/-- `Lookup` returns an error when a step the walk comes to apply returns
one. -/
theorem Compiled.Lookup_applies_fails (E : Ext) (c : Compiled) (D : Value) (t : step)
    (obj1 root1 : Value) (e : Err) (ha : Lookup.applies E c.steps D false D t obj1 root1)
    (h : step.parse E t obj1 root1 = .error e) :
    Compiled.Lookup E c D = .error e ∨ Compiled.Lookup E c D = .error .nullObject := by
  obtain ⟨path, steps⟩ := c
  rw [Compiled.Lookup]
  cases D with
  | null => exact Or.inr rfl
  | _ => exact Or.inl (Lookup.applies_fails E steps _ false _ t obj1 root1 e ha h)

/-- Following keys one list after the other. -/
theorem followKeys_append (ks more : List Str) (v : Value) :
    followKeys (ks ++ more) v = followKeys more (followKeys ks v) := by
  induction ks generalizing v with
  | nil => rfl
  | cons k rest ih =>
    obtain ⟨w, _, hw⟩ := followKeys_cons k (rest ++ more) v
    obtain ⟨w2, _, hw2⟩ := followKeys_cons k rest v
    cases v with
    | obj kvs =>
      cases hm : mapGet k kvs with
      | none => simp [followKeys, hm, followKeys_null]
      | some u => simp [followKeys, hm, ih]
    | _ => simp [followKeys, followKeys_null]

/-- `get_key` returns what following the one key gives. -/
theorem get_key_followKeys (obj : Value) (k : Str) : get_key obj k = .ok (followKeys [k] obj) := by
  obtain ⟨v, hv, hf⟩ := followKeys_cons k [] obj
  rw [hv, hf]
  rfl

/-- The loop of `Lookup` over Key steps in front of other steps: the keys are
followed, then the loop goes on. -/
theorem Lookup.loop_keys_then (E : Ext) (ks : List Str) (rest : List step) (rootnode : Value) :
    ∀ obj, Lookup.loop E (ks.map keyStep ++ rest) rootnode false obj =
      Lookup.loop E rest rootnode false (followKeys ks obj) := by
  induction ks with
  | nil => exact fun obj => rfl
  | cons k more ih =>
    intro obj
    obtain ⟨v, hv, hf⟩ := followKeys_cons k more obj
    have hs : (keyStep k).op ≠ .search := by simp [keyStep, step.op]
    have hp : step.parse E (keyStep k) obj rootnode = .ok v := by
      rw [← hv]
      rfl
    have hfnm : (if false = true then Outcome.ok true
        else (keyStep k).singleReturn.bind fun single => .ok (!single)) = .ok false := rfl
    rw [List.map_cons, List.cons_append, Lookup.loop_pass E _ _ _ _ _ hs, hfnm, Outcome.bind_ok, hp,
      Outcome.bind_ok, hf]
    cases v with
    | arr oarr =>
      simp only [Bool.false_and, Bool.false_eq_true, if_false]
      exact ih _
    | _ => exact ih _

/-- `Compile.steps` on plain names in front of one more token: the Key steps of
the names, then the step of the token. -/
theorem Compile.steps_plain_then (E : Ext) (compile : Str → Outcome Compiled) (ks : List Str)
    (t : Str) (h : ∀ k ∈ ks, plainName k = true) :
    Compile.steps (parse_token E compile) (ks ++ [t]) =
      (parse_token E compile t).bind fun s => .ok (ks.map keyStep ++ [s]) := by
  induction ks with
  | nil =>
    simp only [List.nil_append, Compile.steps, List.map_nil]
    cases parse_token E compile t <;> rfl
  | cons k rest ih =>
    rw [List.cons_append, Compile.steps, parse_token_plain E compile k (h k (List.mem_cons_self _ _)),
      Outcome.bind_ok, ih fun j hj => h j (List.mem_cons_of_mem _ hj)]
    cases parse_token E compile t <;> rfl

/-- `Compile` on `$.k1.....kn.k[?(@.f =~ /P/i)]`: the Key steps of the names in
front, then the Filter step under the key `k`, unless the names in front are
too many for the tokenizer. -/
theorem Compile_regex_behind_keys (E : Ext) (pre : List Str) (k f P : Str)
    (hpre : ∀ t ∈ pre, plainName t = true) (hk : plainName k = true) (hf : plainName f = true)
    (hP0 : '.' ∉ P) (hP1 : '[' ∉ P) (hP2 : ']' ∉ P) (hP3 : ' ' ∉ P) (hP4 : '\'' ∉ P)
    (hne : P ≠ []) (hre : E.regexpCompile P = true)
    (hlen : pre.length + 2 ≤ f.length + P.length + 9) :
    Compile E (regexPath pre k f P) =
      .ok (.mk (regexPath pre k f P)
        (pre.map keyStep ++
          [.mk .filter k (.text ('@' :: '.' :: (f ++ (" =~ ".toList ++ '/' :: (P ++ ['/', 'i'])))))
            (regexFilter f P)])) := by
  have htok := tokenize_regexPath pre k f P hpre hk hf hP0 hP1 hP2
  have hlen2 : ¬ (pre.length + 2 > (regexToken f P).length) := by
    rw [regexToken_length]
    omega
  rw [if_neg hlen2] at htok
  have hfuel : (regexPath pre k f P).length = ((regexPath pre k f P).length - 1) + 1 := by
    simp [regexPath]
  rw [Compile_of_tokenize E _ _ htok, hfuel, Compile.steps_plain_then E _ pre _ hpre,
    parse_token_regex E _ k f P (Or.inr hk) hf hP3 hP4 hne hre]
  rfl

/-- The loop of `Lookup` at the one step `k[?(@.f =~ /P/i)]`, on a value whose
member `k` is an array: the elements whose text under `f` matches when every
element holds a text under `f`, an error as soon as one does not. -/
theorem Lookup.loop_regex_step (E : Ext) (k text f P : Str) (rootnode obj : Value) (xs : List Value)
    (hk : k ≠ []) (hm : get_key obj k = .ok (.arr xs)) :
    ((∀ x ∈ xs, (stringMember f x).isSome = true) →
      Lookup.loop E [.mk .filter k (.text text) (regexFilter f P)] rootnode false obj =
        .ok (.arr (xs.filter (regexMatches E f P)))) ∧
    ((∃ x ∈ xs, stringMember f x = none) →
      (Lookup.loop E [.mk .filter k (.text text) (regexFilter f P)] rootnode false
        obj).isError = true) := by
  have hs : (step.mk .filter k (.text text) (regexFilter f P)).op ≠ .search := by simp [step.op]
  have hfnm : (if false = true then Outcome.ok true
      else (step.mk .filter k (.text text) (regexFilter f P)).singleReturn.bind
        fun single => .ok (!single)) = .ok true := rfl
  have hev : ∀ x, (filterParam.eval_filter E (regexFilter f P) x rootnode).isOk = true ∨
      (filterParam.eval_filter E (regexFilter f P) x rootnode).isError = true := by
    intro x
    cases h : stringMember f x with
    | none => exact Or.inr (eval_regexFilter_other E f P x _ h)
    | some s => rw [eval_regexFilter_text E f P x _ s h]; exact Or.inl rfl
  rw [Lookup.loop_pass E _ _ _ _ _ hs, hfnm, Outcome.bind_ok]
  simp only [step.parse, ne_eq, hk, not_false_eq_true, if_true, hm, Outcome.bind_ok, get_filtered]
  constructor
  · intro hall
    have hloop := get_filtered.loop_ok (regexMatches E f P)
      (fun tmp => filterParam.eval_filter E (regexFilter f P) tmp rootnode) xs
      (by
        intro x hx
        cases h : stringMember f x with
        | none => have := hall x hx; rw [h] at this; cases this
        | some s => simp only [eval_regexFilter_text E f P x _ s h, regexMatches, h])
    simp only [hloop, Outcome.bind_ok, List.isEmpty_nil, Bool.not_true, Bool.and_false,
      Bool.false_eq_true, if_false, Lookup.loop]
  · intro hbad
    have hloop := get_filtered.loop_error
      (fun tmp => filterParam.eval_filter E (regexFilter f P) tmp rootnode) xs
      (fun x _ => hev x)
      (by
        obtain ⟨x, hx, h⟩ := hbad
        exact ⟨x, hx, eval_regexFilter_other E f P x _ h⟩)
    cases hr : get_filtered.loop
        (fun tmp => filterParam.eval_filter E (regexFilter f P) tmp rootnode) xs with
    | error e => rfl
    | _ => rw [hr] at hloop; cases hloop

/-- `Lookup` with `$.k1.....kn.k[?(@.f =~ /P/i)]` on a document in which the
keys lead to an array. -/
theorem Lookup_regex_behind_keys (E : Ext) (pre : List Str) (k f P : Str) (D : Value)
    (xs : List Value)
    (hpre : ∀ t ∈ pre, plainName t = true) (hk : plainName k = true) (hf : plainName f = true)
    (hP0 : '.' ∉ P) (hP1 : '[' ∉ P) (hP2 : ']' ∉ P) (hP3 : ' ' ∉ P) (hP4 : '\'' ∉ P)
    (hne : P ≠ []) (hre : E.regexpCompile P = true)
    (hlen : pre.length + 2 ≤ f.length + P.length + 9)
    (hD : followKeys (pre ++ [k]) D = .arr xs) :
    ((∀ x ∈ xs, (stringMember f x).isSome = true) →
      Lookup E D (regexPath pre k f P) = .ok (.arr (xs.filter (regexMatches E f P)))) ∧
    ((∃ x ∈ xs, stringMember f x = none) →
      (Lookup E D (regexPath pre k f P)).isError = true) := by
  have hnull : D.isNull = false := by
    cases D with
    | null => rw [followKeys_null] at hD; cases hD
    | _ => rfl
  rw [Lookup_of_Compile E _ _ _
    (Compile_regex_behind_keys E pre k f P hpre hk hf hP0 hP1 hP2 hP3 hP4 hne hre hlen),
    Compiled.Lookup, Lookup.guard_container D _ hnull, Lookup.loop_keys_then]
  rw [followKeys_append] at hD
  exact Lookup.loop_regex_step E k _ f P D (followKeys pre D) xs (plainName_ne_nil k hk)
    (by rw [get_key_followKeys, hD])

/-! ### Slots, kinds and places -/

/-- Overwriting a slot keeps the kind of the container. -/
theorem Value.kind_setChild (v : Value) (n : Nat) (c : Value) :
    (v.setChild n c).kind = v.kind := by
  cases v with
  | obj kvs =>
    simp only [Value.setChild]
    cases kvs[n]? <;> rfl
  | _ => rfl

/-- The kind of a value is the first part of its shell. -/
theorem Value.shell_kind (v : Value) : v.shell.1 = v.kind := by
  cases v <;> rfl

/-- The kind of the value in a slot, read off the shell. -/
theorem Value.child_kind (v : Value) (n : Nat) :
    (v.child n).kind = match v.shell.2[n]? with
      | some c => c.2
      | none => 0 := by
  cases v with
  | arr xs =>
    simp only [Value.child, Value.shell, List.getElem?_map]
    cases xs[n]? <;> rfl
  | obj kvs =>
    simp only [Value.child, Value.shell, List.getElem?_map]
    cases kvs[n]? <;> rfl
  | _ => rfl

/-- A slot beyond the shell holds nil. -/
theorem Value.child_beyond (v : Value) (n : Nat) (h : v.shell.2.length ≤ n) :
    v.child n = .null := by
  cases v with
  | arr xs =>
    simp only [Value.shell, List.length_map] at h
    simp only [Value.child, List.getElem?_eq_none h]
  | obj kvs =>
    simp only [Value.shell, List.length_map] at h
    simp only [Value.child, List.getElem?_eq_none h]
  | _ => rfl

/-- Overwriting a slot by a value of the kind it held keeps the shell. -/
theorem Value.shell_setChild (v : Value) (n : Nat) (c : Value)
    (h : c.kind = (v.child n).kind) : (v.setChild n c).shell = v.shell := by
  cases v with
  | arr xs =>
    simp only [Value.setChild, Value.shell, Prod.mk.injEq, true_and]
    simp only [Value.child] at h
    apply List.ext_getElem?
    intro i
    simp only [List.getElem?_map, List.getElem?_set]
    by_cases hi : n = i
    · subst hi
      by_cases hn : n < xs.length
      · simp only [hn, if_true, List.getElem?_eq_getElem hn, Option.map_some'] at h ⊢
        rw [h]
      · simp [hn, List.getElem?_eq_none (not_lt.mp hn)]
    · simp [hi]
  | obj kvs =>
    simp only [Value.setChild, Value.child] at h ⊢
    cases hk : kvs[n]? with
    | none => rfl
    | some kv =>
      rw [hk] at h
      simp only [Value.shell, Prod.mk.injEq, true_and]
      apply List.ext_getElem?
      intro i
      simp only [List.getElem?_map, List.getElem?_set]
      have hn : n < kvs.length := by
        by_contra hcon
        rw [List.getElem?_eq_none (not_lt.mp hcon)] at hk
        cases hk
      by_cases hi : n = i
      · subst hi
        simp [hn, hk, h]
      · simp [hi]
  | _ => rfl

/-- A slot of the shell, overwritten, holds what was written. -/
theorem Value.child_setChild (v : Value) (n : Nat) (c : Value) (h : n < v.shell.2.length) :
    (v.setChild n c).child n = c := by
  cases v with
  | arr xs =>
    simp only [Value.shell, List.length_map] at h
    simp [Value.setChild, Value.child, h]
  | obj kvs =>
    simp only [Value.shell, List.length_map] at h
    simp [Value.setChild, Value.child, List.getElem?_eq_getElem h, h]
  | _ => simp [Value.shell] at h

/-- Overwriting a slot leaves the other slots as they were. -/
theorem Value.child_setChild_ne (v : Value) (n m : Nat) (c : Value) (h : n ≠ m) :
    (v.setChild n c).child m = v.child m := by
  cases v with
  | arr xs => simp [Value.setChild, Value.child, List.getElem?_set, h]
  | obj kvs =>
    simp only [Value.setChild, Value.child]
    cases hk : kvs[n]? with
    | none => rfl
    | some kv => simp [List.getElem?_set, h]
  | _ => rfl

/-- Overwriting the same slot twice is overwriting it once. -/
theorem Value.setChild_setChild (v : Value) (n : Nat) (a b : Value) :
    (v.setChild n a).setChild n b = v.setChild n b := by
  cases v with
  | arr xs => simp [Value.setChild]
  | obj kvs =>
    simp only [Value.setChild]
    cases hk : kvs[n]? with
    | none => simp [Value.setChild, hk]
    | some kv =>
      have hn : n < kvs.length := by
        by_contra hcon
        rw [List.getElem?_eq_none (not_lt.mp hcon)] at hk
        cases hk
      simp [Value.setChild, List.getElem?_set, hn]
  | _ => rfl

/-- Overwriting a place twice is overwriting it once. -/
theorem Value.put_put (loc : Loc) (a b : Value) :
    ∀ v : Value, (v.put loc a).put loc b = v.put loc b := by
  induction loc with
  | nil => intro v; rfl
  | cons i rest ih =>
    intro v
    rw [Value.put, Value.put, Value.put]
    by_cases h : i < v.shell.2.length
    · rw [Value.child_setChild v i _ h, ih, Value.setChild_setChild]
    · have hnull : v.child i = .null := Value.child_beyond v i (not_lt.mp h)
      have hsame : ∀ c, v.setChild i c = v := by
        intro c
        cases v with
        | arr xs =>
          simp only [Value.shell, List.length_map] at h
          simp [Value.setChild, List.set_eq_of_length_le (not_lt.mp h)]
        | obj kvs =>
          simp only [Value.shell, List.length_map] at h
          simp [Value.setChild, List.getElem?_eq_none (not_lt.mp h)]
        | _ => rfl
      rw [hsame, hsame]

/-- A place that holds what is put there holds it after another put. -/
theorem Value.holds_put (doc : Value) (loc : Loc) (x : Value)
    (h : ∀ c, (doc.put loc c).get loc = c) : ∀ c, ((doc.put loc x).put loc c).get loc = c := by
  intro c
  rw [Value.put_put]
  exact h c

/-- What is read at a place that holds what is put there. -/
theorem Value.holds_slot (doc : Value) (loc : Loc) (n : Nat)
    (h : ∀ c, (doc.put loc c).get loc = c) (hn : n < (doc.get loc).shell.2.length) :
    ∀ c, (doc.put (loc ++ [n]) c).get (loc ++ [n]) = c := by
  intro c
  rw [Value.get_append, Value.put_append, h, Value.child_setChild _ _ _ hn]

/-- A value is nil when its kind is. -/
theorem Value.isNull_kind (v : Value) : v.isNull = decide (v.kind = 0) := by
  cases v <;> rfl

/-- A value is a container when its kind is that of an array or an object. -/
theorem Value.isContainer_kind (v : Value) :
    v.isContainer = decide (v.kind = 4 ∨ v.kind = 5) := by
  cases v <;> rfl

/-- A slot that holds a value other than nil is a slot of the shell. -/
theorem Value.child_within (v : Value) (n : Nat) (h : (v.child n).isNull = false) :
    n < v.shell.2.length := by
  by_contra hcon
  rw [Value.child_beyond v n (not_lt.mp hcon)] at h
  cases h

/-! ### What a step selects -/

/-- The position of a member by its name, read off the shell. -/
theorem mapIdx_shell (key : Str) (kvs : List (Str × Value)) :
    mapIdx key kvs = slotOf key (Value.obj kvs).shell.2 := by
  induction kvs with
  | nil => rfl
  | cons kv rest ih =>
    obtain ⟨k, w⟩ := kv
    simp only [Value.shell] at ih
    by_cases hk : k = key
    · simp only [mapIdx, Value.shell, List.map_cons, slotOf, hk, if_true]
    · cases hs : slotOf key (List.map (fun kv => (kv.1, kv.2.kind)) rest) with
      | none => simp only [mapIdx, Value.shell, List.map_cons, slotOf, ih, hs, hk, if_false]
      | some i => simp only [mapIdx, Value.shell, List.map_cons, slotOf, ih, hs, hk, if_false]

/-- The elements that pass a test are the elements at the positions that pass
it. -/
theorem filter_positions {α : Type} (p : α → Bool) (f : Nat → Bool) (g : Nat → α) (xs : List α)
    (hf : ∀ (i : Nat) (x : α), xs[i]? = some x → f i = p x)
    (hg : ∀ (i : Nat) (x : α), xs[i]? = some x → g i = x) :
    xs.filter p = ((List.range xs.length).filter f).map g := by
  induction xs using List.reverseRecOn with
  | nil => rfl
  | append_singleton ys y ih =>
    have hin : ∀ (i : Nat) (x : α), ys[i]? = some x → (ys ++ [y])[i]? = some x := by
      intro i x h
      have hi : i < ys.length := by
        by_contra hcon
        rw [List.getElem?_eq_none (not_lt.mp hcon)] at h
        cases h
      rw [List.getElem?_append_left hi, h]
    have ih := ih (fun i x h => hf i x (hin i x h)) (fun i x h => hg i x (hin i x h))
    have hy : (ys ++ [y])[ys.length]? = some y := by simp
    rw [List.filter_append, List.length_append, List.length_singleton, List.range_succ,
      List.filter_append, List.map_append, ← ih]
    congr 1
    by_cases hp : p y = true
    · simp [List.filter_cons, hf _ _ hy, hg _ _ hy, hp]
    · simp [List.filter_cons, hf _ _ hy, hp]

/-- A run of elements is the elements at the positions of the run. -/
theorem take_drop_positions {α : Type} (g : Nat → α) (xs : List α)
    (hg : ∀ (i : Nat) (x : α), xs[i]? = some x → g i = x) (n : Nat) :
    ∀ lo, lo + n ≤ xs.length → (xs.drop lo).take n = (List.range' lo n).map g := by
  induction n with
  | zero => intro lo _; simp
  | succ m ih =>
    intro lo h
    have hlo : lo < xs.length := by omega
    rw [List.range'_succ, List.map_cons, List.drop_eq_getElem_cons hlo, List.take_succ_cons,
      ih (lo + 1) (by omega), hg lo _ (List.getElem?_eq_getElem hlo)]

/-- The value in a slot of an array. -/
theorem Value.child_arr (xs : List Value) (i : Nat) (x : Value) (h : xs[i]? = some x) :
    (Value.arr xs).child i = x := by
  simp only [Value.child, h]

/-- The value in a slot of an object. -/
theorem Value.child_obj (kvs : List (Str × Value)) (i : Nat) (x : Value)
    (h : (kvs.map Prod.snd)[i]? = some x) : (Value.obj kvs).child i = x := by
  simp only [List.getElem?_map] at h
  simp only [Value.child]
  cases hk : kvs[i]? with
  | none => rw [hk] at h; cases h
  | some kv =>
    rw [hk] at h
    simp only [Option.map_some', Option.some.injEq] at h
    exact h

/-- A slot of an array holds no nil when the shell says so. -/
theorem isLive_arr (xs : List Value) (i : Nat) (x : Value) (h : xs[i]? = some x) :
    isLive (Value.arr xs).shell.2 i = !x.isNull := by
  simp only [isLive, Value.shell, List.getElem?_map, h, Option.map_some']
  cases x <;> rfl

/-- A slot of an object holds no nil when the shell says so. -/
theorem isLive_obj (kvs : List (Str × Value)) (i : Nat) (x : Value)
    (h : (kvs.map Prod.snd)[i]? = some x) : isLive (Value.obj kvs).shell.2 i = !x.isNull := by
  simp only [List.getElem?_map] at h
  simp only [isLive, Value.shell, List.getElem?_map]
  cases hk : kvs[i]? with
  | none => rw [hk] at h; cases h
  | some kv =>
    rw [hk] at h
    simp only [Option.map_some', Option.some.injEq] at h
    subst h
    obtain ⟨k, v⟩ := kv
    cases v <;> rfl

/-- The slots of an array that do not hold nil, read off the shell. -/
theorem liveSlots_arr (xs : List Value) : liveSlots xs = liveOf (Value.arr xs).shell.2 := by
  simp only [liveSlots, liveOf, Value.shell, List.length_map]
  apply List.filter_congr
  intro i _
  simp only [isLive, List.getElem?_map]
  cases xs[i]? with
  | none => rfl
  | some v => cases v <;> rfl

/-- The slots of an object that do not hold nil, read off the shell. -/
theorem liveSlots_obj (kvs : List (Str × Value)) :
    liveSlots (kvs.map Prod.snd) = liveOf (Value.obj kvs).shell.2 := by
  simp only [liveSlots, liveOf, Value.shell, List.length_map]
  apply List.filter_congr
  intro i _
  simp only [isLive, List.getElem?_map]
  cases kvs[i]? with
  | none => rfl
  | some kv =>
    obtain ⟨k, v⟩ := kv
    cases v <;> rfl

/-- `get_scan` returns the values in the slots that do not hold nil. -/
theorem get_scan_slots (v : Value) :
    get_scan v = .ok ((if v.shell.1 = 4 ∨ v.shell.1 = 5 then liveOf v.shell.2 else []).map v.child)
    := by
  cases v with
  | arr xs =>
    simp only [get_scan, true_or, if_true, Value.shell_kind, Value.kind, liveOf]
    rw [filter_positions (fun v => !v.isNull) (isLive (Value.arr xs).shell.2) (Value.arr xs).child
      xs (isLive_arr xs) (Value.child_arr xs)]
    simp [Value.shell]
  | obj kvs =>
    simp only [get_scan, or_true, if_true, Value.shell_kind, Value.kind, liveOf]
    rw [filter_positions (fun v => !v.isNull) (isLive (Value.obj kvs).shell.2)
      (Value.obj kvs).child (kvs.map Prod.snd) (isLive_obj kvs) (Value.child_obj kvs)]
    simp [Value.shell]
  | _ => rfl

/-- `get_key` returns the value in the slot the Key step selects. -/
theorem get_key_sel (v : Value) (key : Str) :
    get_key v key = (selKey key v.shell).bind fun sel => .ok (sel.read v) := by
  cases v with
  | obj kvs =>
    simp only [get_key, selKey, Value.shell_kind, Value.kind, if_true, ← mapIdx_shell]
    cases hi : mapIdx key kvs with
    | none => simp only [(mapIdx_none key kvs hi).1, Outcome.bind_ok, Sel.read]
    | some i =>
      obtain ⟨w, h1, h2, _⟩ := mapIdx_some key kvs i hi
      simp only [h2, Outcome.bind_ok, Sel.read, Value.child, h1]
  | _ => rfl

/-- The slot an index resolves to. -/
theorem resolveSlot_some (n : Nat) (i : Int) (k : Nat) (h : resolveSlot n i = some k) :
    k < n ∧ ((0 ≤ i ∧ i = k) ∨ (i < 0 ∧ i = (k : Int) - n)) := by
  unfold resolveSlot at h
  split_ifs at h with h0 h1 h2
  · cases h
    omega
  · cases h
    omega

/-- An index that resolves to no slot is out of range. -/
theorem resolveSlot_none (n : Nat) (i : Int) (h : resolveSlot n i = none) :
    ¬ (-(n : Int) ≤ i ∧ i < n) := by
  unfold resolveSlot at h
  split_ifs at h with h0 h1 h2
  · omega
  · omega

/-- `get_idx` on an array returns the element in the slot the index resolves
to. -/
theorem get_idx_slot (xs : List Value) (x : Int) :
    get_idx (.arr xs) x =
      match resolveSlot xs.length x with
      | some k => .ok ((Value.arr xs).child k)
      | none => .error .indexOutOfRange := by
  cases hr : resolveSlot xs.length x with
  | none => exact get_idx_out xs x (resolveSlot_none _ _ hr)
  | some k =>
    obtain ⟨hk, hx⟩ := resolveSlot_some _ _ _ hr
    have hget : xs[k]? = some (xs.get ⟨k, hk⟩) := List.getElem?_eq_getElem hk
    simp only [Value.child, hget]
    rcases hx with ⟨_, e⟩ | ⟨_, e⟩
    · rw [e]
      exact get_idx_nonneg xs k _ hget
    · rw [e]
      exact get_idx_neg xs k _ hget

/-- `get_idx` returns the value in the slot the Index step selects. -/
theorem get_idx_sel (v : Value) (x : Int) :
    get_idx v x = (selIdx false (.ints [x]) v.shell).bind fun sel => .ok (sel.read v) := by
  cases v with
  | arr xs =>
    rw [get_idx_slot]
    simp only [selIdx, Value.shell_kind, Value.kind, if_true, Value.shell, List.length_map]
    cases resolveSlot xs.length x <;> rfl
  | _ => rfl

/-- The loop of `step.parse` over several indices on an array returns the
elements, nil left out, in the slots the indices resolve to. -/
theorem step.parse.multi_slots (xs : List Value) (idxs : List Int) :
    step.parse.multi (.arr xs) idxs =
      (resolveSlots xs.length idxs).bind fun ks =>
        .ok ((ks.filter (isLive (Value.arr xs).shell.2)).map (Value.arr xs).child) := by
  induction idxs with
  | nil => rfl
  | cons i rest ih =>
    rw [step.parse.multi, get_idx_slot, resolveSlots, ih]
    cases hr : resolveSlot xs.length i with
    | none => rfl
    | some k =>
      obtain ⟨hk, _⟩ := resolveSlot_some _ _ _ hr
      have hget : xs[k]? = some (xs.get ⟨k, hk⟩) := List.getElem?_eq_getElem hk
      simp only [Outcome.bind_ok]
      cases resolveSlots xs.length rest with
      | ok ks =>
        simp only [Outcome.bind_ok, List.filter_cons, isLive_arr xs k _ hget,
          Value.child_arr xs k _ hget]
        cases (xs.get ⟨k, hk⟩).isNull
        · simp only [Bool.false_eq_true, if_false, Bool.not_false, if_true, List.map_cons,
            Value.child_arr xs k _ hget]
        · simp only [if_true, Bool.not_true, Bool.false_eq_true, if_false]
      | _ => rfl

/-- The loop of `step.parse` over several indices on a value that is no array
returns nothing. -/
theorem step.parse.multi_other (v : Value) (hv : v.isArr = false) (idxs : List Int) :
    step.parse.multi v idxs = .ok [] := by
  induction idxs with
  | nil => rfl
  | cons i rest ih =>
    rw [step.parse.multi, ih]
    cases v with
    | arr xs => cases hv
    | _ => rfl

/-- The part of `get_range` after the bounds are resolved returns the
elements in the slots from `lo` up to `hi`. -/
theorem get_range_resolved_slots (xs : List Value) (lo hi : Int) :
    (if lo < 0 ∨ lo ≥ xs.length then (.error .fromOutOfRange : Outcome (List Value))
      else if hi < 0 ∨ hi > xs.length then .error .toOutOfRange
      else slice xs lo hi) =
    (if lo < 0 ∨ lo ≥ xs.length then (.error .fromOutOfRange : Outcome (List Nat))
      else if hi < 0 ∨ hi > xs.length then .error .toOutOfRange
      else if lo ≤ hi then .ok (List.range' lo.toNat (hi.toNat - lo.toNat))
      else .panic).bind fun ks => .ok (ks.map (Value.arr xs).child) := by
  by_cases h1 : lo < 0 ∨ lo ≥ xs.length
  · rw [if_pos h1, if_pos h1]
    rfl
  · rw [if_neg h1, if_neg h1]
    by_cases h2 : hi < 0 ∨ hi > xs.length
    · rw [if_pos h2, if_pos h2]
      rfl
    · rw [if_neg h2, if_neg h2]
      by_cases h3 : lo ≤ hi
      · rw [if_pos h3, Outcome.bind_ok, slice, if_pos (by omega),
          take_drop_positions (Value.arr xs).child xs (Value.child_arr xs) _ _ (by omega)]
      · rw [if_neg h3, slice, if_neg (by omega)]
        rfl

/-- `get_range` returns the values in the slots the Range step selects. -/
theorem get_range_sel (v : Value) (frm to' : Option Int) :
    (get_range v frm to').bind (fun res => .ok (.arr res)) =
      (selRange (.bounds frm to') v.shell).bind fun sel => .ok (sel.read v) := by
  cases v with
  | arr xs =>
    simp only [get_range, selRange, rangeSlots, Value.shell_kind, Value.kind, if_true,
      Value.shell, List.length_map]
    rw [get_range_resolved_slots]
    generalize (if (if frm.getD 0 < 0 then (xs.length : Int) + frm.getD 0 else frm.getD 0) < 0 ∨
      (if frm.getD 0 < 0 then (xs.length : Int) + frm.getD 0 else frm.getD 0) ≥ xs.length
      then (Outcome.error Err.fromOutOfRange : Outcome (List Nat)) else _) = o
    cases o <;> rfl
  | _ => rfl

/-! ### A step as a selection of slots -/

/-- The slot of a name is a slot of the shell. -/
theorem slotOf_lt (key : Str) (l : List (Str × Nat)) (n : Nat) (h : slotOf key l = some n) :
    n < l.length := by
  induction l generalizing n with
  | nil => cases h
  | cons kv rest ih =>
    obtain ⟨k, w⟩ := kv
    simp only [slotOf] at h
    by_cases hk : k = key
    · rw [if_pos hk] at h
      cases h
      simp
    · rw [if_neg hk] at h
      cases hs : slotOf key rest with
      | none =>
        rw [hs] at h
        cases h
      | some i =>
        rw [hs] at h
        cases h
        have := ih i hs
        simp only [List.length_cons]
        omega

/-- The slots the requested indices resolve to are slots of the array. -/
theorem resolveSlots_lt (n : Nat) (idxs : List Int) (ks : List Nat)
    (h : resolveSlots n idxs = .ok ks) : ∀ k ∈ ks, k < n := by
  induction idxs generalizing ks with
  | nil =>
    cases h
    simp
  | cons i rest ih =>
    rw [resolveSlots] at h
    cases hr : resolveSlot n i with
    | none =>
      rw [hr] at h
      cases h
    | some k =>
      rw [hr] at h
      cases hrest : resolveSlots n rest with
      | ok ks1 =>
        rw [hrest] at h
        cases h
        intro m hm
        rcases List.mem_cons.mp hm with rfl | hm
        · exact (resolveSlot_some _ _ _ hr).1
        · exact ih ks1 hrest m hm
      | error e =>
        rw [hrest] at h
        cases h
      | panic =>
        rw [hrest] at h
        cases h
      | exhausted =>
        rw [hrest] at h
        cases h

/-- The slots a Range step selects are slots of the array. -/
theorem rangeSlots_lt (n : Nat) (frm to' : Option Int) (ks : List Nat)
    (h : rangeSlots n frm to' = .ok ks) : ∀ k ∈ ks, k < n := by
  simp only [rangeSlots] at h
  split_ifs at h
  all_goals
    cases h
    intro k hk
    rw [List.mem_range'_1] at hk
    omega

/-- The slots that do not hold nil are slots of the shell. -/
theorem liveOf_lt (l : List (Str × Nat)) : ∀ k ∈ liveOf l, k < l.length := by
  intro k hk
  simp only [liveOf, List.mem_filter, List.mem_range] at hk
  exact hk.1

/-- A slot that does not hold nil is a slot of the shell. -/
theorem isLive_lt (l : List (Str × Nat)) (k : Nat) (h : isLive l k = true) : k < l.length := by
  by_contra hcon
  simp only [isLive, List.getElem?_eq_none (not_lt.mp hcon)] at h
  cases h

/-- What `singleReturn` answers on a step that selects slots. -/
theorem step.singleReturn_selects (s : step) (hs : selectsSlots s = true) (b : Bool)
    (h : s.singleReturn = .ok b) : b = selectsOne s := by
  obtain ⟨op, key, args, filter⟩ := s
  cases op with
  | key =>
    cases h
    rfl
  | idx =>
    cases args with
    | ints l =>
      cases h
      rcases l with _ | ⟨x, _ | ⟨y, more⟩⟩ <;> rfl
    | _ => cases h
  | range =>
    cases h
    cases args <;> rfl
  | scan =>
    cases h
    cases args <;> rfl
  | _ => cases hs

/-- A step that selects slots is no recursive descent. -/
theorem selectsSlots_not_search (s : step) (hs : selectsSlots s = true) : s.op ≠ .search := by
  intro h
  simp only [selectsSlots, h] at hs
  cases hs

/-- What a step selects: a step that selects one value selects one slot of the
shell or none, every other step a list of slots of the shell. -/
theorem selAt_shape (all : Bool) (s : step) (sh : Nat × List (Str × Nat)) (sel : Sel)
    (h : selAt all s sh = .ok sel) :
    (selectsOne s = true → sel = .miss ∨ ∃ n, sel = .hit n ∧ n < sh.2.length) ∧
    (selectsOne s = false → ∃ ns, sel = .many ns ∧ ∀ n ∈ ns, n < sh.2.length) := by
  obtain ⟨op, key, args, filter⟩ := s
  cases op with
  | key =>
    refine ⟨fun _ => ?_, fun h1 => by cases h1⟩
    simp only [selAt, step.op, step.key, selKey] at h
    by_cases h5 : sh.1 = 5
    · rw [if_pos h5] at h
      cases hs : slotOf key sh.2 with
      | none =>
        rw [hs] at h
        cases h
        exact Or.inl rfl
      | some n =>
        rw [hs] at h
        cases h
        exact Or.inr ⟨n, rfl, slotOf_lt _ _ _ hs⟩
    · rw [if_neg h5] at h
      cases h
      exact Or.inl rfl
  | idx =>
    simp only [selAt, step.op, step.args] at h
    cases args with
    | ints l =>
      rcases l with _ | ⟨x, _ | ⟨y, more⟩⟩
      · cases h
      · refine ⟨fun _ => ?_, fun h1 => by cases h1⟩
        simp only [selIdx] at h
        by_cases h4 : sh.1 = 4
        · rw [if_pos h4] at h
          cases hr : resolveSlot sh.2.length x with
          | none =>
            rw [hr] at h
            cases h
          | some k =>
            rw [hr] at h
            cases h
            exact Or.inr ⟨k, rfl, (resolveSlot_some _ _ _ hr).1⟩
        · rw [if_neg h4] at h
          cases h
          exact Or.inl rfl
      · refine ⟨fun h1 => (by cases h1), fun _ => ?_⟩
        simp only [selIdx] at h
        by_cases h4 : sh.1 = 4
        · rw [if_pos h4] at h
          cases hr : resolveSlots sh.2.length (x :: y :: more) with
          | ok ks =>
            rw [hr] at h
            cases h
            refine ⟨_, rfl, fun n hn => ?_⟩
            have hlt := resolveSlots_lt _ _ _ hr
            cases all
            · exact hlt n (List.mem_of_mem_filter hn)
            · exact hlt n hn
          | error e =>
            rw [hr] at h
            cases h
          | panic =>
            rw [hr] at h
            cases h
          | exhausted =>
            rw [hr] at h
            cases h
        · rw [if_neg h4] at h
          cases h
          exact ⟨_, rfl, fun n hn => by cases hn⟩
    | _ => cases h
  | range =>
    refine ⟨fun h1 => (by cases args <;> cases h1), fun _ => ?_⟩
    simp only [selAt, step.op, step.args] at h
    cases args with
    | bounds frm to' =>
      simp only [selRange] at h
      by_cases h4 : sh.1 = 4
      · rw [if_pos h4] at h
        cases hr : rangeSlots sh.2.length frm to' with
        | ok ks =>
          rw [hr] at h
          cases h
          exact ⟨_, rfl, rangeSlots_lt _ _ _ _ hr⟩
        | error e =>
          rw [hr] at h
          cases h
        | panic =>
          rw [hr] at h
          cases h
        | exhausted =>
          rw [hr] at h
          cases h
      · rw [if_neg h4] at h
        cases h
    | _ => cases h
  | scan =>
    refine ⟨fun h1 => (by cases args <;> cases h1), fun _ => ?_⟩
    simp only [selAt, step.op, selScan] at h
    cases h
    refine ⟨_, rfl, fun n hn => ?_⟩
    by_cases hc : sh.1 = 4 ∨ sh.1 = 5
    · rw [if_pos hc] at hn
      exact liveOf_lt _ n hn
    · rw [if_neg hc] at hn
      cases hn
  | _ => cases h

/-- A step that selects slots, an Index or Range step without key, returns
what its selection stands for. -/
theorem step.parse_sel (E : Ext) (s : step) (hs : selectsSlots s = true) (hk : keyless s = true)
    (v root : Value) :
    step.parse E s v root = (selAt false s v.shell).bind fun sel => .ok (sel.read v) := by
  obtain ⟨op, key, args, filter⟩ := s
  cases op with
  | key =>
    rw [step.parse]
    exact get_key_sel v key
  | idx =>
    have hkey : key = [] := by
      cases key with
      | nil => rfl
      | cons c cs => cases hk
    subst hkey
    rw [step.parse]
    simp only [List.length_nil, gt_iff_lt, lt_self_iff_false, if_false, Outcome.bind_ok, selAt,
      step.op, step.args]
    cases args with
    | ints l =>
      rcases l with _ | ⟨x, _ | ⟨y, more⟩⟩
      · rfl
      · exact get_idx_sel v x
      · show ((step.parse.multi v (x :: y :: more)).bind fun res => Outcome.ok (Value.arr res)) = _
        cases hv : v.isArr with
        | false =>
          rw [step.parse.multi_other v hv]
          cases v with
          | arr xs => cases hv
          | _ => rfl
        | true =>
          cases v with
          | arr xs =>
            simp only [step.parse.multi_slots, selIdx, Value.shell_kind, Value.kind, if_true,
              Value.shell, List.length_map]
            cases resolveSlots xs.length (x :: y :: more) <;> rfl
          | _ => cases hv
    | _ => rfl
  | range =>
    have hkey : key = [] := by
      cases key with
      | nil => rfl
      | cons c cs => cases hk
    subst hkey
    rw [step.parse]
    simp only [List.length_nil, gt_iff_lt, lt_self_iff_false, if_false, Outcome.bind_ok, selAt,
      step.op, step.args]
    cases args with
    | bounds frm to' => exact get_range_sel v frm to'
    | _ => rfl
  | scan =>
    rw [step.parse, get_scan_slots]
    rfl
  | _ => cases hs

/-! ### The steps of the walk with a replacement, by slot -/

/-- A sequence of two calls that returns a result: both calls did. -/
theorem Effect.bind_eq_ok {α β : Type} (x : Effect α) (f : Value → α → Effect β) (d : Value)
    (b : β) (h : x.bind f = ⟨d, .ok b⟩) : ∃ a, x.ret = .ok a ∧ f x.doc a = ⟨d, .ok b⟩ := by
  obtain ⟨xd, xr⟩ := x
  cases xr with
  | ok a => exact ⟨a, rfl, h⟩
  | error e =>
    have := congrArg Effect.ret h
    cases this
  | panic =>
    have := congrArg Effect.ret h
    cases this
  | exhausted =>
    have := congrArg Effect.ret h
    cases this

/-- What the slot of a reference holds. -/
theorem Ref.read_child (doc : Value) (obj : Ref) (k : Nat) :
    (obj.child k).read doc = (obj.read doc).child k := by
  cases obj with
  | «at» loc => exact Value.get_append loc k doc
  | val v => rfl

/-- `get_idx` on an array, at an index that resolves to a slot. -/
theorem get_idx.write_slot (rv doc : Value) (obj : Ref) (xs : List Value)
    (hread : obj.read doc = .arr xs) (i : Int) (k : Nat)
    (hr : resolveSlot xs.length i = some k) :
    get_idx.write rv doc obj i = ⟨obj.replace rv doc k, .ok (obj.slot rv k)⟩ := by
  obtain ⟨hk, hi⟩ := resolveSlot_some _ _ _ hr
  simp only [get_idx.write, hread]
  rcases hi with ⟨h0, e⟩ | ⟨h0, e⟩
  · subst e
    rw [if_pos (by omega), if_neg (by omega), Int.toNat_ofNat]
  · have hk2 : ((xs.length : Int) + i).toNat = k := by omega
    rw [if_neg (by omega), if_neg (by omega), hk2]

/-- `get_idx` on an array, at an index out of range. -/
theorem get_idx.write_out (rv doc : Value) (obj : Ref) (xs : List Value)
    (hread : obj.read doc = .arr xs) (i : Int) (hr : resolveSlot xs.length i = none) :
    get_idx.write rv doc obj i = ⟨doc, .error .indexOutOfRange⟩ := by
  have hi := resolveSlot_none _ _ hr
  simp only [get_idx.write, hread]
  by_cases h0 : i ≥ 0
  · rw [if_pos h0, if_pos (by omega)]
  · rw [if_neg h0, if_pos (by omega)]

/-- `get_idx` on a value that is no array. -/
theorem get_idx.write_idx_other (rv doc : Value) (obj : Ref) (hread : (obj.read doc).isArr = false)
    (i : Int) : get_idx.write rv doc obj i = ⟨doc, .ok (.val .null)⟩ := by
  simp only [get_idx.write]
  cases h : obj.read doc with
  | arr xs =>
    rw [h] at hread
    cases hread
  | _ => rfl

/-- The part of `get_range` after the bounds are resolved, by slot. -/
theorem get_range.write_resolved_slots (rv doc : Value) (obj : Ref) (length lo hi : Int) :
    (if lo < 0 ∨ lo ≥ length then (⟨doc, .error .fromOutOfRange⟩ : Effect (List Ref))
      else if hi < 0 ∨ hi > length then ⟨doc, .error .toOutOfRange⟩
      else if lo ≤ hi then
        ⟨(List.range' lo.toNat (hi.toNat - lo.toNat)).foldl (fun d i => obj.replace rv d i) doc,
          .ok ((List.range' lo.toNat (hi.toNat - lo.toNat)).map fun i => obj.slot rv i)⟩
      else
        ⟨(List.range' lo.toNat (hi.toNat - lo.toNat)).foldl (fun d i => obj.replace rv d i) doc,
          .panic⟩) =
    (Effect.mk doc
      (if lo < 0 ∨ lo ≥ length then (.error .fromOutOfRange : Outcome (List Nat))
        else if hi < 0 ∨ hi > length then .error .toOutOfRange
        else if lo ≤ hi then .ok (List.range' lo.toNat (hi.toNat - lo.toNat))
        else .panic)).bind fun doc ks =>
      ⟨ks.foldl (fun d i => obj.replace rv d i) doc, .ok (ks.map fun i => obj.slot rv i)⟩ := by
  by_cases h1 : lo < 0 ∨ lo ≥ length
  · rw [if_pos h1, if_pos h1]
    rfl
  · rw [if_neg h1, if_neg h1]
    by_cases h2 : hi < 0 ∨ hi > length
    · rw [if_pos h2, if_pos h2]
      rfl
    · rw [if_neg h2, if_neg h2]
      by_cases h3 : lo ≤ hi
      · rw [if_pos h3, if_pos h3]
        rfl
      · rw [if_neg h3, if_neg h3]
        have h0 : hi.toNat - lo.toNat = 0 := by omega
        simp only [h0]
        rfl

/-- `get_range` on an array overwrites and returns the slots the Range step
selects. -/
theorem get_range.write_range_slots (rv doc : Value) (obj : Ref) (xs : List Value)
    (hread : obj.read doc = .arr xs) (frm to' : Option Int) :
    get_range.write rv doc obj frm to' =
      (Effect.mk doc (rangeSlots xs.length frm to')).bind fun doc ks =>
        ⟨ks.foldl (fun d i => obj.replace rv d i) doc, .ok (ks.map fun i => obj.slot rv i)⟩ := by
  simp only [get_range.write, hread, rangeSlots]
  exact get_range.write_resolved_slots rv doc obj _ _ _

/-- `get_range` on a value that is no array. -/
theorem get_range.write_range_other (rv doc : Value) (obj : Ref) (hread : (obj.read doc).isArr = false)
    (frm to' : Option Int) : get_range.write rv doc obj frm to' = ⟨doc, .error .notSlice⟩ := by
  simp only [get_range.write]
  cases h : obj.read doc with
  | arr xs =>
    rw [h] at hread
    cases hread
  | _ => rfl

/-- `get_scan` overwrites and returns the slots that do not hold nil. -/
theorem get_scan.write_scan_slots (rv doc : Value) (obj : Ref) :
    get_scan.write rv doc obj =
      ⟨(if (obj.read doc).shell.1 = 4 ∨ (obj.read doc).shell.1 = 5
          then liveOf (obj.read doc).shell.2 else []).foldl (fun d i => obj.replace rv d i) doc,
        .ok ((if (obj.read doc).shell.1 = 4 ∨ (obj.read doc).shell.1 = 5
          then liveOf (obj.read doc).shell.2 else []).map fun i => obj.slot rv i)⟩ := by
  simp only [get_scan.write]
  cases h : obj.read doc with
  | arr xs => simp only [liveSlots_arr, Value.shell_kind, Value.kind, true_or, if_true]
  | obj kvs =>
    simp only [liveSlots_obj, Value.shell_kind, Value.kind, or_true, if_true]
  | _ => rfl

/-- What a Key step selects: one slot or none. -/
theorem selKey_cases (key : Str) (sh : Nat × List (Str × Nat)) :
    selKey key sh = .ok .miss ∨ ∃ n, selKey key sh = .ok (.hit n) := by
  simp only [selKey]
  by_cases h5 : sh.1 = 5
  · rw [if_pos h5]
    cases slotOf key sh.2 with
    | none => exact Or.inl rfl
    | some n => exact Or.inr ⟨n, rfl⟩
  · rw [if_neg h5]
    exact Or.inl rfl

/-- `get_key` on a value without the member. -/
theorem get_key.write_miss (rv doc : Value) (obj : Ref) (key : Str)
    (h : selKey key (obj.read doc).shell = .ok .miss) :
    get_key.write rv doc obj key = ⟨doc, .ok (.val .null)⟩ := by
  simp only [get_key.write]
  cases hv : obj.read doc with
  | obj kvs =>
    rw [hv] at h
    simp only [selKey, Value.shell_kind, Value.kind, if_true, ← mapIdx_shell] at h
    cases hm : mapIdx key kvs with
    | none => simp only [hm]
    | some i =>
      rw [hm] at h
      cases h
  | _ => rfl

/-- `get_key` on an object with the member: the slot is overwritten and the
value it held returned. -/
theorem get_key.write_hit (rv doc : Value) (obj : Ref) (key : Str) (n : Nat)
    (h : selKey key (obj.read doc).shell = .ok (.hit n)) :
    get_key.write rv doc obj key =
      if rv.isNull then ⟨doc, .ok (obj.child n)⟩
      else ⟨obj.assign doc n rv, .ok (.val ((obj.read doc).child n))⟩ := by
  simp only [get_key.write]
  cases hv : obj.read doc with
  | obj kvs =>
    rw [hv] at h
    simp only [selKey, Value.shell_kind, Value.kind, if_true, ← mapIdx_shell] at h
    cases hm : mapIdx key kvs with
    | none =>
      rw [hm] at h
      cases h
    | some i =>
      rw [hm] at h
      cases h
      simp only [hm]
  | _ =>
    rw [hv] at h
    cases h

/-- Without a replacement the slot is returned. -/
theorem Ref.slot_null (i : Nat) (obj : Ref) : obj.slot .null i = obj.child i := rfl

/-- A value is an array when its kind says so. -/
theorem Value.isArr_shell (v : Value) : v.isArr = decide (v.shell.1 = 4) := by
  cases v <;> rfl

/-- An array is a list of elements. -/
theorem Value.isArr_arr (v : Value) (h : v.isArr = true) : ∃ xs, v = .arr xs := by
  cases v with
  | arr xs => exact ⟨xs, rfl⟩
  | _ => cases h

/-- The loop of `step.parse` over several indices, without a replacement, on
an array: the slots the indices resolve to, nil left out. -/
theorem step.parse.multi.write_null_slots (obj : Ref) (doc : Value) (xs : List Value)
    (hread : obj.read doc = .arr xs) (idxs : List Int) :
    step.parse.multi.write .null obj idxs doc =
      ⟨doc, (resolveSlots xs.length idxs).bind fun ks =>
        .ok ((ks.filter (isLive (Value.arr xs).shell.2)).map fun k => obj.child k)⟩ := by
  induction idxs with
  | nil => rfl
  | cons i rest ih =>
    rw [step.parse.multi.write, resolveSlots]
    cases hr : resolveSlot xs.length i with
    | none =>
      rw [get_idx.write_out _ _ _ xs hread i hr]
      rfl
    | some k =>
      obtain ⟨hk, _⟩ := resolveSlot_some _ _ _ hr
      have hget : xs[k]? = some (xs.get ⟨k, hk⟩) := List.getElem?_eq_getElem hk
      have hlive := isLive_arr xs k _ hget
      have hnull : ((obj.child k).read doc).isNull = (xs.get ⟨k, hk⟩).isNull := by
        rw [Ref.read_child, hread, Value.child_arr xs k _ hget]
      rw [get_idx.write_slot _ _ _ xs hread i k hr, Ref.replace_null, Effect.bind_mk_ok, ih,
        Ref.slot_null]
      cases resolveSlots xs.length rest with
      | ok ks =>
        simp only [Outcome.bind_ok, Effect.bind_mk_ok, hnull, List.filter_cons, hlive]
        cases (xs.get ⟨k, hk⟩).isNull
        · simp only [Bool.false_eq_true, if_false, Bool.not_false, if_true, List.map_cons]
        · simp only [if_true, Bool.not_true, Bool.false_eq_true, if_false]
      | _ => rfl

/-- The loop of `step.parse` over several indices on a value that is no array
writes nothing and returns nothing. -/
theorem step.parse.multi.write_multi_other (rv : Value) (obj : Ref) (doc : Value)
    (hread : (obj.read doc).isArr = false) (idxs : List Int) :
    step.parse.multi.write rv obj idxs doc = ⟨doc, .ok []⟩ := by
  induction idxs with
  | nil => rfl
  | cons i rest ih =>
    rw [step.parse.multi.write, get_idx.write_idx_other rv doc obj hread, Effect.bind_mk_ok, ih]
    rfl

/-- A step that selects slots, an Index or Range step without key, without a
replacement: nothing is written, the slots of its selection are returned. -/
theorem step.parse.write_sel (E : Ext) (s : step) (hs : selectsSlots s = true)
    (hk : keyless s = true) (doc : Value) (root : Ref) (loc : Loc) :
    step.parse.write E .null doc root s (.at loc) =
      ⟨doc, (selAt false s (doc.get loc).shell).bind fun sel => .ok (sel.found loc)⟩ := by
  obtain ⟨op, key, args, filter⟩ := s
  cases op with
  | key =>
    rw [step.parse.write]
    simp only [selAt, step.op, step.key]
    rcases selKey_cases key (doc.get loc).shell with h | ⟨n, h⟩
    · rw [get_key.write_miss .null doc (.at loc) key h, h]
      rfl
    · rw [get_key.write_hit .null doc (.at loc) key n h, h]
      rfl
  | idx =>
    have hkey : key = [] := by
      cases key with
      | nil => rfl
      | cons c cs => cases hk
    subst hkey
    rw [step.parse.write]
    simp only [List.length_nil, gt_iff_lt, lt_self_iff_false, if_false, Effect.bind_mk_ok, selAt,
      step.op, step.args]
    cases args with
    | ints l =>
      rcases l with _ | ⟨x, _ | ⟨y, more⟩⟩
      · rfl
      · show ((get_idx.write .null doc (.at loc) x).bind fun doc r =>
          (⟨doc, .ok (Found.one r)⟩ : Effect Found)) = _
        cases hv : (doc.get loc).isArr with
        | false =>
          rw [get_idx.write_idx_other .null doc (.at loc) hv]
          have h4 : ¬ (doc.get loc).shell.1 = 4 := by
            rw [Value.isArr_shell] at hv
            exact of_decide_eq_false hv
          simp only [selIdx, if_neg h4]
          rfl
        | true =>
          obtain ⟨xs, hxs⟩ := Value.isArr_arr _ hv
          simp only [selIdx, hxs, Value.shell_kind, Value.kind, if_true, Value.shell,
            List.length_map]
          cases hr : resolveSlot xs.length x with
          | none =>
            rw [get_idx.write_out .null doc (.at loc) xs hxs x hr]
            rfl
          | some k =>
            rw [get_idx.write_slot .null doc (.at loc) xs hxs x k hr]
            rfl
      · show ((step.parse.multi.write .null (.at loc) (x :: y :: more) doc).bind
          fun doc res => (⟨doc, .ok (Found.many res)⟩ : Effect Found)) = _
        cases hv : (doc.get loc).isArr with
        | false =>
          rw [step.parse.multi.write_multi_other .null (.at loc) doc hv]
          have h4 : ¬ (doc.get loc).shell.1 = 4 := by
            rw [Value.isArr_shell] at hv
            exact of_decide_eq_false hv
          simp only [selIdx, if_neg h4]
          rfl
        | true =>
          obtain ⟨xs, hxs⟩ := Value.isArr_arr _ hv
          rw [step.parse.multi.write_null_slots (.at loc) doc xs hxs]
          simp only [selIdx, hxs, Value.shell_kind, Value.kind, if_true, Value.shell,
            List.length_map]
          cases resolveSlots xs.length (x :: y :: more) <;> rfl
    | _ => rfl
  | range =>
    have hkey : key = [] := by
      cases key with
      | nil => rfl
      | cons c cs => cases hk
    subst hkey
    rw [step.parse.write]
    simp only [List.length_nil, gt_iff_lt, lt_self_iff_false, if_false, Effect.bind_mk_ok, selAt,
      step.op, step.args]
    cases args with
    | bounds frm to' =>
      show ((get_range.write .null doc (.at loc) frm to').bind
        fun doc res => (⟨doc, .ok (Found.many res)⟩ : Effect Found)) = _
      cases hv : (doc.get loc).isArr with
      | false =>
        rw [get_range.write_range_other .null doc (.at loc) hv]
        have h4 : ¬ (doc.get loc).shell.1 = 4 := by
          rw [Value.isArr_shell] at hv
          exact of_decide_eq_false hv
        simp only [selRange, if_neg h4]
        rfl
      | true =>
        obtain ⟨xs, hxs⟩ := Value.isArr_arr _ hv
        rw [get_range.write_range_slots .null doc (.at loc) xs hxs]
        simp only [selRange, hxs, Value.shell_kind, Value.kind, if_true, Value.shell,
          List.length_map, Ref.foldl_replace_null]
        cases rangeSlots xs.length frm to' <;> rfl
    | _ => rfl
  | scan =>
    rw [step.parse.write, get_scan.write_scan_slots]
    simp only [Ref.foldl_replace_null]
    rfl
  | _ => cases hs

/-! ### Slots overwritten by the replacement -/

/-- Overwriting a slot keeps the number of slots. -/
theorem Value.length_setChild (v : Value) (n : Nat) (c : Value) :
    (v.setChild n c).shell.2.length = v.shell.2.length := by
  cases v with
  | arr xs => simp [Value.setChild, Value.shell]
  | obj kvs =>
    simp only [Value.setChild]
    cases hk : kvs[n]? <;> simp [Value.shell]
  | _ => rfl

/-- Overwriting a slot keeps the names of the slots. -/
theorem Value.names_setChild (v : Value) (n : Nat) (c : Value) :
    (v.setChild n c).shell.2.map Prod.fst = v.shell.2.map Prod.fst := by
  cases v with
  | arr xs =>
    simp only [Value.setChild, Value.shell, List.map_map]
    apply List.ext_getElem?
    intro i
    simp only [List.getElem?_map, List.getElem?_set]
    by_cases hi : n = i
    · subst hi
      by_cases hn : n < xs.length
      · simp [hn, List.getElem?_eq_getElem hn]
      · simp [hn, List.getElem?_eq_none (not_lt.mp hn)]
    · simp [hi]
  | obj kvs =>
    simp only [Value.setChild]
    cases hk : kvs[n]? with
    | none => rfl
    | some kv =>
      have hn : n < kvs.length := by
        by_contra hcon
        rw [List.getElem?_eq_none (not_lt.mp hcon)] at hk
        cases hk
      simp only [Value.shell, List.map_map]
      apply List.ext_getElem?
      intro i
      simp only [List.getElem?_map, List.getElem?_set]
      by_cases hi : n = i
      · subst hi
        simp [hn, hk]
      · simp [hi]
  | _ => rfl

/-- The slot of a name depends on the names only. -/
theorem slotOf_names (key : Str) (l1 l2 : List (Str × Nat))
    (h : l1.map Prod.fst = l2.map Prod.fst) : slotOf key l1 = slotOf key l2 := by
  induction l1 generalizing l2 with
  | nil =>
    cases l2 with
    | nil => rfl
    | cons b l2 => cases h
  | cons a l1 ih =>
    cases l2 with
    | nil => cases h
    | cons b l2 =>
      obtain ⟨ka, wa⟩ := a
      obtain ⟨kb, wb⟩ := b
      simp only [List.map_cons, List.cons.injEq] at h
      obtain ⟨hk, hrest⟩ := h
      subst hk
      simp only [slotOf, ih l2 hrest]

/-- No slot overwritten: the container as it was. -/
theorem Value.setSlots_nil (V v : Value) : v.setSlots V [] = v := rfl

/-- The slots are overwritten one after the other. -/
theorem Value.setSlots_cons (V v : Value) (n : Nat) (ns : List Nat) :
    v.setSlots V (n :: ns) = (v.setChild n V).setSlots V ns := rfl

/-- Overwriting slots keeps the kind of the container. -/
theorem Value.kind_setSlots (V : Value) (ns : List Nat) :
    ∀ v : Value, (v.setSlots V ns).kind = v.kind := by
  induction ns with
  | nil => intro v; rfl
  | cons n ns ih =>
    intro v
    rw [Value.setSlots_cons, ih, Value.kind_setChild]

/-- Overwriting slots keeps the number of slots. -/
theorem Value.length_setSlots (V : Value) (ns : List Nat) :
    ∀ v : Value, (v.setSlots V ns).shell.2.length = v.shell.2.length := by
  induction ns with
  | nil => intro v; rfl
  | cons n ns ih =>
    intro v
    rw [Value.setSlots_cons, ih, Value.length_setChild]

/-- Overwriting slots keeps the names of the slots. -/
theorem Value.names_setSlots (V : Value) (ns : List Nat) :
    ∀ v : Value, (v.setSlots V ns).shell.2.map Prod.fst = v.shell.2.map Prod.fst := by
  induction ns with
  | nil => intro v; rfl
  | cons n ns ih =>
    intro v
    rw [Value.setSlots_cons, ih, Value.names_setChild]

/-- A slot that is not overwritten holds what it held. -/
theorem Value.child_setSlots_other (V : Value) (ns : List Nat) (k : Nat) (hk : k ∉ ns) :
    ∀ v : Value, (v.setSlots V ns).child k = v.child k := by
  induction ns with
  | nil => intro v; rfl
  | cons n ns ih =>
    intro v
    rw [Value.setSlots_cons, ih (fun h => hk (List.mem_cons_of_mem _ h)),
      Value.child_setChild_ne v n k V (fun h => hk (h ▸ List.mem_cons_self _ _))]

/-- A slot that is overwritten holds the replacement. -/
theorem Value.child_setSlots_mem (V : Value) (ns : List Nat) (k : Nat) (hk : k ∈ ns) :
    ∀ v : Value, k < v.shell.2.length → (v.setSlots V ns).child k = V := by
  induction ns with
  | nil => cases hk
  | cons n ns ih =>
    intro v hlen
    rw [Value.setSlots_cons]
    by_cases hmem : k ∈ ns
    · exact ih hmem _ (by rw [Value.length_setChild]; exact hlen)
    · rcases List.mem_cons.mp hk with rfl | h
      · rw [Value.child_setSlots_other V ns k hmem, Value.child_setChild v k V hlen]
      · exact absurd h hmem

/-- A slot does not hold nil when the value in it is not nil. -/
theorem isLive_child (v : Value) (k : Nat) : isLive v.shell.2 k = !(v.child k).isNull := by
  rw [Value.isNull_kind, Value.child_kind]
  simp only [isLive]
  cases v.shell.2[k]? with
  | none => rfl
  | some c => by_cases h : c.2 = 0 <;> simp [bne, h]

/-- The slots overwritten by a replacement that is not nil hold no nil, the
other slots are as they were. -/
theorem isLive_setSlots (V : Value) (hV : V.isNull = false) (ns : List Nat) (v : Value)
    (k : Nat) (hk : k < v.shell.2.length) :
    isLive (v.setSlots V ns).shell.2 k = (decide (k ∈ ns) || isLive v.shell.2 k) := by
  rw [isLive_child, isLive_child]
  by_cases hmem : k ∈ ns
  · rw [Value.child_setSlots_mem V ns k hmem v hk, hV]
    simp [hmem]
  · rw [Value.child_setSlots_other V ns k hmem v]
    simp [hmem]

/-- The values read in the slots that were overwritten are the replacement. -/
theorem Value.setSlots_reads (V : Value) (ns : List Nat) (v : Value)
    (hns : ∀ n ∈ ns, n < v.shell.2.length) :
    ∀ x ∈ ns.map (v.setSlots V ns).child, x = V := by
  intro x hx
  obtain ⟨n, hn, rfl⟩ := List.mem_map.mp hx
  exact Value.child_setSlots_mem V ns n hn v (hns n hn)

/-- A loop that overwrites slots of the container at a place of the document
leaves the document with the container overwritten in these slots. -/
theorem Ref.foldl_replace_at (V : Value) (hV : V.isNull = false) (loc : Loc) (ks : List Nat) :
    ∀ doc : Value, (∀ c, (doc.put loc c).get loc = c) →
      ks.foldl (fun d i => (Ref.at loc).replace V d i) doc =
        doc.put loc ((doc.get loc).setSlots V ks) := by
  induction ks with
  | nil =>
    intro doc _
    rw [Value.setSlots_nil, Value.put_get]
    rfl
  | cons k ks ih =>
    intro doc hloc
    have h1 : (Ref.at loc).replace V doc k = doc.put loc ((doc.get loc).setChild k V) := by
      simp only [Ref.replace, hV, Bool.false_eq_true, if_false, Ref.assign]
      exact Value.put_append loc k V doc
    rw [List.foldl_cons, h1, ih _ (Value.holds_put doc loc _ hloc), hloc, Value.put_put,
      Value.setSlots_cons]

/-- A call whose result is passed on as it is, when the sequence returns a
result: the call returned one and left the document of the sequence. -/
theorem Effect.bind_wrap_ok {α β : Type} (x : Effect α) (g : α → β) (d : Value) (b : β)
    (h : (x.bind fun doc a => ⟨doc, .ok (g a)⟩) = ⟨d, .ok b⟩) :
    ∃ a, x = ⟨d, .ok a⟩ := by
  obtain ⟨xd, xr⟩ := x
  cases xr with
  | ok a =>
    have hd : xd = d := congrArg Effect.doc h
    exact ⟨a, by rw [hd]⟩
  | error e =>
    have := congrArg Effect.ret h
    cases this
  | panic =>
    have := congrArg Effect.ret h
    cases this
  | exhausted =>
    have := congrArg Effect.ret h
    cases this

/-- The number of slots of an array. -/
theorem Value.shell_length_arr (xs : List Value) : (Value.arr xs).shell.2.length = xs.length := by
  simp [Value.shell]

/-- Overwriting a slot of an array leaves an array. -/
theorem Value.isArr_setChild (v : Value) (n : Nat) (c : Value) :
    (v.setChild n c).isArr = v.isArr := by
  rw [Value.isArr_shell, Value.isArr_shell, Value.shell_kind, Value.shell_kind,
    Value.kind_setChild]

/-- The loop of `step.parse` over several indices with a replacement, on the
array at a place of the document: when it returns a result, all indices resolve
to slots and the document is left with these slots overwritten. -/
theorem step.parse.multi.write_multi_at (V : Value) (hV : V.isNull = false) (loc : Loc)
    (idxs : List Int) :
    ∀ doc : Value, (∀ c, (doc.put loc c).get loc = c) → (doc.get loc).isArr = true →
      ∀ doc1 res, step.parse.multi.write V (.at loc) idxs doc = ⟨doc1, .ok res⟩ →
        ∃ ks, resolveSlots (doc.get loc).shell.2.length idxs = .ok ks ∧
          doc1 = doc.put loc ((doc.get loc).setSlots V ks) := by
  induction idxs with
  | nil =>
    intro doc _ _ doc1 res h
    have hd := congrArg Effect.doc h
    refine ⟨[], rfl, ?_⟩
    rw [Value.setSlots_nil, Value.put_get]
    exact hd.symm
  | cons i rest ih =>
    intro doc hloc harr doc1 res h
    obtain ⟨xs, hxs⟩ := Value.isArr_arr _ harr
    rw [step.parse.multi.write] at h
    cases hr : resolveSlot xs.length i with
    | none =>
      rw [get_idx.write_out V doc (.at loc) xs hxs i hr] at h
      have := congrArg Effect.ret h
      cases this
    | some k =>
      have h1 : (Ref.at loc).replace V doc k = doc.put loc ((doc.get loc).setChild k V) := by
        simp only [Ref.replace, hV, Bool.false_eq_true, if_false, Ref.assign]
        exact Value.put_append loc k V doc
      rw [get_idx.write_slot V doc (.at loc) xs hxs i k hr, Effect.bind_mk_ok, h1] at h
      obtain ⟨a, ha⟩ := Effect.bind_wrap_ok _ _ _ _ h
      have hget : (doc.put loc ((doc.get loc).setChild k V)).get loc = (doc.get loc).setChild k V :=
        hloc _
      obtain ⟨ks, hks, hdoc⟩ := ih _ (Value.holds_put doc loc _ hloc)
        (by rw [hget, Value.isArr_setChild]; exact harr) doc1 a ha
      rw [hget, Value.length_setChild] at hks
      refine ⟨k :: ks, ?_, ?_⟩
      · rw [resolveSlots, hxs, Value.shell_length_arr, hr]
        rw [hxs, Value.shell_length_arr] at hks
        rw [hks]
        rfl
      · rw [hdoc, hget, Value.put_put, Value.setSlots_cons]

/-- The last step of a path, with the replacement, on the container at a place
of the document: when the step returns a result, the document is left with the
slots the step selects overwritten. -/
theorem step.parse.write_last (E : Ext) (V : Value) (hV : V.isNull = false) (s : step)
    (hs : selectsSlots s = true) (hk : keyless s = true) (doc : Value) (root : Ref) (loc : Loc)
    (hloc : ∀ c, (doc.put loc c).get loc = c) (doc1 : Value) (found : Found)
    (h : step.parse.write E V doc root s (.at loc) = ⟨doc1, .ok found⟩) :
    ∃ sel, selAt true s (doc.get loc).shell = .ok sel ∧
      doc1 = doc.put loc ((doc.get loc).setSlots V sel.slots) := by
  have hassign : ∀ k, (Ref.at loc).replace V doc k = doc.put loc ((doc.get loc).setChild k V) := by
    intro k
    simp only [Ref.replace, hV, Bool.false_eq_true, if_false, Ref.assign]
    exact Value.put_append loc k V doc
  have hnot4 : (doc.get loc).isArr = false → ¬ (doc.get loc).shell.1 = 4 := by
    intro hv
    rw [Value.isArr_shell] at hv
    exact of_decide_eq_false hv
  obtain ⟨op, key, args, filter⟩ := s
  cases op with
  | key =>
    rw [step.parse.write] at h
    obtain ⟨a, ha⟩ := Effect.bind_wrap_ok _ _ _ _ h
    simp only [selAt, step.op, step.key]
    rcases selKey_cases key (doc.get loc).shell with hm | ⟨n, hm⟩
    · rw [get_key.write_miss V doc (.at loc) key hm] at ha
      refine ⟨.miss, hm, ?_⟩
      have hd := congrArg Effect.doc ha
      simp only [Sel.slots, Value.setSlots_nil, Value.put_get]
      exact hd.symm
    · rw [get_key.write_hit V doc (.at loc) key n hm, hV] at ha
      refine ⟨.hit n, hm, ?_⟩
      simp only [Bool.false_eq_true, if_false] at ha
      have hd : doc.put (loc ++ [n]) V = doc1 := congrArg Effect.doc ha
      simp only [Sel.slots, Value.setSlots_cons, Value.setSlots_nil]
      rw [← hd]
      exact Value.put_append loc n V doc
  | idx =>
    have hkey : key = [] := by
      cases key with
      | nil => rfl
      | cons c cs => cases hk
    subst hkey
    rw [step.parse.write] at h
    simp only [List.length_nil, gt_iff_lt, lt_self_iff_false, if_false, Effect.bind_mk_ok] at h
    simp only [selAt, step.op, step.args]
    cases args with
    | ints l =>
      rcases l with _ | ⟨x, _ | ⟨y, more⟩⟩
      · have := congrArg Effect.ret h
        cases this
      · replace h : ((get_idx.write V doc (.at loc) x).bind fun doc r =>
            (⟨doc, .ok (Found.one r)⟩ : Effect Found)) = ⟨doc1, .ok found⟩ := h
        obtain ⟨a, ha⟩ := Effect.bind_wrap_ok _ _ _ _ h
        cases hv : (doc.get loc).isArr with
        | false =>
          rw [get_idx.write_idx_other V doc (.at loc) hv] at ha
          have hd := congrArg Effect.doc ha
          refine ⟨.miss, by simp only [selIdx, if_neg (hnot4 hv)], ?_⟩
          simp only [Sel.slots, Value.setSlots_nil, Value.put_get]
          exact hd.symm
        | true =>
          obtain ⟨xs, hxs⟩ := Value.isArr_arr _ hv
          cases hr : resolveSlot xs.length x with
          | none =>
            rw [get_idx.write_out V doc (.at loc) xs hxs x hr] at ha
            have := congrArg Effect.ret ha
            cases this
          | some k =>
            rw [get_idx.write_slot V doc (.at loc) xs hxs x k hr, hassign] at ha
            have hd := congrArg Effect.doc ha
            refine ⟨.hit k, ?_, ?_⟩
            · simp only [selIdx, hxs, Value.shell_kind, Value.kind, if_true,
                Value.shell_length_arr, hr]
            · simp only [Sel.slots, Value.setSlots_cons, Value.setSlots_nil]
              exact hd.symm
      · replace h : ((step.parse.multi.write V (.at loc) (x :: y :: more) doc).bind
            fun doc res => (⟨doc, .ok (Found.many res)⟩ : Effect Found)) = ⟨doc1, .ok found⟩ := h
        obtain ⟨a, ha⟩ := Effect.bind_wrap_ok _ _ _ _ h
        cases hv : (doc.get loc).isArr with
        | false =>
          rw [step.parse.multi.write_multi_other V (.at loc) doc hv] at ha
          have hd := congrArg Effect.doc ha
          refine ⟨.many [], by simp only [selIdx, if_neg (hnot4 hv)], ?_⟩
          simp only [Sel.slots, Value.setSlots_nil, Value.put_get]
          exact hd.symm
        | true =>
          obtain ⟨ks, hks, hdoc⟩ := step.parse.multi.write_multi_at V hV loc _ doc hloc hv doc1 a ha
          refine ⟨.many ks, ?_, hdoc⟩
          have h4 : (doc.get loc).shell.1 = 4 := by
            rw [Value.isArr_shell] at hv
            exact of_decide_eq_true hv
          simp only [selIdx, if_pos h4, hks, Outcome.bind_ok, if_true]
    | _ =>
      have := congrArg Effect.ret h
      cases this
  | range =>
    have hkey : key = [] := by
      cases key with
      | nil => rfl
      | cons c cs => cases hk
    subst hkey
    rw [step.parse.write] at h
    simp only [List.length_nil, gt_iff_lt, lt_self_iff_false, if_false, Effect.bind_mk_ok] at h
    simp only [selAt, step.op, step.args]
    cases args with
    | bounds frm to' =>
      replace h : ((get_range.write V doc (.at loc) frm to').bind
          fun doc res => (⟨doc, .ok (Found.many res)⟩ : Effect Found)) = ⟨doc1, .ok found⟩ := h
      obtain ⟨a, ha⟩ := Effect.bind_wrap_ok _ _ _ _ h
      cases hv : (doc.get loc).isArr with
      | false =>
        rw [get_range.write_range_other V doc (.at loc) hv] at ha
        have := congrArg Effect.ret ha
        cases this
      | true =>
        obtain ⟨xs, hxs⟩ := Value.isArr_arr _ hv
        rw [get_range.write_range_slots V doc (.at loc) xs hxs] at ha
        cases hr : rangeSlots xs.length frm to' with
        | ok ks =>
          rw [hr, Effect.bind_mk_ok, Ref.foldl_replace_at V hV loc ks doc hloc] at ha
          have hd := congrArg Effect.doc ha
          refine ⟨.many ks, ?_, hd.symm⟩
          simp only [selRange, hxs, Value.shell_kind, Value.kind, if_true, Value.shell_length_arr,
            hr, Outcome.bind_ok]
        | error e =>
          rw [hr] at ha
          have := congrArg Effect.ret ha
          cases this
        | panic =>
          rw [hr] at ha
          have := congrArg Effect.ret ha
          cases this
        | exhausted =>
          rw [hr] at ha
          have := congrArg Effect.ret ha
          cases this
    | _ =>
      have := congrArg Effect.ret h
      cases this
  | scan =>
    rw [step.parse.write] at h
    obtain ⟨a, ha⟩ := Effect.bind_wrap_ok _ _ _ _ h
    rw [get_scan.write_scan_slots, Ref.foldl_replace_at V hV loc _ doc hloc] at ha
    have hd := congrArg Effect.doc ha
    exact ⟨_, rfl, hd.symm⟩
  | _ => cases hs

/-- A Key step that selects a slot: the value is an object with that member. -/
theorem selKey_hit (key : Str) (sh : Nat × List (Str × Nat)) (n : Nat)
    (h : selKey key sh = .ok (.hit n)) : sh.1 = 5 ∧ slotOf key sh.2 = some n := by
  simp only [selKey] at h
  by_cases h5 : sh.1 = 5
  · rw [if_pos h5] at h
    cases hs : slotOf key sh.2 with
    | none =>
      rw [hs] at h
      cases h
    | some m =>
      rw [hs] at h
      cases h
      exact ⟨h5, rfl⟩
  · rw [if_neg h5] at h
    cases h

/-- The kind in the shell is kept when slots are overwritten. -/
theorem Value.shell_fst_setSlots (v V : Value) (ns : List Nat) :
    (v.setSlots V ns).shell.1 = v.shell.1 := by
  rw [Value.shell_kind, Value.shell_kind, Value.kind_setSlots]

/-- The slots that do not hold nil, overwritten by a replacement that is not
nil, are the slots that do not hold nil afterwards. -/
theorem liveOf_setSlots (V : Value) (hV : V.isNull = false) (v : Value) :
    liveOf (v.setSlots V (liveOf v.shell.2)).shell.2 = liveOf v.shell.2 := by
  simp only [liveOf]
  rw [Value.length_setSlots]
  apply List.filter_congr
  intro k hk
  rw [List.mem_range] at hk
  rw [isLive_setSlots V hV _ v k hk]
  cases hl : isLive v.shell.2 k with
  | true => simp
  | false => simp [List.mem_filter, hl]

/-- The selection of a step in the container whose selected slots were
overwritten by a replacement that is not nil: the step selects slots that all
hold the replacement, and it selects some when it did before. -/
theorem selAt_setSlots (V : Value) (hV : V.isNull = false) (s : step)
    (hs : selectsSlots s = true) (v : Value) (sel : Sel)
    (h : selAt true s v.shell = .ok sel) :
    ∃ sel1, selAt false s (v.setSlots V sel.slots).shell = .ok sel1 ∧
      solelyV V (!selectsOne s) (sel1.read (v.setSlots V sel.slots)) ∧
      ∀ sel0, selAt false s v.shell = .ok sel0 →
        keepsMatches (!selectsOne s) (sel0.read v) (sel1.read (v.setSlots V sel.slots)) := by
  obtain ⟨op, key, args, filter⟩ := s
  cases op with
  | key =>
    have hone : selectsOne (.mk .key key args filter) = true := rfl
    simp only [selAt, step.op, step.key, hone, solelyV, keepsMatches, Bool.not_true,
      Bool.false_eq_true, if_false] at h ⊢
    rcases selKey_cases key v.shell with hm | ⟨n, hm⟩
    · rw [hm] at h
      cases h
      refine ⟨.miss, hm, Or.inr rfl, fun sel0 h0 hc => ?_⟩
      rw [hm] at h0
      cases h0
      cases hc
    · rw [hm] at h
      cases h
      obtain ⟨h5, hslot⟩ := selKey_hit key v.shell n hm
      have hn := slotOf_lt _ _ _ hslot
      have hread : (v.setSlots V [n]).child n = V :=
        Value.child_setSlots_mem V [n] n (List.mem_singleton.mpr rfl) v hn
      refine ⟨.hit n, ?_, Or.inl hread, fun sel0 _ _ => ?_⟩
      · simp only [selKey, Sel.slots, Value.shell_fst_setSlots, h5, if_true,
          slotOf_names key _ _ (Value.names_setSlots V [n] v), hslot]
      · simp only [Sel.read, Sel.slots, hread, hV]
  | idx =>
    simp only [selAt, step.op, step.args] at h ⊢
    cases args with
    | ints l =>
      rcases l with _ | ⟨x, _ | ⟨y, more⟩⟩
      · cases h
      · have hone : selectsOne (.mk .idx key (.ints [x]) filter) = true := rfl
        simp only [hone, solelyV, keepsMatches, Bool.not_true, Bool.false_eq_true, if_false]
        simp only [selIdx] at h
        by_cases h4 : v.shell.1 = 4
        · rw [if_pos h4] at h
          cases hr : resolveSlot v.shell.2.length x with
          | none =>
            rw [hr] at h
            cases h
          | some k =>
            rw [hr] at h
            cases h
            have hn := (resolveSlot_some _ _ _ hr).1
            have hread : (v.setSlots V [k]).child k = V :=
              Value.child_setSlots_mem V [k] k (List.mem_singleton.mpr rfl) v hn
            refine ⟨.hit k, ?_, Or.inl hread, fun sel0 _ _ => ?_⟩
            · simp only [selIdx, Sel.slots, Value.shell_fst_setSlots, h4, if_true,
                Value.length_setSlots, hr]
            · simp only [Sel.read, Sel.slots, hread, hV]
        · rw [if_neg h4] at h
          cases h
          refine ⟨.miss, ?_, Or.inr rfl, fun sel0 h0 hc => ?_⟩
          · simp only [selIdx, Sel.slots, Value.setSlots_nil, if_neg h4]
          · simp only [selIdx, if_neg h4] at h0
            cases h0
            cases hc
      · have hone : selectsOne (.mk .idx key (.ints (x :: y :: more)) filter) = false := rfl
        simp only [hone, solelyV, keepsMatches, Bool.not_false, if_true]
        simp only [selIdx] at h
        by_cases h4 : v.shell.1 = 4
        · rw [if_pos h4] at h
          cases hr : resolveSlots v.shell.2.length (x :: y :: more) with
          | ok ks =>
            rw [hr] at h
            cases h
            have hlt := resolveSlots_lt _ _ _ hr
            have hfilter : ks.filter (isLive (v.setSlots V ks).shell.2) = ks := by
              rw [List.filter_eq_self]
              intro k hk
              rw [isLive_setSlots V hV ks v k (hlt k hk)]
              simp [hk]
            refine ⟨.many ks, ?_, ⟨_, rfl, Value.setSlots_reads V ks v hlt⟩, fun sel0 h0 => ?_⟩
            · simp only [selIdx, Sel.slots, Value.shell_fst_setSlots, h4, if_true,
                Value.length_setSlots, hr, Outcome.bind_ok, Bool.false_eq_true, if_false, hfilter]
            · simp only [selIdx, if_pos h4, hr, Outcome.bind_ok, Bool.false_eq_true,
                if_false] at h0
              cases h0
              refine ⟨_, _, rfl, rfl, fun hne hnil => hne ?_⟩
              have hks : ks = [] := by
                simpa using hnil
              subst hks
              rfl
          | error e =>
            rw [hr] at h
            cases h
          | panic =>
            rw [hr] at h
            cases h
          | exhausted =>
            rw [hr] at h
            cases h
        · rw [if_neg h4] at h
          cases h
          refine ⟨.many [], ?_, ⟨[], rfl, fun x hx => by cases hx⟩, fun sel0 h0 => ?_⟩
          · simp only [selIdx, Sel.slots, Value.setSlots_nil, if_neg h4]
          · simp only [selIdx, if_neg h4] at h0
            cases h0
            exact ⟨[], [], rfl, rfl, fun hne => hne⟩
    | _ => cases h
  | range =>
    simp only [selAt, step.op, step.args] at h ⊢
    cases args with
    | bounds frm to' =>
      have hone : selectsOne (.mk .range key (.bounds frm to') filter) = false := rfl
      simp only [hone, solelyV, keepsMatches, Bool.not_false, if_true]
      simp only [selRange] at h
      by_cases h4 : v.shell.1 = 4
      · rw [if_pos h4] at h
        cases hr : rangeSlots v.shell.2.length frm to' with
        | ok ks =>
          rw [hr] at h
          cases h
          have hlt := rangeSlots_lt _ _ _ _ hr
          refine ⟨.many ks, ?_, ⟨_, rfl, Value.setSlots_reads V ks v hlt⟩, fun sel0 h0 => ?_⟩
          · simp only [selRange, Sel.slots, Value.shell_fst_setSlots, h4, if_true,
              Value.length_setSlots, hr, Outcome.bind_ok]
          · simp only [selRange, if_pos h4, hr, Outcome.bind_ok] at h0
            cases h0
            refine ⟨_, _, rfl, rfl, fun hne hnil => hne ?_⟩
            have hks : ks = [] := by
              simpa using hnil
            subst hks
            rfl
        | error e =>
          rw [hr] at h
          cases h
        | panic =>
          rw [hr] at h
          cases h
        | exhausted =>
          rw [hr] at h
          cases h
      · rw [if_neg h4] at h
        cases h
    | _ => cases h
  | scan =>
    have hone : selectsOne (.mk .scan key args filter) = false := by
      cases args <;> rfl
    simp only [selAt, step.op, hone, solelyV, keepsMatches, Bool.not_false, if_true] at h ⊢
    simp only [selScan] at h
    cases h
    by_cases hc : v.shell.1 = 4 ∨ v.shell.1 = 5
    · simp only [Sel.slots, if_pos hc]
      have hlt := liveOf_lt v.shell.2
      refine ⟨.many (liveOf v.shell.2), ?_,
        ⟨_, rfl, Value.setSlots_reads V _ v hlt⟩, fun sel0 h0 => ?_⟩
      · simp only [selScan, Value.shell_fst_setSlots, if_pos hc, liveOf_setSlots V hV v]
      · simp only [selScan, if_pos hc] at h0
        cases h0
        refine ⟨_, _, rfl, rfl, fun hne hnil => hne ?_⟩
        have hks : liveOf v.shell.2 = [] := by
          simpa using hnil
        rw [hks]
        rfl
    · simp only [Sel.slots, if_neg hc, Value.setSlots_nil]
      refine ⟨.many [], ?_, ⟨[], rfl, fun x hx => by cases hx⟩, fun sel0 h0 => ?_⟩
      · simp only [selScan, if_neg hc]
      · simp only [selScan, if_neg hc] at h0
        cases h0
        exact ⟨[], [], rfl, rfl, fun hne => hne⟩
  | _ => cases hs

/-! ### The walk along steps that select slots -/

/-- `get_key` returns a result. -/
theorem get_key_total (v : Value) (key : Str) : ∃ o, get_key v key = .ok o := by
  rw [get_key_sel]
  rcases selKey_cases key v.shell with h | ⟨n, h⟩ <;> rw [h] <;> exact ⟨_, rfl⟩

/-- `get_key` without a replacement writes nothing and returns a result. -/
theorem get_key.write_null_total (doc : Value) (obj : Ref) (key : Str) :
    ∃ r, get_key.write .null doc obj key = ⟨doc, .ok r⟩ := by
  rcases selKey_cases key (obj.read doc).shell with h | ⟨n, h⟩
  · exact ⟨_, get_key.write_miss .null doc obj key h⟩
  · exact ⟨_, get_key.write_hit .null doc obj key n h⟩

/-- The step without its key asks `singleReturn` the same. -/
theorem step.singleReturn_unkeyed (s : step) : s.unkeyed.singleReturn = s.singleReturn := by
  obtain ⟨op, key, args, filter⟩ := s
  rfl

/-- The step without its key selects one value when the step does. -/
theorem selectsOne_unkeyed (s : step) : selectsOne s.unkeyed = selectsOne s := by
  obtain ⟨op, key, args, filter⟩ := s
  rfl

/-- The step without its key selects slots when the step does. -/
theorem selectsSlots_unkeyed (s : step) : selectsSlots s.unkeyed = selectsSlots s := by
  obtain ⟨op, key, args, filter⟩ := s
  rfl

/-- The step without its key has no key. -/
theorem keyless_unkeyed (s : step) : keyless s.unkeyed = true := by
  obtain ⟨op, key, args, filter⟩ := s
  cases op <;> rfl

/-- A step under a key is an Index or a Range step with a key. -/
theorem keyless_false (s : step) (h : keyless s = false) :
    (s.op = .idx ∨ s.op = .range) ∧ s.key ≠ [] := by
  obtain ⟨op, key, args, filter⟩ := s
  cases op with
  | idx =>
    refine ⟨Or.inl rfl, fun hk => ?_⟩
    simp only [step.key] at hk
    subst hk
    cases h
  | range =>
    refine ⟨Or.inr rfl, fun hk => ?_⟩
    simp only [step.key] at hk
    subst hk
    cases h
  | _ => cases h

/-- An Index or Range step under a key is the Key step followed by the step
without the key. -/
theorem step.parse_keyed (E : Ext) (s : step) (hop : s.op = .idx ∨ s.op = .range)
    (hkey : s.key ≠ []) (v root : Value) :
    step.parse E s v root = (get_key v s.key).bind fun o => step.parse E s.unkeyed o root := by
  obtain ⟨op, key, args, filter⟩ := s
  simp only [step.key] at hkey
  have hlen : key.length > 0 := List.length_pos.mpr hkey
  obtain ⟨o, ho⟩ := get_key_total v key
  rcases hop with h | h
  · simp only [step.op] at h
    subst h
    simp only [step.unkeyed, step.op, step.args, step.filter, step.key, ho, Outcome.bind_ok]
    rw [step.parse, step.parse]
    simp only [hlen, if_true, step.key, ho, Outcome.bind_ok, List.length_nil, gt_iff_lt,
      lt_self_iff_false, if_false, step.op, step.args]
  · simp only [step.op] at h
    subst h
    simp only [step.unkeyed, step.op, step.args, step.filter, step.key, ho, Outcome.bind_ok]
    rw [step.parse, step.parse]
    simp only [hlen, if_true, step.key, ho, Outcome.bind_ok, List.length_nil, gt_iff_lt,
      lt_self_iff_false, if_false, step.op, step.args]

/-- An Index or Range step under a key, with a replacement: the Key step
without the replacement, followed by the step without the key. -/
theorem step.parse.write_keyed (E : Ext) (rv : Value) (s : step)
    (hop : s.op = .idx ∨ s.op = .range) (hkey : s.key ≠ []) (doc : Value) (root obj : Ref) :
    step.parse.write E rv doc root s obj =
      (get_key.write .null doc obj s.key).bind fun doc o =>
        step.parse.write E rv doc root s.unkeyed o := by
  obtain ⟨op, key, args, filter⟩ := s
  simp only [step.key] at hkey
  have hlen : key.length > 0 := List.length_pos.mpr hkey
  obtain ⟨o, ho⟩ := get_key.write_null_total doc obj key
  rcases hop with h | h
  · simp only [step.op] at h
    subst h
    simp only [step.unkeyed, step.op, step.args, step.filter, step.key, ho, Effect.bind_mk_ok]
    rw [step.parse.write, step.parse.write]
    simp only [hlen, if_true, step.key, ho, Effect.bind_mk_ok, List.length_nil, gt_iff_lt,
      lt_self_iff_false, if_false, step.op, step.args]
  · simp only [step.op] at h
    subst h
    simp only [step.unkeyed, step.op, step.args, step.filter, step.key, ho, Effect.bind_mk_ok]
    rw [step.parse.write, step.parse.write]
    simp only [hlen, if_true, step.key, ho, Effect.bind_mk_ok, List.length_nil, gt_iff_lt,
      lt_self_iff_false, if_false, step.op, step.args]

/-- The walk at an Index or Range step under a key: the member is read, the
walk goes on from it at the step without the key. -/
theorem Lookup.loop_keyed (E : Ext) (s : step) (hop : s.op = .idx ∨ s.op = .range)
    (hkey : s.key ≠ []) (rest : List step) (root v : Value) :
    Lookup.loop E (s :: rest) root false v =
      (get_key v s.key).bind fun o => Lookup.loop E (s.unkeyed :: rest) root false o := by
  have hs : s.op ≠ .search := by
    rcases hop with h | h <;> rw [h] <;> simp
  have hs0 : s.unkeyed.op ≠ .search := by
    obtain ⟨op, key, args, filter⟩ := s
    exact hs
  obtain ⟨o, ho⟩ := get_key_total v s.key
  rw [Lookup.loop_pass E s rest root false v hs, step.parse_keyed E s hop hkey, ho,
    Outcome.bind_ok, Outcome.bind_ok, Lookup.loop_pass E s.unkeyed rest root false o hs0,
    step.singleReturn_unkeyed]

/-- The walk with a replacement at an Index or Range step under a key: the
member is read, the walk goes on from it at the step without the key. -/
theorem Lookup.loop.write_walk_keyed (E : Ext) (V : Value) (s : step)
    (hop : s.op = .idx ∨ s.op = .range) (hkey : s.key ≠ []) (rest : List step)
    (root : Ref) (doc : Value) (obj : Ref) :
    Lookup.loop.write E V (s :: rest) root false doc obj =
      (get_key.write .null doc obj s.key).bind fun doc o =>
        Lookup.loop.write E V (s.unkeyed :: rest) root false doc o := by
  have hs : s.op ≠ .search := by
    rcases hop with h | h <;> rw [h] <;> simp
  have hs0 : s.unkeyed.op ≠ .search := by
    obtain ⟨op, key, args, filter⟩ := s
    exact hs
  obtain ⟨o, ho⟩ := get_key.write_null_total doc obj s.key
  rw [ho, Effect.bind_mk_ok, Lookup.loop.write_step E V s rest root false doc obj hs,
    Lookup.loop.write_step E V s.unkeyed rest root false doc o hs0, step.singleReturn_unkeyed]
  simp only [Bool.false_eq_true, if_false]
  cases hsr : s.singleReturn with
  | ok b =>
    simp only [Outcome.bind_ok, Effect.bind_mk_ok]
    rw [step.parse.write_keyed E _ s hop hkey, ho, Effect.bind_mk_ok]
  | _ => rfl

/-- One pass of the loop of `Lookup` at a step that selects slots (an Index or
Range step without key): a step that selects one value hands the value in the
slot on to the steps behind, a last step returns what it selected, every other
step fans out over the slots it selected. -/
theorem Lookup.loop_class (E : Ext) (s : step) (hs : selectsSlots s = true)
    (hk : keyless s = true) (rest : List step) (root v : Value)
    (hb : s.singleReturn = .ok (selectsOne s)) :
    Lookup.loop E (s :: rest) root false v =
      (selAt false s v.shell).bind fun sel =>
        if selectsOne s then Lookup.loop E rest root false (sel.read v)
        else if rest.isEmpty then .ok (sel.read v)
        else (Lookup.fanout (fun i => Lookup.guard i (Lookup.loop E rest i false i))
          (sel.slots.map v.child)).bind fun newret => .ok (.arr newret) := by
  rw [Lookup.loop_pass E s rest root false v (selectsSlots_not_search s hs), hb,
    step.parse_sel E s hs hk]
  simp only [Bool.false_eq_true, if_false, Outcome.bind_ok]
  cases hsel : selAt false s v.shell with
  | ok sel =>
    simp only [Outcome.bind_ok]
    cases hone : selectsOne s with
    | true =>
      simp only [Bool.not_true, Bool.false_and, Bool.false_eq_true, if_false, if_true]
      cases sel.read v <;> rfl
    | false =>
      obtain ⟨ns, hns, _⟩ := (selAt_shape false s v.shell sel hsel).2 hone
      subst hns
      simp only [Sel.read, Sel.slots, Bool.not_false, Bool.true_and, Bool.false_eq_true, if_false]
      cases rest with
      | nil =>
        simp only [List.isEmpty_nil, Bool.not_true, Bool.false_eq_true, if_false, if_true]
        rw [Lookup.loop]
      | cons t more =>
        simp only [List.isEmpty_cons, Bool.not_false, if_true, Bool.false_eq_true, if_false]
  | error e => rfl
  | panic => rfl
  | exhausted => rfl

/-- The walk with a replacement, when it returns a result at a step that
selects slots: `singleReturn` answered. -/
theorem Lookup.loop.write_returns (E : Ext) (V : Value) (s : step) (hs : selectsSlots s = true)
    (rest : List step) (root : Ref) (doc : Value) (obj : Ref) (doc1 r : Value)
    (h : Lookup.loop.write E V (s :: rest) root false doc obj = ⟨doc1, .ok r⟩) :
    s.singleReturn = .ok (selectsOne s) := by
  rw [Lookup.loop.write_step E V s rest root false doc obj (selectsSlots_not_search s hs)] at h
  simp only [Bool.false_eq_true, if_false] at h
  cases hsr : s.singleReturn with
  | ok b => rw [step.singleReturn_selects s hs b hsr]
  | error e =>
    rw [hsr] at h
    have := congrArg Effect.ret h
    cases this
  | panic =>
    rw [hsr] at h
    have := congrArg Effect.ret h
    cases this
  | exhausted =>
    rw [hsr] at h
    have := congrArg Effect.ret h
    cases this

/-- The walk with a replacement at the last step: the step is applied with the
replacement, and what it returned is read. -/
theorem Lookup.loop.write_final (E : Ext) (V : Value) (s : step) (hs : selectsSlots s = true)
    (root : Ref) (doc : Value) (obj : Ref) (b : Bool) (hb : s.singleReturn = .ok b) :
    Lookup.loop.write E V [s] root false doc obj =
      (step.parse.write E V doc root s obj).bind fun doc found =>
        ⟨doc, .ok ((found.ref doc).read doc)⟩ := by
  rw [Lookup.loop.write_step E V s [] root false doc obj (selectsSlots_not_search s hs), hb]
  simp only [Bool.false_eq_true, if_false, Outcome.bind_ok, Effect.bind_mk_ok, List.isEmpty_nil,
    if_true, Bool.not_true, Bool.and_false]
  congr 1
  funext d found
  cases found.elements d <;> rfl

/-- The walk with a replacement at a step that selects slots (an Index or Range
step without key) and is not the last one: nothing is written by the step; the
walk goes on from the slot the step selected, from nil when it selected none,
and fans out over the slots when the step may select several. -/
theorem Lookup.loop.write_class (E : Ext) (V : Value) (s : step) (hs : selectsSlots s = true)
    (hk : keyless s = true) (rest : List step) (hrest : rest ≠ []) (root : Ref) (doc : Value)
    (loc : Loc) (hb : s.singleReturn = .ok (selectsOne s)) :
    Lookup.loop.write E V (s :: rest) root false doc (.at loc) =
      (Effect.mk doc (selAt false s (doc.get loc).shell)).bind fun doc sel =>
        match sel with
        | .miss => Lookup.loop.write E V rest root false doc (.val .null)
        | .hit n => Lookup.loop.write E V rest root false doc (.at (loc ++ [n]))
        | .many ns =>
          (Lookup.fanout.write
            (fun doc i => Lookup.guard.write doc (i.read doc)
              (Lookup.loop.write E V rest i false doc i))
            (ns.map fun n => .at (loc ++ [n])) doc).bind
            fun doc newret => ⟨doc, .ok (.arr newret)⟩ := by
  have hne : rest.isEmpty = false := by
    cases rest with
    | nil => exact absurd rfl hrest
    | cons t more => rfl
  rw [Lookup.loop.write_step E V s rest root false doc (.at loc) (selectsSlots_not_search s hs),
    hb]
  simp only [Bool.false_eq_true, if_false, Outcome.bind_ok, Effect.bind_mk_ok, hne,
    step.parse.write_sel E s hs hk]
  cases hsel : selAt false s (doc.get loc).shell with
  | ok sel =>
    simp only [Outcome.bind_ok, Effect.bind_mk_ok]
    cases hone : selectsOne s with
    | true =>
      rcases (selAt_shape false s _ sel hsel).1 hone with h | ⟨n, h, _⟩
      · subst h
        simp only [Sel.found, Bool.not_true, Bool.false_and, Bool.false_eq_true, if_false]
        cases Found.elements doc (.one (.val .null)) <;> rfl
      · subst h
        simp only [Sel.found, Bool.not_true, Bool.false_and, Bool.false_eq_true, if_false]
        cases Found.elements doc (.one (.at (loc ++ [n]))) <;> rfl
    | false =>
      obtain ⟨ns, hns, _⟩ := (selAt_shape false s _ sel hsel).2 hone
      subst hns
      rfl
  | error e => rfl
  | panic => rfl
  | exhausted => rfl

/-! ### The fan-out loop, element by element -/

/-- The fan-out loop skips an element that is no container. -/
theorem Lookup.fanout_skip (f : Value → Outcome Value) (x : Value) (xs : List Value)
    (h : x.isContainer = false) : Lookup.fanout f (x :: xs) = Lookup.fanout f xs := by
  cases x with
  | arr l => cases h
  | obj l => cases h
  | _ => rfl

/-- The fan-out loop looks into an element that is a container. -/
theorem Lookup.fanout_visit (f : Value → Outcome Value) (x : Value) (xs : List Value)
    (h : x.isContainer = true) :
    Lookup.fanout f (x :: xs) =
      (f x).bind fun r => (Lookup.fanout f xs).bind fun newret =>
        .ok (Lookup.fanout.spread r newret) := by
  cases x with
  | arr l =>
    rw [Lookup.fanout]
    congr 1
    funext r
    congr 1
    funext newret
    cases r <;> rfl
  | obj l =>
    rw [Lookup.fanout]
    congr 1
    funext r
    congr 1
    funext newret
    cases r <;> rfl
  | _ => cases h

/-- The fan-out loop with a replacement skips an element that is no
container. -/
theorem Lookup.fanout.write_skip (f : Value → Ref → Effect Value) (i : Ref) (rest : List Ref)
    (doc : Value) (h : (i.read doc).isContainer = false) :
    Lookup.fanout.write f (i :: rest) doc = Lookup.fanout.write f rest doc := by
  rw [Lookup.fanout.write]
  cases hv : i.read doc with
  | arr l =>
    rw [hv] at h
    cases h
  | obj l =>
    rw [hv] at h
    cases h
  | _ => rfl

/-- The fan-out loop with a replacement looks into an element that is a
container. -/
theorem Lookup.fanout.write_visit (f : Value → Ref → Effect Value) (i : Ref) (rest : List Ref)
    (doc : Value) (h : (i.read doc).isContainer = true) :
    Lookup.fanout.write f (i :: rest) doc =
      (f doc i).bind fun doc r => (Lookup.fanout.write f rest doc).bind fun doc newret =>
        ⟨doc, .ok (Lookup.fanout.spread r newret)⟩ := by
  rw [Lookup.fanout.write]
  cases hv : i.read doc with
  | arr l =>
    simp only
    congr 1
    funext d r
    congr 1
    funext d2 newret
    cases r <;> rfl
  | obj l =>
    simp only
    congr 1
    funext d r
    congr 1
    funext d2 newret
    cases r <;> rfl
  | _ =>
    rw [hv] at h
    cases h

/-- What the fan-out loop returns is what the residual result gave, followed
by what the elements behind gave. -/
theorem Lookup.fanout.spread_append (r : Value) (newret : List Value) :
    Lookup.fanout.spread r newret = Lookup.fanout.spread r [] ++ newret := by
  cases r <;> simp [Lookup.fanout.spread]

/-- A residual result that is neither nil nor a list is appended as it is. -/
theorem Lookup.fanout.spread_value (V : Value) (hV : V.isNull = false) (hA : V.isArr = false)
    (newret : List Value) : Lookup.fanout.spread V newret = V :: newret := by
  cases V with
  | null => cases hV
  | arr l => cases hA
  | _ => rfl

/-! ### The walk from nil -/

/-- What a step selects in nil: no slot. -/
theorem selAt_nil (s : step) (sel : Sel) (h : selAt false s Value.null.shell = .ok sel) :
    (selectsOne s = true → sel = .miss) ∧ (selectsOne s = false → sel = .many []) := by
  obtain ⟨h1, h2⟩ := selAt_shape false s _ sel h
  refine ⟨fun hone => ?_, fun hone => ?_⟩
  · rcases h1 hone with hm | ⟨n, _, hn⟩
    · exact hm
    · cases hn
  · obtain ⟨ns, hns, hlt⟩ := h2 hone
    subst hns
    cases ns with
    | nil => rfl
    | cons n more => cases hlt n (List.mem_cons_self _ _)

/-- A step that selects slots, an Index or Range step without key, applied to
nil that is not in the document: nothing is written. -/
theorem step.parse.write_step_nil (E : Ext) (rv : Value) (s : step) (hs : selectsSlots s = true)
    (hk : keyless s = true) (doc : Value) (root : Ref) :
    step.parse.write E rv doc root s (.val .null) =
      ⟨doc, (selAt false s Value.null.shell).bind fun sel => .ok (sel.found [])⟩ := by
  obtain ⟨op, key, args, filter⟩ := s
  cases op with
  | key => rfl
  | idx =>
    have hkey : key = [] := by
      cases key with
      | nil => rfl
      | cons c cs => cases hk
    subst hkey
    cases args with
    | ints l =>
      rcases l with _ | ⟨x, _ | ⟨y, more⟩⟩
      · rfl
      · rfl
      · rw [step.parse.write]
        simp only [List.length_nil, gt_iff_lt, lt_self_iff_false, if_false, Effect.bind_mk_ok]
        show ((step.parse.multi.write rv (.val .null) (x :: y :: more) doc).bind
          fun doc res => (⟨doc, .ok (Found.many res)⟩ : Effect Found)) = _
        rw [step.parse.multi.write_multi_other rv (.val .null) doc rfl]
        rfl
    | _ => rfl
  | range =>
    have hkey : key = [] := by
      cases key with
      | nil => rfl
      | cons c cs => cases hk
    subst hkey
    cases args <;> rfl
  | scan => rfl
  | _ => cases hs

/-- A path with a step in front that selects one value may select several
when the steps behind may. -/
theorem manyResults_cons (s : step) (rest : List step) :
    manyResults (s :: rest) = (!selectsOne s || manyResults rest) := by
  simp [manyResults]

/-- Nothing consists solely of the replacement. -/
theorem solelyV_nil (V : Value) (m : Bool) : solelyV V m (if m then .arr [] else .null) := by
  cases m with
  | true => exact ⟨[], rfl, fun v hv => by cases hv⟩
  | false => exact Or.inr rfl

/-- No match is lost where there was none. -/
theorem keepsMatches_nil (m : Bool) :
    keepsMatches m (if m then .arr [] else .null) (if m then .arr [] else .null) := by
  cases m with
  | true => exact ⟨[], [], rfl, rfl, fun h => h⟩
  | false =>
    intro h
    cases h

/-- Keeping the matches is transitive. -/
theorem keepsMatches_trans (m : Bool) (a b c : Value) (h1 : keepsMatches m a b)
    (h2 : keepsMatches m b c) : keepsMatches m a c := by
  cases m with
  | true =>
    obtain ⟨l0, l1, e0, e1, f⟩ := h1
    obtain ⟨l1', l2, e1', e2, g⟩ := h2
    rw [e1] at e1'
    cases e1'
    exact ⟨l0, l2, e0, e2, fun h => g (f h)⟩
  | false => exact fun h => h2 (h1 h)

/-- Keeping the matches of a lookup is transitive, through a value in which
the lookup returns a result. -/
theorem keepsReads_trans (E : Ext) (V : Value) (steps : List step) (x y z : Value)
    (hxy : keepsReads E steps x y) (hy : readsSolely E V steps y)
    (hyz : keepsReads E steps y z) : keepsReads E steps x z := by
  intro root r root1 r1 h0 h1
  obtain ⟨ry, hry, _⟩ := hy root
  exact keepsMatches_trans _ _ _ _ (hxy root r root ry h0 hry) (hyz root ry root1 r1 hry h1)

/-- One pass of the loop of `Lookup` with a replacement, once `singleReturn`
has answered. -/
theorem Lookup.loop.write_step_ok (E : Ext) (rv : Value) (s : step) (rest : List step)
    (rootnode : Ref) (doc : Value) (obj : Ref) (hs : s.op ≠ .search) (b : Bool)
    (hb : s.singleReturn = .ok b) :
    Lookup.loop.write E rv (s :: rest) rootnode false doc obj =
      (step.parse.write E (if rest.isEmpty then rv else .null) doc rootnode s obj).bind
        fun doc found =>
      match found.elements doc with
      | some oarr =>
        if !b && !rest.isEmpty then
          (Lookup.fanout.write
            (fun doc i => Lookup.guard.write doc (i.read doc)
              (Lookup.loop.write E rv rest i false doc i)) oarr doc).bind
            fun doc newret => ⟨doc, .ok (.arr newret)⟩
        else Lookup.loop.write E rv rest rootnode (!b) doc (found.ref doc)
      | none => Lookup.loop.write E rv rest rootnode (!b) doc (found.ref doc) := by
  rw [Lookup.loop.write_step E rv s rest rootnode false doc obj hs, hb]
  rfl

/-- The walk from nil along steps that select slots, the first of which is an
Index or Range step without key, once this is known for the steps behind:
nothing is written, with or without a replacement, and the walk returns what
`Lookup` returns on nil, which is nil or the empty list. -/
theorem Lookup.loop.write_nil_cons (E : Ext) (V : Value) (s : step)
    (hs : selectsSlots s = true) (hk : keyless s = true) (rest : List step)
    (ih : ∃ o, (∀ root doc, Lookup.loop.write E V rest root false doc (.val .null) = ⟨doc, o⟩) ∧
      (∀ root, Lookup.loop E rest root false .null = o) ∧
      ∀ r, o = .ok r → r = if manyResults rest then .arr [] else .null) :
    ∃ o, (∀ root doc, Lookup.loop.write E V (s :: rest) root false doc (.val .null) = ⟨doc, o⟩) ∧
      (∀ root, Lookup.loop E (s :: rest) root false .null = o) ∧
      ∀ r, o = .ok r → r = if manyResults (s :: rest) then .arr [] else .null := by
  obtain ⟨o, hW, hP, hshape⟩ := ih
  have hsearch := selectsSlots_not_search s hs
  cases hsr : s.singleReturn with
  | ok b =>
    have hb : s.singleReturn = .ok (selectsOne s) := by
      rw [hsr, step.singleReturn_selects s hs b hsr]
    cases hsel : selAt false s Value.null.shell with
    | ok sel =>
      cases hone : selectsOne s with
      | true =>
        have hm := (selAt_nil s sel hsel).1 hone
        subst hm
        refine ⟨o, fun root doc => ?_, fun root => ?_, fun r hr => ?_⟩
        · rw [Lookup.loop.write_step_ok E V s rest root doc _ hsearch _ hb, hone,
            step.parse.write_step_nil E _ s hs hk, hsel]
          simp only [Bool.false_eq_true, if_false, Outcome.bind_ok, Effect.bind_mk_ok, Sel.found,
            Bool.not_true, Bool.false_and]
          exact hW root doc
        · rw [Lookup.loop_class E s hs hk rest root .null hb, hsel, Outcome.bind_ok, hone]
          exact hP root
        · rw [manyResults_cons, hone]
          exact hshape r hr
      | false =>
        have hm := (selAt_nil s sel hsel).2 hone
        subst hm
        refine ⟨.ok (.arr []), fun root doc => ?_, fun root => ?_, fun r hr => ?_⟩
        · rw [Lookup.loop.write_step_ok E V s rest root doc _ hsearch _ hb, hone,
            step.parse.write_step_nil E _ s hs hk, hsel]
          simp only [Bool.false_eq_true, if_false, Outcome.bind_ok, Effect.bind_mk_ok, Sel.found,
            Bool.not_false, Bool.true_and, List.map_nil, Found.elements]
          cases rest with
          | nil => rfl
          | cons t more => rfl
        · rw [Lookup.loop_class E s hs hk rest root .null hb, hsel, Outcome.bind_ok, hone]
          cases rest with
          | nil => rfl
          | cons t more => rfl
        · cases hr
          rw [manyResults_cons, hone]
          rfl
    | error e =>
      refine ⟨.error e, fun root doc => ?_, fun root => ?_, fun r hr => by cases hr⟩
      · rw [Lookup.loop.write_step_ok E V s rest root doc _ hsearch _ hb,
          step.parse.write_step_nil E _ s hs hk, hsel]
        rfl
      · rw [Lookup.loop_class E s hs hk rest root .null hb, hsel]
        rfl
    | panic =>
      refine ⟨.panic, fun root doc => ?_, fun root => ?_, fun r hr => by cases hr⟩
      · rw [Lookup.loop.write_step_ok E V s rest root doc _ hsearch _ hb,
          step.parse.write_step_nil E _ s hs hk, hsel]
        rfl
      · rw [Lookup.loop_class E s hs hk rest root .null hb, hsel]
        rfl
    | exhausted =>
      refine ⟨.exhausted, fun root doc => ?_, fun root => ?_, fun r hr => by cases hr⟩
      · rw [Lookup.loop.write_step_ok E V s rest root doc _ hsearch _ hb,
          step.parse.write_step_nil E _ s hs hk, hsel]
        rfl
      · rw [Lookup.loop_class E s hs hk rest root .null hb, hsel]
        rfl
  | error e =>
    refine ⟨.error e, fun root doc => ?_, fun root => ?_, fun r hr => by cases hr⟩
    · rw [Lookup.loop.write_step E V s rest root false doc _ hsearch, hsr]
      rfl
    · rw [Lookup.loop_pass E s rest root false _ hsearch, hsr]
      rfl
  | panic =>
    refine ⟨.panic, fun root doc => ?_, fun root => ?_, fun r hr => by cases hr⟩
    · rw [Lookup.loop.write_step E V s rest root false doc _ hsearch, hsr]
      rfl
    · rw [Lookup.loop_pass E s rest root false _ hsearch, hsr]
      rfl
  | exhausted =>
    refine ⟨.exhausted, fun root doc => ?_, fun root => ?_, fun r hr => by cases hr⟩
    · rw [Lookup.loop.write_step E V s rest root false doc _ hsearch, hsr]
      rfl
    · rw [Lookup.loop_pass E s rest root false _ hsearch, hsr]
      rfl

/-- The walk from nil along steps that select slots: nothing is written, with
or without a replacement, and the walk returns what `Lookup` returns on nil,
which is nil or the empty list. -/
theorem Lookup.loop.write_nil_walk (E : Ext) (V : Value) (steps : List step)
    (hclass : ∀ s ∈ steps, selectsSlots s = true) :
    ∃ o, (∀ root doc, Lookup.loop.write E V steps root false doc (.val .null) = ⟨doc, o⟩) ∧
      (∀ root, Lookup.loop E steps root false .null = o) ∧
      ∀ r, o = .ok r → r = if manyResults steps then .arr [] else .null := by
  induction steps with
  | nil =>
    refine ⟨.ok .null, fun root doc => rfl, fun root => ?_, fun r hr => ?_⟩
    · rw [Lookup.loop]
    · cases hr
      rfl
  | cons s rest ih =>
    have hs := hclass s (List.mem_cons_self _ _)
    have ihrest := ih fun t ht => hclass t (List.mem_cons_of_mem _ ht)
    cases hk : keyless s with
    | true => exact Lookup.loop.write_nil_cons E V s hs hk rest ihrest
    | false =>
      obtain ⟨hop, hkey⟩ := keyless_false s hk
      obtain ⟨o, hW, hP, hshape⟩ := Lookup.loop.write_nil_cons E V s.unkeyed
        (by rw [selectsSlots_unkeyed]; exact hs) (keyless_unkeyed s) rest ihrest
      refine ⟨o, fun root doc => ?_, fun root => ?_, fun r hr => ?_⟩
      · rw [Lookup.loop.write_walk_keyed E V s hop hkey]
        exact hW root doc
      · rw [Lookup.loop_keyed E s hop hkey]
        exact hP root
      · rw [manyResults_cons, ← selectsOne_unkeyed, ← manyResults_cons]
        exact hshape r hr

/-! ### The fan-out with a replacement -/

/-- The fan-out loop with a replacement, over slots of the container at a
place of the document, once the fixed point is known for the residual path at
every slot: when the loop returns a result, the document is left with a
container of the same shell at the place, and every slot holds what it held,
or a value in which the residual lookup returns a result that consists solely
of the replacement and keeps the matches; a slot of the loop that held a
container is of the second kind. -/
theorem Lookup.fanout.write_fanout_fixed (E : Ext) (V : Value) (rest : List step) (loc : Loc)
    (ih : ∀ doc n, (∀ c, (doc.put (loc ++ [n]) c).get (loc ++ [n]) = c) →
      fixedAt E V rest doc (loc ++ [n]))
    (ns : List Nat) :
    ∀ doc : Value, (∀ c, (doc.put loc c).get loc = c) →
      (∀ n ∈ ns, n < (doc.get loc).shell.2.length) →
      ∀ doc1 out,
        Lookup.fanout.write
          (fun doc i => Lookup.guard.write doc (i.read doc)
            (Lookup.loop.write E V rest i false doc i))
          (ns.map fun n => Ref.at (loc ++ [n])) doc = ⟨doc1, .ok out⟩ →
        ∃ w, doc1 = doc.put loc w ∧ w.shell = (doc.get loc).shell ∧
          ∀ m, (w.child m = (doc.get loc).child m ∧
              (m ∈ ns → ((doc.get loc).child m).isContainer = false)) ∨
            (readsSolely E V rest (w.child m) ∧
              keepsReads E rest ((doc.get loc).child m) (w.child m)) := by
  induction ns with
  | nil =>
    intro doc _ _ doc1 out h
    have hd : doc = doc1 := congrArg Effect.doc h
    refine ⟨doc.get loc, ?_, rfl, fun m => Or.inl ⟨rfl, fun hm => by cases hm⟩⟩
    rw [Value.put_get]
    exact hd.symm
  | cons n ns ih_ns =>
    intro doc hloc hlt doc1 out h
    have hread : (Ref.at (loc ++ [n])).read doc = (doc.get loc).child n :=
      Value.get_append loc n doc
    rw [List.map_cons] at h
    cases hc : ((doc.get loc).child n).isContainer with
    | false =>
      rw [Lookup.fanout.write_skip _ _ _ _ (by rw [hread]; exact hc)] at h
      obtain ⟨w, hdoc, hshell, hslots⟩ :=
        ih_ns doc hloc (fun m hm => hlt m (List.mem_cons_of_mem _ hm)) doc1 out h
      refine ⟨w, hdoc, hshell, fun m => ?_⟩
      rcases hslots m with ⟨he, hflag⟩ | hr
      · refine Or.inl ⟨he, fun hm => ?_⟩
        rcases List.mem_cons.mp hm with rfl | hm1
        · exact hc
        · exact hflag hm1
      · exact Or.inr hr
    | true =>
      have hn : n < (doc.get loc).shell.2.length := hlt n (List.mem_cons_self _ _)
      rw [Lookup.fanout.write_visit _ _ _ _ (by rw [hread]; exact hc)] at h
      simp only [hread] at h
      rw [Lookup.guard.write_pass doc _ _ (Value.isContainer_isNull _ hc)] at h
      cases hX : Lookup.loop.write E V rest (.at (loc ++ [n])) false doc (.at (loc ++ [n])) with
      | mk d1 ret1 =>
        rw [hX] at h
        cases ret1 with
        | ok r1 =>
          rw [Effect.bind_mk_ok] at h
          obtain ⟨a, ha⟩ := Effect.bind_wrap_ok _ _ _ _ h
          obtain ⟨c1, hd1, hkind, hgood, hlink⟩ :=
            ih doc n (Value.holds_slot doc loc n hloc hn) (.at (loc ++ [n])) d1 r1 hX
          rw [Value.get_append] at hkind hlink
          rw [Value.put_append] at hd1
          have hget1 : d1.get loc = (doc.get loc).setChild n c1 := by
            rw [hd1, hloc]
          have hloc1 : ∀ c, (d1.put loc c).get loc = c := by
            rw [hd1]
            exact Value.holds_put doc loc _ hloc
          have hlt1 : ∀ m ∈ ns, m < (d1.get loc).shell.2.length := by
            intro m hm
            rw [hget1, Value.length_setChild]
            exact hlt m (List.mem_cons_of_mem _ hm)
          obtain ⟨w, hdoc, hshell, hslots⟩ := ih_ns d1 hloc1 hlt1 doc1 a ha
          rw [hget1] at hshell hslots
          refine ⟨w, by rw [hdoc, hd1, Value.put_put],
            by rw [hshell, Value.shell_setChild _ n c1 hkind], fun m => ?_⟩
          by_cases hm : m = n
          · subst hm
            have hchild : ((doc.get loc).setChild m c1).child m = c1 :=
              Value.child_setChild _ m c1 hn
            rcases hslots m with ⟨he, _⟩ | ⟨hg, hl⟩
            · refine Or.inr ?_
              rw [he, hchild]
              exact ⟨hgood, hlink⟩
            · rw [hchild] at hl
              exact Or.inr ⟨hg, keepsReads_trans E V rest _ c1 _ hlink hgood hl⟩
          · have hother : ((doc.get loc).setChild n c1).child m = (doc.get loc).child m :=
              Value.child_setChild_ne _ n m c1 (fun e => hm e.symm)
            rcases hslots m with ⟨he, hflag⟩ | hr
            · rw [hother] at he hflag
              refine Or.inl ⟨he, fun hmem => ?_⟩
              rcases List.mem_cons.mp hmem with e | hm1
              · exact absurd e hm
              · exact hflag hm1
            · rw [hother] at hr
              exact Or.inr hr
        | error e =>
          have := congrArg Effect.ret h
          cases this
        | panic =>
          have := congrArg Effect.ret h
          cases this
        | exhausted =>
          have := congrArg Effect.ret h
          cases this

/-- The fan-out loop of the lookup over slots of a container every slot of
which holds no container, or a value in which the residual lookup returns a
result that consists solely of the replacement and keeps the matches: the loop
returns a list that consists solely of the replacement, and that is not empty
when the loop over the slots of the container before returned a list that is
not empty. -/
theorem Lookup.fanout_fixed (E : Ext) (V : Value) (hV : V.isNull = false) (rest : List step)
    (hflat : V.isArr = false ∨ manyResults rest = true) (v w : Value)
    (hshell : w.shell = v.shell) (ns : List Nat)
    (hslots : ∀ m ∈ ns, (w.child m = v.child m ∧ (v.child m).isContainer = false) ∨
      (readsSolely E V rest (w.child m) ∧ keepsReads E rest (v.child m) (w.child m))) :
    ∃ out1,
      Lookup.fanout (fun i => Lookup.guard i (Lookup.loop E rest i false i)) (ns.map w.child) =
        .ok out1 ∧
      (∀ x ∈ out1, x = V) ∧
      ∀ out0,
        Lookup.fanout (fun i => Lookup.guard i (Lookup.loop E rest i false i))
          (ns.map v.child) = .ok out0 → out0 ≠ [] → out1 ≠ [] := by
  induction ns with
  | nil =>
    refine ⟨[], rfl, fun x hx => (by cases hx), fun out0 h0 hne => ?_⟩
    cases h0
    exact absurd rfl hne
  | cons n ns ih_ns =>
    obtain ⟨out2, hpost, hall, hlink⟩ :=
      ih_ns fun m hm => hslots m (List.mem_cons_of_mem _ hm)
    have hcont : (w.child n).isContainer = (v.child n).isContainer := by
      rw [Value.isContainer_kind, Value.isContainer_kind, Value.child_kind, Value.child_kind,
        hshell]
    cases hc : (v.child n).isContainer with
    | false =>
      refine ⟨out2, ?_, hall, fun out0 h0 hne => ?_⟩
      · rw [List.map_cons, Lookup.fanout_skip _ _ _ (by rw [hcont]; exact hc)]
        exact hpost
      · rw [List.map_cons, Lookup.fanout_skip _ _ _ hc] at h0
        exact hlink out0 h0 hne
    | true =>
      rcases hslots n (List.mem_cons_self _ _) with ⟨_, hflag⟩ | ⟨hg, hl⟩
      · rw [hc] at hflag
        cases hflag
      · obtain ⟨r1, hr1, hsol⟩ := hg (w.child n)
        have hwc : (w.child n).isContainer = true := by
          rw [hcont]
          exact hc
        have hspread : ∀ x ∈ Lookup.fanout.spread r1 out2, x = V := by
          cases hm : manyResults rest with
          | true =>
            rw [hm] at hsol
            obtain ⟨vs, e, hvs⟩ := hsol
            subst e
            intro x hx
            simp only [Lookup.fanout.spread, List.mem_append] at hx
            rcases hx with hx | hx
            · exact hvs x hx
            · exact hall x hx
          | false =>
            rw [hm] at hsol
            have hA : V.isArr = false := by
              rcases hflat with h | h
              · exact h
              · rw [hm] at h
                cases h
            rcases hsol with e | e
            · subst e
              rw [Lookup.fanout.spread_value r1 hV hA]
              intro x hx
              rcases List.mem_cons.mp hx with rfl | hx
              · rfl
              · exact hall x hx
            · subst e
              exact hall
        refine ⟨Lookup.fanout.spread r1 out2, ?_, hspread, fun out0 h0 hne => ?_⟩
        · rw [List.map_cons, Lookup.fanout_visit _ _ _ hwc,
            Lookup.guard_container _ _ (Value.isContainer_isNull _ hwc), hr1, Outcome.bind_ok,
            hpost, Outcome.bind_ok]
        · rw [List.map_cons, Lookup.fanout_visit _ _ _ hc,
            Lookup.guard_container _ _ (Value.isContainer_isNull _ hc)] at h0
          cases hp : Lookup.loop E rest (v.child n) false (v.child n) with
          | ok r0 =>
            rw [hp, Outcome.bind_ok] at h0
            cases hf : Lookup.fanout (fun i => Lookup.guard i (Lookup.loop E rest i false i))
                (ns.map v.child) with
            | ok out3 =>
              rw [hf, Outcome.bind_ok] at h0
              cases h0
              rw [Lookup.fanout.spread_append]
              by_cases h3 : out3 = []
              · subst h3
                have hk := hl _ r0 _ r1 hp hr1
                intro hnil
                have hnil1 : Lookup.fanout.spread r1 [] = [] := (List.append_eq_nil.mp hnil).1
                cases hm : manyResults rest with
                | true =>
                  rw [hm] at hk
                  obtain ⟨l0, l, e0, e1, f⟩ := hk
                  subst e0
                  subst e1
                  simp only [Lookup.fanout.spread, List.append_nil] at hne hnil1
                  exact f hne hnil1
                | false =>
                  rw [hm] at hk hsol
                  have hA : V.isArr = false := by
                    rcases hflat with h | h
                    · exact h
                    · rw [hm] at h
                      cases h
                  have h0null : r0.isNull = false := by
                    cases r0 with
                    | null => exact absurd rfl hne
                    | _ => rfl
                  have h1null := hk h0null
                  rcases hsol with e | e
                  · subst e
                    rw [Lookup.fanout.spread_value r1 hV hA] at hnil1
                    cases hnil1
                  · subst e
                    cases h1null
              · intro hnil
                exact hlink out3 hf h3 (List.append_eq_nil.mp hnil).2
            | error e =>
              rw [hf] at h0
              cases h0
            | panic =>
              rw [hf] at h0
              cases h0
            | exhausted =>
              rw [hf] at h0
              cases h0
          | error e =>
            rw [hp] at h0
            cases h0
          | panic =>
            rw [hp] at h0
            cases h0
          | exhausted =>
            rw [hp] at h0
            cases h0

/-! ### The replace-then-read fixed point, step by step -/

/-- The lookup at a last step that selects slots returns what the step
selected. -/
theorem Lookup.loop_last_class (E : Ext) (s : step) (hs : selectsSlots s = true)
    (hk : keyless s = true) (root v : Value) (hb : s.singleReturn = .ok (selectsOne s)) :
    Lookup.loop E [s] root false v = (selAt false s v.shell).bind fun sel => .ok (sel.read v) := by
  rw [Lookup.loop_class E s hs hk [] root v hb]
  congr 1
  funext sel
  cases selectsOne s with
  | true =>
    simp only [if_true]
    rw [Lookup.loop]
  | false => rfl

/-- A path whose walk, with and without a replacement, goes on from nil as the
walk along the steps `S` does, has the fixed point at the place: nothing is
written and the lookup returns what it returned. -/
theorem fixedAt_miss (E : Ext) (V : Value) (S1 S : List step) (doc : Value) (loc : Loc)
    (hmany : manyResults S1 = manyResults S)
    (hW : ∀ root, Lookup.loop.write E V S1 root false doc (.at loc) =
      Lookup.loop.write E V S root false doc (.val .null))
    (hP : ∀ root, Lookup.loop E S1 root false (doc.get loc) = Lookup.loop E S root false .null)
    (hclass : ∀ s ∈ S, selectsSlots s = true) : fixedAt E V S1 doc loc := by
  obtain ⟨o, hWn, hPn, hshape⟩ := Lookup.loop.write_nil_walk E V S hclass
  intro root doc1 r h
  rw [hW, hWn] at h
  have hd : doc = doc1 := congrArg Effect.doc h
  have hr : o = .ok r := congrArg Effect.ret h
  have hshape1 := hshape r hr
  refine ⟨doc.get loc, by rw [Value.put_get]; exact hd.symm, rfl, fun rootP => ?_,
    fun root0 r0 root1 r1 h0 h1 => ?_⟩
  · refine ⟨r, by rw [hP, hPn, hr], ?_⟩
    rw [hmany, hshape1]
    exact solelyV_nil V _
  · rw [hP, hPn, hr] at h0 h1
    cases h0
    cases h1
    rw [hmany, hshape1]
    exact keepsMatches_nil _

/-- A path whose walk, with and without a replacement, goes on from the slot
`n` of the container at the place as the walk along the steps `S` does, has
the fixed point at the place when the steps `S` have it at the slot. -/
theorem fixedAt_descend (E : Ext) (V : Value) (S1 S : List step) (doc : Value) (loc : Loc)
    (n : Nat) (hn : n < (doc.get loc).shell.2.length) (hmany : manyResults S1 = manyResults S)
    (hW : ∀ root, Lookup.loop.write E V S1 root false doc (.at loc) =
      Lookup.loop.write E V S root false doc (.at (loc ++ [n])))
    (hP : ∀ x root, x.shell = (doc.get loc).shell →
      Lookup.loop E S1 root false x = Lookup.loop E S root false (x.child n))
    (hfix : fixedAt E V S doc (loc ++ [n])) : fixedAt E V S1 doc loc := by
  intro root doc1 r h
  rw [hW] at h
  obtain ⟨c1, hd1, hkind, hgood, hlink⟩ := hfix root doc1 r h
  rw [Value.get_append] at hkind hlink
  rw [Value.put_append] at hd1
  have hshell : ((doc.get loc).setChild n c1).shell = (doc.get loc).shell :=
    Value.shell_setChild _ n c1 hkind
  have hchild : ((doc.get loc).setChild n c1).child n = c1 := Value.child_setChild _ n c1 hn
  refine ⟨(doc.get loc).setChild n c1, hd1, Value.kind_setChild _ n c1, fun rootP => ?_,
    fun root0 r0 root1 r1 h0 h1 => ?_⟩
  · obtain ⟨r1, hr1, hsol⟩ := hgood rootP
    refine ⟨r1, by rw [hP _ rootP hshell, hchild]; exact hr1, ?_⟩
    rw [hmany]
    exact hsol
  · rw [hP _ root0 rfl] at h0
    rw [hP _ root1 hshell, hchild] at h1
    rw [hmany]
    exact hlink root0 r0 root1 r1 h0 h1

/-- The fixed point for a path whose first step selects slots (an Index or
Range step without key), once it is known for the steps behind. -/
theorem fixedAt_cons (E : Ext) (V : Value) (hV : V.isNull = false) (s : step)
    (hs : selectsSlots s = true) (hk : keyless s = true) (rest : List step)
    (hclass : ∀ t ∈ rest, selectsSlots t = true)
    (hflat : V.isArr = false ∨ fansIntoLists (s :: rest) = true)
    (ih : rest ≠ [] → ∀ doc loc, (∀ c, (doc.put loc c).get loc = c) → fixedAt E V rest doc loc) :
    ∀ doc loc, (∀ c, (doc.put loc c).get loc = c) → fixedAt E V (s :: rest) doc loc := by
  intro doc loc hloc
  by_cases hrest : rest = []
  · subst hrest
    intro root doc1 r h
    have hb := Lookup.loop.write_returns E V s hs [] root doc (.at loc) doc1 r h
    rw [Lookup.loop.write_final E V s hs root doc (.at loc) _ hb] at h
    obtain ⟨found, hfound, h2⟩ := Effect.bind_eq_ok _ _ _ _ h
    have hd : (step.parse.write E V doc root s (.at loc)).doc = doc1 := congrArg Effect.doc h2
    have hstep : step.parse.write E V doc root s (.at loc) = ⟨doc1, .ok found⟩ := by
      rw [← hd, ← hfound]
    obtain ⟨sel, hsel, hdoc⟩ := step.parse.write_last E V hV s hs hk doc root loc hloc doc1 found hstep
    obtain ⟨sel1, hsel1, hsol, hlink⟩ := selAt_setSlots V hV s hs (doc.get loc) sel hsel
    have hmany : manyResults [s] = !selectsOne s := by
      simp [manyResults]
    refine ⟨(doc.get loc).setSlots V sel.slots, hdoc, Value.kind_setSlots V _ _, fun rootP => ?_,
      fun root0 r0 root1 r1 h0 h1 => ?_⟩
    · refine ⟨sel1.read _, by rw [Lookup.loop_last_class E s hs hk _ _ hb, hsel1]; rfl, ?_⟩
      rw [hmany]
      exact hsol
    · rw [Lookup.loop_last_class E s hs hk _ _ hb] at h0 h1
      rw [hsel1] at h1
      cases h1
      cases hs0 : selAt false s (doc.get loc).shell with
      | ok sel0 =>
        rw [hs0] at h0
        cases h0
        rw [hmany]
        exact hlink sel0 hs0
      | error e =>
        rw [hs0] at h0
        cases h0
      | panic =>
        rw [hs0] at h0
        cases h0
      | exhausted =>
        rw [hs0] at h0
        cases h0
  · have hne : rest.isEmpty = false := by
      cases rest with
      | nil => exact absurd rfl hrest
      | cons t more => rfl
    cases hsr : s.singleReturn with
    | ok b =>
      have hb : s.singleReturn = .ok (selectsOne s) := by
        rw [hsr, step.singleReturn_selects s hs b hsr]
      cases hsel : selAt false s (doc.get loc).shell with
      | ok sel =>
        have hread : ∀ x root, x.shell = (doc.get loc).shell →
            Lookup.loop E (s :: rest) root false x =
              (if selectsOne s then Lookup.loop E rest root false (sel.read x)
                else if rest.isEmpty then .ok (sel.read x)
                else (Lookup.fanout (fun i => Lookup.guard i (Lookup.loop E rest i false i))
                  (sel.slots.map x.child)).bind fun newret => .ok (.arr newret)) := by
          intro x root hx
          rw [Lookup.loop_class E s hs hk rest root x hb, hx, hsel, Outcome.bind_ok]
        have hwrite : ∀ root, Lookup.loop.write E V (s :: rest) root false doc (.at loc) =
            (match sel with
            | .miss => Lookup.loop.write E V rest root false doc (.val .null)
            | .hit n => Lookup.loop.write E V rest root false doc (.at (loc ++ [n]))
            | .many ns =>
              (Lookup.fanout.write
                (fun doc i => Lookup.guard.write doc (i.read doc)
                  (Lookup.loop.write E V rest i false doc i))
                (ns.map fun n => .at (loc ++ [n])) doc).bind
                fun doc newret => ⟨doc, .ok (.arr newret)⟩) := by
          intro root
          cases sel with
          | miss =>
            rw [Lookup.loop.write_class E V s hs hk rest hrest root doc loc hb, hsel,
              Effect.bind_mk_ok]
          | hit n =>
            rw [Lookup.loop.write_class E V s hs hk rest hrest root doc loc hb, hsel,
              Effect.bind_mk_ok]
          | many ns =>
            rw [Lookup.loop.write_class E V s hs hk rest hrest root doc loc hb, hsel,
              Effect.bind_mk_ok]
        cases hone : selectsOne s with
        | true =>
          have hmany : manyResults (s :: rest) = manyResults rest := by
            rw [manyResults_cons, hone]
            rfl
          rcases (selAt_shape false s _ sel hsel).1 hone with hm | ⟨n, hm, hn⟩
          · subst hm
            refine fixedAt_miss E V (s :: rest) rest doc loc hmany hwrite (fun root => ?_) hclass
            rw [hread _ root rfl, hone]
            rfl
          · subst hm
            refine fixedAt_descend E V (s :: rest) rest doc loc n hn hmany hwrite
              (fun x root hx => ?_) (ih hrest doc (loc ++ [n]) (Value.holds_slot doc loc n hloc hn))
            rw [hread x root hx, hone]
            rfl
        | false =>
          obtain ⟨ns, hns, hlt⟩ := (selAt_shape false s _ sel hsel).2 hone
          subst hns
          have hmany : manyResults (s :: rest) = true := by
            rw [manyResults_cons, hone]
            rfl
          have hflat1 : V.isArr = false ∨ manyResults rest = true := by
            rcases hflat with h | h
            · exact Or.inl h
            · simp only [fansIntoLists, hone, hne, Bool.false_or, Bool.and_eq_true] at h
              exact Or.inr h.1
          intro root doc1 r h
          rw [hwrite] at h
          obtain ⟨out, hout⟩ := Effect.bind_wrap_ok _ _ _ _ h
          obtain ⟨w, hdoc, hshell, hslots⟩ := Lookup.fanout.write_fanout_fixed E V rest loc
            (fun d n hl => ih hrest d (loc ++ [n]) hl) ns doc hloc hlt doc1 out hout
          obtain ⟨out1, hpost, hall, hlink⟩ := Lookup.fanout_fixed E V hV rest hflat1
            (doc.get loc) w hshell ns (fun m hm => by
              rcases hslots m with ⟨he, hflag⟩ | hr
              · exact Or.inl ⟨he, hflag hm⟩
              · exact Or.inr hr)
          have hkind : w.kind = (doc.get loc).kind := by
            rw [← Value.shell_kind, ← Value.shell_kind, hshell]
          refine ⟨w, hdoc, hkind, fun rootP => ?_, fun root0 r0 root1 r1 h0 h1 => ?_⟩
          · refine ⟨.arr out1, ?_, ?_⟩
            · rw [hread w rootP hshell, hone, hne]
              simp only [Bool.false_eq_true, if_false, Sel.slots, hpost, Outcome.bind_ok]
            · rw [hmany]
              exact ⟨out1, rfl, hall⟩
          · rw [hread _ root0 rfl, hone, hne] at h0
            rw [hread w root1 hshell, hone, hne] at h1
            simp only [Bool.false_eq_true, if_false, Sel.slots, hpost, Outcome.bind_ok] at h0 h1
            cases h1
            cases hf : Lookup.fanout (fun i => Lookup.guard i (Lookup.loop E rest i false i))
                (ns.map (doc.get loc).child) with
            | ok out0 =>
              rw [hf] at h0
              cases h0
              rw [hmany]
              exact ⟨out0, out1, rfl, rfl, hlink out0 hf⟩
            | error e =>
              rw [hf] at h0
              cases h0
            | panic =>
              rw [hf] at h0
              cases h0
            | exhausted =>
              rw [hf] at h0
              cases h0
      | error e =>
        intro root doc1 r h
        rw [Lookup.loop.write_class E V s hs hk rest hrest root doc loc hb, hsel] at h
        have := congrArg Effect.ret h
        cases this
      | panic =>
        intro root doc1 r h
        rw [Lookup.loop.write_class E V s hs hk rest hrest root doc loc hb, hsel] at h
        have := congrArg Effect.ret h
        cases this
      | exhausted =>
        intro root doc1 r h
        rw [Lookup.loop.write_class E V s hs hk rest hrest root doc loc hb, hsel] at h
        have := congrArg Effect.ret h
        cases this
    | error e =>
      intro root doc1 r h
      have := Lookup.loop.write_returns E V s hs rest root doc (.at loc) doc1 r h
      rw [hsr] at this
      cases this
    | panic =>
      intro root doc1 r h
      have := Lookup.loop.write_returns E V s hs rest root doc (.at loc) doc1 r h
      rw [hsr] at this
      cases this
    | exhausted =>
      intro root doc1 r h
      have := Lookup.loop.write_returns E V s hs rest root doc (.at loc) doc1 r h
      rw [hsr] at this
      cases this

/-- The fan-outs of the steps behind return lists when the fan-outs of the
path do. -/
theorem fansIntoLists_tail (s : step) (rest : List step)
    (h : fansIntoLists (s :: rest) = true) : fansIntoLists rest = true := by
  simp only [fansIntoLists, Bool.and_eq_true] at h
  exact h.2

/-- The replace-then-read fixed point at every place of the document, for
every path whose steps all select slots: a walk with the replacement, which is
not nil, that returns a result has left a value of the same kind at the place
the walk started from, in which the lookup returns a result that consists
solely of the replacement and keeps the matches of the lookup before. -/
theorem Lookup.loop.write_walk_fixed (E : Ext) (V : Value) (hV : V.isNull = false)
    (steps : List step) :
    steps ≠ [] → (∀ s ∈ steps, selectsSlots s = true) →
      (V.isArr = false ∨ fansIntoLists steps = true) →
      ∀ doc loc, (∀ c, (doc.put loc c).get loc = c) → fixedAt E V steps doc loc := by
  induction steps with
  | nil => exact fun h => absurd rfl h
  | cons s rest ih =>
    intro _ hclass hflat
    have hs := hclass s (List.mem_cons_self _ _)
    have hclass1 : ∀ t ∈ rest, selectsSlots t = true :=
      fun t ht => hclass t (List.mem_cons_of_mem _ ht)
    have hflat1 : V.isArr = false ∨ fansIntoLists rest = true := by
      rcases hflat with h | h
      · exact Or.inl h
      · exact Or.inr (fansIntoLists_tail s rest h)
    have ih1 : rest ≠ [] → ∀ doc loc, (∀ c, (doc.put loc c).get loc = c) →
        fixedAt E V rest doc loc := fun hne => ih hne hclass1 hflat1
    cases hk : keyless s with
    | true => exact fixedAt_cons E V hV s hs hk rest hclass1 hflat ih1
    | false =>
      obtain ⟨hop, hkey⟩ := keyless_false s hk
      have hs0 : selectsSlots s.unkeyed = true := by
        rw [selectsSlots_unkeyed]
        exact hs
      have hflat0 : V.isArr = false ∨ fansIntoLists (s.unkeyed :: rest) = true := by
        rcases hflat with h | h
        · exact Or.inl h
        · refine Or.inr ?_
          simp only [fansIntoLists, selectsOne_unkeyed] at h ⊢
          exact h
      have h0 := fixedAt_cons E V hV s.unkeyed hs0 (keyless_unkeyed s) rest hclass1 hflat0 ih1
      have hmany : manyResults (s :: rest) = manyResults (s.unkeyed :: rest) := by
        rw [manyResults_cons, manyResults_cons, selectsOne_unkeyed]
      have hclass0 : ∀ t ∈ s.unkeyed :: rest, selectsSlots t = true := by
        intro t ht
        rcases List.mem_cons.mp ht with rfl | ht
        · exact hs0
        · exact hclass1 t ht
      intro doc loc hloc
      rcases selKey_cases s.key (doc.get loc).shell with hm | ⟨n, hm⟩
      · refine fixedAt_miss E V (s :: rest) (s.unkeyed :: rest) doc loc hmany (fun root => ?_)
          (fun root => ?_) hclass0
        · rw [Lookup.loop.write_walk_keyed E V s hop hkey,
            get_key.write_miss .null doc (.at loc) s.key hm, Effect.bind_mk_ok]
        · rw [Lookup.loop_keyed E s hop hkey, get_key_sel, hm]
          rfl
      · have hn : n < (doc.get loc).shell.2.length :=
          slotOf_lt _ _ _ (selKey_hit s.key _ n hm).2
        refine fixedAt_descend E V (s :: rest) (s.unkeyed :: rest) doc loc n hn hmany
          (fun root => ?_) (fun x root hx => ?_)
          (h0 doc (loc ++ [n]) (Value.holds_slot doc loc n hloc hn))
        · rw [Lookup.loop.write_walk_keyed E V s hop hkey,
            get_key.write_hit .null doc (.at loc) s.key n hm]
          rfl
        · rw [Lookup.loop_keyed E s hop hkey, get_key_sel, hx, hm]
          rfl

/-- The replace-then-read fixed point on a compiled path whose steps all select
slots: when `Replace` succeeds, the `Lookup` on the document it left returns a
result that consists solely of the replacement and keeps the matches of the
`Lookup` on the document before. -/
theorem Compiled.Replace_compiled_fixed (E : Ext) (c : Compiled) (old D V D1 : Value)
    (hclass : ∀ s ∈ c.steps, selectsSlots s = true)
    (hflat : V.isArr = false ∨ fansIntoLists c.steps = true)
    (h : (c.Replace E old D V).2 = ⟨D1, .ok ()⟩) :
    ∃ r, Compiled.Lookup E c D1 = .ok r ∧ solelyV V (manyResults c.steps) r ∧
      ∀ r0, Compiled.Lookup E c D = .ok r0 → keepsMatches (manyResults c.steps) r0 r := by
  obtain ⟨path, steps⟩ := c
  simp only [Compiled.steps] at hclass hflat ⊢
  simp only [Compiled.Replace, Compiled.steps] at h
  cases hD : D.isNull with
  | true =>
    rw [hD] at h
    have := congrArg Effect.ret h
    cases this
  | false =>
    cases hV : V.isNull with
    | true =>
      rw [hD, hV] at h
      have := congrArg Effect.ret h
      cases this
    | false =>
      rw [hD, hV] at h
      cases steps with
      | nil =>
        have := congrArg Effect.ret h
        cases this
      | cons s rest =>
        simp only [Bool.or_self, Bool.false_eq_true, if_false, List.isEmpty_cons] at h
        obtain ⟨a, ha⟩ := Effect.bind_wrap_ok _ (fun _ => ()) _ _ h
        rw [Compiled.Lookup.write, Lookup.guard.write_pass D D _ hD] at ha
        obtain ⟨w, hdoc, hkind, hgood, hlink⟩ :=
          Lookup.loop.write_walk_fixed E V hV (s :: rest) (by simp) hclass hflat D []
            (fun c => rfl) (.at []) D1 a ha
        have hw : D1 = w := hdoc
        subst hw
        have hD1 : D1.isNull = false := by
          rw [Value.isNull_kind] at hD ⊢
          rw [hkind]
          exact hD
        obtain ⟨r, hr, hsol⟩ := hgood D1
        refine ⟨r, ?_, hsol, fun r0 h0 => ?_⟩
        · rw [Compiled.Lookup, Lookup.guard_container D1 _ hD1]
          exact hr
        · rw [Compiled.Lookup, Lookup.guard_container D _ hD] at h0
          exact hlink D r0 D1 r h0 hr

/-- The replace-then-read fixed point on a path text that compiles to steps
which all select slots. -/
theorem Replace_fixed (E : Ext) (D V D1 : Value) (jpath : Str) (c : Compiled)
    (hc : Compile E jpath = .ok c) (hclass : ∀ s ∈ c.steps, selectsSlots s = true)
    (hflat : V.isArr = false ∨ fansIntoLists c.steps = true)
    (h : Replace E D jpath V = ⟨D1, .ok ()⟩) :
    ∃ r, Lookup E D1 jpath = .ok r ∧ solelyV V (manyResults c.steps) r ∧
      ∀ r0, Lookup E D jpath = .ok r0 → keepsMatches (manyResults c.steps) r0 r := by
  rw [Replace, hc, Effect.bind_mk_ok] at h
  rw [Lookup_of_Compile E D1 jpath c hc, Lookup_of_Compile E D jpath c hc]
  exact Compiled.Replace_compiled_fixed E c .null D V D1 hclass hflat h

/-! ## The properties of the specification -/

/-- C1. For every non-null document and every compiled path whose steps are all
Key steps, `Lookup` returns a result, never an error: the value reached by
following the keys, which is null as soon as a key is absent or the value at
hand is not an object.  Such paths are what `Compile` makes of `$.k1.k2...kn`
for plain names, so the same holds of `Lookup` on these path texts. -/
theorem C1_lookup_keys (E : Ext) (D : Value) (hD : D.isNull = false) :
    (∀ (path : Str) (steps : List step), (∀ s ∈ steps, s.op = .key) →
      Compiled.Lookup E (.mk path steps) D = .ok (followKeys (steps.map step.key) D)) ∧
    (∀ ks : List Str, ks ≠ [] → (∀ k ∈ ks, plainName k = true) →
      Lookup E D ('$' :: '.' :: Join ks ['.']) = .ok (followKeys ks D)) := by
  have hcore : ∀ (path : Str) (steps : List step), (∀ s ∈ steps, s.op = .key) →
      Compiled.Lookup E (.mk path steps) D = .ok (followKeys (steps.map step.key) D) := by
    intro path steps hkeys
    rw [Compiled.Lookup, Lookup.guard_container D _ hD, Lookup.loop_keys E steps hkeys]
  refine ⟨hcore, fun ks hne hplain => ?_⟩
  rw [Lookup_of_Compile E _ _ _ (Compile_keys E ks hne hplain),
    hcore _ _ (by simp [keyStep, step.op]), map_key_keyStep]

/-- C2. On an array of length `n`, `Lookup` with `$[i]` (`i` an `int`, written
in decimal) succeeds exactly when `-n <= i < n`; when it succeeds it returns the
element at `i` for `i >= 0` and the element at `n + i` for `i < 0`; otherwise it
fails with the evaluation error "index out of range" (it does not panic). -/
theorem C2_single_index (E : Ext) (xs : List Value) (i : Int)
    (h1 : -(2 ^ 63) ≤ i) (h2 : i < 2 ^ 63) :
    ((Lookup E (.arr xs) (indexPath [i])).isOk = true ↔
      (-(xs.length : Int) ≤ i ∧ i < xs.length)) ∧
    (∀ v, Lookup E (.arr xs) (indexPath [i]) = .ok v →
      (0 ≤ i → xs[i.toNat]? = some v) ∧
      (i < 0 → xs[((xs.length : Int) + i).toNat]? = some v)) ∧
    (¬ (-(xs.length : Int) ≤ i ∧ i < xs.length) →
      Lookup E (.arr xs) (indexPath [i]) = .error .indexOutOfRange) := by
  rw [Lookup_of_Compile E _ _ _ (Compile_index E [i] (by simp) (by simpa using ⟨h1, h2⟩)),
    Lookup_single_idx]
  exact get_idx_spec xs i

/-- C3 (the missed case). On an array of length `n`, `Lookup` with `$[from:to]`
resolves `F` (0 if `from` is unset, `n + from` if negative) and `E` (`n` if
`to` is unset, `n + to + 1` if negative, else `to + 1`) and checks each against
the length, not the two against each other.  When both are in bounds with
`F <= E` it returns the elements at the positions `F..E-1`, and when one is out
of bounds it returns an evaluation error; but when both are in bounds and
`from` lies beyond `to` (`E < F`) the slice expression `jsonarr[_frm:_to]`
panics: `Lookup` returns neither a sub-sequence nor an error. -/
theorem C3_range_from_beyond_to_panics (E : Ext) (xs : List Value) (frm to' : Option Int)
    (hn : (xs.length : Int) < 2 ^ 63) (hf : isInt64 frm) (ht : isInt64 to') :
    ((0 ≤ resolveFrom xs.length frm ∧ resolveFrom xs.length frm < xs.length) →
      (0 ≤ resolveTo xs.length to' ∧ resolveTo xs.length to' ≤ xs.length) →
      resolveTo xs.length to' < resolveFrom xs.length frm →
      Lookup E (.arr xs) (rangePath frm to') = .panic) ∧
    ((0 ≤ resolveFrom xs.length frm ∧ resolveFrom xs.length frm < xs.length) →
      (0 ≤ resolveTo xs.length to' ∧ resolveTo xs.length to' ≤ xs.length) →
      resolveFrom xs.length frm ≤ resolveTo xs.length to' →
      Lookup E (.arr xs) (rangePath frm to') =
        .ok (.arr ((xs.drop (resolveFrom xs.length frm).toNat).take
          ((resolveTo xs.length to').toNat - (resolveFrom xs.length frm).toNat)))) ∧
    ((¬ (0 ≤ resolveFrom xs.length frm ∧ resolveFrom xs.length frm < xs.length) ∨
        ¬ (0 ≤ resolveTo xs.length to' ∧ resolveTo xs.length to' ≤ xs.length)) →
      (Lookup E (.arr xs) (rangePath frm to')).isError = true) := by
  rw [Lookup_of_Compile E _ _ _ (Compile_range E frm to' hf ht)]
  exact ⟨fun hF hE hlt => Lookup_range_panics E _ xs frm to' hn hf ht hF hE hlt,
    fun hF hE hle => Lookup_range_slice E _ xs frm to' hn hf ht hF hE hle,
    fun hout => Lookup_range_error E _ xs frm to' hn hf ht hout⟩

/-- C4 (amended). Range selection with an inclusive `to`: on an array of
length `n`, `$[f:]` with `0 <= f < n` returns the elements from position `f` to
the end, `$[:t]` with `0 <= t < n` returns the elements at positions `0..t`
(the first `t + 1` elements), and `$[-k:]` with `1 <= k <= n` returns the last
`k` elements; on `[a,b,c,d]`, `$[1:]` returns `[b,c,d]`, `$[:2]` returns
`[a,b,c]` and `$[-2:]` returns `[c,d]`. -/
theorem C4_range_inclusive_to (E : Ext) (xs : List Value)
    (hn : (xs.length : Int) < 2 ^ 63) :
    (∀ f : Nat, f < xs.length →
      Lookup E (.arr xs) (rangePath (some (f : Int)) none) = .ok (.arr (xs.drop f))) ∧
    (∀ t : Nat, t < xs.length →
      Lookup E (.arr xs) (rangePath none (some (t : Int))) = .ok (.arr (xs.take (t + 1)))) ∧
    (∀ k : Nat, 1 ≤ k → k ≤ xs.length →
      Lookup E (.arr xs) (rangePath (some (-(k : Int))) none) =
        .ok (.arr (xs.drop (xs.length - k)))) ∧
    (∀ a b c d : Value,
      Lookup E (.arr [a, b, c, d]) "$[1:]".toList = .ok (.arr [b, c, d]) ∧
      Lookup E (.arr [a, b, c, d]) "$[:2]".toList = .ok (.arr [a, b, c]) ∧
      Lookup E (.arr [a, b, c, d]) "$[-2:]".toList = .ok (.arr [c, d])) := by
  refine ⟨fun f hf => ?_, fun t ht => ?_, fun k hk1 hk2 => ?_, fun a b c d => ⟨?_, ?_, ?_⟩⟩
  · rw [Lookup_of_Compile E _ _ _ (Compile_range E (some (f : Int)) none
      (by simp only [isInt64]; omega) (by simp only [isInt64]))]
    exact Lookup_range_from E _ xs hn f hf
  · rw [Lookup_of_Compile E _ _ _ (Compile_range E none (some (t : Int))
      (by simp only [isInt64]) (by simp only [isInt64]; omega))]
    exact Lookup_range_to E _ xs hn t ht
  · rw [Lookup_of_Compile E _ _ _ (Compile_range E (some (-(k : Int))) none
      (by simp only [isInt64]; omega) (by simp only [isInt64]))]
    exact Lookup_range_last E _ xs hn k hk1 hk2
  · rw [Lookup_of_Compile E _ _ _ (Compile_range_from_1 E),
      Lookup_range_from E _ [a, b, c, d] (by norm_num) 1 (by norm_num)]
    rfl
  · rw [Lookup_of_Compile E _ _ _ (Compile_range_to_2 E),
      Lookup_range_to E _ [a, b, c, d] (by norm_num) 2 (by norm_num)]
    rfl
  · rw [Lookup_of_Compile E _ _ _ (Compile_range_last_2 E),
      Lookup_range_last E _ [a, b, c, d] (by norm_num) 2 (by norm_num) (by norm_num)]
    rfl

/-- C4 (counterexample). On `["a","b","c","d"]` the path `$[:2]` does not
return `["a","b"]`: it returns `["a","b","c"]`. -/
theorem C4_counterexample :
    Lookup Ext.none (.arr [.str ['a'], .str ['b'], .str ['c'], .str ['d']]) "$[:2]".toList =
        .ok (.arr [.str ['a'], .str ['b'], .str ['c']]) ∧
    Lookup Ext.none (.arr [.str ['a'], .str ['b'], .str ['c'], .str ['d']]) "$[:2]".toList ≠
        .ok (.arr [.str ['a'], .str ['b']]) := by
  have h : Lookup Ext.none (.arr [.str ['a'], .str ['b'], .str ['c'], .str ['d']])
      "$[:2]".toList = .ok (.arr [.str ['a'], .str ['b'], .str ['c']]) := by
    rw [Lookup_of_Compile _ _ _ _ (Compile_range_to_2 _),
      Lookup_range_to _ _ _ (by norm_num) 2 (by norm_num)]
    rfl
  refine ⟨h, ?_⟩
  rw [h]
  simp

/-- C5 (amended). For every non-empty array, `Lookup` with `$[*]` and with
`$[:]` both succeed and both return the full array; the two paths compile to
the same step `Range(unset, unset)`, and on the empty array both fail with the
evaluation error "index [from] out of range". -/
theorem C5_star_and_colon_full_array (E : Ext) (xs : List Value) (hne : xs ≠ [])
    (hn : (xs.length : Int) < 2 ^ 63) :
    Lookup E (.arr xs) "$[*]".toList = .ok (.arr xs) ∧
    Lookup E (.arr xs) "$[:]".toList = .ok (.arr xs) ∧
    Lookup E (.arr []) "$[*]".toList = .error .fromOutOfRange ∧
    Lookup E (.arr []) "$[:]".toList = .error .fromOutOfRange := by
  rw [Lookup_of_Compile E _ _ _ (Compile_range_star E),
    Lookup_of_Compile E _ _ _ (Compile_range_colon E),
    Lookup_of_Compile E _ _ _ (Compile_range_star E),
    Lookup_of_Compile E _ _ _ (Compile_range_colon E),
    Lookup_range_all E _ xs hn, Lookup_range_all E _ xs hn,
    Lookup_range_all E _ [] (by norm_num), Lookup_range_all E _ [] (by norm_num)]
  cases xs with
  | nil => exact absurd rfl hne
  | cons x rest => simp

/-- C5 (counterexample). On the empty array `$[*]` and `$[:]` do not succeed:
both fail with the evaluation error "index [from] out of range". -/
theorem C5_counterexample :
    Lookup Ext.none (.arr []) "$[*]".toList = .error .fromOutOfRange ∧
    Lookup Ext.none (.arr []) "$[:]".toList = .error .fromOutOfRange ∧
    Lookup Ext.none (.arr []) "$[*]".toList ≠ .ok (.arr []) ∧
    Lookup Ext.none (.arr []) "$[:]".toList ≠ .ok (.arr []) := by
  rw [Lookup_of_Compile _ _ _ _ (Compile_range_star _),
    Lookup_of_Compile _ _ _ _ (Compile_range_colon _),
    Lookup_range_all _ _ [] (by norm_num), Lookup_range_all _ _ [] (by norm_num)]
  simp

/-- C6 (amended). On an array of length `n`, `Lookup` with `$[i1,i2,...]`, two
or more requested indices, succeeds exactly when every requested index lies in
`-n <= i < n`: the elements at the requested indices that are not null are
then collected in request order (`$[2,0]` on `[a,b,c]` gives `[c,a]`); as soon
as one requested index is out of range `Lookup` fails with the evaluation error
"index out of range" (`$[0,5]` on `["x","y"]` fails). -/
theorem C6_multi_index (E : Ext) (xs : List Value) (idxs : List Int)
    (h2 : 2 ≤ idxs.length) (hint : ∀ i ∈ idxs, -(2 ^ 63) ≤ i ∧ i < 2 ^ 63) :
    ((∀ i ∈ idxs, -(xs.length : Int) ≤ i ∧ i < xs.length) →
      Lookup E (.arr xs) (indexPath idxs) =
        .ok (.arr ((idxs.filterMap (resolveIndex xs)).filter fun v => !v.isNull))) ∧
    ((∃ i ∈ idxs, ¬ (-(xs.length : Int) ≤ i ∧ i < xs.length)) →
      Lookup E (.arr xs) (indexPath idxs) = .error .indexOutOfRange) ∧
    (∀ a b c : Value, a.isNull = false → c.isNull = false →
      Lookup E (.arr [a, b, c]) "$[2,0]".toList = .ok (.arr [c, a])) ∧
    (∀ x y : Value, Lookup E (.arr [x, y]) "$[0,5]".toList = .error .indexOutOfRange) := by
  have hne : idxs ≠ [] := by
    intro e; subst e; simp at h2
  refine ⟨fun h => ?_, fun h => ?_, fun a b c ha hc => ?_, fun x y => ?_⟩
  · rw [Lookup_of_Compile E _ _ _ (Compile_index E idxs hne hint),
      Lookup_multi_idx E _ idxs h2, parse_multi_ok xs idxs h]
    rfl
  · rw [Lookup_of_Compile E _ _ _ (Compile_index E idxs hne hint),
      Lookup_multi_idx E _ idxs h2, parse_multi_error xs idxs h]
    rfl
  · rw [Lookup_of_Compile E _ _ _ (Compile_idx_2_0 E), Lookup_multi_idx E _ _ (by norm_num),
      parse_multi_ok _ _ (by simp)]
    simp [resolveIndex, ha, hc]
  · rw [Lookup_of_Compile E _ _ _ (Compile_idx_0_5 E), Lookup_multi_idx E _ _ (by norm_num),
      parse_multi_error _ _ ⟨5, by simp, by simp⟩]
    rfl

/-- C6 (counterexample). On `["x","y"]` the path `$[0,5]` does not return
`["x"]`: the index 5 is not dropped, `Lookup` fails with "index out of range". -/
theorem C6_counterexample :
    Lookup Ext.none (.arr [.str ['x'], .str ['y']]) "$[0,5]".toList =
      .error .indexOutOfRange ∧
    Lookup Ext.none (.arr [.str ['x'], .str ['y']]) "$[0,5]".toList ≠
      .ok (.arr [.str ['x']]) := by
  have h : Lookup Ext.none (.arr [.str ['x'], .str ['y']]) "$[0,5]".toList =
      .error .indexOutOfRange := by
    rw [Lookup_of_Compile _ _ _ _ (Compile_idx_0_5 _), Lookup_multi_idx _ _ _ (by norm_num),
      parse_multi_error _ _ ⟨5, by simp, by simp⟩]
    rfl
  refine ⟨h, ?_⟩
  rw [h]
  simp

/-- C7. The Wildcard step returns a result for every input, never an error:
for an array the elements that are not null, in their order; for an object the
member values that are not null, one entry per such member (in the order in
which the members are visited); for a scalar and for null the empty list.
`Lookup` with `$.*` on a document that is not nil is this step. -/
theorem C7_wildcard (E : Ext) (key : Str) (args : Args) (filter : filterParam)
    (rootnode : Value) :
    (∀ xs, step.parse E (.mk .scan key args filter) (.arr xs) rootnode =
      .ok (.arr (xs.filter fun v => !v.isNull))) ∧
    (∀ kvs, step.parse E (.mk .scan key args filter) (.obj kvs) rootnode =
      .ok (.arr ((kvs.map Prod.snd).filter fun v => !v.isNull))) ∧
    step.parse E (.mk .scan key args filter) .null rootnode = .ok (.arr []) ∧
    (∀ b, step.parse E (.mk .scan key args filter) (.bool b) rootnode = .ok (.arr [])) ∧
    (∀ n, step.parse E (.mk .scan key args filter) (.num n) rootnode = .ok (.arr [])) ∧
    (∀ s, step.parse E (.mk .scan key args filter) (.str s) rootnode = .ok (.arr [])) ∧
    (∀ D, D.isNull = false → Lookup E D "$.*".toList = step.parse E scanStep D D) := by
  refine ⟨fun _ => ?_, fun _ => ?_, ?_, fun _ => ?_, fun _ => ?_, fun _ => ?_, fun D hD => ?_⟩
  · simp [step.parse, get_scan]
  · simp [step.parse, get_scan]
  · simp [step.parse, get_scan]
  · simp [step.parse, get_scan]
  · simp [step.parse, get_scan]
  · simp [step.parse, get_scan]
  · rw [Lookup_of_Compile E _ _ _ (Compile_wildcard E), Lookup_single_scan E _ D hD]

/-- C8. On a document whose member `k` is a non-empty array, `Lookup` with
`$.k[*].f` (plain names `k` and `f`) returns one flat list, built by visiting
the elements of the array in order: an element that is a scalar or null is
skipped, an object whose member `f` is absent or null contributes nothing, an
object whose member `f` is not an array contributes that value itself, an
object whose member `f` is an array contributes the elements of that array.
The same holds of the compiled steps `Range(unset, unset)` with key `k`, then
`Key(f)`, for every non-empty `k` and every `f`. -/
theorem C8_fanout_flattens (E : Ext) (k f : Str) (kvs : List (Str × Value))
    (xs : List Value) (hm : mapGet k kvs = some (.arr xs)) (hne : xs ≠ [])
    (hn : (xs.length : Int) < 2 ^ 63) :
    (plainName k = true → plainName f = true →
      Lookup E (.obj kvs) ('$' :: '.' :: (k ++ ['[', '*', ']', '.'] ++ f)) =
        .ok (.arr (xs.flatMap (contribution f)))) ∧
    (k ≠ [] → ∀ path : Str,
      Compiled.Lookup E (.mk path [rangeStep k none none, keyStep f]) (.obj kvs) =
        .ok (.arr (xs.flatMap (contribution f)))) := by
  refine ⟨fun hk hf => ?_, fun hk path => Lookup_range_star_key E path k f kvs xs hk hm hne hn⟩
  rw [Lookup_of_Compile E _ _ _ (Compile_key_star_key E k f hk hf)]
  exact Lookup_range_star_key E _ k f kvs xs (plainName_ne_nil k hk) hm hne hn

/-- C9. On a document built only from objects and scalars, `Lookup` with
`$..k` (a plain name `k`) returns the list of exactly the non-null values
stored under the key `k` at every depth, one entry per occurrence, the value
found directly in an object before the values found inside its members; on
`{"a":{"b":{"a":1}},"a2":2}`, `$..a` returns `[{"b":{"a":1}}, 1]`.  The same
holds of the compiled steps marker, `Key(k)` for every `k`. -/
theorem C9_recursive_descent (E : Ext) (k : Str) (D : Value) (hD : D.isNull = false)
    (hshape : noArrays D = true) :
    (plainName k = true →
      Lookup E D ('$' :: '.' :: '.' :: k) = .ok (.arr (occurrences k D))) ∧
    (∀ path : Str,
      Compiled.Lookup E (.mk path [searchStep, keyStep k]) D = .ok (.arr (occurrences k D))) ∧
    Lookup E sampleDescent "$..a".toList =
      .ok (.arr [.obj [(['b'], .obj [(['a'], .num 1)])], .num 1]) := by
  have hcore : ∀ path : Str,
      Compiled.Lookup E (.mk path [searchStep, keyStep k]) D = .ok (.arr (occurrences k D)) := by
    intro path
    rw [Lookup_descent_key E path k D hD, get_search_occurrences k D hshape]
    rfl
  refine ⟨fun hk => ?_, hcore, rfl⟩
  rw [Lookup_of_Compile E _ _ _ (Compile_descent_key E k hk)]
  exact hcore _

/-- C10. On a document whose member `items` is an array, `Lookup` with
`$.items[?(@.tag)]` succeeds and returns, in the order of the array, exactly the
elements that are objects with a member `tag` whose value is not null; an
element that is null, a scalar, an array, or an object without `tag` or with a
null `tag`, is left out and causes no error. -/
theorem C10_exists_filter (E : Ext) (kvs : List (Str × Value)) (xs : List Value)
    (hm : mapGet "items".toList kvs = some (.arr xs)) :
    Lookup E (.obj kvs) "$.items[?(@.tag)]".toList =
      .ok (.arr (xs.filter (hasMember "tag".toList))) := by
  rw [Lookup_of_Compile E _ _ _ (Compile_items_tag E)]
  exact Lookup_filter_exists E _ _ _ _ kvs xs (by decide) hm

/-- C11. The comparison of a filter predicate (`cmp_any`): for each of the
operators `<`, `<=`, `==`, `>=`, `>` it returns the numeric comparison of the
two converted numbers when `convert.TryFloat64` succeeds on both operands, and
otherwise the bytewise lexicographic comparison of the texts
`convert.MustString` gives; for every other operator text it returns the
evaluation error "op should only be ...".  Hence, with collaborators that
convert 5, "5", 10 and "10" to numbers the first two of which are below the
last, `$[?(@.p < 10)]` on `[{"p":5},{"p":"5"},{"p":10}]` returns the first two
elements. -/
theorem C11_cmp_any (E : Ext) (obj1 obj2 : Value) :
    (∀ a b, E.TryFloat64 obj1 = some a → E.TryFloat64 obj2 = some b →
      cmp_any E ['<'] obj1 obj2 = .ok (E.flt a b) ∧
      cmp_any E ['<', '='] obj1 obj2 = .ok (E.fle a b) ∧
      cmp_any E ['=', '='] obj1 obj2 = .ok (E.feq a b) ∧
      cmp_any E ['>', '='] obj1 obj2 = .ok (E.fge a b) ∧
      cmp_any E ['>'] obj1 obj2 = .ok (E.fgt a b)) ∧
    ((E.TryFloat64 obj1 = none ∨ E.TryFloat64 obj2 = none) →
      cmp_any E ['<'] obj1 obj2 = .ok (strLt (E.MustString obj1) (E.MustString obj2)) ∧
      cmp_any E ['<', '='] obj1 obj2 =
        .ok (strLt (E.MustString obj1) (E.MustString obj2) ||
          decide (E.MustString obj1 = E.MustString obj2)) ∧
      cmp_any E ['=', '='] obj1 obj2 = .ok (decide (E.MustString obj1 = E.MustString obj2)) ∧
      cmp_any E ['>', '='] obj1 obj2 =
        .ok (strLt (E.MustString obj2) (E.MustString obj1) ||
          decide (E.MustString obj1 = E.MustString obj2)) ∧
      cmp_any E ['>'] obj1 obj2 = .ok (strLt (E.MustString obj2) (E.MustString obj1))) ∧
    (∀ op : Str, op ∉ [['<'], ['<', '='], ['=', '='], ['>', '='], ['>']] →
      cmp_any E op obj1 obj2 = .error .cmpOp) ∧
    (∀ n5 s5 n10 s10 : E.Num,
      E.TryFloat64 (.num 5) = some n5 → E.TryFloat64 (.str ['5']) = some s5 →
      E.TryFloat64 (.num 10) = some n10 → E.TryFloat64 (.str "10".toList) = some s10 →
      E.flt n5 s10 = true → E.flt s5 s10 = true → E.flt n10 s10 = false →
      Lookup E (.arr sampleCompare) "$[?(@.p < 10)]".toList =
        .ok (.arr [.obj [(['p'], .num 5)], .obj [(['p'], .str ['5'])]])) := by
  refine ⟨fun a b h1 h2 => ?_, fun h => ?_, fun op hop => ?_,
    fun n5 s5 n10 s10 h1 h2 h3 h4 l1 l2 l3 => ?_⟩
  · refine ⟨?_, ?_, ?_, ?_, ?_⟩ <;> rw [cmp_any_numbers E _ obj1 obj2 a b h1 h2] <;> rfl
  · refine ⟨?_, ?_, ?_, ?_, ?_⟩
    · rw [cmp_any_texts E _ obj1 obj2 h]; rfl
    · rw [cmp_any_texts E _ obj1 obj2 h, ← strLt_not]; rfl
    · rw [cmp_any_texts E _ obj1 obj2 h]; rfl
    · have hd : decide (E.MustString obj2 = E.MustString obj1) =
          decide (E.MustString obj1 = E.MustString obj2) :=
        decide_eq_decide.mpr ⟨Eq.symm, Eq.symm⟩
      rw [cmp_any_texts E _ obj1 obj2 h, ← hd, ← strLt_not]; rfl
    · rw [cmp_any_texts E _ obj1 obj2 h]; rfl
  · simp only [List.mem_cons, List.mem_singleton, List.not_mem_nil, or_false, not_or] at hop
    obtain ⟨o1, o2, o3, o4, o5⟩ := hop
    cases h1 : E.TryFloat64 obj1 with
    | none => rw [cmp_any_texts E op obj1 obj2 (Or.inl h1)]; simp only [o1, o2, o3, o4, o5, if_false]
    | some a =>
      cases h2 : E.TryFloat64 obj2 with
      | none =>
        rw [cmp_any_texts E op obj1 obj2 (Or.inr h2)]; simp only [o1, o2, o3, o4, o5, if_false]
      | some b =>
        rw [cmp_any_numbers E op obj1 obj2 a b h1 h2]; simp only [o1, o2, o3, o4, o5, if_false]
  · rw [Lookup_of_Compile E _ _ _ (Compile_p_lt_10 E)]
    have e1 := eval_filter_p_lt_10 E [(['p'], .num 5)] (.num 5) (.arr sampleCompare) rfl
    have e2 := eval_filter_p_lt_10 E [(['p'], .str ['5'])] (.str ['5']) (.arr sampleCompare) rfl
    have e3 := eval_filter_p_lt_10 E [(['p'], .num 10)] (.num 10) (.arr sampleCompare) rfl
    rw [cmp_any_numbers E _ _ _ n5 s10 h1 h4] at e1
    rw [cmp_any_numbers E _ _ _ s5 s10 h2 h4] at e2
    rw [cmp_any_numbers E _ _ _ n10 s10 h3 h4] at e3
    simp only [if_true, l1, l2, l3] at e1 e2 e3
    rw [Compiled.Lookup, Lookup.guard_container (.arr sampleCompare) _ rfl, Lookup.loop]
    simp only [sampleCompare] at e1 e2 e3
    simp only [step.singleReturn, step.op, Outcome.bind_ok, Bool.false_eq_true, if_false,
      Bool.not_false, step.parse, ne_eq, not_true_eq_false, get_filtered, sampleCompare,
      get_filtered.loop, e1, e2, e3, if_true, List.isEmpty_nil, Bool.not_true, Bool.and_false,
      Lookup.loop]

/-- C12 (amended). A Filter step of the path itself with the operator `=~`,
wherever it stands in the path: when the walk of `Lookup` comes to apply it to
an array (as first step, behind other steps, in a fan-out, under a recursive
descent) and the left operand of one element resolves to a value that is no
text (a number, a container, null because the member is missing), that of no
element before it aborting, the whole `Lookup` returns an evaluation error; no
element is passed over as a non-match.  So `Lookup` with
`$.k1.....kn.k[?(@.f =~ /P/i)]` (plain names, not too many for the tokenizer;
a non-empty pattern without dot, bracket, space and quote that `regexp.Compile`
accepts) on a document in which the keys lead to an array fails as soon as one
element holds no text under `f`, and returns the elements whose text matches
when all do. -/
theorem C12_regex_needs_text (E : Ext) :
    (∀ (c : Compiled) (D : Value) (key text lp rp : Str) (reg : Option Str)
      (lpSub rpSub : Option Compiled) (obj1 root1 : Value) (before after : List Value)
      (x v : Value),
      Lookup.applies E c.steps D false D
        (.mk .filter key (.text text) (.mk lp ['=', '~'] rp reg lpSub rpSub)) obj1 root1 →
      (if key ≠ [] then get_key obj1 key else .ok obj1) = .ok (.arr (before ++ x :: after)) →
      (∀ b ∈ before,
        (get_lp_v lp (fun o => Compiled.Lookup.opt E lpSub o) b root1).isOk = true ∨
        (get_lp_v lp (fun o => Compiled.Lookup.opt E lpSub o) b root1).isError = true) →
      get_lp_v lp (fun o => Compiled.Lookup.opt E lpSub o) x root1 = .ok v →
      v.isStr = false →
      (Compiled.Lookup E c D).isError = true) ∧
    (∀ (path key text lp rp : Str) (reg : Option Str) (lpSub rpSub : Option Compiled)
      (rest : List step) (obj : Value) (xs : List Value),
      (if key ≠ [] then get_key obj key else .ok obj) = .ok (.arr xs) →
      (∀ x ∈ xs,
        (get_lp_v lp (fun o => Compiled.Lookup.opt E lpSub o) x obj).isOk = true ∨
        (get_lp_v lp (fun o => Compiled.Lookup.opt E lpSub o) x obj).isError = true) →
      (∃ x ∈ xs, ∃ v, get_lp_v lp (fun o => Compiled.Lookup.opt E lpSub o) x obj = .ok v ∧
        v.isStr = false) →
      (Compiled.Lookup E
        (.mk path (.mk .filter key (.text text) (.mk lp ['=', '~'] rp reg lpSub rpSub) :: rest))
        obj).isError = true) ∧
    (∀ (pre : List Str) (k f P : Str) (D : Value) (xs : List Value),
      (∀ t ∈ pre, plainName t = true) → plainName k = true → plainName f = true →
      '.' ∉ P → '[' ∉ P → ']' ∉ P → ' ' ∉ P → '\'' ∉ P → P ≠ [] → E.regexpCompile P = true →
      pre.length + 2 ≤ f.length + P.length + 9 →
      followKeys (pre ++ [k]) D = .arr xs →
      ((∃ x ∈ xs, stringMember f x = none) →
        (Lookup E D (regexPath pre k f P)).isError = true) ∧
      ((∀ x ∈ xs, (stringMember f x).isSome = true) →
        Lookup E D (regexPath pre k f P) = .ok (.arr (xs.filter (regexMatches E f P))))) ∧
    (∀ (k f P : Str) (kvs : List (Str × Value)) (xs : List Value),
      plainName k = true → plainName f = true →
      '.' ∉ P → '[' ∉ P → ']' ∉ P → ' ' ∉ P → '\'' ∉ P → P ≠ [] → E.regexpCompile P = true →
      mapGet k kvs = some (.arr xs) →
      ((∃ x ∈ xs, stringMember f x = none) →
        (Lookup E (.obj kvs) (regexPath [] k f P)).isError = true) ∧
      ((∀ x ∈ xs, (stringMember f x).isSome = true) →
        Lookup E (.obj kvs) (regexPath [] k f P) =
          .ok (.arr (xs.filter (regexMatches E f P))))) := by
  refine ⟨?_, ?_, ?_, ?_⟩
  · intro c D key text lp rp reg lpSub rpSub obj1 root1 before after x v ha hobj hbefore hx hv
    obtain ⟨e, he⟩ := parse_regex_stops E key text lp rp reg lpSub rpSub obj1 root1 before after
      x v hobj hbefore hx hv
    rcases Compiled.Lookup_applies_fails E c D _ obj1 root1 e ha he with h | h <;> rw [h] <;> rfl
  · intro path key text lp rp reg lpSub rpSub rest obj xs hobj hret hbad
    have hnull : obj.isNull = false := by
      cases obj with
      | null =>
        by_cases hk : key = []
        · simp [hk] at hobj
        · simp [hk, get_key] at hobj
      | _ => rfl
    exact Lookup_first_step_error E path _ rest obj hnull rfl
      (parse_regex_error E key text lp rp reg lpSub rpSub obj obj xs hobj hret hbad)
  · intro pre k f P D xs hpre hk hf hP0 hP1 hP2 hP3 hP4 hne hre hlen hD
    have h := Lookup_regex_behind_keys E pre k f P D xs hpre hk hf hP0 hP1 hP2 hP3 hP4 hne hre
      hlen hD
    exact ⟨h.2, h.1⟩
  · intro k f P kvs xs hk hf hP0 hP1 hP2 hP3 hP4 hne hre hm
    rw [Lookup_of_Compile E _ _ _ (Compile_regex E k f P hk hf hP0 hP1 hP2 hP3 hP4 hne hre)]
    have h := Lookup_regex E (regexPath [] k f P) k
      ('@' :: '.' :: (f ++ (" =~ ".toList ++ '/' :: (P ++ ['/', 'i'])))) f P kvs xs
      (plainName_ne_nil k hk) hm
    exact ⟨h.2, h.1⟩

/-- C12 (counterexample). A Filter step with the operator `=~` inside the
predicate of another Filter step: with `$[?('j'@.k[?(@.f =~ /x/i)])]` the
predicate is compiled to the operator `exists` on the nested path
`@.k[?(@.f =~ /x/i)]`; on `[{"k":[{"f":5}]}]` the nested lookup applies the
`=~` Filter step to the array `[{"f":5}]`, whose element holds a number, and
returns the error, the predicate drops it, and `Lookup` returns the empty list.
The same step as a step of the path itself fails.  And with
`$[?(@.k[-1:0].x =~ /x/i)]` on `[{"k":[1,2,3]},{"k":[1]}]` the left operand of
the second element resolves to a list, that of the first one aborts in the
slice expression: `Lookup` panics. -/
theorem C12_counterexample :
    Compile Ext.sample "$[?('j'@.k[?(@.f =~ /x/i)])]".toList =
      .ok (.mk "$[?('j'@.k[?(@.f =~ /x/i)])]".toList
        [.mk .filter [] (.text "'j'@.k[?(@.f =~ /x/i)]".toList)
          (.mk "@.k[?(@.f =~ /x/i)]".toList "exists".toList [] none (some sampleNested) none)]) ∧
    Compiled.Lookup Ext.sample sampleNested (.obj [(['k'], .arr [.obj [(['f'], .num 5)]])]) =
      .error .onlyString ∧
    Lookup Ext.sample (.arr [.obj [(['k'], .arr [.obj [(['f'], .num 5)]])]])
      "$[?('j'@.k[?(@.f =~ /x/i)])]".toList = .ok (.arr []) ∧
    Lookup Ext.sample (.obj [(['k'], .arr [.obj [(['f'], .num 5)]])])
      "$.k[?(@.f =~ /x/i)]".toList = .error .onlyString ∧
    Lookup Ext.sample sampleSlices "$[?(@.k[-1:0].x =~ /x/i)]".toList = .panic ∧
    Lookup Ext.sample (.arr [.obj [(['k'], .arr [.num 1])]]) "$[?(@.k[-1:0].x =~ /x/i)]".toList =
      .error .onlyString :=
  ⟨rfl, rfl, rfl, rfl, rfl, rfl⟩

/-- C13 (amended). The replace-then-read fixed point on the paths whose steps
all select slots (Key steps, Index steps with one or several indices, Range
steps, wildcards; no Filter step, no recursive descent, no root step).  For
every compiled path of that kind, every document and every replacement `V`
that is no list, or is a list while every fan-out of the path is over a
residual path that returns a list: when `Replace` succeeds, the `Lookup` that
follows succeeds and its result consists solely of `V` (it is `V` or nil on a
path that selects one value, a list whose elements all are `V` otherwise), and
it keeps the matches of the `Lookup` before the replace (not nil when that was
not nil; a list that is not empty when that was one).  The same holds for a
path text that compiles to such a path.  On key paths `$.k1.k2...kn` of plain
names `Replace` always succeeds, for every `V` that is not nil, and leaves the
member the keys lead to overwritten (the document unchanged when they lead
nowhere); when the lookup before reported a match the lookup after returns
`V`, on the path text compiled anew as on the compiled path that still holds
the replacement. -/
theorem C13_replace_then_read (E : Ext) :
    (∀ (c : Compiled) (old D V D1 : Value),
      (∀ s ∈ c.steps, selectsSlots s = true) →
      (V.isArr = false ∨ fansIntoLists c.steps = true) →
      (c.Replace E old D V).2 = ⟨D1, .ok ()⟩ →
      ∃ r, Compiled.Lookup E c D1 = .ok r ∧ solelyV V (manyResults c.steps) r ∧
        ∀ r0, Compiled.Lookup E c D = .ok r0 → keepsMatches (manyResults c.steps) r0 r) ∧
    (∀ (D V D1 : Value) (jpath : Str) (c : Compiled),
      Compile E jpath = .ok c →
      (∀ s ∈ c.steps, selectsSlots s = true) →
      (V.isArr = false ∨ fansIntoLists c.steps = true) →
      Replace E D jpath V = ⟨D1, .ok ()⟩ →
      ∃ r, Lookup E D1 jpath = .ok r ∧ solelyV V (manyResults c.steps) r ∧
        ∀ r0, Lookup E D jpath = .ok r0 → keepsMatches (manyResults c.steps) r0 r) ∧
    (∀ (D V : Value) (ks : List Str), ks ≠ [] → (∀ k ∈ ks, plainName k = true) →
      D.isNull = false → V.isNull = false →
      Replace E D ('$' :: '.' :: Join ks ['.']) V = ⟨overwriteKeys V ks D, .ok ()⟩ ∧
      (∀ v, Lookup E D ('$' :: '.' :: Join ks ['.']) = .ok v → v.isNull = false →
        Lookup E (overwriteKeys V ks D) ('$' :: '.' :: Join ks ['.']) = .ok V ∧
        ∀ c, Compile E ('$' :: '.' :: Join ks ['.']) = .ok c →
          Compiled.Lookup.write E c (c.Replace E .null D V).1 (c.Replace E .null D V).2.doc =
            ⟨overwriteKeys V ks D, .ok V⟩)) := by
  refine ⟨fun c old D V D1 hclass hflat h => Compiled.Replace_compiled_fixed E c old D V D1 hclass hflat h,
    fun D V D1 jpath c hc hclass hflat h => Replace_fixed E D V D1 jpath c hc hclass hflat h,
    fun D V ks hne hplain hD hV => ⟨Replace_keys E V D hV hD ks hne hplain, fun v hv hnull => ?_⟩⟩
  rw [Lookup_keys_text E ks hne hplain D hD] at hv
  cases hv
  have hD1 := overwriteKeys_isNull V ks D hD hne
  have hfix := followKeys_overwriteKeys V ks hne D hnull
  refine ⟨by rw [Lookup_keys_text E ks hne hplain _ hD1, hfix], fun c hc => ?_⟩
  rw [Compile_keys E ks hne hplain] at hc
  cases hc
  rw [Compiled.Replace_on_keys E _ .null V D hV hD ks hne,
    Compiled.Lookup.write_on_keys E _ V _ hV hD1 ks hne, overwriteKeys_idem, hfix]

/-- C13 (counterexample). A Filter step: on `{"items":[{"tag":1}]}` the lookup
with `$.items[?(@.tag)]` reports one match; `Replace` with the literal 5
succeeds and leaves `{"items":[5]}`; the lookup after it succeeds and returns
the empty list, not a list that holds 5: the element written does not satisfy
the predicate.  A root step: `$.$` compiles to one root step; `Replace` on
`{"a":1}` with the literal 5 succeeds and writes nothing, and the lookup after
it returns the document, not 5.  A list as the replacement under a fan-out:
`Replace` on `[{"a":0},{"a":0}]` with `$[*].a` and the list `[1,2]` succeeds
and leaves `[{"a":[1,2]},{"a":[1,2]}]`; the lookup after it returns
`[1,2,1,2]`, the elements of the replacement and not the replacement. -/
theorem C13_counterexample :
    (Lookup Ext.none sampleTagged "$.items[?(@.tag)]".toList =
      .ok (.arr [.obj [("tag".toList, .num 1)]]) ∧
    Replace Ext.none sampleTagged "$.items[?(@.tag)]".toList (.num 5) =
      ⟨.obj [("items".toList, .arr [.num 5])], .ok ()⟩ ∧
    Lookup Ext.none (.obj [("items".toList, .arr [.num 5])]) "$.items[?(@.tag)]".toList =
      .ok (.arr []) ∧
    Lookup Ext.none (.obj [("items".toList, .arr [.num 5])]) "$.items[?(@.tag)]".toList ≠
      .ok (.arr [.num 5])) ∧
    (Compile Ext.none "$.$".toList =
      .ok (.mk "$.$".toList [.mk .root ['$'] .none filterParam.zero]) ∧
    Replace Ext.none (.obj [(['a'], .num 1)]) "$.$".toList (.num 5) =
      ⟨.obj [(['a'], .num 1)], .ok ()⟩ ∧
    Lookup Ext.none (.obj [(['a'], .num 1)]) "$.$".toList = .ok (.obj [(['a'], .num 1)])) ∧
    (Compile Ext.none "$[*].a".toList =
      .ok (.mk "$[*].a".toList [rangeStep [] none none, keyStep ['a']]) ∧
    fansIntoLists [rangeStep [] none none, keyStep ['a']] = false ∧
    Lookup Ext.none (.arr [.obj [(['a'], .num 0)], .obj [(['a'], .num 0)]]) "$[*].a".toList =
      .ok (.arr [.num 0, .num 0]) ∧
    Replace Ext.none (.arr [.obj [(['a'], .num 0)], .obj [(['a'], .num 0)]]) "$[*].a".toList
        (.arr [.num 1, .num 2]) =
      ⟨.arr [.obj [(['a'], .arr [.num 1, .num 2])], .obj [(['a'], .arr [.num 1, .num 2])]],
        .ok ()⟩ ∧
    Lookup Ext.none
        (.arr [.obj [(['a'], .arr [.num 1, .num 2])], .obj [(['a'], .arr [.num 1, .num 2])]])
        "$[*].a".toList = .ok (.arr [.num 1, .num 2, .num 1, .num 2])) := by
  have h : Lookup Ext.none (.obj [("items".toList, .arr [.num 5])]) "$.items[?(@.tag)]".toList =
      .ok (.arr []) := rfl
  refine ⟨⟨rfl, rfl, h, ?_⟩, ⟨rfl, rfl, rfl⟩, ⟨rfl, rfl, rfl, rfl, rfl⟩⟩
  rw [h]
  simp

/-- C14 (the missed case). `Replace` leaves its replacement attached to the
compiled path.  On the compiled `$.k1.k2...kn` (plain names): before any
`Replace`, `Lookup` returns the value the keys lead to and writes nothing;
`Replace` on a document `D1` sets the `replaceVal` of the last step to `V`; the
`Lookup` on a second document `D2` that follows then overwrites the member the
keys lead to in `D2` by `V`, so `D2` is changed whenever that member held a
value other than `V`. -/
theorem C14_replacement_stays_attached (E : Ext) (D1 D2 V : Value) (ks : List Str)
    (hne : ks ≠ []) (hplain : ∀ k ∈ ks, plainName k = true) (hD1 : D1.isNull = false)
    (hD2 : D2.isNull = false) (hV : V.isNull = false) :
    ∃ c, Compile E ('$' :: '.' :: Join ks ['.']) = .ok c ∧
      Compiled.Lookup.write E c .null D2 = ⟨D2, .ok (followKeys ks D2)⟩ ∧
      (c.Replace E .null D1 V).1 = V ∧
      Compiled.Lookup.write E c (c.Replace E .null D1 V).1 D2 =
        ⟨overwriteKeys V ks D2, .ok (followKeys ks D2)⟩ ∧
      ((followKeys ks D2).isNull = false → followKeys ks D2 ≠ V →
        overwriteKeys V ks D2 ≠ D2) := by
  refine ⟨_, Compile_keys E ks hne hplain, Compiled.Lookup.write_on_keys_read E _ D2 hD2 ks, ?_, ?_,
    fun hnull hdiff heq => ?_⟩
  · rw [Compiled.Replace_on_keys E _ .null V D1 hV hD1 ks hne]
  · rw [Compiled.Replace_on_keys E _ .null V D1 hV hD1 ks hne,
      Compiled.Lookup.write_on_keys E _ V D2 hV hD2 ks hne]
  · have := followKeys_overwriteKeys V ks hne D2 hnull
    rw [heq] at this
    exact hdiff this

/-- C15 (the missed case). `Compile` rejects a path text without `=` that
starts with `$` or `@` and holds more `[` than `]` (`$.a[0` gives "find [
without ]"), but it does not reject a text for holding more `]` than `[`: on
such a text that does not end in a dot `tokenize` returns tokens, the segments
from the surplus `]` on never being emitted; `$.a]` compiles to a path without
any step. -/
theorem C15_surplus_closing_bracket_accepted (E : Ext) :
    (∀ q : Str, (q.head? = some '$' ∨ q.head? = some '@') → '=' ∉ q →
      Count q ']' < Count q '[' → (Compile E q).isError = true) ∧
    Compile E "$.a[0".toList = .error .unclosedBracket ∧
    (∀ (q0 q1 : Char) (r : Str), (q0 = '$' ∨ q0 = '@') → '=' ∉ q0 :: q1 :: r →
      HasSuffix (q0 :: q1 :: r) ['.'] = false →
      Count (q0 :: q1 :: r) '[' < Count (q0 :: q1 :: r) ']' →
      ∃ out, tokenize (q0 :: q1 :: r) = .ok out) ∧
    tokenize "$.a]".toList = .ok [['$']] ∧
    Compile E "$.a]".toList = .ok (.mk "$.a]".toList []) := by
  refine ⟨fun q h0 heq hlt => ?_, rfl, fun q0 q1 r h0 heq hsuf hlt => ?_, rfl, rfl⟩
  · cases q with
    | nil => simp at h0
    | cons q0 rest =>
      have h0' : q0 = '$' ∨ q0 = '@' := by simpa using h0
      cases rest with
      | nil =>
        have hc : ∀ c, Count [q0] c = if q0 = c then 1 else 0 := by
          intro c; rw [Count_cons, Count_nil, add_zero]
        rw [hc, hc] at hlt
        rcases h0' with e | e <;> subst e <;> simp at hlt
      | cons q1 r =>
        have hb := tokenize_balance q0 q1 r h0' heq
        cases hs : HasSuffix (q0 :: q1 :: r) ['.'] with
        | true => rw [Compile_error_of_tokenize E _ _ (hb.1 hs)]; rfl
        | false => rw [Compile_error_of_tokenize E _ _ (hb.2.1 hs hlt)]; rfl
  · exact (tokenize_balance q0 q1 r h0 heq).2.2 hsuf (le_of_lt hlt)

/-- C16 (the missed case). `parse_token` does not reject a bracket body that
holds `?` and is not of the form `?(...)`: for a key that is empty or a plain
name it returns a Filter step whose `args` and predicate are unset; `$.a[?x]`
and `$.a[?(x]` compile, and `Lookup` with them panics on every document that is
not nil (the type assertion `s.args.(string)`), so the malformed bracket
surfaces at evaluation time. -/
theorem C16_malformed_filter_accepted (E : Ext) :
    (∀ (compile : Str → Outcome Compiled) (key body : Str),
      (key = [] ∨ plainName key = true) → Contains body '?' = true →
      (HasPrefix body ['?', '('] && HasSuffix body [')']) = false →
      parse_token E compile (key ++ '[' :: (body ++ [']'])) =
        .ok (.mk .filter key .none filterParam.zero)) ∧
    Compile E "$.a[?x]".toList =
      .ok (.mk "$.a[?x]".toList [.mk .filter ['a'] .none filterParam.zero]) ∧
    Compile E "$.a[?(x]".toList =
      .ok (.mk "$.a[?(x]".toList [.mk .filter ['a'] .none filterParam.zero]) ∧
    (∀ D : Value, D.isNull = false →
      Lookup E D "$.a[?x]".toList = .panic ∧ Lookup E D "$.a[?(x]".toList = .panic) := by
  refine ⟨fun compile key body hkey hq hform =>
    parse_token_malformed_filter E compile key body hkey hq hform, rfl, rfl, fun D hD => ⟨?_, ?_⟩⟩
  · rw [Lookup_of_Compile E D _ _ (rfl : Compile E "$.a[?x]".toList = _)]
    exact Lookup_filter_without_predicate E _ _ _ _ D hD
  · rw [Lookup_of_Compile E D _ _ (rfl : Compile E "$.a[?(x]".toList = _)]
    exact Lookup_filter_without_predicate E _ _ _ _ D hD

/-- C17 (the missed case). On a path text without space, bracket and `=` that
`Compile` accepts, the last step is no marker.  But a segment that is one
space is the marker token itself, and a surplus `]` keeps the segments behind a
marker from being emitted: `$. ` and `$..]` compile to the marker alone, and
`Lookup` with them panics on every document that is not nil (there is no
`c.steps[idx+1]`). -/
theorem C17_marker_can_be_last (E : Ext) :
    (∀ (q : Str) (c : Compiled), ' ' ∉ q → '[' ∉ q → ']' ∉ q → '=' ∉ q →
      Compile E q = .ok c → ∀ s, c.steps.getLast? = some s → s.op ≠ .search) ∧
    Compile E "$. ".toList = .ok (.mk "$. ".toList [searchStep]) ∧
    Compile E "$..]".toList = .ok (.mk "$..]".toList [searchStep]) ∧
    (∀ D : Value, D.isNull = false →
      Lookup E D "$. ".toList = .panic ∧ Lookup E D "$..]".toList = .panic) := by
  refine ⟨fun q c h1 h2 h3 h4 h => Compile_last_not_marker E q c h1 h2 h3 h4 h, rfl, rfl,
    fun D hD => ⟨?_, ?_⟩⟩
  · rw [Lookup_of_Compile E D _ _ (rfl : Compile E "$. ".toList = _)]
    exact Lookup_marker_last E _ D hD
  · rw [Lookup_of_Compile E D _ _ (rfl : Compile E "$..]".toList = _)]
    exact Lookup_marker_last E _ D hD

/-- C18 (the missed case). `tokenize` fails with a compile error on every
text that starts with a byte other than `$` and `@`, and on every text that
starts with `$` or `@` and ends in a dot; on a text of two bytes or more
without `=` it returns tokens or a compile error.  But on the empty text and
on the texts `$` and `@` it panics (`query[0]`, `query[1]`), and so it does at
`token[:idx]` on `$.a.b.c.x=~`. -/
theorem C18_tokenize_panics_on_short_text :
    tokenize [] = .panic ∧ tokenize ['$'] = .panic ∧ tokenize ['@'] = .panic ∧
    (∀ (q0 : Char) (rest : Str), q0 ≠ '$' → q0 ≠ '@' →
      tokenize (q0 :: rest) = .error .badStart) ∧
    (∀ (q0 : Char) (rest : Str), (q0 = '$' ∨ q0 = '@') → HasSuffix (q0 :: rest) ['.'] = true →
      tokenize (q0 :: rest) = .error .trailingDot) ∧
    (∀ q : Str, 2 ≤ q.length → '=' ∉ q →
      (tokenize q).isOk = true ∨ (tokenize q).isError = true) ∧
    tokenize "$.a.b.c.x=~".toList = .panic := by
  refine ⟨rfl, rfl, rfl, fun q0 rest h1 h2 => ?_, fun q0 rest h0 hs => ?_, fun q hlen heq => ?_,
    rfl⟩
  · simp [tokenize, h1, h2]
  · have hq : ¬ (q0 ≠ '$' ∧ q0 ≠ '@') := by
      rcases h0 with e | e <;> simp [e]
    simp only [tokenize, hq, if_false, hs, if_true]
  · cases q with
    | nil => simp at hlen
    | cons q0 rest =>
      cases rest with
      | nil => simp at hlen
      | cons q1 r =>
        by_cases h0 : q0 = '$' ∨ q0 = '@'
        · have hb := tokenize_balance q0 q1 r h0 heq
          cases hs : HasSuffix (q0 :: q1 :: r) ['.'] with
          | true => rw [hb.1 hs]; exact Or.inr rfl
          | false =>
            by_cases hlt : Count (q0 :: q1 :: r) ']' < Count (q0 :: q1 :: r) '['
            · rw [hb.2.1 hs hlt]; exact Or.inr rfl
            · obtain ⟨out, ho⟩ := hb.2.2 hs (by omega)
              rw [ho]; exact Or.inl rfl
        · simp only [not_or] at h0
          have : tokenize (q0 :: q1 :: r) = .error .badStart := by
            simp [tokenize, h0.1, h0.2]
          rw [this]; exact Or.inr rfl

/-- C19 (the missed case). On `$.k1.....kn[?(@.f =~ /P/i)]`, plain names and a
pattern without dot and bracket, `tokenize` returns the tokens `$`, `k1`, ...,
`k(n-1)` and the whole last segment as one token only as long as `n + 1` does
not exceed the length of `f =~ /P/i)]`: it slices that token at the number of
the tokens in front of it (`token[:idx]`), so with more segments in front it
panics.  The same slice counts a `[` of the pattern only when it lies in
front of position `idx`, its `]` never.
`$.store.book[?(@.author =~ /.*REES/i)]` gives `$`, `store` and
`book[?(@.author =~ /.*REES/i)]`; `$.a.b.c.d.e.k[?(@.f =~ /.x/i)]` panics;
`$.a.b.c.d.e.k[?(@.f =~ /[a]/i)]` fails with "find [ without ]". -/
theorem C19_regex_token_depends_on_position (pre : List Str) (k f P : Str)
    (hpre : ∀ t ∈ pre, plainName t = true) (hk : plainName k = true) (hf : plainName f = true)
    (hP0 : '.' ∉ P) (hP1 : '[' ∉ P) (hP2 : ']' ∉ P) :
    (pre.length + 2 ≤ f.length + P.length + 9 →
      tokenize (regexPath pre k f P) =
        .ok (['$'] :: (pre ++ [k ++ ("[?(@.".toList ++ regexToken f P)]))) ∧
    (f.length + P.length + 9 < pre.length + 2 → tokenize (regexPath pre k f P) = .panic) ∧
    tokenize "$.store.book[?(@.author =~ /.*REES/i)]".toList =
      .ok ["$".toList, "store".toList, "book[?(@.author =~ /.*REES/i)]".toList] ∧
    tokenize "$.a.b.c.d.e.k[?(@.f =~ /.x/i)]".toList = .panic ∧
    tokenize "$.a.b.c.d.e.k[?(@.f =~ /[a]/i)]".toList = .error .unclosedBracket := by
  have h := tokenize_regexPath pre k f P hpre hk hf hP0 hP1 hP2
  rw [regexToken_length] at h
  refine ⟨fun hle => ?_, fun hlt => ?_, rfl, rfl, rfl⟩
  · rw [h, if_neg (by omega)]
  · rw [h, if_pos (by omega)]

/-- C20 (the missed case). On `L OP R` and on `L OP 'R'` (`L` and `OP`
without space and quote, `R` without quote, and without space when it is not
quoted) `parse_filter` hands the fields `L`, `OP` and `R` to `preCompile`,
which leaves them as they are: `@.name == 'hello world'` yields the right
operand `hello world`.  But the closing quote does not end the quoted run:
on `'L'rest` everything behind the closing quote, spaces included, is read as
one text that overwrites the left operand, and the operator becomes `exists`:
`'a b' == @.x` yields the left operand ` == @.x`, the operator `exists` and no
right operand. -/
theorem C20_quoted_left_operand_lost (E : Ext) (compile : Str → Outcome Compiled) :
    (∀ L OP R : Str, ' ' ∉ L → '\'' ∉ L → ' ' ∉ OP → '\'' ∉ OP → '\'' ∉ R →
      parse_filter E compile (L ++ ' ' :: (OP ++ ' ' :: '\'' :: (R ++ ['\'']))) =
        preCompile E compile L OP R) ∧
    (∀ L OP R : Str, ' ' ∉ L → '\'' ∉ L → ' ' ∉ OP → '\'' ∉ OP → ' ' ∉ R → '\'' ∉ R →
      parse_filter E compile (L ++ ' ' :: (OP ++ ' ' :: R)) = preCompile E compile L OP R) ∧
    (∀ (lp op rp : Str) (fp : filterParam), preCompile E compile lp op rp = .ok fp →
      fp.lp = lp ∧ fp.op = op ∧ fp.rp = rp) ∧
    (∀ L rest : Str, '\'' ∉ L → '\'' ∉ rest → rest ≠ [] →
      parse_filter E compile ('\'' :: (L ++ '\'' :: rest)) =
        preCompile E compile rest ['e', 'x', 'i', 's', 't', 's'] []) ∧
    parse_filter E compile "@.name == 'hello world'".toList =
      preCompile E compile "@.name".toList "==".toList "hello world".toList ∧
    parse_filter E compile "'a b' == @.x".toList =
      .ok (.mk " == @.x".toList "exists".toList [] none none none) := by
  exact ⟨fun L OP R h1 h2 h3 h4 h5 => parse_filter_quoted_right E compile L OP R h1 h2 h3 h4 h5,
    fun L OP R h1 h2 h3 h4 h5 h6 => parse_filter_plain E compile L OP R h1 h2 h3 h4 h5 h6,
    fun lp op rp fp h => preCompile_fields E compile lp op rp fp h,
    fun L rest h1 h2 h3 => parse_filter_quoted_left E compile L rest h1 h2 h3, rfl, rfl⟩

/-- C21 (amended). `Replace` leaves the document as it was when every check of
the walk comes before its first write.  For every literal `V`
and document `D`: on every compiled path that is made of steps selecting one
value (keys, single indices) and ends either in a step that checks before it
writes (a key, a single index, a range, a wildcard) or in one more step followed
by steps that never fail (keys, wildcards), a `Replace` that does not succeed
(it returns an error, or panics) leaves `D` exactly as it was, whatever
replacement the path held before; so does `Replace` on a path text that does
not compile or compiles to such a path.  On `$[i1,i2,...]`, two or more
indices, and an array, the slots are overwritten as they are visited: `Replace`
leaves the array with the slots of the indices before the first one out of
range overwritten by `V`, and returns the error "index out of range" when there
is such an index. -/
theorem C21_replace_keeps_document_when_checks_come_first (E : Ext) (V : Value) :
    (∀ (D : Value) (c : Compiled) (old : Value), checksBeforeWrites c.steps = true →
      (c.Replace E old D V).2.ret ≠ .ok () → (c.Replace E old D V).2.doc = D) ∧
    (∀ (D : Value) (jpath : Str),
      (∀ c, Compile E jpath = .ok c → checksBeforeWrites c.steps = true) →
      (Replace E D jpath V).ret ≠ .ok () → (Replace E D jpath V).doc = D) ∧
    (∀ (xs : List Value) (idxs : List Int), 2 ≤ idxs.length →
      (∀ i ∈ idxs, -(2 ^ 63) ≤ i ∧ i < 2 ^ 63) → V.isNull = false →
      (Replace E (.arr xs) (indexPath idxs) V).doc = .arr (overwriteIndices V idxs xs) ∧
      ((∀ i ∈ idxs, -(xs.length : Int) ≤ i ∧ i < xs.length) →
        (Replace E (.arr xs) (indexPath idxs) V).ret = .ok ()) ∧
      ((∃ i ∈ idxs, ¬ (-(xs.length : Int) ≤ i ∧ i < xs.length)) →
        (Replace E (.arr xs) (indexPath idxs) V).ret = .error .indexOutOfRange)) := by
  refine ⟨fun D c old hc hne => ?_, fun D jpath hc hne => ?_, fun xs idxs h2 hint hV => ?_⟩
  · rcases Compiled.Replace_compiled_keeps E c old D V hc with h | h
    · exact absurd h hne
    · exact h
  · rcases Replace_keeps E D V jpath hc with h | h
    · exact absurd h hne
    · exact h
  · rw [Replace_multi_idx E V hV idxs h2 hint xs]
    refine ⟨rfl, fun hall => ?_, fun hex => ?_⟩
    · have : idxs.all (fun i => (resolveSlot xs.length i).isSome) = true :=
        List.all_eq_true.mpr fun i hi => (resolveSlot_isSome _ _).mpr (hall i hi)
      simp only [this, if_true]
    · have : ¬ idxs.all (fun i => (resolveSlot xs.length i).isSome) = true := by
        intro hall
        obtain ⟨i, hi, hni⟩ := hex
        exact hni ((resolveSlot_isSome _ _).mp (List.all_eq_true.mp hall i hi))
      simp only [this, Bool.false_eq_true, if_false]

/-- C21 (counterexample). `Replace` on `["x","y"]` with `$[0,5]` and the literal
5 returns the error of the index 5 after slot 0 was overwritten: the document
is left as `[5,"y"]`.  The same happens when the residual path fails on a later
element of a fan-out (`$[*].a[1]` on `[{"a":[1,2]},{"a":[3]}]`) and when the
predicate of a Filter step fails on a later element (`$[?(@.p =~ /x/i)]` on
`[{"p":"x"},{"p":1}]`). -/
theorem C21_counterexample :
    Compile Ext.none "$[0,5]".toList = .ok (.mk "$[0,5]".toList [idxStep [] [0, 5]]) ∧
    Replace Ext.none sampleXY "$[0,5]".toList (.num 5) =
      ⟨.arr [.num 5, .str ['y']], .error .indexOutOfRange⟩ ∧
    (Replace Ext.none sampleXY "$[0,5]".toList (.num 5)).doc ≠ sampleXY ∧
    Replace Ext.none sampleRows "$[*].a[1]".toList (.num 5) =
      ⟨.arr [.obj [(['a'], .arr [.num 1, .num 5])], .obj [(['a'], .arr [.num 3])]],
        .error .indexOutOfRange⟩ ∧
    Replace Ext.sample sampleMixed "$[?(@.p =~ /x/i)]".toList (.num 5) =
      ⟨.arr [.num 5, .obj [(['p'], .num 1)]], .error .onlyString⟩ := by
  have h : Replace Ext.none sampleXY "$[0,5]".toList (.num 5) =
      ⟨.arr [.num 5, .str ['y']], .error .indexOutOfRange⟩ := rfl
  refine ⟨rfl, h, ?_, rfl, rfl⟩
  rw [h]
  simp [sampleXY]

/-! ## Instances -/

/-- C1 at `{"a":1}` and `$.missingKey`: the lookup returns null, not an error. -/
theorem C1_lookup_keys_witness :
    (Value.obj [(['a'], .num 1)]).isNull = false ∧
    ["missingKey".toList] ≠ [] ∧ (∀ k ∈ ["missingKey".toList], plainName k = true) ∧
    Lookup Ext.none (.obj [(['a'], .num 1)]) ('$' :: '.' :: Join ["missingKey".toList] ['.']) =
      .ok (followKeys ["missingKey".toList] (.obj [(['a'], .num 1)])) ∧
    ('$' :: '.' :: Join ["missingKey".toList] ['.']) = "$.missingKey".toList ∧
    followKeys ["missingKey".toList] (.obj [(['a'], .num 1)]) = .null :=
  ⟨rfl, by simp, by decide,
    (C1_lookup_keys Ext.none (.obj [(['a'], .num 1)]) rfl).2 ["missingKey".toList] (by simp)
      (by decide),
    by decide, rfl⟩

/-- C2 at `["x","y"]` and `$[5]`: out of range, an evaluation error. -/
theorem C2_single_index_witness :
    -(2 ^ 63) ≤ (5 : Int) ∧ (5 : Int) < 2 ^ 63 ∧ indexPath [5] = "$[5]".toList ∧
    ¬ (-(([.str ['x'], .str ['y']] : List Value).length : Int) ≤ 5 ∧
        (5 : Int) < ([.str ['x'], .str ['y']] : List Value).length) ∧
    Lookup Ext.none (.arr [.str ['x'], .str ['y']]) (indexPath [5]) = .error .indexOutOfRange :=
  ⟨by norm_num, by norm_num, indexPath_5, by norm_num,
    (C2_single_index Ext.none [.str ['x'], .str ['y']] 5 (by norm_num) (by norm_num)).2.2
      (by norm_num)⟩

/-- C3 at `["a","b","c","d"]` and `$[3:1]`: both bounds are in bounds, `from`
lies beyond `to`, and the lookup panics. -/
theorem C3_range_from_beyond_to_panics_witness :
    rangePath (some 3) (some 1) = "$[3:1]".toList ∧
    (([.str ['a'], .str ['b'], .str ['c'], .str ['d']] : List Value).length : Int) < 2 ^ 63 ∧
    isInt64 (some 3) ∧ isInt64 (some 1) ∧
    Lookup Ext.none (.arr [.str ['a'], .str ['b'], .str ['c'], .str ['d']])
      (rangePath (some 3) (some 1)) = .panic :=
  ⟨rangePath_3_1, by norm_num, by norm_num [isInt64], by norm_num [isInt64],
    (C3_range_from_beyond_to_panics Ext.none
      [.str ['a'], .str ['b'], .str ['c'], .str ['d']] (some 3) (some 1)
      (by norm_num) (by norm_num [isInt64]) (by norm_num [isInt64])).1
      (by norm_num [resolveFrom]) (by norm_num [resolveTo])
      (by norm_num [resolveFrom, resolveTo])⟩

/-- C4 at `["a","b","c","d"]` and `$[:2]`: the positions 0..2. -/
theorem C4_range_inclusive_to_witness :
    (([.str ['a'], .str ['b'], .str ['c'], .str ['d']] : List Value).length : Int) < 2 ^ 63 ∧
    rangePath none (some ((2 : Nat) : Int)) = "$[:2]".toList ∧
    Lookup Ext.none (.arr [.str ['a'], .str ['b'], .str ['c'], .str ['d']])
        (rangePath none (some ((2 : Nat) : Int))) =
      .ok (.arr [.str ['a'], .str ['b'], .str ['c']]) :=
  ⟨by norm_num, rangePath_to_2,
    (C4_range_inclusive_to Ext.none [.str ['a'], .str ['b'], .str ['c'], .str ['d']]
      (by norm_num)).2.1 2 (by norm_num)⟩

/-- C5 at the one-element array `[1]`. -/
theorem C5_star_and_colon_full_array_witness :
    ([.num 1] : List Value) ≠ [] ∧ (([.num 1] : List Value).length : Int) < 2 ^ 63 ∧
    Lookup Ext.none (.arr [.num 1]) "$[*]".toList = .ok (.arr [.num 1]) ∧
    Lookup Ext.none (.arr [.num 1]) "$[:]".toList = .ok (.arr [.num 1]) :=
  ⟨by simp, by norm_num,
    (C5_star_and_colon_full_array Ext.none [.num 1] (by simp) (by norm_num)).1,
    (C5_star_and_colon_full_array Ext.none [.num 1] (by simp) (by norm_num)).2.1⟩

/-- C6 at `["a","b","c"]` and `$[2,0]`. -/
theorem C6_multi_index_witness :
    2 ≤ ([2, 0] : List Int).length ∧
    (∀ i ∈ ([2, 0] : List Int), -(2 ^ 63) ≤ i ∧ i < 2 ^ 63) ∧
    (∀ i ∈ ([2, 0] : List Int),
      -(([.str ['a'], .str ['b'], .str ['c']] : List Value).length : Int) ≤ i ∧
        i < ([.str ['a'], .str ['b'], .str ['c']] : List Value).length) ∧
    indexPath [2, 0] = "$[2,0]".toList ∧
    Lookup Ext.none (.arr [.str ['a'], .str ['b'], .str ['c']]) (indexPath [2, 0]) =
      .ok (.arr [.str ['c'], .str ['a']]) :=
  ⟨by norm_num, by simp, by simp, indexPath_2_0,
    (C6_multi_index Ext.none [.str ['a'], .str ['b'], .str ['c']] [2, 0] (by norm_num)
      (by simp)).1 (by simp)⟩

/-- C7 at the array `[1, null, "x"]`. -/
theorem C7_wildcard_witness :
    step.parse Ext.none scanStep (.arr [.num 1, .null, .str ['x']]) .null =
      .ok (.arr [.num 1, .str ['x']]) :=
  (C7_wildcard Ext.none ['*'] .none filterParam.zero .null).1 [.num 1, .null, .str ['x']]

/-- C8 at `{"k":[{"f":1}, 2, {"f":[3,4]}, {"g":5}, {"f":null}]}` and `$.k[*].f`. -/
theorem C8_fanout_flattens_witness :
    mapGet ['k'] [(['k'], Value.arr sampleFanout)] = some (.arr sampleFanout) ∧
    sampleFanout ≠ [] ∧ (sampleFanout.length : Int) < 2 ^ 63 ∧
    plainName ['k'] = true ∧ plainName ['f'] = true ∧
    ('$' :: '.' :: (['k'] ++ ['[', '*', ']', '.'] ++ ['f'])) = "$.k[*].f".toList ∧
    Lookup Ext.none (.obj [(['k'], .arr sampleFanout)])
        ('$' :: '.' :: (['k'] ++ ['[', '*', ']', '.'] ++ ['f'])) =
      .ok (.arr [.num 1, .num 3, .num 4]) :=
  ⟨rfl, by simp [sampleFanout], by norm_num [sampleFanout], by decide, by decide, by decide,
    (C8_fanout_flattens Ext.none ['k'] ['f'] [(['k'], Value.arr sampleFanout)]
      sampleFanout rfl (by simp [sampleFanout]) (by norm_num [sampleFanout])).1
      (by decide) (by decide)⟩

/-- C9 at `{"a":{"b":{"a":1}},"a2":2}` and `$..a`. -/
theorem C9_recursive_descent_witness :
    sampleDescent.isNull = false ∧ noArrays sampleDescent = true ∧ plainName ['a'] = true ∧
    ('$' :: '.' :: '.' :: ['a']) = "$..a".toList ∧
    Lookup Ext.none sampleDescent ('$' :: '.' :: '.' :: ['a']) =
      .ok (.arr [.obj [(['b'], .obj [(['a'], .num 1)])], .num 1]) :=
  ⟨rfl, rfl, by decide, by decide,
    (C9_recursive_descent Ext.none ['a'] sampleDescent rfl rfl).1 (by decide)⟩

/-- C10 at `{"items":[{"tag":1}, {"tag":null}, 3, null, [4], {"x":1}, {"tag":"t"}]}`. -/
theorem C10_exists_filter_witness :
    mapGet "items".toList [("items".toList, Value.arr sampleItems)] = some (.arr sampleItems) ∧
    Lookup Ext.none (.obj [("items".toList, .arr sampleItems)]) "$.items[?(@.tag)]".toList =
      .ok (.arr [.obj [("tag".toList, .num 1)], .obj [("tag".toList, .str ['t'])]]) :=
  ⟨rfl, C10_exists_filter Ext.none [("items".toList, Value.arr sampleItems)] sampleItems rfl⟩

/-- C11 with the sample collaborators, on `[{"p":5},{"p":"5"},{"p":10}]`. -/
theorem C11_cmp_any_witness :
    Ext.sample.TryFloat64 (.num 5) = some (5 : Int) ∧
    Ext.sample.TryFloat64 (.str ['5']) = some (5 : Int) ∧
    Ext.sample.TryFloat64 (.num 10) = some (10 : Int) ∧
    Ext.sample.TryFloat64 (.str "10".toList) = some (10 : Int) ∧
    Ext.sample.flt (5 : Int) (10 : Int) = true ∧ Ext.sample.flt (10 : Int) (10 : Int) = false ∧
    Lookup Ext.sample (.arr sampleCompare) "$[?(@.p < 10)]".toList =
      .ok (.arr [.obj [(['p'], .num 5)], .obj [(['p'], .str ['5'])]]) :=
  ⟨rfl, rfl, rfl, rfl, rfl, rfl,
    (C11_cmp_any Ext.sample .null .null).2.2.2 (5 : Int) (5 : Int) (10 : Int) (10 : Int) rfl rfl rfl rfl rfl rfl rfl⟩

/-- C12 at `{"a":[{"k":[{"f":"x"}]},{"k":[{"f":5}]}]}`: with
`$.a[*].k[?(@.f =~ /x/i)]` the Filter step is applied in the fan-out, with
`$..k[?(@.f =~ /x/i)]` under the recursive descent, to the array `[{"f":5}]` of
the second element; and at `{"store":{"book":[{"author":"REES"},{"author":5}]}}`
with `$.store.book[?(@.author =~ /REES/i)]`, at
`{"book":[{"author":"REES"},{"author":5}]}` with
`$.book[?(@.author =~ /REES/i)]`. -/
theorem C12_regex_needs_text_witness :
    Compile Ext.sample "$.a[*].k[?(@.f =~ /x/i)]".toList =
      .ok (.mk "$.a[*].k[?(@.f =~ /x/i)]".toList [rangeStep ['a'] none none, sampleRegexStep]) ∧
    (Compiled.Lookup Ext.sample
      (.mk "$.a[*].k[?(@.f =~ /x/i)]".toList [rangeStep ['a'] none none, sampleRegexStep])
      sampleShelves).isError = true ∧
    Compile Ext.sample "$..k[?(@.f =~ /x/i)]".toList =
      .ok (.mk "$..k[?(@.f =~ /x/i)]".toList [searchStep, sampleRegexStep]) ∧
    (Compiled.Lookup Ext.sample
      (.mk "$..k[?(@.f =~ /x/i)]".toList [searchStep, sampleRegexStep])
      sampleShelves).isError = true ∧
    regexPath ["store".toList] "book".toList "author".toList "REES".toList =
      "$.store.book[?(@.author =~ /REES/i)]".toList ∧
    (Lookup Ext.sample
      (.obj [("store".toList, .obj [("book".toList,
        .arr [.obj [("author".toList, .str "REES".toList)], .obj [("author".toList, .num 5)]])])])
      (regexPath ["store".toList] "book".toList "author".toList "REES".toList)).isError = true ∧
    regexPath [] "book".toList "author".toList "REES".toList =
      "$.book[?(@.author =~ /REES/i)]".toList ∧
    stringMember "author".toList (.obj [("author".toList, .num 5)]) = none ∧
    (Lookup Ext.sample
      (.obj [("book".toList,
        .arr [.obj [("author".toList, .str "REES".toList)], .obj [("author".toList, .num 5)]])])
      (regexPath [] "book".toList "author".toList "REES".toList)).isError = true :=
  ⟨rfl,
    (C12_regex_needs_text Ext.sample).1
      (.mk "$.a[*].k[?(@.f =~ /x/i)]".toList [rangeStep ['a'] none none, sampleRegexStep])
      sampleShelves ['k'] "@.f =~ /x/i".toList ['@', '.', 'f'] ['/', 'x', '/', 'i'] (some ['x'])
      (some (.mk ['@', '.', 'f'] [keyStep ['f']])) none sampleShelf sampleShelf
      [] [] (.obj [(['f'], .num 5)]) (.num 5)
      (Lookup.applies.fan (rangeStep ['a'] none none) [sampleRegexStep] sampleShelves false
        sampleShelves true [.obj [(['k'], .arr [.obj [(['f'], .str ['x'])]])]] [] sampleShelf
        sampleRegexStep sampleShelf sampleShelf (by decide) rfl rfl rfl
        (fun x hx _ => by
          rw [List.mem_singleton.mp hx]
          rfl)
        rfl
        (Lookup.applies.here sampleRegexStep [] sampleShelf false sampleShelf true (by decide)
          rfl))
      rfl (fun b hb => by cases hb) rfl rfl,
    rfl,
    (C12_regex_needs_text Ext.sample).1
      (.mk "$..k[?(@.f =~ /x/i)]".toList [searchStep, sampleRegexStep])
      sampleShelves ['k'] "@.f =~ /x/i".toList ['@', '.', 'f'] ['/', 'x', '/', 'i'] (some ['x'])
      (some (.mk ['@', '.', 'f'] [keyStep ['f']])) none sampleShelf sampleShelves
      [] [] (.obj [(['f'], .num 5)]) (.num 5)
      (Lookup.applies.descent searchStep sampleRegexStep [] sampleShelves false sampleShelves true
        sampleShelf rfl rfl
        (get_search.reaches.member [] [] ['a']
          (.arr [.obj [(['k'], .arr [.obj [(['f'], .str ['x'])]])], sampleShelf]) sampleShelf
          (.arr []) rfl (fun b hb => by cases hb) rfl
          (get_search.reaches.element [.obj [(['k'], .arr [.obj [(['f'], .str ['x'])]])]] []
            sampleShelf sampleShelf (.arr []) rfl
            (fun b hb _ => by
              rw [List.mem_singleton.mp hb]
              rfl)
            rfl (get_search.reaches.here sampleShelf))))
      rfl (fun b hb => by cases hb) rfl rfl,
    by decide,
    ((C12_regex_needs_text Ext.sample).2.2.1 ["store".toList] "book".toList "author".toList
      "REES".toList
      (.obj [("store".toList, .obj [("book".toList,
        .arr [.obj [("author".toList, .str "REES".toList)], .obj [("author".toList, .num 5)]])])])
      [.obj [("author".toList, .str "REES".toList)], .obj [("author".toList, .num 5)]]
      (by decide) (by decide) (by decide) (by decide) (by decide) (by decide) (by decide)
      (by decide) (by decide) rfl (by decide) rfl).1
      ⟨.obj [("author".toList, .num 5)], by simp, rfl⟩,
    by decide, rfl,
    ((C12_regex_needs_text Ext.sample).2.2.2 "book".toList "author".toList "REES".toList
      [("book".toList,
        .arr [.obj [("author".toList, .str "REES".toList)], .obj [("author".toList, .num 5)]])]
      [.obj [("author".toList, .str "REES".toList)], .obj [("author".toList, .num 5)]]
      (by decide) (by decide) (by decide) (by decide) (by decide) (by decide) (by decide)
      (by decide) rfl rfl).1 ⟨.obj [("author".toList, .num 5)], by simp, rfl⟩⟩

/-- C13 at the compiled `$.*.a`, at the paths `$[1]`, `$[0:1]`, `$.*`, `$[0,3]`
and `$[*].a[0]` with the literal 9, at `$[*].a[0,0]` with the list `[7]`, and at
`{"a":{"b":1}}`, `$.a.b` and the literal 9. -/
theorem C13_replace_then_read_witness :
    (((Compiled.mk "$.*.a".toList [scanStep, keyStep ['a']]).Replace Ext.none .null
          (.obj [(['x'], .obj [(['a'], .num 1)]), (['y'], .num 2)]) (.num 9)).2 =
        ⟨.obj [(['x'], .obj [(['a'], .num 9)]), (['y'], .num 2)], .ok ()⟩ ∧
      Compiled.Lookup Ext.none (.mk "$.*.a".toList [scanStep, keyStep ['a']])
        (.obj [(['x'], .obj [(['a'], .num 9)]), (['y'], .num 2)]) = .ok (.arr [.num 9]) ∧
      ∃ r, Compiled.Lookup Ext.none (.mk "$.*.a".toList [scanStep, keyStep ['a']])
          (.obj [(['x'], .obj [(['a'], .num 9)]), (['y'], .num 2)]) = .ok r ∧
        solelyV (.num 9) (manyResults [scanStep, keyStep ['a']]) r ∧
        ∀ r0, Compiled.Lookup Ext.none (.mk "$.*.a".toList [scanStep, keyStep ['a']])
            (.obj [(['x'], .obj [(['a'], .num 1)]), (['y'], .num 2)]) = .ok r0 →
          keepsMatches (manyResults [scanStep, keyStep ['a']]) r0 r) ∧
    (Compile Ext.none "$[1]".toList = .ok (.mk "$[1]".toList [idxStep [] [1]]) ∧
      Replace Ext.none (.arr [.num 1, .num 2, .num 3]) "$[1]".toList (.num 9) =
        ⟨.arr [.num 1, .num 9, .num 3], .ok ()⟩ ∧
      Lookup Ext.none (.arr [.num 1, .num 9, .num 3]) "$[1]".toList = .ok (.num 9) ∧
      ∃ r, Lookup Ext.none (.arr [.num 1, .num 9, .num 3]) "$[1]".toList = .ok r ∧
        solelyV (.num 9) (manyResults [idxStep [] [1]]) r ∧
        ∀ r0, Lookup Ext.none (.arr [.num 1, .num 2, .num 3]) "$[1]".toList = .ok r0 →
          keepsMatches (manyResults [idxStep [] [1]]) r0 r) ∧
    (Compile Ext.none "$[0:1]".toList =
        .ok (.mk "$[0:1]".toList [rangeStep [] (some 0) (some 1)]) ∧
      Replace Ext.none (.arr [.num 1, .num 2, .num 3]) "$[0:1]".toList (.num 9) =
        ⟨.arr [.num 9, .num 9, .num 3], .ok ()⟩ ∧
      Lookup Ext.none (.arr [.num 9, .num 9, .num 3]) "$[0:1]".toList =
        .ok (.arr [.num 9, .num 9]) ∧
      ∃ r, Lookup Ext.none (.arr [.num 9, .num 9, .num 3]) "$[0:1]".toList = .ok r ∧
        solelyV (.num 9) (manyResults [rangeStep [] (some 0) (some 1)]) r ∧
        ∀ r0, Lookup Ext.none (.arr [.num 1, .num 2, .num 3]) "$[0:1]".toList = .ok r0 →
          keepsMatches (manyResults [rangeStep [] (some 0) (some 1)]) r0 r) ∧
    (Compile Ext.none "$.*".toList = .ok (.mk "$.*".toList [scanStep]) ∧
      Replace Ext.none (.obj [(['a'], .num 1), (['b'], .num 2)]) "$.*".toList (.num 9) =
        ⟨.obj [(['a'], .num 9), (['b'], .num 9)], .ok ()⟩ ∧
      Lookup Ext.none (.obj [(['a'], .num 9), (['b'], .num 9)]) "$.*".toList =
        .ok (.arr [.num 9, .num 9]) ∧
      ∃ r, Lookup Ext.none (.obj [(['a'], .num 9), (['b'], .num 9)]) "$.*".toList = .ok r ∧
        solelyV (.num 9) (manyResults [scanStep]) r ∧
        ∀ r0, Lookup Ext.none (.obj [(['a'], .num 1), (['b'], .num 2)]) "$.*".toList = .ok r0 →
          keepsMatches (manyResults [scanStep]) r0 r) ∧
    (Compile Ext.none "$[0,3]".toList = .ok (.mk "$[0,3]".toList [idxStep [] [0, 3]]) ∧
      Replace Ext.none (.arr [.num 1, .num 2, .num 3, .num 4]) "$[0,3]".toList (.num 9) =
        ⟨.arr [.num 9, .num 2, .num 3, .num 9], .ok ()⟩ ∧
      Lookup Ext.none (.arr [.num 9, .num 2, .num 3, .num 9]) "$[0,3]".toList =
        .ok (.arr [.num 9, .num 9]) ∧
      ∃ r, Lookup Ext.none (.arr [.num 9, .num 2, .num 3, .num 9]) "$[0,3]".toList = .ok r ∧
        solelyV (.num 9) (manyResults [idxStep [] [0, 3]]) r ∧
        ∀ r0, Lookup Ext.none (.arr [.num 1, .num 2, .num 3, .num 4]) "$[0,3]".toList = .ok r0 →
          keepsMatches (manyResults [idxStep [] [0, 3]]) r0 r) ∧
    (Compile Ext.none "$[*].a[0]".toList =
        .ok (.mk "$[*].a[0]".toList [rangeStep [] none none, idxStep ['a'] [0]]) ∧
      Replace Ext.none sampleRows "$[*].a[0]".toList (.num 9) =
        ⟨.arr [.obj [(['a'], .arr [.num 9, .num 2])], .obj [(['a'], .arr [.num 9])]], .ok ()⟩ ∧
      Lookup Ext.none (.arr [.obj [(['a'], .arr [.num 9, .num 2])], .obj [(['a'], .arr [.num 9])]])
        "$[*].a[0]".toList = .ok (.arr [.num 9, .num 9]) ∧
      ∃ r, Lookup Ext.none
          (.arr [.obj [(['a'], .arr [.num 9, .num 2])], .obj [(['a'], .arr [.num 9])]])
          "$[*].a[0]".toList = .ok r ∧
        solelyV (.num 9) (manyResults [rangeStep [] none none, idxStep ['a'] [0]]) r ∧
        ∀ r0, Lookup Ext.none sampleRows "$[*].a[0]".toList = .ok r0 →
          keepsMatches (manyResults [rangeStep [] none none, idxStep ['a'] [0]]) r0 r) ∧
    (Compile Ext.none "$[*].a[0,0]".toList =
        .ok (.mk "$[*].a[0,0]".toList [rangeStep [] none none, idxStep ['a'] [0, 0]]) ∧
      fansIntoLists [rangeStep [] none none, idxStep ['a'] [0, 0]] = true ∧
      Replace Ext.none sampleRows "$[*].a[0,0]".toList (.arr [.num 7]) =
        ⟨.arr [.obj [(['a'], .arr [.arr [.num 7], .num 2])], .obj [(['a'], .arr [.arr [.num 7]])]],
          .ok ()⟩ ∧
      Lookup Ext.none
        (.arr [.obj [(['a'], .arr [.arr [.num 7], .num 2])], .obj [(['a'], .arr [.arr [.num 7]])]])
        "$[*].a[0,0]".toList =
          .ok (.arr [.arr [.num 7], .arr [.num 7], .arr [.num 7], .arr [.num 7]]) ∧
      ∃ r, Lookup Ext.none
          (.arr [.obj [(['a'], .arr [.arr [.num 7], .num 2])],
            .obj [(['a'], .arr [.arr [.num 7]])]])
          "$[*].a[0,0]".toList = .ok r ∧
        solelyV (.arr [.num 7]) (manyResults [rangeStep [] none none, idxStep ['a'] [0, 0]]) r ∧
        ∀ r0, Lookup Ext.none sampleRows "$[*].a[0,0]".toList = .ok r0 →
          keepsMatches (manyResults [rangeStep [] none none, idxStep ['a'] [0, 0]]) r0 r) ∧
    ([['a'], ['b']] ≠ ([] : List Str) ∧ (∀ k ∈ [['a'], ['b']], plainName k = true) ∧
      ('$' :: '.' :: Join [['a'], ['b']] ['.']) = "$.a.b".toList ∧
      overwriteKeys (.num 9) [['a'], ['b']] (.obj [(['a'], .obj [(['b'], .num 1)])]) =
        .obj [(['a'], .obj [(['b'], .num 9)])] ∧
      Replace Ext.none (.obj [(['a'], .obj [(['b'], .num 1)])])
          ('$' :: '.' :: Join [['a'], ['b']] ['.']) (.num 9) =
        ⟨overwriteKeys (.num 9) [['a'], ['b']] (.obj [(['a'], .obj [(['b'], .num 1)])]), .ok ()⟩ ∧
      Lookup Ext.none
          (overwriteKeys (.num 9) [['a'], ['b']] (.obj [(['a'], .obj [(['b'], .num 1)])]))
          ('$' :: '.' :: Join [['a'], ['b']] ['.']) = .ok (.num 9)) :=
  ⟨⟨rfl, rfl,
      (C13_replace_then_read Ext.none).1 (.mk "$.*.a".toList [scanStep, keyStep ['a']]) .null
        (.obj [(['x'], .obj [(['a'], .num 1)]), (['y'], .num 2)]) (.num 9)
        (.obj [(['x'], .obj [(['a'], .num 9)]), (['y'], .num 2)]) (by decide) (Or.inl rfl) rfl⟩,
    ⟨rfl, rfl, rfl,
      (C13_replace_then_read Ext.none).2.1 (.arr [.num 1, .num 2, .num 3]) (.num 9)
        (.arr [.num 1, .num 9, .num 3]) "$[1]".toList (.mk "$[1]".toList [idxStep [] [1]]) rfl
        (by decide) (Or.inl rfl) rfl⟩,
    ⟨rfl, rfl, rfl,
      (C13_replace_then_read Ext.none).2.1 (.arr [.num 1, .num 2, .num 3]) (.num 9)
        (.arr [.num 9, .num 9, .num 3]) "$[0:1]".toList
        (.mk "$[0:1]".toList [rangeStep [] (some 0) (some 1)]) rfl (by decide) (Or.inl rfl) rfl⟩,
    ⟨rfl, rfl, rfl,
      (C13_replace_then_read Ext.none).2.1 (.obj [(['a'], .num 1), (['b'], .num 2)]) (.num 9)
        (.obj [(['a'], .num 9), (['b'], .num 9)]) "$.*".toList (.mk "$.*".toList [scanStep]) rfl
        (by decide) (Or.inl rfl) rfl⟩,
    ⟨rfl, rfl, rfl,
      (C13_replace_then_read Ext.none).2.1 (.arr [.num 1, .num 2, .num 3, .num 4]) (.num 9)
        (.arr [.num 9, .num 2, .num 3, .num 9]) "$[0,3]".toList
        (.mk "$[0,3]".toList [idxStep [] [0, 3]]) rfl (by decide) (Or.inl rfl) rfl⟩,
    ⟨rfl, rfl, rfl,
      (C13_replace_then_read Ext.none).2.1 sampleRows (.num 9)
        (.arr [.obj [(['a'], .arr [.num 9, .num 2])], .obj [(['a'], .arr [.num 9])]])
        "$[*].a[0]".toList
        (.mk "$[*].a[0]".toList [rangeStep [] none none, idxStep ['a'] [0]]) rfl (by decide)
        (Or.inl rfl) rfl⟩,
    ⟨rfl, rfl, rfl, rfl,
      (C13_replace_then_read Ext.none).2.1 sampleRows (.arr [.num 7])
        (.arr [.obj [(['a'], .arr [.arr [.num 7], .num 2])], .obj [(['a'], .arr [.arr [.num 7]])]])
        "$[*].a[0,0]".toList
        (.mk "$[*].a[0,0]".toList [rangeStep [] none none, idxStep ['a'] [0, 0]]) rfl (by decide)
        (Or.inr rfl) rfl⟩,
    ⟨by simp, by decide, by decide, rfl,
      ((C13_replace_then_read Ext.none).2.2 (.obj [(['a'], .obj [(['b'], .num 1)])]) (.num 9)
        [['a'], ['b']] (by simp) (by decide) rfl rfl).1,
      (((C13_replace_then_read Ext.none).2.2 (.obj [(['a'], .obj [(['b'], .num 1)])]) (.num 9)
        [['a'], ['b']] (by simp) (by decide) rfl rfl).2 (.num 1) rfl rfl).1⟩⟩

/-- C14 at `$.a`: after `Replace` on `{"a":1}` with the literal 9, `Lookup` on
`{"a":2}` leaves `{"a":9}`. -/
theorem C14_replacement_stays_attached_witness :
    [['a']] ≠ ([] : List Str) ∧ (∀ k ∈ [['a']], plainName k = true) ∧
    ('$' :: '.' :: Join [['a']] ['.']) = "$.a".toList ∧
    overwriteKeys (.num 9) [['a']] (.obj [(['a'], .num 2)]) = .obj [(['a'], .num 9)] ∧
    ∃ c, Compile Ext.none ('$' :: '.' :: Join [['a']] ['.']) = .ok c ∧
      Compiled.Lookup.write Ext.none c .null (.obj [(['a'], .num 2)]) =
        ⟨.obj [(['a'], .num 2)], .ok (followKeys [['a']] (.obj [(['a'], .num 2)]))⟩ ∧
      (c.Replace Ext.none .null (.obj [(['a'], .num 1)]) (.num 9)).1 = .num 9 ∧
      Compiled.Lookup.write Ext.none c
          (c.Replace Ext.none .null (.obj [(['a'], .num 1)]) (.num 9)).1 (.obj [(['a'], .num 2)]) =
        ⟨overwriteKeys (.num 9) [['a']] (.obj [(['a'], .num 2)]),
          .ok (followKeys [['a']] (.obj [(['a'], .num 2)]))⟩ ∧
      ((followKeys [['a']] (.obj [(['a'], .num 2)])).isNull = false →
        followKeys [['a']] (.obj [(['a'], .num 2)]) ≠ .num 9 →
        overwriteKeys (.num 9) [['a']] (.obj [(['a'], .num 2)]) ≠ .obj [(['a'], .num 2)]) :=
  ⟨by simp, by decide, by decide, rfl,
    C14_replacement_stays_attached Ext.none (.obj [(['a'], .num 1)]) (.obj [(['a'], .num 2)])
      (.num 9) [['a']] (by simp) (by decide) rfl rfl rfl⟩

/-- C15 at `$.a[0`: one `[`, no `]`. -/
theorem C15_surplus_closing_bracket_accepted_witness :
    ("$.a[0".toList.head? = some '$' ∨ "$.a[0".toList.head? = some '@') ∧ '=' ∉ "$.a[0".toList ∧
    Count "$.a[0".toList ']' < Count "$.a[0".toList '[' ∧
    (Compile Ext.none "$.a[0".toList).isError = true :=
  ⟨by decide, by decide, by decide,
    (C15_surplus_closing_bracket_accepted Ext.none).1 "$.a[0".toList (by decide) (by decide)
      (by decide)⟩

/-- C16 at the token `a[?x]` and the document `{"a":[1]}`. -/
theorem C16_malformed_filter_accepted_witness :
    (['a'] = [] ∨ plainName ['a'] = true) ∧ Contains ['?', 'x'] '?' = true ∧
    (HasPrefix ['?', 'x'] ['?', '('] && HasSuffix ['?', 'x'] [')']) = false ∧
    parse_token Ext.none (Compile Ext.none) (['a'] ++ '[' :: (['?', 'x'] ++ [']'])) =
      .ok (.mk .filter ['a'] .none filterParam.zero) ∧
    Lookup Ext.none (.obj [(['a'], .arr [.num 1])]) "$.a[?x]".toList = .panic :=
  ⟨by decide, by decide, by decide,
    (C16_malformed_filter_accepted Ext.none).1 (Compile Ext.none) ['a'] ['?', 'x'] (by decide)
      (by decide) (by decide),
    ((C16_malformed_filter_accepted Ext.none).2.2.2 (.obj [(['a'], .arr [.num 1])]) rfl).1⟩

/-- C17 at `$. ` and the document `{"a":1}`, and at the accepted path `$..a`. -/
theorem C17_marker_can_be_last_witness :
    (Value.obj [(['a'], .num 1)]).isNull = false ∧
    Lookup Ext.none (.obj [(['a'], .num 1)]) "$. ".toList = .panic ∧
    ' ' ∉ "$..a".toList ∧ '[' ∉ "$..a".toList ∧ ']' ∉ "$..a".toList ∧ '=' ∉ "$..a".toList ∧
    Compile Ext.none "$..a".toList = .ok (.mk "$..a".toList [searchStep, keyStep ['a']]) ∧
    (keyStep ['a']).op ≠ .search :=
  ⟨rfl, ((C17_marker_can_be_last Ext.none).2.2.2 (.obj [(['a'], .num 1)]) rfl).1,
    by decide, by decide, by decide, by decide, rfl,
    (C17_marker_can_be_last Ext.none).1 "$..a".toList
      (.mk "$..a".toList [searchStep, keyStep ['a']]) (by decide) (by decide) (by decide)
      (by decide) rfl (keyStep ['a']) rfl⟩

/-- C18 at the text `a.b`, which does not start with a root marker. -/
theorem C18_tokenize_panics_on_short_text_witness :
    'a' ≠ '$' ∧ 'a' ≠ '@' ∧ tokenize ('a' :: ".b".toList) = .error .badStart :=
  ⟨by decide, by decide,
    C18_tokenize_panics_on_short_text.2.2.2.1 'a' ".b".toList (by decide) (by decide)⟩

/-- C19 at `$.a.b.c.d.e.f.g.h.i.j.k[?(@.f =~ /x/i)]`: ten names in front of
`k`, the token `f =~ /x/i)]` has eleven bytes, `tokenize` panics. -/
theorem C19_regex_token_depends_on_position_witness :
    regexPath [['a'], ['b'], ['c'], ['d'], ['e'], ['f'], ['g'], ['h'], ['i'], ['j']] ['k'] ['f']
      ['x'] = "$.a.b.c.d.e.f.g.h.i.j.k[?(@.f =~ /x/i)]".toList ∧
    tokenize (regexPath [['a'], ['b'], ['c'], ['d'], ['e'], ['f'], ['g'], ['h'], ['i'], ['j']]
      ['k'] ['f'] ['x']) = .panic :=
  ⟨by decide,
    (C19_regex_token_depends_on_position
      [['a'], ['b'], ['c'], ['d'], ['e'], ['f'], ['g'], ['h'], ['i'], ['j']] ['k'] ['f'] ['x']
      (by decide) (by decide) (by decide) (by decide) (by decide) (by decide)).2.1 (by decide)⟩

/-- C20 at `'a b' == @.x`: the left operand quoted, `L = "a b"` and
`rest = " == @.x"`. -/
theorem C20_quoted_left_operand_lost_witness :
    '\'' ∉ "a b".toList ∧ '\'' ∉ " == @.x".toList ∧ " == @.x".toList ≠ [] ∧
    ('\'' :: ("a b".toList ++ '\'' :: " == @.x".toList)) = "'a b' == @.x".toList ∧
    parse_filter Ext.none (Compile Ext.none) ('\'' :: ("a b".toList ++ '\'' :: " == @.x".toList)) =
      preCompile Ext.none (Compile Ext.none) " == @.x".toList ['e', 'x', 'i', 's', 't', 's'] [] :=
  ⟨by decide, by decide, by decide, by decide,
    (C20_quoted_left_operand_lost Ext.none (Compile Ext.none)).2.2.2.1 "a b".toList
      " == @.x".toList (by decide) (by decide) (by decide)⟩

/-- C21 at `["x","y"]` and the literal 5: with `$[5]` the index is out of
range and the array is as it was; with `$[0,5]` slot 0 is overwritten before the
index 5 is found out of range. -/
theorem C21_replace_keeps_document_when_checks_come_first_witness :
    Compile Ext.none "$[5]".toList = .ok (.mk "$[5]".toList [idxStep [] [5]]) ∧
    checksBeforeWrites [idxStep [] [5]] = true ∧
    (Replace Ext.none sampleXY "$[5]".toList (.num 5)).ret = .error .indexOutOfRange ∧
    (Replace Ext.none sampleXY "$[5]".toList (.num 5)).doc = sampleXY ∧
    indexPath [0, 5] = "$[0,5]".toList ∧
    overwriteIndices (.num 5) [0, 5] [.str ['x'], .str ['y']] = [.num 5, .str ['y']] ∧
    (Replace Ext.none (.arr [.str ['x'], .str ['y']]) (indexPath [0, 5]) (.num 5)).doc =
      .arr (overwriteIndices (.num 5) [0, 5] [.str ['x'], .str ['y']]) ∧
    (Replace Ext.none (.arr [.str ['x'], .str ['y']]) (indexPath [0, 5]) (.num 5)).ret =
      .error .indexOutOfRange :=
  ⟨rfl, rfl, rfl,
    (C21_replace_keeps_document_when_checks_come_first Ext.none (.num 5)).2.1 sampleXY
      "$[5]".toList
      (fun c hc => by
        have h : Compile Ext.none "$[5]".toList = .ok (.mk "$[5]".toList [idxStep [] [5]]) := rfl
        rw [h] at hc
        cases hc
        rfl)
      (by
        have h : (Replace Ext.none sampleXY "$[5]".toList (.num 5)).ret =
            .error .indexOutOfRange := rfl
        rw [h]
        simp),
    by decide, rfl,
    ((C21_replace_keeps_document_when_checks_come_first Ext.none (.num 5)).2.2
      [.str ['x'], .str ['y']] [0, 5] (by simp) (by
        intro i hi
        simp only [List.mem_cons, List.mem_singleton, List.not_mem_nil, or_false] at hi
        rcases hi with h | h <;> subst h <;> norm_num) rfl).1,
    ((C21_replace_keeps_document_when_checks_come_first Ext.none (.num 5)).2.2
      [.str ['x'], .str ['y']] [0, 5] (by simp) (by
        intro i hi
        simp only [List.mem_cons, List.mem_singleton, List.not_mem_nil, or_false] at hi
        rcases hi with h | h <;> subst h <;> norm_num) rfl).2.2
      ⟨5, by simp, by simp⟩⟩

end JsonPath
